import Mathlib

/-!
# Search server

A shallow embedding of the in-memory search server (`search_server.h`,
`search_server.cpp`, `string_processing.cpp`, `document.h`, `remove_duplicates.cpp`,
`request_queue.h`, `request_queue.cpp`, `paginator.h`) and theorems about it.

Conventions of the embedding.

* A `char` buffer (`std::string`, `std::string_view`) is a list of bytes, `Word`.
  `std::string_view` comparison is the lexicographic order on unsigned bytes.
* `std::map` is an association list that is kept in key order by the operations
  below (`StdMap`); `std::set<int>` is a list kept in order (`StdSet`).
* The keys of `word_to_document_freqs_` are `std::string_view`s into the texts that
  `documents_` stores; the embedding keeps the bytes of a key. `RemoveDocument` frees
  the text of the document it removes, and a key that views this text dangles from
  then on: a lookup in the inverted index then reads freed memory, and what it finds
  is not defined. `SearchServer.Intact` are states in which every key views the
  text of a stored document (`SearchServer.Intact.views_stored`); on them the lookups
  of the embedding are those of the code. On the other states the embedding looks a
  word up by the bytes that were under the keys when they were inserted.
* `double` values are elements of a linear ordered field `R` (exact arithmetic);
  `std::log` is a parameter `log : R → R`.
* A call that may throw returns `Except Error _`; a mutating call that may throw
  returns the state it leaves behind together with the error, if any.
* `std::sort` promises a result only for a comparator that is a strict weak ordering
  on the range (`StdSort.StrictWeak`), and then any sorted permutation of the range
  (`StdSort.Sorts`). `StdSort.sort` is a stable insertion sort: the one result when
  the comparator orders any two different elements, as `<` on words does, and one of
  the possible results otherwise.
* The steps of a parallel algorithm that write to different objects take effect one
  at a time in an order that a `schedule` parameter of the method gives; an exception
  in such a step calls `std::terminate`, which is the result `none`.
* A range between two iterators of a container is the list of the items between
  them; an iterator that moves towards `end` is the list of the items from it on.
-/

/-- One byte of a character buffer. -/
abbrev Byte := Fin 256

/-- The bytes of a `std::string` or of a `std::string_view`. -/
abbrev Word := List Byte

/-- The bytes of an ASCII string literal. -/
def ascii (s : String) : Word := s.toList.map (fun c => Fin.ofNat c.toNat)

/-- The value of a byte read as a (signed) `char`. -/
def toChar (b : Byte) : Int := if b.val < 128 then (b.val : Int) else (b.val : Int) - 256

/-- The exceptions the server throws. -/
inductive Error where
  | invalid_argument
  | out_of_range
deriving DecidableEq

/-- The enumeration `DocumentStatus` of `document.h`. -/
inductive DocumentStatus where
  | ACTUAL
  | IRRELEVANT
  | BANNED
  | REMOVED
deriving DecidableEq

/-- The struct `Document` of `document.h`. -/
structure Document (R : Type) where
  id : Int
  relevance : R
  rating : Int

/-- The struct `SearchServer::DocumentData`. -/
structure DocumentData where
  rating : Int
  status : DocumentStatus
  data : Word
deriving DecidableEq

/-- The struct `SearchServer::Query`. -/
structure Query where
  plus_words : List Word
  minus_words : List Word
deriving DecidableEq

/-- The struct `SearchServer::QueryWord`. -/
structure QueryWord where
  data : Word
  is_minus : Bool
  is_stop : Bool
deriving DecidableEq

/-! ## `std::map` and `std::set` -/

/-- A `std::map<κ, ν>`: the entries in iteration order. -/
abbrev StdMap (κ ν : Type) := List (κ × ν)

/-- A `std::set<κ>`: the elements in iteration order. -/
abbrev StdSet (κ : Type) := List κ

namespace StdMap

variable {κ ν : Type} [LinearOrder κ]

/-- The value stored at key `k`, if any (`find`, `at`). -/
def find? : StdMap κ ν → κ → Option ν
  | [], _ => none
  | (k', v) :: rest, k => if k' = k then some v else find? rest k

/-- Whether the key is present: `m.count(k) > 0`. -/
def contains (m : StdMap κ ν) (k : κ) : Bool := (find? m k).isSome

/-- The keys in iteration order. -/
def keys (m : StdMap κ ν) : List κ := m.map Prod.fst

/-- Insertion of a new entry at its place in key order. -/
def insertSorted (k : κ) (v : ν) : StdMap κ ν → StdMap κ ν
  | [] => [(k, v)]
  | (k', v') :: rest =>
    if k < k' then (k, v) :: (k', v') :: rest else (k', v') :: insertSorted k v rest

/-- The call `m.emplace(k, v)`: inserts unless the key is present. It is also the
insertion that `m[k]` performs with the default value `v`. -/
def emplace (k : κ) (v : ν) (m : StdMap κ ν) : StdMap κ ν :=
  if contains m k then m else insertSorted k v m

/-- Assignment `m.at(k) = g(m.at(k))` through a reference to a present entry. -/
def modify (k : κ) (g : ν → ν) (m : StdMap κ ν) : StdMap κ ν :=
  m.map (fun p => if p.1 = k then (p.1, g p.2) else p)

/-- Update through `operator[]`, `m[k] = g(m[k])`, where `m[k]` inserts `dflt`
when the key is absent. -/
def update (k : κ) (dflt : ν) (g : ν → ν) (m : StdMap κ ν) : StdMap κ ν :=
  modify k g (emplace k dflt m)

/-- The call `m.erase(k)`. -/
def erase (k : κ) (m : StdMap κ ν) : StdMap κ ν :=
  m.filter (fun p => decide (p.1 ≠ k))

/-- The value at `i` of the map stored at `k` in a map of maps, if both are
there: `m.count(k)` and then `m.at(k).find(i)`. -/
def find2? {ι : Type} [LinearOrder ι] (m : StdMap κ (StdMap ι ν)) (k : κ) (i : ι) : Option ν :=
  match find? m k with
  | none => none
  | some inner => find? inner i

end StdMap

namespace StdSet

variable {κ : Type} [LinearOrder κ]

/-- Whether the element is present: `s.count(k) > 0`. -/
def contains (s : StdSet κ) (k : κ) : Bool := decide (k ∈ s)

/-- Insertion of a new element at its place in order. -/
def insertSorted (k : κ) : StdSet κ → StdSet κ
  | [] => [k]
  | k' :: rest => if k < k' then k :: k' :: rest else k' :: insertSorted k rest

/-- The call `s.insert(k)`. -/
def insert (k : κ) (s : StdSet κ) : StdSet κ :=
  if contains s k then s else insertSorted k s

/-- The call `s.erase(k)`. -/
def erase (k : κ) (s : StdSet κ) : StdSet κ :=
  s.filter (fun x => decide (x ≠ k))

end StdSet

/-! ## `std::sort` and `std::unique` -/

namespace StdSort

variable {α : Type}

/-- Insertion of `a` into a sorted list, after the elements that come before it
and in front of the first element that does not. -/
def insert (lt : α → α → Bool) (a : α) : List α → List α
  | [] => [a]
  | b :: rest => if lt b a then b :: insert lt a rest else a :: b :: rest

/-- A stable insertion sort. For a comparator that is a strict weak ordering on the
range it gives one of the results that the call `std::sort(first, last, lt)` may
leave, `Sorts`; it is the only one when `lt` orders any two different elements. -/
def sort (lt : α → α → Bool) : List α → List α
  | [] => []
  | a :: rest => insert lt a (sort lt rest)

/-- The precondition of `std::sort(first, last, lt)`: `lt` is a strict weak ordering
on the elements of the range `l`. It puts no element before itself, it is transitive,
and so is the relation of two elements neither of which it puts before the other. -/
structure StrictWeak (lt : α → α → Bool) (l : List α) : Prop where
  irrefl : ∀ a ∈ l, lt a a = false
  trans : ∀ a ∈ l, ∀ b ∈ l, ∀ c ∈ l, lt a b = true → lt b c = true → lt a c = true
  incomparable : ∀ a ∈ l, ∀ b ∈ l, ∀ c ∈ l, (lt a b = false ∧ lt b a = false) →
    (lt b c = false ∧ lt c b = false) → (lt a c = false ∧ lt c a = false)

/-- What `std::sort(first, last, lt)` guarantees of the range `r` that it leaves for the
range `l`, when `lt` is a strict weak ordering on `l`: `r` is a permutation of `l`
in which no element comes after one that `lt` puts after it. Which permutation of
this kind the call leaves is not specified: the sort need not be stable. -/
def Sorts (lt : α → α → Bool) (l r : List α) : Prop :=
  r.Perm l ∧ r.Pairwise (fun a b => lt b a = false)

/-- The call of `std::unique` followed by the removal of the tail it leaves: of each run of
equal neighbours the first one stays. -/
def unique [DecidableEq α] : List α → List α
  | [] => []
  | [a] => [a]
  | a :: b :: rest => if a = b then unique (b :: rest) else a :: unique (b :: rest)

end StdSort

/-! ## `string_processing.cpp` -/

/-- The result of a search in a buffer; `none` is `std::string_view::npos`. -/
abbrev Pos := Option Nat

/-- The value `std::min(pos, n)` for a position that may be `npos`. -/
def Pos.min (pos : Pos) (n : Nat) : Nat :=
  match pos with
  | none => n
  | some i => Nat.min i n

/-- The call `text.find(c)`. -/
def Word.find (c : Byte) : Word → Pos
  | [] => none
  | b :: rest => if b = c then some 0 else (Word.find c rest).map (· + 1)

/-- The search of `find_first_not_of`: `text` is the part of the buffer from
index `i` on. -/
def Word.find_first_not_of.go (c : Byte) (pos : Nat) : Word → Nat → Pos
  | [], _ => none
  | b :: rest, i => if pos ≤ i ∧ b ≠ c then some i else go c pos rest (i + 1)

/-- The call `text.find_first_not_of(c, pos)`; the position `pos` may be `npos`. -/
def Word.find_first_not_of (text : Word) (c : Byte) (pos : Pos) : Pos :=
  match pos with
  | none => none
  | some p => Word.find_first_not_of.go c p text 0

/-- The loop of `SplitIntoWords`, with the words in the order of `push_back`.
The fuel bounds the number of iterations. -/
def SplitIntoWords.loop : Nat → Word → List Word
  | 0, _ => []
  | fuel + 1, text =>
    if text.isEmpty then []
    else
      let space := Word.find 32 text
      let word := match space with
        | none => text.take text.length
        | some i => text.take i
      word :: loop fuel (text.drop (Pos.min (Word.find_first_not_of text 32 space) text.length))

/-- The function `SplitIntoWords(text)`. Every iteration of the loop removes a byte, so the
length of the text is enough fuel. -/
def SplitIntoWords (text : Word) : List Word :=
  let text1 := text.drop (Pos.min (Word.find_first_not_of text 32 (some 0)) text.length)
  SplitIntoWords.loop text1.length text1

/-- The text that one iteration of the loop of `SplitIntoWords` leaves: the call
`text.remove_prefix(std::min(text.find_first_not_of(' ', space), text.size()))` with
`space = text.find(' ')`. -/
def SplitIntoWords.next (text : Word) : Word :=
  text.drop (Pos.min (Word.find_first_not_of text 32 (Word.find 32 text)) text.length)

/-- The text at the head of the loop `while (!text.empty())` of `SplitIntoWords`
after `n` iterations on `text`; once the loop has ended the text stays as it is. -/
def SplitIntoWords.remaining : Nat → Word → Word
  | 0, text => text
  | n + 1, text => if text.isEmpty then text else SplitIntoWords.remaining n (SplitIntoWords.next text)

/-! ## `search_server.h`, `search_server.cpp` -/

/-- The constant `MAX_RESULT_DOCUMENT_COUNT`. -/
def MAX_RESULT_DOCUMENT_COUNT : Nat := 5

/-- The constant `ACCURACY`, `1e-6`. -/
def ACCURACY {R : Type} [LinearOrderedField R] : R := 1 / 1000000

/-- The data members of the class `SearchServer`. The keys of
`word_to_document_freqs_` and the words in `document_to_word_freqs_` are
`std::string_view`s into the texts of `documents_`; they are kept as the bytes they
view. -/
structure SearchServer (R : Type) where
  stop_words_ : StdSet Word
  word_to_document_freqs_ : StdMap Word (StdMap Int R)
  document_to_word_freqs_ : StdMap Int (StdMap Word R)
  documents_ : StdMap Int DocumentData
  docs_id_ : StdSet Int

/-- The arguments of a call of `AddDocument`, apart from the id. -/
structure Added where
  document : Word
  status : DocumentStatus
  ratings : List Int

/-- The documents a server holds: at each id the arguments of the successful
call of `AddDocument` for it, unless the id was removed since. -/
abbrev Corpus := Int → Option Added

/-- The value of an `int` expression, reduced to 32 bits in two's complement. -/
def wrapInt (x : Int) : Int := (x + 2147483648) % 4294967296 - 2147483648

namespace SearchServer

variable {R : Type} [LinearOrderedField R]

/-- A server with the given stop-word set and no document. -/
def empty (stop_words : StdSet Word) : SearchServer R :=
  { stop_words_ := stop_words, word_to_document_freqs_ := [], document_to_word_freqs_ := [],
    documents_ := [], docs_id_ := [] }

/-- The method `SearchServer::IsStopWord`. -/
def IsStopWord (s : SearchServer R) (word : Word) : Bool :=
  StdSet.contains s.stop_words_ word

/-- The method `SearchServer::SplitIntoWordsNoStop`. -/
def SplitIntoWordsNoStop (s : SearchServer R) (text : Word) : List Word :=
  (SplitIntoWords text).filter (fun word => !IsStopWord s word)

/-- The method `SearchServer::ComputeAverageRating`. -/
def ComputeAverageRating (ratings : List Int) : Int :=
  if ratings.isEmpty then 0
  else
    let rating_sum := ratings.foldl (fun acc r => wrapInt (acc + r)) 0
    Int.tdiv rating_sum (wrapInt ratings.length)

/-- The entry of the document store that `AddDocument` makes. -/
def stored (a : Added) : DocumentData :=
  { rating := ComputeAverageRating a.ratings, status := a.status, data := a.document }

/-- The function `SearchServer::IsValidWord`: no `char` `c` of the word has
`c >= '\0' && c < ' '`. -/
def IsValidWord (word : Word) : Bool :=
  !word.any (fun c => decide (toChar c ≥ 0 ∧ toChar c < 32))

/-- The method `SearchServer::ParseQueryWord`; the byte 45 is `'-'`. -/
def ParseQueryWord (s : SearchServer R) (text : Word) : Except Error QueryWord :=
  if text.length = 1 ∧ text[0]? = some 45 then .error .invalid_argument
  else if text.length > 1 ∧ text[0]? = some 45 ∧ text[1]? = some 45 then
    .error .invalid_argument
  else
    let is_minus := decide (text[0]? = some 45)
    let text1 := if is_minus then text.drop 1 else text
    .ok { data := text1, is_minus := is_minus, is_stop := IsStopWord s text1 }

/-- The loop of `SearchServer::ParseQuery` over the words of the text. -/
def ParseQuery.loop (s : SearchServer R) : List Word → Query → Except Error Query
  | [], query => .ok query
  | word :: rest, query =>
    if !IsValidWord word then .error .invalid_argument
    else
      match ParseQueryWord s word with
      | .error e => .error e
      | .ok query_word =>
        if !query_word.is_stop then
          if query_word.is_minus then
            loop s rest { query with minus_words := query.minus_words ++ [query_word.data] }
          else
            loop s rest { query with plus_words := query.plus_words ++ [query_word.data] }
        else loop s rest query

/-- The method `SearchServer::ParseQuery`. -/
def ParseQuery (s : SearchServer R) (text : Word) : Except Error Query :=
  match ParseQuery.loop s (SplitIntoWords text) { plus_words := [], minus_words := [] } with
  | .error e => .error e
  | .ok query =>
    .ok { plus_words := StdSort.unique (StdSort.sort (fun a b => decide (a < b)) query.plus_words),
          minus_words := StdSort.unique (StdSort.sort (fun a b => decide (a < b)) query.minus_words) }

/-- The method `SearchServer::GetDocumentCount`. -/
def GetDocumentCount (s : SearchServer R) : Nat := s.documents_.length

/-- The method `SearchServer::ComputeWordInverseDocumentFreq`. -/
def ComputeWordInverseDocumentFreq (log : R → R) (s : SearchServer R) (word : Word) :
    Except Error R :=
  match StdMap.find? s.word_to_document_freqs_ word with
  | none => .error .out_of_range
  | some postings => .ok (log ((GetDocumentCount s : R) * 1 / (postings.length : R)))

/-- The loop of `SearchServer::AddDocument` over the words of the document;
`n` is `words.size()`. -/
def AddDocument.loop (n : Nat) (document_id : Int) :
    List Word → SearchServer R → SearchServer R × Option Error
  | [], s => (s, none)
  | word :: rest, s =>
    if !IsValidWord word then (s, some .invalid_argument)
    else
      loop n document_id rest
        { s with
          word_to_document_freqs_ :=
            StdMap.update word [] (StdMap.update document_id 0 (fun x => x + 1 / (n : R)))
              s.word_to_document_freqs_
          document_to_word_freqs_ :=
            StdMap.update document_id [] (StdMap.update word 0 (fun x => x + 1 / (n : R)))
              s.document_to_word_freqs_ }

/-- The method `SearchServer::AddDocument`: the state the call leaves and the exception it
throws, if any. -/
def AddDocument (s : SearchServer R) (document_id : Int) (document : Word)
    (status : DocumentStatus) (ratings : List Int) : SearchServer R × Option Error :=
  if document_id < 0 then (s, some .invalid_argument)
  else if StdMap.contains s.documents_ document_id then (s, some .invalid_argument)
  else
    let s1 : SearchServer R :=
      { s with
        documents_ :=
          StdMap.emplace document_id
            { rating := ComputeAverageRating ratings, status := status, data := document }
            s.documents_ }
    let words := SplitIntoWordsNoStop s1 document
    match AddDocument.loop words.length document_id words s1 with
    | (s2, some e) => (s2, some e)
    | (s2, none) => ({ s2 with docs_id_ := StdSet.insert document_id s2.docs_id_ }, none)

/-- The loop of `SearchServer::RemoveDocument` over the words of the document. -/
def RemoveDocument.loop (document_id : Int) :
    List Word → StdMap Word (StdMap Int R) → StdMap Word (StdMap Int R) × Option Error
  | [], index => (index, none)
  | word :: rest, index =>
    if StdMap.contains index word then
      loop document_id rest (StdMap.modify word (StdMap.erase document_id) index)
    else (index, some .out_of_range)

/-- The method `SearchServer::RemoveDocument`: the state the call leaves and the exception
it throws, if any. The call erases the postings of the document and leaves the words
as keys; `documents_.erase` then frees the text of the document, and in the code the
keys that view this text dangle. The state of the embedding keeps their bytes, so it
is the state of the code only if no key viewed the text (`Intact.remove`). -/
def RemoveDocument (s : SearchServer R) (document_id : Int) : SearchServer R × Option Error :=
  let words : List Word :=
    match StdMap.find? s.document_to_word_freqs_ document_id with
    | none => []
    | some freqs => StdMap.keys freqs
  match RemoveDocument.loop document_id words s.word_to_document_freqs_ with
  | (index, some e) => ({ s with word_to_document_freqs_ := index }, some e)
  | (index, none) =>
    ({ s with
       word_to_document_freqs_ := index
       document_to_word_freqs_ := StdMap.erase document_id s.document_to_word_freqs_
       documents_ := StdMap.erase document_id s.documents_
       docs_id_ := StdSet.erase document_id s.docs_id_ }, none)

/-- The inner loop of `FindAllDocuments` over the postings of a plus-word. -/
def FindAllDocuments.addPostings (s : SearchServer R) (lambda : Int → DocumentStatus → Int → Bool)
    (inverse_document_freq : R) : List (Int × R) → StdMap Int R → Except Error (StdMap Int R)
  | [], document_to_relevance => .ok document_to_relevance
  | (document_id, term_freq) :: rest, document_to_relevance =>
    match StdMap.find? s.documents_ document_id with
    | none => .error .out_of_range
    | some data =>
      if lambda document_id data.status data.rating then
        addPostings s lambda inverse_document_freq rest
          (StdMap.update document_id 0 (fun x => x + term_freq * inverse_document_freq)
            document_to_relevance)
      else addPostings s lambda inverse_document_freq rest document_to_relevance

/-- The loop of `FindAllDocuments` over the plus-words. -/
def FindAllDocuments.plusLoop (log : R → R) (s : SearchServer R)
    (lambda : Int → DocumentStatus → Int → Bool) :
    List Word → StdMap Int R → Except Error (StdMap Int R)
  | [], document_to_relevance => .ok document_to_relevance
  | word :: rest, document_to_relevance =>
    match StdMap.find? s.word_to_document_freqs_ word with
    | none => plusLoop log s lambda rest document_to_relevance
    | some postings =>
      match ComputeWordInverseDocumentFreq log s word with
      | .error e => .error e
      | .ok inverse_document_freq =>
        match addPostings s lambda inverse_document_freq postings document_to_relevance with
        | .error e => .error e
        | .ok document_to_relevance1 => plusLoop log s lambda rest document_to_relevance1

/-- The loop of `FindAllDocuments` over the minus-words. -/
def FindAllDocuments.minusLoop (s : SearchServer R) : List Word → StdMap Int R → StdMap Int R
  | [], document_to_relevance => document_to_relevance
  | word :: rest, document_to_relevance =>
    match StdMap.find? s.word_to_document_freqs_ word with
    | none => minusLoop s rest document_to_relevance
    | some postings =>
      minusLoop s rest (postings.foldl (fun m p => StdMap.erase p.1 m) document_to_relevance)

/-- The last loop of `FindAllDocuments`, which builds the documents. -/
def FindAllDocuments.collect (s : SearchServer R) : StdMap Int R → Except Error (List (Document R))
  | [] => .ok []
  | (document_id, relevance) :: rest =>
    match StdMap.find? s.documents_ document_id with
    | none => .error .out_of_range
    | some data =>
      match collect s rest with
      | .error e => .error e
      | .ok matched_documents =>
        .ok ({ id := document_id, relevance := relevance, rating := data.rating } :: matched_documents)

/-- The method `SearchServer::FindAllDocuments(query, lambda)`. -/
def FindAllDocuments (log : R → R) (s : SearchServer R) (query : Query)
    (lambda : Int → DocumentStatus → Int → Bool) : Except Error (List (Document R)) :=
  match FindAllDocuments.plusLoop log s lambda query.plus_words [] with
  | .error e => .error e
  | .ok document_to_relevance =>
    FindAllDocuments.collect s (FindAllDocuments.minusLoop s query.minus_words document_to_relevance)

/-- The comparator that `FindTopDocuments` passes to `sort`. -/
def FindTopDocuments.cmp (lhs rhs : Document R) : Bool :=
  if |lhs.relevance - rhs.relevance| < ACCURACY then decide (lhs.rating > rhs.rating)
  else decide (lhs.relevance > rhs.relevance)

/-- The method `SearchServer::FindTopDocuments(raw_query, lambda)`. The call of
`sort` is `StdSort.sort`: when the comparator is a strict weak ordering on the
candidates, one of the arrangements that `std::sort` may leave, `StdSort.Sorts`. -/
def FindTopDocuments (log : R → R) (s : SearchServer R) (raw_query : Word)
    (lambda : Int → DocumentStatus → Int → Bool) : Except Error (List (Document R)) :=
  match ParseQuery s raw_query with
  | .error e => .error e
  | .ok query =>
    match FindAllDocuments log s query lambda with
    | .error e => .error e
    | .ok matched_documents =>
      let sorted := StdSort.sort FindTopDocuments.cmp matched_documents
      if sorted.length > MAX_RESULT_DOCUMENT_COUNT then .ok (sorted.take MAX_RESULT_DOCUMENT_COUNT)
      else .ok sorted

/-- Whether the postings of `word` in the inverted index contain `document_id`:
`word_to_document_freqs_.count(word)` and then
`word_to_document_freqs_.at(word).count(document_id)`. -/
def inPostings (s : SearchServer R) (word : Word) (document_id : Int) : Bool :=
  (StdMap.find2? s.word_to_document_freqs_ word document_id).isSome

/-- Whether the forward index lists `word` for `document_id`. -/
def inForward (s : SearchServer R) (document_id : Int) (word : Word) : Bool :=
  (StdMap.find2? s.document_to_word_freqs_ document_id word).isSome

/-- The method `SearchServer::MatchDocument(raw_query, document_id)`. -/
def MatchDocument (s : SearchServer R) (raw_query : Word) (document_id : Int) :
    Except Error (List Word × DocumentStatus) :=
  if !StdSet.contains s.docs_id_ document_id then .error .out_of_range
  else
    match ParseQuery s raw_query with
    | .error e => .error e
    | .ok query =>
      if query.minus_words.any (fun word => inPostings s word document_id) then
        match StdMap.find? s.documents_ document_id with
        | none => .error .out_of_range
        | some data => .ok ([], data.status)
      else
        let matched_words := query.plus_words.filter (fun word => inPostings s word document_id)
        match StdMap.find? s.documents_ document_id with
        | none => .error .out_of_range
        | some data => .ok (matched_words, data.status)

/-- Whether `lambda` holds of the stored status and rating of `document_id`. -/
def accepts (s : SearchServer R) (lambda : Int → DocumentStatus → Int → Bool)
    (document_id : Int) : Bool :=
  match StdMap.find? s.documents_ document_id with
  | none => false
  | some data => lambda document_id data.status data.rating

/-- The term `term_freq * inverse_document_freq` that the postings of `word`
hold for `document_id`, zero if they hold none. -/
def termRelevance (log : R → R) (s : SearchServer R) (document_id : Int) (word : Word) : R :=
  match StdMap.find? s.word_to_document_freqs_ word with
  | none => 0
  | some postings =>
    match StdMap.find? postings document_id with
    | none => 0
    | some term_freq => term_freq * log ((GetDocumentCount s : R) * 1 / (postings.length : R))

/-- The number of stored documents that have `word` among their non-stop words. -/
def documentsWith (s : SearchServer R) (word : Word) : Nat :=
  (s.documents_.filter (fun p => decide (word ∈ SplitIntoWordsNoStop s p.2.data))).length

/-- The relation between a server and the documents it holds that every
successful call keeps: the document store holds exactly the documents, and the
inverted index and the forward index list exactly their non-stop words, each
with its share of the non-stop words of the document. -/
structure Inv (stop_words : StdSet Word) (corpus : Corpus) (s : SearchServer R) : Prop where
  stop : s.stop_words_ = stop_words
  docs : ∀ id, StdMap.find? s.documents_ id = (corpus id).map stored
  nodup : (StdMap.keys s.documents_).Nodup
  live : ∀ id, id ∈ s.docs_id_ ↔ (corpus id).isSome = true
  index : ∀ w id, inPostings s w id = true ↔
    ∃ a, corpus id = some a ∧ w ∈ SplitIntoWordsNoStop s a.document
  forward : ∀ w id, inForward s id w = inPostings s w id
  postings : ∀ w postings, StdMap.find? s.word_to_document_freqs_ w = some postings →
    (StdMap.keys postings).Nodup
  term_freq : ∀ w id x, StdMap.find2? s.word_to_document_freqs_ w id = some x →
    ∃ a, corpus id = some a ∧
      x = ((SplitIntoWordsNoStop s a.document).count w : R) /
        ((SplitIntoWordsNoStop s a.document).length : R)

/-- The states of a server with stop-words `stop_words` that successful calls of
`AddDocument` and `RemoveDocument` reach, each with the documents it holds. -/
inductive Reachable (stop_words : StdSet Word) : Corpus → SearchServer R → Prop where
  | init : Reachable stop_words (fun _ => none) (empty stop_words)
  | add {corpus : Corpus} {s : SearchServer R} (document_id : Int) (document : Word)
      (status : DocumentStatus) (ratings : List Int) :
      Reachable stop_words corpus s →
      (AddDocument s document_id document status ratings).2 = none →
      Reachable stop_words
        (Function.update corpus document_id
          (some { document := document, status := status, ratings := ratings }))
        (AddDocument s document_id document status ratings).1
  | remove {corpus : Corpus} {s : SearchServer R} (document_id : Int) :
      Reachable stop_words corpus s →
      (RemoveDocument s document_id).2 = none →
      Reachable stop_words (Function.update corpus document_id none)
        (RemoveDocument s document_id).1

/-- The states of a server with stop-words `stop_words` that successful calls of
`AddDocument` alone reach, each with the documents it holds. -/
inductive Built (stop_words : StdSet Word) : Corpus → SearchServer R → Prop where
  | init : Built stop_words (fun _ => none) (empty stop_words)
  | add {corpus : Corpus} {s : SearchServer R} (document_id : Int) (document : Word)
      (status : DocumentStatus) (ratings : List Int) :
      Built stop_words corpus s →
      (AddDocument s document_id document status ratings).2 = none →
      Built stop_words
        (Function.update corpus document_id
          (some { document := document, status := status, ratings := ratings }))
        (AddDocument s document_id document status ratings).1

/-- The states of a server with stop-words `stop_words` that calls of
`AddDocument` and `RemoveDocument` reach, whether the calls return or throw. -/
inductive Ran (stop_words : StdSet Word) : SearchServer R → Prop where
  | init : Ran stop_words (empty stop_words)
  | add {s : SearchServer R} (document_id : Int) (document : Word) (status : DocumentStatus)
      (ratings : List Int) :
      Ran stop_words s → Ran stop_words (AddDocument s document_id document status ratings).1
  | remove {s : SearchServer R} (document_id : Int) :
      Ran stop_words s → Ran stop_words (RemoveDocument s document_id).1

/-- The texts under the keys of the inverted index. In the code a key of
`word_to_document_freqs_` is a `std::string_view`: `word_to_document_freqs_[word]` in
`AddDocument` inserts, for a word that is no key yet, the view `word` into the text
`documents_.at(document_id).data` that the call has just stored, and a key that is
there stays as it is. `views` holds for every key the id of the document whose text
the key views; `AddDocument.views` is what a call of `AddDocument` that returns makes
of it. No call erases a key. -/
def AddDocument.views {S : Type} (s : SearchServer S) (document_id : Int) (document : Word)
    (views : StdMap Word Int) : StdMap Word Int :=
  (SplitIntoWordsNoStop s document).foldl
    (fun views word => StdMap.emplace word document_id views) views

/-- The states of `Reachable` in which every key of the inverted index views the text
of a stored document, each with the documents it holds and with the texts under its
keys: the states that successful calls of `AddDocument` reach, and calls of
`RemoveDocument` for a document whose text no key views. `RemoveDocument` frees the
text of the document with `documents_.erase`; a key that views it would dangle, and
the lookups `count`, `at` and `operator[]` of the inverted index, which compare the
bytes under the keys, would read freed memory. On the states of `Intact` they read
the bytes that the embedding keeps. -/
inductive Intact (stop_words : StdSet Word) :
    Corpus → StdMap Word Int → SearchServer R → Prop where
  | init : Intact stop_words (fun _ => none) [] (empty stop_words)
  | add {corpus : Corpus} {views : StdMap Word Int} {s : SearchServer R} (document_id : Int)
      (document : Word) (status : DocumentStatus) (ratings : List Int) :
      Intact stop_words corpus views s →
      (AddDocument s document_id document status ratings).2 = none →
      Intact stop_words
        (Function.update corpus document_id
          (some { document := document, status := status, ratings := ratings }))
        (AddDocument.views s document_id document views)
        (AddDocument s document_id document status ratings).1
  | remove {corpus : Corpus} {views : StdMap Word Int} {s : SearchServer R} (document_id : Int) :
      Intact stop_words corpus views s →
      (∀ view ∈ views, view.2 ≠ document_id) →
      (RemoveDocument s document_id).2 = none →
      Intact stop_words (Function.update corpus document_id none) views
        (RemoveDocument s document_id).1

/-- The method `SearchServer::GetWordFrequencies`; the empty map stands for the
static empty map that the method returns for an unknown id. -/
def GetWordFrequencies (s : SearchServer R) (document_id : Int) : StdMap Word R :=
  match StdMap.find? s.document_to_word_freqs_ document_id with
  | none => []
  | some freqs => freqs

/-- What every call of `AddDocument` and `RemoveDocument` keeps, whether it returns
or throws: the two indices hold the same entries, every document in a postings
list is stored, every live id is stored, no map has a key twice, no entry of the
forward index is empty, and no stop-word is a key of the inverted index. -/
structure Sound (stop_words : StdSet Word) (s : SearchServer R) : Prop where
  stop : s.stop_words_ = stop_words
  symmetric : ∀ w id, StdMap.find2? s.document_to_word_freqs_ id w =
    StdMap.find2? s.word_to_document_freqs_ w id
  stored : ∀ w id, inPostings s w id = true → StdMap.contains s.documents_ id = true
  live : ∀ id ∈ s.docs_id_, StdMap.contains s.documents_ id = true
  docs_nodup : (StdMap.keys s.documents_).Nodup
  postings_nodup : ∀ w postings, StdMap.find? s.word_to_document_freqs_ w = some postings →
    (StdMap.keys postings).Nodup
  forward_nodup : ∀ id freqs, StdMap.find? s.document_to_word_freqs_ id = some freqs →
    (StdMap.keys freqs).Nodup ∧ freqs ≠ []
  no_stop : ∀ w, StdMap.contains s.word_to_document_freqs_ w = true → w ∉ stop_words

end SearchServer

/-- The maximal runs of bytes other than the space `0x20` in a text, in the order in
which they occur: the pieces between the spaces, without the empty ones. -/
def nonSpaceRuns (text : Word) : List Word :=
  (text.splitOn 32).filter (fun run => !run.isEmpty)

/-- Modelled from the spec: the function `MakeUniqueNonEmptyStrings` of
`string_processing.h`, which is not among the sources. It makes the ordered set of the
strings of a container and leaves out the empty ones: "Duplicate and empty entries
are silently dropped." -/
def MakeUniqueNonEmptyStrings (strings : List Word) : StdSet Word :=
  strings.foldl (fun set str => if str.isEmpty then set else StdSet.insert str set) []

namespace SearchServer

variable {R : Type} [LinearOrderedField R]

/-- The constructor `SearchServer::SearchServer(const StringContainer&)`: the new
server, or the exception that the constructor throws. -/
def construct (stop_words : List Word) : Except Error (SearchServer R) :=
  let stop_words_ := MakeUniqueNonEmptyStrings stop_words
  if stop_words.any (fun word => !IsValidWord word) then .error .invalid_argument
  else .ok (empty stop_words_)

/-- The constructors `SearchServer::SearchServer(const std::string&)` and
`SearchServer::SearchServer(std::string_view)`. -/
def constructFromText (stop_words_text : Word) : Except Error (SearchServer R) :=
  construct (SplitIntoWords stop_words_text)

end SearchServer

namespace SearchServer

variable {R : Type} [LinearOrderedField R]

/-- The method `SearchServer::FindTopDocuments(raw_query, needed_status)`. -/
def FindTopDocuments.with_status (log : R → R) (s : SearchServer R) (raw_query : Word)
    (needed_status : DocumentStatus) : Except Error (List (Document R)) :=
  FindTopDocuments log s raw_query (fun _ status _ => status == needed_status)

/-- The method `SearchServer::FindTopDocuments(raw_query)`. -/
def FindTopDocuments.actual (log : R → R) (s : SearchServer R) (raw_query : Word) :
    Except Error (List (Document R)) :=
  FindTopDocuments.with_status log s raw_query .ACTUAL

/-- The range `begin() .. end()` of a server, in the order of the iteration. -/
def iterate (s : SearchServer R) : List Int := s.docs_id_

end SearchServer

namespace SearchServer

variable {R : Type} [LinearOrderedField R]

/-- The `for_each` of `RemoveDocument(parallel_policy, document_id)`, with the
erasures taking effect in the order `words`; `none` is `std::terminate`, which an
exception that leaves a step of a parallel algorithm calls. -/
def RemoveDocumentPar.loop (document_id : Int) :
    List Word → StdMap Word (StdMap Int R) → Option (StdMap Word (StdMap Int R))
  | [], index => some index
  | word :: rest, index =>
    if StdMap.contains index word then
      loop document_id rest (StdMap.modify word (StdMap.erase document_id) index)
    else none

/-- The method `SearchServer::RemoveDocument(parallel_policy, document_id)`. The
steps of `for_each` erase from the postings of different words, so each takes effect
as a whole; `schedule` gives the order in which they do, a reordering of
`words_to_erase`. As for the sequential method, the lookups `at(word)` are those of
the code on a state in which every key views the text of a stored document
(`Intact`), and the state that the call leaves is the state of the code only if no
key viewed the text of the document. -/
def RemoveDocumentPar (schedule : List Word → List Word) (s : SearchServer R)
    (document_id : Int) : Option (SearchServer R) :=
  let index : Option (StdMap Word (StdMap Int R)) :=
    match StdMap.find? s.document_to_word_freqs_ document_id with
    | none => some s.word_to_document_freqs_
    | some freqs =>
      let words_to_erase := StdMap.keys freqs
      RemoveDocumentPar.loop document_id (schedule words_to_erase) s.word_to_document_freqs_
  match index with
  | none => none
  | some index =>
    some { s with
           word_to_document_freqs_ := index
           document_to_word_freqs_ := StdMap.erase document_id s.document_to_word_freqs_
           documents_ := StdMap.erase document_id s.documents_
           docs_id_ := StdSet.erase document_id s.docs_id_ }

end SearchServer

/-! ## `remove_duplicates.cpp` -/

namespace SearchServer

variable {R : Type} [LinearOrderedField R]

/-- The non-stop words of the text that the server stores for a document, none
if it stores no text for it. -/
def wordsOf (s : SearchServer R) (document_id : Int) : List Word :=
  match StdMap.find? s.documents_ document_id with
  | none => []
  | some data => SplitIntoWordsNoStop s data.data

end SearchServer

/-- The first loop of `RemoveDuplicates`, over the ids of the server: the map
`doc_words` and the vector `duplicate_ids`. -/
def RemoveDuplicates.scan {R : Type} (search_server : SearchServer R) :
    List Int → StdMap (List Word) Int → List Int → StdMap (List Word) Int × List Int
  | [], doc_words, duplicate_ids => (doc_words, duplicate_ids)
  | doc_id :: rest, doc_words, duplicate_ids =>
    let word_freqs := SearchServer.GetWordFrequencies search_server doc_id
    let words := StdMap.keys word_freqs
    let emplaced := !StdMap.contains doc_words words
    let doc_words1 := StdMap.emplace words doc_id doc_words
    if !emplaced then scan search_server rest doc_words1 (duplicate_ids ++ [doc_id])
    else scan search_server rest doc_words1 duplicate_ids

/-- The second loop of `RemoveDuplicates`, over `duplicate_ids`. -/
def RemoveDuplicates.remove {R : Type} :
    List Int → SearchServer R → SearchServer R × Option Error
  | [], search_server => (search_server, none)
  | doc_id :: rest, search_server =>
    match (SearchServer.RemoveDocument search_server doc_id).2 with
    | some e => ((SearchServer.RemoveDocument search_server doc_id).1, some e)
    | none => remove rest (SearchServer.RemoveDocument search_server doc_id).1

/-- The function `RemoveDuplicates(search_server)`: the state it leaves the server in,
and the exception it throws, if any. The calls of `RemoveDocument` follow one
another, so the embedding agrees with the code when the server is `Intact` and no
key views the text of a duplicate but, at most, of the last one. -/
def RemoveDuplicates {R : Type} (search_server : SearchServer R) :
    SearchServer R × Option Error :=
  let duplicate_ids :=
    (RemoveDuplicates.scan search_server (SearchServer.iterate search_server) [] []).2
  RemoveDuplicates.remove duplicate_ids search_server

namespace SearchServer

variable {R : Type} [LinearOrderedField R]

/-- Whether the texts that the server stores for two documents have the same set of
non-stop words, whatever their order and their number of occurrences. -/
def sameWords (s : SearchServer R) (i j : Int) : Bool :=
  (wordsOf s i).all (fun w => decide (w ∈ wordsOf s j)) &&
    (wordsOf s j).all (fun w => decide (w ∈ wordsOf s i))

end SearchServer

/-! ## `request_queue.h`, `request_queue.cpp` -/

/-- The struct `RequestQueue::QueryResult`. -/
structure QueryResult where
  has_result : Bool := true
deriving DecidableEq

/-- The data members of the class `RequestQueue`, apart from the reference to the
server: the deque from front to back, and the counter. -/
structure RequestQueue where
  requests_ : List QueryResult
  no_result_requests_ : Int
deriving DecidableEq

namespace RequestQueue

variable {R : Type} [LinearOrderedField R]

/-- The constant `RequestQueue::min_in_day_`. -/
def min_in_day_ : Nat := 1440

/-- The constructor `RequestQueue::RequestQueue(search_server)`. -/
def empty : RequestQueue := { requests_ := [], no_result_requests_ := 0 }

/-- The method `RequestQueue::AddRequest`. -/
def AddRequest (q : RequestQueue) (docs : List (Document R)) : RequestQueue :=
  let q1 : RequestQueue :=
    if q.requests_.length = min_in_day_ then
      match q.requests_ with
      | [] => q
      | front :: rest =>
        { requests_ := rest
          no_result_requests_ :=
            if front.has_result = false then wrapInt (q.no_result_requests_ - 1)
            else q.no_result_requests_ }
    else q
  let query_result : QueryResult := {}
  if docs.isEmpty then
    { requests_ := q1.requests_ ++ [{ query_result with has_result := false }]
      no_result_requests_ := wrapInt (q1.no_result_requests_ + 1) }
  else { q1 with requests_ := q1.requests_ ++ [query_result] }

/-- The method `RequestQueue::AddFindRequest(raw_query, document_predicate)` on a queue
whose server is in the state `s`: the queue it leaves, and the result or the
exception of the search. -/
def AddFindRequest (log : R → R) (s : SearchServer R) (q : RequestQueue) (raw_query : Word)
    (document_predicate : Int → DocumentStatus → Int → Bool) :
    RequestQueue × Except Error (List (Document R)) :=
  match SearchServer.FindTopDocuments log s raw_query document_predicate with
  | .error e => (q, .error e)
  | .ok result => (AddRequest q result, .ok result)

/-- The method `RequestQueue::AddFindRequest(raw_query, status)`. -/
def AddFindRequest.with_status (log : R → R) (s : SearchServer R) (q : RequestQueue)
    (raw_query : Word) (status : DocumentStatus) :
    RequestQueue × Except Error (List (Document R)) :=
  match SearchServer.FindTopDocuments.with_status log s raw_query status with
  | .error e => (q, .error e)
  | .ok result => (AddRequest q result, .ok result)

/-- The method `RequestQueue::AddFindRequest(raw_query)`. -/
def AddFindRequest.actual (log : R → R) (s : SearchServer R) (q : RequestQueue)
    (raw_query : Word) : RequestQueue × Except Error (List (Document R)) :=
  match SearchServer.FindTopDocuments.actual log s raw_query with
  | .error e => (q, .error e)
  | .ok result => (AddRequest q result, .ok result)

/-- The method `RequestQueue::GetNoResultRequests`. -/
def GetNoResultRequests (q : RequestQueue) : Int := q.no_result_requests_

/-- A call of `AddFindRequest`: the state of the server at the call, the query and
the predicate. -/
structure Call (R : Type) where
  server : SearchServer R
  raw_query : Word
  document_predicate : Int → DocumentStatus → Int → Bool

/-- The queue after the calls of `AddFindRequest` in `calls`, one after the other. -/
def run (log : R → R) (calls : List (Call R)) (q : RequestQueue) : RequestQueue :=
  calls.foldl
    (fun q c => (AddFindRequest log c.server q c.raw_query c.document_predicate).1) q

/-- The results of the calls in `calls` that return, in the order of the calls. -/
def results (log : R → R) (calls : List (Call R)) : List (List (Document R)) :=
  calls.filterMap (fun c =>
    match SearchServer.FindTopDocuments log c.server c.raw_query c.document_predicate with
    | .error _ => none
    | .ok result => some result)

/-- The last `n` entries of a list. -/
def window {α : Type} (n : Nat) (l : List α) : List α := l.drop (l.length - n)

end RequestQueue

namespace SearchServer

variable {R : Type} [LinearOrderedField R]

/-- The states of a server with stop-words `stop_words` that calls of `AddDocument`
alone reach, whether the calls return or throw. -/
inductive Filled (stop_words : StdSet Word) : SearchServer R → Prop where
  | init : Filled stop_words (empty stop_words)
  | add {s : SearchServer R} (document_id : Int) (document : Word) (status : DocumentStatus)
      (ratings : List Int) :
      Filled stop_words s → Filled stop_words (AddDocument s document_id document status ratings).1

end SearchServer

/-! ## `paginator.h` -/

/-- `IteratorRange<Iterator>`: the items from `it_begin_` up to `it_end_`, in
order. -/
abbrev IteratorRange (α : Type) := List α

/-- `IteratorRange::size`: `distance(it_begin_, it_end_)`. -/
def IteratorRange.size {α : Type} (range : IteratorRange α) : Nat := range.length

/-- `Paginator<Iterator>`: the vector `iterators` of the pages and the count
`pages`. -/
structure Paginator (α : Type) where
  iterators : List (IteratorRange α)
  pages : Nat
deriving DecidableEq

/-- The loop `for (auto it = begin; it < end; it++)` of the constructor of
`Paginator`, on the items `rest` from `it` up to `end`: a last page of fewer than
`page_size` items ends the loop with `break`; otherwise the page is the next
`page_size` items, `advance(it, page_size - 1)` and `it++` move past them. The
first argument bounds the number of iterations. -/
def Paginator.loop {α : Type} (page_size : Nat) : Nat → List α → List (IteratorRange α)
  | 0, _ => []
  | fuel + 1, rest =>
    if rest.length = 0 then []
    else if rest.length < page_size then [rest]
    else rest.take page_size :: Paginator.loop page_size fuel ((rest.drop (page_size - 1)).drop 1)

/-- The constructor `Paginator(page_size, begin, end)` on the items `c` from `begin`
up to `end`. `none` is the integer division by zero of
`distance(begin, end) / page_size`. Every iteration of the loop moves `it` by
`page_size` items, so `c.length` iterations are enough. -/
def Paginator.new {α : Type} (page_size : Nat) (c : List α) : Option (Paginator α) :=
  if page_size = 0 then none
  else
    some { pages := c.length / page_size
           iterators := Paginator.loop page_size c.length c }

/-- `Paginator::size`. -/
def Paginator.size {α : Type} (p : Paginator α) : Nat := p.pages

/-- The pages that a loop from `Paginator::begin()` to `Paginator::end()` yields. -/
def Paginator.range {α : Type} (p : Paginator α) : List (IteratorRange α) := p.iterators

/-- `Paginate(c, page_size)`. -/
def Paginate {α : Type} (c : List α) (page_size : Nat) : Option (Paginator α) :=
  Paginator.new page_size c

/-! ## The server of the tests -/

section fixture

variable (R : Type) [LinearOrderedField R]

/-- The server of `TestRelevance` after its first call of `AddDocument`; the
stop-words are `in` and `the`. -/
def testServer1 : SearchServer R :=
  (SearchServer.AddDocument (SearchServer.empty [ascii "in", ascii "the"])
    42 (ascii "cat in the city") .ACTUAL [1, 5, 2]).1

/-- The server of `TestRelevance` after its second call of `AddDocument`. -/
def testServer2 : SearchServer R :=
  (SearchServer.AddDocument (testServer1 R) 11 (ascii "dog in the city scary") .ACTUAL [1, 1, 1]).1

/-- The server of `TestRelevance` after its third call of `AddDocument`. -/
def testServer3 : SearchServer R :=
  (SearchServer.AddDocument (testServer2 R) 1 (ascii "pretty dog in the city") .ACTUAL [4, 2, 3]).1

/-- The server of `TestRelevance`, with the documents 42, 11, 1 and 2. -/
def testServer : SearchServer R :=
  (SearchServer.AddDocument (testServer3 R) 2 (ascii "pretty cat in the city") .ACTUAL [5, 5, 4]).1

end fixture

/-- The documents of `testServer1`. -/
def testCorpus1 : Corpus :=
  Function.update (fun _ => none) 42
    (some { document := ascii "cat in the city", status := .ACTUAL, ratings := [1, 5, 2] })

/-- The documents of `testServer2`. -/
def testCorpus2 : Corpus :=
  Function.update testCorpus1 11
    (some { document := ascii "dog in the city scary", status := .ACTUAL, ratings := [1, 1, 1] })

/-- The documents of `testServer3`. -/
def testCorpus3 : Corpus :=
  Function.update testCorpus2 1
    (some { document := ascii "pretty dog in the city", status := .ACTUAL, ratings := [4, 2, 3] })

/-- The documents of `testServer`. -/
def testCorpus : Corpus :=
  Function.update testCorpus3 2
    (some { document := ascii "pretty cat in the city", status := .ACTUAL, ratings := [5, 5, 4] })

/-- The texts under the keys of the inverted index of `testServer`: `cat` and `city`
view the text of document 42, `dog` and `scary` the text of document 11, `pretty` the
text of document 1, and no key views the text of document 2. -/
def testViews : StdMap Word Int :=
  SearchServer.AddDocument.views (testServer3 ℚ) 2 (ascii "pretty cat in the city")
    (SearchServer.AddDocument.views (testServer2 ℚ) 1 (ascii "pretty dog in the city")
      (SearchServer.AddDocument.views (testServer1 ℚ) 11 (ascii "dog in the city scary")
        (SearchServer.AddDocument.views (SearchServer.empty [ascii "in", ascii "the"] : SearchServer ℚ)
          42 (ascii "cat in the city") [])))

/-- The query of `TestRelevance`, parsed. -/
def testQuery : Query :=
  { plus_words := [ascii "cat", ascii "dog", ascii "scary"], minus_words := [ascii "pretty"] }

section fixture_more

variable (R : Type) [LinearOrderedField R]

/-- The server of `TestRelevance` after the call
`AddDocument(5, "boy \x01", DocumentStatus::ACTUAL, {})`, which throws. -/
def rejectedServer : SearchServer R :=
  (SearchServer.AddDocument (testServer R) 5 [98, 111, 121, 32, 1] .ACTUAL []).1

/-- A server with the stop-words `in` and `the` after the call
`AddDocument(3, "in the", DocumentStatus::ACTUAL, {1})`, which returns. -/
def stopOnlyServer : SearchServer R :=
  (SearchServer.AddDocument (SearchServer.empty [ascii "in", ascii "the"])
    3 (ascii "in the") .ACTUAL [1]).1

end fixture_more

/-- The documents of `stopOnlyServer`. -/
def stopOnlyCorpus : Corpus :=
  Function.update (fun _ => none) 3
    (some { document := ascii "in the", status := .ACTUAL, ratings := [1] })

section fixture_status

variable (R : Type) [LinearOrderedField R]

/-- The server of `TestStatus`. -/
def statusServer : SearchServer R :=
  (SearchServer.AddDocument
    (SearchServer.AddDocument
      (SearchServer.AddDocument
        (SearchServer.AddDocument
          (SearchServer.AddDocument (SearchServer.empty [ascii "in", ascii "the"])
            42 (ascii "cat in the city") .ACTUAL [1, 5, 2]).1
          11 (ascii "dog in the city scary") .IRRELEVANT [1, 1, 1]).1
        1 (ascii "pretty dog in the city") .ACTUAL [4, 2, 3]).1
      2 (ascii "pretty cat in the city") .ACTUAL [5, 5, 4]).1
    9 (ascii "scary boy") .IRRELEVANT [5, 5, 4]).1

/-- The server of `TestSearchServerIterators`, with the documents added in the order
42, 11, 2, 1. -/
def iteratorServer : SearchServer R :=
  (SearchServer.AddDocument
    (SearchServer.AddDocument
      (SearchServer.AddDocument
        (SearchServer.AddDocument (SearchServer.empty [ascii "in", ascii "the"])
          42 (ascii "cat in the city") .ACTUAL [1, 5, 2]).1
        11 (ascii "dog in the city scary") .ACTUAL [1, 1, 1]).1
      2 (ascii "pretty dog in the city") .ACTUAL [4, 2, 3]).1
    1 (ascii "pretty cat in the city") .ACTUAL [5, 5, 4]).1

end fixture_status

/-- The documents of `iteratorServer`. -/
def iteratorCorpus : Corpus :=
  Function.update
    (Function.update
      (Function.update
        (Function.update (fun _ => none) 42
          (some { document := ascii "cat in the city", status := .ACTUAL, ratings := [1, 5, 2] }))
        11 (some { document := ascii "dog in the city scary", status := .ACTUAL,
                   ratings := [1, 1, 1] }))
      2 (some { document := ascii "pretty dog in the city", status := .ACTUAL,
                ratings := [4, 2, 3] }))
    1 (some { document := ascii "pretty cat in the city", status := .ACTUAL,
              ratings := [5, 5, 4] })

section fixture_duplicates

variable (R : Type) [LinearOrderedField R]

/-- A server with the stop-words `in` and `the` to which the document 2 was added
first and the document 1, with the same words, after it. -/
def duplicateServer : SearchServer R :=
  (SearchServer.AddDocument
    (SearchServer.AddDocument (SearchServer.empty [ascii "in", ascii "the"])
      2 (ascii "cat in the city") .ACTUAL [1, 5, 2]).1
    1 (ascii "city cat cat") .ACTUAL [4, 2, 3]).1

end fixture_duplicates

/-- The documents of `duplicateServer`. -/
def duplicateCorpus : Corpus :=
  Function.update
    (Function.update (fun _ => none) 2
      (some { document := ascii "cat in the city", status := .ACTUAL, ratings := [1, 5, 2] }))
    1 (some { document := ascii "city cat cat", status := .ACTUAL, ratings := [4, 2, 3] })

/-- The texts under the keys of the inverted index of `duplicateServer`: both keys
view the text of document 2, which was added first. -/
def duplicateViews : StdMap Word Int :=
  SearchServer.AddDocument.views
    (SearchServer.AddDocument (SearchServer.empty [ascii "in", ascii "the"] : SearchServer ℚ)
      2 (ascii "cat in the city") .ACTUAL [1, 5, 2]).1
    1 (ascii "city cat cat")
    (SearchServer.AddDocument.views (SearchServer.empty [ascii "in", ascii "the"] : SearchServer ℚ)
      2 (ascii "cat in the city") [])

section fixture_copies

variable (R : Type) [LinearOrderedField R]

/-- A server with the stop-words `in` and `the` to which the document 1 was added
first and the document 2, with the same words, after it. -/
def copyServer : SearchServer R :=
  (SearchServer.AddDocument
    (SearchServer.AddDocument (SearchServer.empty [ascii "in", ascii "the"])
      1 (ascii "cat in the city") .ACTUAL [1, 5, 2]).1
    2 (ascii "city cat cat") .ACTUAL [4, 2, 3]).1

end fixture_copies

/-- The documents of `copyServer`. -/
def copyCorpus : Corpus :=
  Function.update
    (Function.update (fun _ => none) 1
      (some { document := ascii "cat in the city", status := .ACTUAL, ratings := [1, 5, 2] }))
    2 (some { document := ascii "city cat cat", status := .ACTUAL, ratings := [4, 2, 3] })

/-- The texts under the keys of the inverted index of `copyServer`: both keys view
the text of document 1, and no key views the text of document 2. -/
def copyViews : StdMap Word Int :=
  SearchServer.AddDocument.views
    (SearchServer.AddDocument (SearchServer.empty [ascii "in", ascii "the"] : SearchServer ℚ)
      1 (ascii "cat in the city") .ACTUAL [1, 5, 2]).1
    2 (ascii "city cat cat")
    (SearchServer.AddDocument.views (SearchServer.empty [ascii "in", ascii "the"] : SearchServer ℚ)
      1 (ascii "cat in the city") [])

section fixture_queue

variable (R : Type) [LinearOrderedField R]

/-- The server of `TestResultQueue`, with the stop-words `and`, `in`, `at` and the
documents 1 to 5. -/
def queueServer : SearchServer R :=
  (SearchServer.AddDocument
    (SearchServer.AddDocument
      (SearchServer.AddDocument
        (SearchServer.AddDocument
          (SearchServer.AddDocument (SearchServer.empty [ascii "and", ascii "at", ascii "in"])
            1 (ascii "curly cat curly tail") .ACTUAL [7, 2, 7]).1
          2 (ascii "curly dog and fancy collar") .ACTUAL [1, 2, 3]).1
        3 (ascii "big cat fancy collar ") .ACTUAL [1, 2, 8]).1
      4 (ascii "big dog sparrow Eugene") .ACTUAL [1, 3, 2]).1
    5 (ascii "big dog sparrow Vasiliy") .ACTUAL [1, 1, 1]).1

/-- A call `AddFindRequest(raw_query)` of `TestResultQueue`. -/
def queueCall (raw_query : String) : RequestQueue.Call R :=
  { server := queueServer R, raw_query := ascii raw_query
    document_predicate := fun _ status _ => status == .ACTUAL }

end fixture_queue

/-- Three documents to compare, two of them with the same relevance. -/
def cmpDocuments : List (Document ℚ) :=
  [{ id := 11, relevance := 2, rating := 1 }, { id := 42, relevance := 1, rating := 2 },
    { id := 7, relevance := 2, rating := 5 }]

/-- The candidates of the query of `TestRelevance` on the server of `TestRelevance`. -/
def rankedDocuments : List (Document ℚ) :=
  [{ id := 11, relevance := 2, rating := 1 }, { id := 42, relevance := 1, rating := 2 }]

/-- Three documents with the relevances `0`, `0.6e-6` and `1.2e-6` and the ratings 3,
2 and 1. -/
def chainDocuments : List (Document ℚ) :=
  [{ id := 1, relevance := 0, rating := 3 }, { id := 2, relevance := 6 / 10000000, rating := 2 },
    { id := 3, relevance := 12 / 10000000, rating := 1 }]

section fixture_removed

variable (R : Type) [LinearOrderedField R]

/-- A server with the stop-words `in` and `the` after `AddDocument(1, "cat city")`. -/
def addedServer : SearchServer R :=
  (SearchServer.AddDocument (SearchServer.empty [ascii "in", ascii "the"])
    1 (ascii "cat city") .ACTUAL [1, 2, 3]).1

/-- The server `addedServer` after `RemoveDocument(1)`. -/
def removedServer : SearchServer R :=
  (SearchServer.RemoveDocument (addedServer R) 1).1

end fixture_removed

/-! ## Lemmas on `std::map` and `std::set` -/

namespace StdMap

variable {κ ν : Type} [LinearOrder κ]

theorem contains_iff (m : StdMap κ ν) (k : κ) :
    contains m k = true ↔ ∃ v, find? m k = some v := by
  simp [contains, Option.isSome_iff_exists]

theorem contains_eq_false (m : StdMap κ ν) (k : κ) :
    contains m k = false ↔ find? m k = none := by
  simp [contains]

theorem find?_insertSorted_ne (k : κ) (v : ν) (m : StdMap κ ν) (k1 : κ) (h : k1 ≠ k) :
    find? (insertSorted k v m) k1 = find? m k1 := by
  induction m with
  | nil => simp [insertSorted, find?, Ne.symm h]
  | cons p rest ih =>
    obtain ⟨k2, v2⟩ := p
    simp only [insertSorted]
    split
    · simp [find?, Ne.symm h]
    · simp only [find?, ih]

theorem find?_insertSorted_self (k : κ) (v : ν) (m : StdMap κ ν) (h : find? m k = none) :
    find? (insertSorted k v m) k = some v := by
  induction m with
  | nil => simp [insertSorted, find?]
  | cons p rest ih =>
    obtain ⟨k2, v2⟩ := p
    simp only [find?] at h
    split at h
    · cases h
    · rename_i hne
      simp only [insertSorted]
      split
      · simp [find?]
      · simp only [find?, if_neg hne]
        exact ih h

theorem find?_emplace (k : κ) (v : ν) (m : StdMap κ ν) (k1 : κ) :
    find? (emplace k v m) k1 = if k1 = k then some ((find? m k).getD v) else find? m k1 := by
  unfold emplace
  cases hc : contains m k with
  | true =>
    obtain ⟨x, hx⟩ := (contains_iff m k).1 hc
    simp only [if_true]
    split
    · rename_i h1
      subst h1
      simp [hx]
    · rfl
  | false =>
    have hx := (contains_eq_false m k).1 hc
    simp only [Bool.false_eq_true, if_false]
    split
    · rename_i h1
      subst h1
      rw [find?_insertSorted_self _ _ _ hx, hx]
      rfl
    · rename_i h1
      exact find?_insertSorted_ne k v m k1 h1

theorem modify_cons (k : κ) (g : ν → ν) (k2 : κ) (v2 : ν) (rest : StdMap κ ν) :
    modify k g ((k2, v2) :: rest) =
      (if k2 = k then (k2, g v2) else (k2, v2)) :: modify k g rest := rfl

theorem find?_modify (k : κ) (g : ν → ν) (m : StdMap κ ν) (k1 : κ) :
    find? (modify k g m) k1 = if k1 = k then (find? m k).map g else find? m k1 := by
  induction m with
  | nil => simp [modify, find?]
  | cons p rest ih =>
    obtain ⟨k2, v2⟩ := p
    rw [modify_cons]
    by_cases h2 : k2 = k
    · rw [if_pos h2]
      subst h2
      by_cases h1 : k2 = k1
      · subst h1
        simp [find?]
      · have h3 : ¬ k1 = k2 := fun h => h1 h.symm
        simp only [find?, if_neg h1, ih, if_neg h3]
    · rw [if_neg h2]
      by_cases h1 : k2 = k1
      · subst h1
        simp [find?, h2]
      · simp only [find?, if_neg h1, if_neg h2, ih]

theorem find?_update (k : κ) (dflt : ν) (g : ν → ν) (m : StdMap κ ν) (k1 : κ) :
    find? (update k dflt g m) k1 =
      if k1 = k then some (g ((find? m k).getD dflt)) else find? m k1 := by
  unfold update
  rw [find?_modify]
  split
  · rw [find?_emplace]
    simp
  · rename_i h1
    rw [find?_emplace, if_neg h1]

theorem find?_erase (k : κ) (m : StdMap κ ν) (k1 : κ) :
    find? (erase k m) k1 = if k1 = k then none else find? m k1 := by
  induction m with
  | nil => simp [erase, find?]
  | cons p rest ih =>
    obtain ⟨k2, v2⟩ := p
    have ih1 : find? (List.filter (fun p => decide (p.1 ≠ k)) rest) k1 =
        if k1 = k then none else find? rest k1 := ih
    by_cases h2 : k2 = k
    · subst h2
      by_cases h1 : k1 = k2
      · subst h1
        simp [erase, find?, List.filter]
        simpa using ih1
      · simp [erase, find?, List.filter, Ne.symm h1]
        simpa [h1] using ih1
    · by_cases h1 : k1 = k
      · subst h1
        simp [erase, find?, List.filter, h2]
        simpa using ih1
      · simp only [erase, List.filter, find?, h2, ne_eq, not_false_eq_true, decide_True]
        rw [ih1]
        simp [h1]

theorem contains_update (k : κ) (dflt : ν) (g : ν → ν) (m : StdMap κ ν) (k1 : κ) :
    contains (update k dflt g m) k1 = true ↔ k1 = k ∨ contains m k1 = true := by
  unfold contains
  rw [find?_update]
  split
  · rename_i h1
    simp [h1]
  · rename_i h1
    simp [h1]

theorem contains_erase (k : κ) (m : StdMap κ ν) (k1 : κ) :
    contains (erase k m) k1 = true ↔ k1 ≠ k ∧ contains m k1 = true := by
  unfold contains
  rw [find?_erase]
  split
  · rename_i h1
    simp [h1]
  · rename_i h1
    simp [h1]

theorem mem_keys_iff (m : StdMap κ ν) (k : κ) : k ∈ keys m ↔ contains m k = true := by
  induction m with
  | nil => simp [keys, contains, find?]
  | cons p rest ih =>
    obtain ⟨k2, v2⟩ := p
    have ih1 : k ∈ List.map Prod.fst rest ↔ contains rest k = true := ih
    by_cases h : k2 = k
    · subst h
      simp [keys, contains, find?]
    · simp only [keys, List.map_cons, List.mem_cons, contains, find?, if_neg h]
      rw [ih1]
      constructor
      · rintro (h1 | h1)
        · exact absurd h1.symm h
        · exact h1
      · intro h1
        exact Or.inr h1

theorem find?_mem (m : StdMap κ ν) (k : κ) (v : ν) (h : find? m k = some v) : (k, v) ∈ m := by
  induction m with
  | nil => cases h
  | cons p rest ih =>
    obtain ⟨k2, v2⟩ := p
    simp only [find?] at h
    split at h
    · rename_i h1
      cases h
      subst h1
      exact List.mem_cons_self _ _
    · exact List.mem_cons_of_mem _ (ih h)

theorem mem_contains (m : StdMap κ ν) (k : κ) (v : ν) (h : (k, v) ∈ m) : contains m k = true := by
  rw [← mem_keys_iff]
  exact List.mem_map.2 ⟨(k, v), h, rfl⟩

theorem find?_of_mem (m : StdMap κ ν) (hm : (keys m).Nodup) (k : κ) (v : ν) (h : (k, v) ∈ m) :
    find? m k = some v := by
  induction m with
  | nil => cases h
  | cons p rest ih =>
    obtain ⟨k2, v2⟩ := p
    simp only [keys, List.map_cons, List.nodup_cons] at hm
    rcases List.mem_cons.1 h with h1 | h1
    · cases h1
      simp [find?]
    · have hk : k ∈ List.map Prod.fst rest := List.mem_map.2 ⟨(k, v), h1, rfl⟩
      have hne : k2 ≠ k := by
        intro h2
        subst h2
        exact hm.1 hk
      simp only [find?, if_neg hne]
      exact ih hm.2 h1

theorem keys_modify (k : κ) (g : ν → ν) (m : StdMap κ ν) : keys (modify k g m) = keys m := by
  induction m with
  | nil => rfl
  | cons p rest ih =>
    have ih1 : List.map Prod.fst (List.map (fun p => if p.1 = k then (p.1, g p.2) else p) rest) =
        List.map Prod.fst rest := ih
    simp only [keys, modify, List.map_cons, ih1, List.cons.injEq, and_true]
    split <;> rfl

theorem keys_insertSorted (k : κ) (v : ν) (m : StdMap κ ν) :
    (keys (insertSorted k v m)).Perm (k :: keys m) := by
  induction m with
  | nil => exact List.Perm.refl _
  | cons p rest ih =>
    obtain ⟨k2, v2⟩ := p
    simp only [insertSorted]
    split
    · exact List.Perm.refl _
    · exact (List.Perm.cons k2 ih).trans (List.Perm.swap k k2 _)

theorem nodup_keys_emplace (k : κ) (v : ν) (m : StdMap κ ν) (h : (keys m).Nodup) :
    (keys (emplace k v m)).Nodup := by
  unfold emplace
  cases hc : contains m k with
  | true => simpa using h
  | false =>
    simp only [Bool.false_eq_true, if_false]
    rw [(keys_insertSorted k v m).nodup_iff, List.nodup_cons]
    refine ⟨?_, h⟩
    rw [mem_keys_iff, hc]
    simp

theorem nodup_keys_update (k : κ) (dflt : ν) (g : ν → ν) (m : StdMap κ ν) (h : (keys m).Nodup) :
    (keys (update k dflt g m)).Nodup := by
  unfold update
  rw [keys_modify]
  exact nodup_keys_emplace k dflt m h

theorem nodup_keys_erase (k : κ) (m : StdMap κ ν) (h : (keys m).Nodup) :
    (keys (erase k m)).Nodup := by
  unfold keys erase
  exact (List.Sublist.map Prod.fst (List.filter_sublist m)).nodup h

end StdMap

namespace StdSet

variable {κ : Type} [LinearOrder κ]

theorem mem_insertSorted (k : κ) (s : StdSet κ) (x : κ) :
    x ∈ insertSorted k s ↔ x = k ∨ x ∈ s := by
  induction s with
  | nil => simp [insertSorted]
  | cons k2 rest ih =>
    simp only [insertSorted]
    split
    · simp
    · simp only [List.mem_cons, ih]
      tauto

theorem mem_insert (k : κ) (s : StdSet κ) (x : κ) : x ∈ insert k s ↔ x = k ∨ x ∈ s := by
  unfold insert contains
  split
  · rename_i h
    have h1 : k ∈ s := by simpa using h
    constructor
    · intro h2; exact Or.inr h2
    · rintro (h2 | h2)
      · subst h2; exact h1
      · exact h2
  · exact mem_insertSorted k s x

theorem mem_erase (k : κ) (s : StdSet κ) (x : κ) : x ∈ erase k s ↔ x ≠ k ∧ x ∈ s := by
  unfold erase
  simp [List.mem_filter, and_comm]

end StdSet

/-! ## Lemmas on `std::sort` and `std::unique` -/

namespace StdSort

variable {α : Type}

theorem perm_insert (lt : α → α → Bool) (a : α) (l : List α) :
    (insert lt a l).Perm (a :: l) := by
  induction l with
  | nil => exact List.Perm.refl _
  | cons b rest ih =>
    simp only [insert]
    split
    · exact (List.Perm.cons b ih).trans (List.Perm.swap a b rest)
    · exact List.Perm.refl _

theorem perm_sort (lt : α → α → Bool) (l : List α) : (sort lt l).Perm l := by
  induction l with
  | nil => exact List.Perm.refl _
  | cons a rest ih => exact (perm_insert lt a (sort lt rest)).trans (List.Perm.cons a ih)

theorem mem_sort (lt : α → α → Bool) (l : List α) (x : α) : x ∈ sort lt l ↔ x ∈ l :=
  (perm_sort lt l).mem_iff

theorem length_sort (lt : α → α → Bool) (l : List α) : (sort lt l).length = l.length :=
  (perm_sort lt l).length_eq

theorem head?_insert (lt : α → α → Bool) (a : α) (l : List α) :
    (insert lt a l).head? = some a ∨ (insert lt a l).head? = l.head? := by
  cases l with
  | nil => left; rfl
  | cons b rest =>
    simp only [insert]
    split
    · right; rfl
    · left; rfl

/-- Insertion keeps a list ordered, for a comparator that is asymmetric: no
element is followed by one that the comparator puts before it. -/
theorem chain_insert (lt : α → α → Bool) (hasym : ∀ a b, lt a b = true → lt b a = false)
    (a : α) (l : List α) (h : List.Chain' (fun x y => lt y x = false) l) :
    List.Chain' (fun x y => lt y x = false) (insert lt a l) := by
  induction l with
  | nil => simp [insert]
  | cons b rest ih =>
    simp only [insert]
    split
    · rename_i hba
      rw [List.chain'_cons'] at h ⊢
      refine ⟨?_, ih h.2⟩
      intro y hy
      rcases head?_insert lt a rest with h1 | h1
      · rw [h1] at hy
        cases hy
        exact hasym _ _ hba
      · rw [h1] at hy
        exact h.1 y hy
    · rename_i hba
      rw [List.chain'_cons']
      refine ⟨?_, h⟩
      intro y hy
      cases hy
      simpa using hba

theorem chain_sort (lt : α → α → Bool) (hasym : ∀ a b, lt a b = true → lt b a = false)
    (l : List α) : List.Chain' (fun x y => lt y x = false) (sort lt l) := by
  induction l with
  | nil => simp [sort]
  | cons a rest ih => exact chain_insert lt hasym a _ ih

/-- Sorting an ordered list leaves it as it is. -/
theorem sort_of_chain (lt : α → α → Bool) (l : List α)
    (h : List.Chain' (fun x y => lt y x = false) l) : sort lt l = l := by
  induction l with
  | nil => rfl
  | cons a rest ih =>
    rw [List.chain'_cons'] at h
    simp only [sort]
    rw [ih h.2]
    cases rest with
    | nil => rfl
    | cons b rest1 =>
      have hb : lt b a = false := h.1 b rfl
      simp [insert, hb]

theorem mem_unique [DecidableEq α] (l : List α) (x : α) : x ∈ unique l ↔ x ∈ l := by
  induction l using unique.induct with
  | case1 => simp [unique]
  | case2 a => simp [unique]
  | case3 b rest ih =>
    simp only [unique, if_true]
    rw [ih]
    simp
  | case4 a b rest hab ih =>
    simp only [unique, if_neg hab]
    rw [List.mem_cons, ih]
    simp

theorem head?_unique [DecidableEq α] (l : List α) : (unique l).head? = l.head? := by
  induction l using unique.induct with
  | case1 => rfl
  | case2 a => rfl
  | case3 b rest ih =>
    simp only [unique, if_true]
    rw [ih]
    rfl
  | case4 a b rest hab ih =>
    simp only [unique, if_neg hab]
    rfl

section order

variable [LinearOrder α]

theorem sorted_insert (a : α) (l : List α) (h : List.Pairwise (· ≤ ·) l) :
    List.Pairwise (· ≤ ·) (insert (fun x y => decide (x < y)) a l) := by
  induction l with
  | nil => simp [insert]
  | cons b rest ih =>
    rw [List.pairwise_cons] at h
    simp only [insert]
    split
    · rename_i hba
      have hba1 : b < a := by simpa using hba
      rw [List.pairwise_cons]
      refine ⟨?_, ih h.2⟩
      intro y hy
      rcases List.mem_cons.1 ((perm_insert _ a rest).mem_iff.1 hy) with h2 | h2
      · subst h2; exact le_of_lt hba1
      · exact h.1 y h2
    · rename_i hba
      have hba1 : a ≤ b := by simpa using hba
      rw [List.pairwise_cons]
      refine ⟨?_, List.pairwise_cons.2 h⟩
      intro y hy
      rcases List.mem_cons.1 hy with h2 | h2
      · subst h2; exact hba1
      · exact le_trans hba1 (h.1 y h2)

theorem sorted_sort (l : List α) :
    List.Pairwise (· ≤ ·) (sort (fun x y => decide (x < y)) l) := by
  induction l with
  | nil => simp [sort]
  | cons a rest ih => exact sorted_insert a _ ih

/-- After `unique` an ascending list is strictly ascending. -/
theorem strict_unique [DecidableEq α] (l : List α) (h : List.Pairwise (· ≤ ·) l) :
    List.Pairwise (· < ·) (unique l) := by
  induction l using unique.induct with
  | case1 => simp [unique]
  | case2 a => simp [unique]
  | case3 b rest ih =>
    simp only [unique, if_true]
    exact ih (List.pairwise_cons.1 h).2
  | case4 a b rest hab ih =>
    simp only [unique, if_neg hab]
    rw [List.pairwise_cons] at h ⊢
    refine ⟨?_, ih h.2⟩
    intro y hy
    rw [mem_unique] at hy
    have hb : a ≤ b := h.1 b (List.mem_cons_self _ _)
    have hb1 : a < b := lt_of_le_of_ne hb hab
    rcases List.mem_cons.1 hy with h2 | h2
    · subst h2; exact hb1
    · exact lt_of_lt_of_le hb1 ((List.pairwise_cons.1 h.2).1 y h2)

end order

end StdSort

/-! ## The query parser -/

theorem toChar_control (c : Byte) : (toChar c ≥ 0 ∧ toChar c < 32) ↔ c.val < 32 := by
  have hc := c.isLt
  unfold toChar
  split <;> omega

namespace SearchServer

section parser

variable {R : Type}

theorem IsValidWord_eq_false (word : Word) :
    IsValidWord word = false ↔ ∃ c ∈ word, c.val < 32 := by
  simp [IsValidWord, toChar_control]

theorem ParseQueryWord_error (s : SearchServer R) (word : Word) (e : Error) :
    ParseQueryWord s word = .error e ↔
      e = .invalid_argument ∧ (word = [45] ∨ [45, 45] <+: word) := by
  cases word with
  | nil => simp [ParseQueryWord]
  | cons a rest =>
    cases rest with
    | nil =>
      by_cases ha : a = 45
      · subst ha
        simp [ParseQueryWord]
        exact eq_comm
      · simp [ParseQueryWord, ha]
    | cons b rest1 =>
      by_cases ha : a = 45
      · by_cases hb : b = 45
        · subst ha; subst hb
          simp [ParseQueryWord]
          exact eq_comm
        · subst ha
          simp [ParseQueryWord, hb]
          intro _ h
          exact hb h.symm
      · simp [ParseQueryWord, ha]
        intro _ h
        exact absurd h.symm ha

theorem ParseQueryWord_ok (s : SearchServer R) (word : Word) (qw : QueryWord)
    (h : ParseQueryWord s word = .ok qw) :
    qw.is_minus = decide (word.head? = some 45) ∧
      qw.data = (if word.head? = some 45 then word.drop 1 else word) ∧
      qw.is_stop = IsStopWord s qw.data := by
  unfold ParseQueryWord at h
  split at h
  · cases h
  · split at h
    · cases h
    · cases h
      cases word <;> simp

end parser

end SearchServer

namespace SearchServer

section parser

variable {R : Type}

theorem ParseQuery.loop_error (s : SearchServer R) (words : List Word) (q : Query) (e : Error) :
    ParseQuery.loop s words q = .error e ↔
      e = .invalid_argument ∧
        ∃ word ∈ words, word = [45] ∨ [45, 45] <+: word ∨ ∃ c ∈ word, c.val < 32 := by
  induction words generalizing q with
  | nil => simp [ParseQuery.loop]
  | cons w rest ih =>
    unfold ParseQuery.loop
    cases hv : IsValidWord w with
    | false =>
      have hc := (IsValidWord_eq_false w).1 hv
      simp only [Bool.not_false, if_true, Except.error.injEq]
      constructor
      · intro h
        exact ⟨h.symm, w, List.mem_cons_self _ _, Or.inr (Or.inr hc)⟩
      · intro h
        exact h.1.symm
    | true =>
      have hnc : ¬ ∃ c ∈ w, c.val < 32 := by
        intro hc
        rw [← IsValidWord_eq_false] at hc
        rw [hc] at hv
        cases hv
      simp only [Bool.not_true, Bool.false_eq_true, if_false]
      cases hp : ParseQueryWord s w with
      | error e1 =>
        have h1 := (ParseQueryWord_error s w e1).1 hp
        simp only [Except.error.injEq]
        constructor
        · intro h
          subst h
          refine ⟨h1.1, w, List.mem_cons_self _ _, ?_⟩
          rcases h1.2 with h2 | h2
          · exact Or.inl h2
          · exact Or.inr (Or.inl h2)
        · intro h
          rw [h.1, h1.1]
      | ok qw =>
        have hgood : ¬ (w = [45] ∨ [45, 45] <+: w) := by
          intro hbad
          have h2 := (ParseQueryWord_error s w .invalid_argument).2 ⟨rfl, hbad⟩
          rw [hp] at h2
          cases h2
        have hrest : (∃ word ∈ w :: rest, word = [45] ∨ [45, 45] <+: word ∨ ∃ c ∈ word, c.val < 32) ↔
            ∃ word ∈ rest, word = [45] ∨ [45, 45] <+: word ∨ ∃ c ∈ word, c.val < 32 := by
          constructor
          · rintro ⟨word, hmem, hbad⟩
            rcases List.mem_cons.1 hmem with h2 | h2
            · subst h2
              rcases hbad with h3 | h3 | h3
              · exact absurd (Or.inl h3) hgood
              · exact absurd (Or.inr h3) hgood
              · exact absurd h3 hnc
            · exact ⟨word, h2, hbad⟩
          · rintro ⟨word, hmem, hbad⟩
            exact ⟨word, List.mem_cons_of_mem _ hmem, hbad⟩
        rw [hrest]
        simp only []
        split
        · split
          · exact ih _
          · exact ih _
        · exact ih _

theorem ParseQuery.loop_ok (s : SearchServer R) (words : List Word) (q q1 : Query)
    (h : ParseQuery.loop s words q = .ok q1) (w : Word) :
    (w ∈ q1.plus_words ↔
      w ∈ q.plus_words ∨ (w ∈ words ∧ w.head? ≠ some 45 ∧ IsStopWord s w = false)) ∧
    (w ∈ q1.minus_words ↔
      w ∈ q.minus_words ∨ ((45 :: w) ∈ words ∧ IsStopWord s w = false)) := by
  induction words generalizing q with
  | nil =>
    simp only [ParseQuery.loop, Except.ok.injEq] at h
    subst h
    simp
  | cons t rest ih =>
    unfold ParseQuery.loop at h
    split at h
    · cases h
    · split at h
      · cases h
      · rename_i qw hp
        have hq := ParseQueryWord_ok s t qw hp
        obtain ⟨hm, hd, hs⟩ := hq
        by_cases hstop : qw.is_stop = true
        · -- a stop-word is dropped
          simp only [hstop, Bool.not_true, Bool.false_eq_true, if_false] at h
          have h1 := ih q h
          rw [hs] at hstop
          by_cases hh : t.head? = some 45
          · rw [if_pos hh] at hd
            have ht : t = 45 :: qw.data := by
              cases t with
              | nil => cases hh
              | cons a r =>
                simp only [List.head?_cons, Option.some.injEq] at hh
                subst hh
                simp [hd]
            constructor
            · rw [h1.1]
              constructor
              · rintro (h2 | h2)
                · exact Or.inl h2
                · exact Or.inr ⟨List.mem_cons_of_mem _ h2.1, h2.2⟩
              · rintro (h2 | ⟨h2, h3, h4⟩)
                · exact Or.inl h2
                · rcases List.mem_cons.1 h2 with h5 | h5
                  · subst h5
                    exact absurd hh h3
                  · exact Or.inr ⟨h5, h3, h4⟩
            · rw [h1.2]
              constructor
              · rintro (h2 | h2)
                · exact Or.inl h2
                · exact Or.inr ⟨List.mem_cons_of_mem _ h2.1, h2.2⟩
              · rintro (h2 | ⟨h2, h4⟩)
                · exact Or.inl h2
                · rcases List.mem_cons.1 h2 with h5 | h5
                  · rw [ht] at h5
                    simp only [List.cons.injEq, true_and] at h5
                    subst h5
                    rw [hstop] at h4
                    cases h4
                  · exact Or.inr ⟨h5, h4⟩
          · rw [if_neg hh] at hd
            constructor
            · rw [h1.1]
              constructor
              · rintro (h2 | h2)
                · exact Or.inl h2
                · exact Or.inr ⟨List.mem_cons_of_mem _ h2.1, h2.2⟩
              · rintro (h2 | ⟨h2, h3, h4⟩)
                · exact Or.inl h2
                · rcases List.mem_cons.1 h2 with h5 | h5
                  · subst h5
                    rw [hd] at hstop
                    rw [hstop] at h4
                    cases h4
                  · exact Or.inr ⟨h5, h3, h4⟩
            · rw [h1.2]
              constructor
              · rintro (h2 | h2)
                · exact Or.inl h2
                · exact Or.inr ⟨List.mem_cons_of_mem _ h2.1, h2.2⟩
              · rintro (h2 | ⟨h2, h4⟩)
                · exact Or.inl h2
                · rcases List.mem_cons.1 h2 with h5 | h5
                  · rw [← h5] at hh
                    exact absurd rfl hh
                  · exact Or.inr ⟨h5, h4⟩
        · have hstop1 : qw.is_stop = false := by simpa using hstop
          simp only [hstop1, Bool.not_false, if_true] at h
          rw [hs] at hstop1
          by_cases hh : t.head? = some 45
          · rw [if_pos hh] at hd
            have ht : t = 45 :: qw.data := by
              cases t with
              | nil => cases hh
              | cons a r =>
                simp only [List.head?_cons, Option.some.injEq] at hh
                subst hh
                simp [hd]
            have hmt : qw.is_minus = true := by rw [hm]; simpa using hh
            simp only [hmt, if_true] at h
            have h1 := ih _ h
            constructor
            · rw [h1.1]
              constructor
              · rintro (h2 | h2)
                · exact Or.inl h2
                · exact Or.inr ⟨List.mem_cons_of_mem _ h2.1, h2.2⟩
              · rintro (h2 | ⟨h2, h3, h4⟩)
                · exact Or.inl h2
                · rcases List.mem_cons.1 h2 with h5 | h5
                  · subst h5
                    exact absurd hh h3
                  · exact Or.inr ⟨h5, h3, h4⟩
            · rw [h1.2]
              simp only [List.mem_append, List.mem_singleton]
              constructor
              · rintro ((h2 | h2) | h2)
                · exact Or.inl h2
                · subst h2
                  refine Or.inr ⟨?_, hstop1⟩
                  rw [← ht]
                  exact List.mem_cons_self _ _
                · exact Or.inr ⟨List.mem_cons_of_mem _ h2.1, h2.2⟩
              · rintro (h2 | ⟨h2, h4⟩)
                · exact Or.inl (Or.inl h2)
                · rcases List.mem_cons.1 h2 with h5 | h5
                  · rw [ht] at h5
                    simp only [List.cons.injEq, true_and] at h5
                    exact Or.inl (Or.inr h5)
                  · exact Or.inr ⟨h5, h4⟩
          · rw [if_neg hh] at hd
            have hmt : qw.is_minus = false := by rw [hm]; simpa using hh
            simp only [hmt, Bool.false_eq_true, if_false] at h
            have h1 := ih _ h
            constructor
            · rw [h1.1]
              simp only [List.mem_append, List.mem_singleton]
              constructor
              · rintro ((h2 | h2) | h2)
                · exact Or.inl h2
                · subst h2
                  rw [hd]
                  exact Or.inr ⟨List.mem_cons_self _ _, hh, by rw [← hd]; exact hstop1⟩
                · exact Or.inr ⟨List.mem_cons_of_mem _ h2.1, h2.2⟩
              · rintro (h2 | ⟨h2, h3, h4⟩)
                · exact Or.inl (Or.inl h2)
                · rcases List.mem_cons.1 h2 with h5 | h5
                  · rw [hd]
                    exact Or.inl (Or.inr h5)
                  · exact Or.inr ⟨h5, h3, h4⟩
            · rw [h1.2]
              constructor
              · rintro (h2 | h2)
                · exact Or.inl h2
                · exact Or.inr ⟨List.mem_cons_of_mem _ h2.1, h2.2⟩
              · rintro (h2 | ⟨h2, h4⟩)
                · exact Or.inl h2
                · rcases List.mem_cons.1 h2 with h5 | h5
                  · rw [← h5] at hh
                    exact absurd rfl hh
                  · exact Or.inr ⟨h5, h4⟩

end parser

end SearchServer

namespace StdMap

variable {κ ι ν : Type} [LinearOrder κ] [LinearOrder ι]

theorem find2?_update (m : StdMap κ (StdMap ι ν)) (k : κ) (i : ι) (dflt : ν) (g : ν → ν)
    (k1 : κ) (i1 : ι) :
    find2? (update k [] (update i dflt g) m) k1 i1 =
      if k1 = k ∧ i1 = i then some (g ((find2? m k i).getD dflt)) else find2? m k1 i1 := by
  unfold find2?
  rw [find?_update]
  by_cases hk : k1 = k
  · subst hk
    simp only [if_true, true_and]
    rw [find?_update]
    cases hm : find? m k1 with
    | none =>
      by_cases hi : i1 = i
      · simp [hi, find?]
      · simp [hi, find?]
    | some inner =>
      by_cases hi : i1 = i
      · simp [hi]
      · simp [hi]
  · simp [hk]

theorem find2?_modify_erase (m : StdMap κ (StdMap ι ν)) (k : κ) (i : ι) (k1 : κ) (i1 : ι) :
    find2? (modify k (erase i) m) k1 i1 =
      if k1 = k ∧ i1 = i then none else find2? m k1 i1 := by
  unfold find2?
  rw [find?_modify]
  by_cases hk : k1 = k
  · subst hk
    simp only [if_true, true_and]
    cases hm : find? m k1 with
    | none => simp
    | some inner =>
      simp only [Option.map_some']
      rw [find?_erase]
  · simp [hk]

theorem find2?_erase (m : StdMap κ (StdMap ι ν)) (k : κ) (k1 : κ) (i1 : ι) :
    find2? (erase k m) k1 i1 = if k1 = k then none else find2? m k1 i1 := by
  unfold find2?
  rw [find?_erase]
  by_cases hk : k1 = k
  · simp [hk]
  · simp [hk]

theorem find2?_isSome (m : StdMap κ (StdMap ι ν)) (k : κ) (i : ι)
    (h : (find2? m k i).isSome = true) : contains m k = true := by
  unfold find2? at h
  unfold contains
  cases hm : find? m k with
  | none => rw [hm] at h; cases h
  | some inner => rfl

end StdMap

namespace SearchServer

section invariant

variable {R : Type} [LinearOrderedField R]

theorem AddDocument.loop_adds (n : Nat) (document_id : Int) (words : List Word)
    (s : SearchServer R) (hv : ∀ word ∈ words, IsValidWord word = true) :
    (AddDocument.loop n document_id words s).2 = none ∧
    (AddDocument.loop n document_id words s).1.stop_words_ = s.stop_words_ ∧
    (AddDocument.loop n document_id words s).1.documents_ = s.documents_ ∧
    (AddDocument.loop n document_id words s).1.docs_id_ = s.docs_id_ ∧
    (∀ w id, StdMap.find2? (AddDocument.loop n document_id words s).1.word_to_document_freqs_ w id =
      if id = document_id ∧ w ∈ words then
        some ((StdMap.find2? s.word_to_document_freqs_ w id).getD 0 + (words.count w : R) / (n : R))
      else StdMap.find2? s.word_to_document_freqs_ w id) ∧
    (∀ w id, StdMap.find2? (AddDocument.loop n document_id words s).1.document_to_word_freqs_ id w =
      if id = document_id ∧ w ∈ words then
        some ((StdMap.find2? s.document_to_word_freqs_ id w).getD 0 + (words.count w : R) / (n : R))
      else StdMap.find2? s.document_to_word_freqs_ id w) := by
  induction words generalizing s with
  | nil => simp [AddDocument.loop]
  | cons t rest ih =>
    have ht : IsValidWord t = true := hv t (List.mem_cons_self _ _)
    have hrest : ∀ word ∈ rest, IsValidWord word = true :=
      fun word hw => hv word (List.mem_cons_of_mem _ hw)
    simp only [AddDocument.loop, ht, Bool.not_true, Bool.false_eq_true, if_false]
    obtain ⟨h1, h2, h3, h4, h5, h6⟩ := ih _ hrest
    refine ⟨h1, h2, h3, h4, ?_, ?_⟩
    · intro w id
      rw [h5 w id]
      simp only [StdMap.find2?_update]
      by_cases hid : id = document_id
      · subst hid
        by_cases hwt : w = t
        · subst hwt
          by_cases hwr : w ∈ rest
          · simp [hwr, List.count_cons]
            ring
          · simp [hwr, List.count_cons, List.count_eq_zero_of_not_mem hwr]
        · have hwt1 : ¬ t = w := fun h => hwt h.symm
          simp [hwt, List.count_cons, hwt1]
      · simp [hid]
    · intro w id
      rw [h6 w id]
      simp only [StdMap.find2?_update]
      by_cases hid : id = document_id
      · subst hid
        by_cases hwt : w = t
        · subst hwt
          by_cases hwr : w ∈ rest
          · simp [hwr, List.count_cons]
            ring
          · simp [hwr, List.count_cons, List.count_eq_zero_of_not_mem hwr]
        · have hwt1 : ¬ t = w := fun h => hwt h.symm
          simp [hwt, List.count_cons, hwt1]
      · simp [hid]

theorem AddDocument.loop_valid (n : Nat) (document_id : Int) (words : List Word)
    (s : SearchServer R) (h : (AddDocument.loop n document_id words s).2 = none) :
    ∀ word ∈ words, IsValidWord word = true := by
  induction words generalizing s with
  | nil => simp
  | cons t rest ih =>
    unfold AddDocument.loop at h
    cases ht : IsValidWord t with
    | false => simp [ht] at h
    | true =>
      simp only [ht, Bool.not_true, Bool.false_eq_true, if_false] at h
      intro word hw
      rcases List.mem_cons.1 hw with h1 | h1
      · subst h1; exact ht
      · exact ih _ h word h1

end invariant

end SearchServer

namespace StdMap

variable {κ ν : Type} [LinearOrder κ]

theorem contains_modify (k : κ) (g : ν → ν) (m : StdMap κ ν) (k1 : κ) :
    contains (modify k g m) k1 = contains m k1 := by
  unfold contains
  rw [find?_modify]
  split
  · rename_i h
    subst h
    cases find? m k1 <;> rfl
  · rfl

end StdMap

namespace SearchServer

section invariant

variable {R : Type}

theorem SplitIntoWordsNoStop_congr (s1 s2 : SearchServer R)
    (h : s1.stop_words_ = s2.stop_words_) (text : Word) :
    SplitIntoWordsNoStop s1 text = SplitIntoWordsNoStop s2 text := by
  unfold SplitIntoWordsNoStop IsStopWord
  rw [h]

theorem RemoveDocument.loop_erases (document_id : Int) (words : List Word)
    (index : StdMap Word (StdMap Int R))
    (hw : ∀ word ∈ words, StdMap.contains index word = true) :
    (RemoveDocument.loop document_id words index).2 = none ∧
    (∀ w id, StdMap.find2? (RemoveDocument.loop document_id words index).1 w id =
      if id = document_id ∧ w ∈ words then none else StdMap.find2? index w id) := by
  induction words generalizing index with
  | nil => simp [RemoveDocument.loop]
  | cons t rest ih =>
    have ht : StdMap.contains index t = true := hw t (List.mem_cons_self _ _)
    have hrest : ∀ word ∈ rest,
        StdMap.contains (StdMap.modify t (StdMap.erase document_id) index) word = true := by
      intro word hword
      rw [StdMap.contains_modify]
      exact hw word (List.mem_cons_of_mem _ hword)
    simp only [RemoveDocument.loop, ht, if_true]
    obtain ⟨h1, h2⟩ := ih _ hrest
    refine ⟨h1, ?_⟩
    intro w id
    rw [h2 w id, StdMap.find2?_modify_erase]
    by_cases hid : id = document_id
    · by_cases hwt : w = t
      · simp [hid, hwt]
      · by_cases hwr : w ∈ rest
        · simp [hid, hwt, hwr]
        · simp [hid, hwt, hwr]
    · simp [hid]

theorem RemoveDocument.loop_postings (P : StdMap Int R → Prop) (document_id : Int)
    (hP : ∀ m, P m → P (StdMap.erase document_id m)) (words : List Word)
    (index : StdMap Word (StdMap Int R))
    (h : ∀ w p, StdMap.find? index w = some p → P p) :
    ∀ w p, StdMap.find? (RemoveDocument.loop document_id words index).1 w = some p → P p := by
  induction words generalizing index with
  | nil => exact h
  | cons t rest ih =>
    unfold RemoveDocument.loop
    split
    · apply ih
      intro w p hp
      rw [StdMap.find?_modify] at hp
      split at hp
      · cases hf : StdMap.find? index t with
        | none => rw [hf] at hp; cases hp
        | some q =>
          rw [hf] at hp
          cases hp
          exact hP q (h t q hf)
      · exact h w p hp
    · exact h

variable [LinearOrderedField R]

theorem AddDocument.loop_keeps (P : StdMap Int R → Prop) (n : Nat) (document_id : Int)
    (hP0 : P []) (hP : ∀ m f, P m → P (StdMap.update document_id 0 f m)) (words : List Word)
    (s : SearchServer R)
    (h : ∀ w p, StdMap.find? s.word_to_document_freqs_ w = some p → P p) :
    ∀ w p, StdMap.find? (AddDocument.loop n document_id words s).1.word_to_document_freqs_ w
      = some p → P p := by
  induction words generalizing s with
  | nil => exact h
  | cons t rest ih =>
    unfold AddDocument.loop
    split
    · exact h
    · apply ih
      intro w p hp
      simp only [StdMap.find?_update] at hp
      split at hp
      · cases hp
        cases hf : StdMap.find? s.word_to_document_freqs_ t with
        | none => exact hP _ _ hP0
        | some q => exact hP _ _ (h t q hf)
      · exact h w p hp

theorem AddDocument_postings (P : StdMap Int R → Prop) (s : SearchServer R) (document_id : Int)
    (document : Word) (status : DocumentStatus) (ratings : List Int)
    (hP0 : P []) (hP : ∀ m f, P m → P (StdMap.update document_id 0 f m))
    (h : ∀ w p, StdMap.find? s.word_to_document_freqs_ w = some p → P p) :
    ∀ w p, StdMap.find?
      (AddDocument s document_id document status ratings).1.word_to_document_freqs_ w
      = some p → P p := by
  unfold AddDocument
  split
  · exact h
  · split
    · exact h
    · have hl := AddDocument.loop_keeps P
        (SplitIntoWordsNoStop ({ s with
            documents_ :=
              StdMap.emplace document_id
                { rating := ComputeAverageRating ratings, status := status, data := document }
                s.documents_ } : SearchServer R) document).length document_id hP0 hP
        (SplitIntoWordsNoStop ({ s with
            documents_ :=
              StdMap.emplace document_id
                { rating := ComputeAverageRating ratings, status := status, data := document }
                s.documents_ } : SearchServer R) document)
        ({ s with
            documents_ :=
              StdMap.emplace document_id
                { rating := ComputeAverageRating ratings, status := status, data := document }
                s.documents_ } : SearchServer R) h
      simp only
      generalize AddDocument.loop (R := R) _ document_id _ _ = r at hl ⊢
      obtain ⟨s2, e⟩ := r
      cases e with
      | some e => exact hl
      | none => exact hl

theorem AddDocument_spec (s : SearchServer R) (document_id : Int) (document : Word)
    (status : DocumentStatus) (ratings : List Int)
    (h : (AddDocument s document_id document status ratings).2 = none) :
    0 ≤ document_id ∧ StdMap.find? s.documents_ document_id = none ∧
    (∀ word ∈ SplitIntoWordsNoStop s document, IsValidWord word = true) ∧
    (AddDocument s document_id document status ratings).1.stop_words_ = s.stop_words_ ∧
    (AddDocument s document_id document status ratings).1.documents_ =
      StdMap.emplace document_id
        (stored { document := document, status := status, ratings := ratings }) s.documents_ ∧
    (AddDocument s document_id document status ratings).1.docs_id_ =
      StdSet.insert document_id s.docs_id_ ∧
    (∀ w id,
      StdMap.find2? (AddDocument s document_id document status ratings).1.word_to_document_freqs_
          w id =
        if id = document_id ∧ w ∈ SplitIntoWordsNoStop s document then
          some ((StdMap.find2? s.word_to_document_freqs_ w id).getD 0 +
            ((SplitIntoWordsNoStop s document).count w : R) /
              ((SplitIntoWordsNoStop s document).length : R))
        else StdMap.find2? s.word_to_document_freqs_ w id) ∧
    (∀ w id,
      StdMap.find2? (AddDocument s document_id document status ratings).1.document_to_word_freqs_
          id w =
        if id = document_id ∧ w ∈ SplitIntoWordsNoStop s document then
          some ((StdMap.find2? s.document_to_word_freqs_ id w).getD 0 +
            ((SplitIntoWordsNoStop s document).count w : R) /
              ((SplitIntoWordsNoStop s document).length : R))
        else StdMap.find2? s.document_to_word_freqs_ id w) := by
  unfold AddDocument at h ⊢
  by_cases hneg : document_id < 0
  · simp [hneg] at h
  · cases hc : StdMap.contains s.documents_ document_id with
    | true => simp [hneg, hc] at h
    | false =>
      simp only [hneg, hc, if_false, Bool.false_eq_true] at h ⊢
      have hwords : SplitIntoWordsNoStop
          ({ s with
            documents_ :=
              StdMap.emplace document_id
                { rating := ComputeAverageRating ratings, status := status, data := document }
                s.documents_ } : SearchServer R) document = SplitIntoWordsNoStop s document := rfl
      rw [hwords] at h ⊢
      have hvalid := AddDocument.loop_valid (SplitIntoWordsNoStop s document).length document_id
        (SplitIntoWordsNoStop s document)
        ({ s with
            documents_ :=
              StdMap.emplace document_id
                { rating := ComputeAverageRating ratings, status := status, data := document }
                s.documents_ } : SearchServer R)
      have hspec := AddDocument.loop_adds (SplitIntoWordsNoStop s document).length document_id
        (SplitIntoWordsNoStop s document)
        ({ s with
            documents_ :=
              StdMap.emplace document_id
                { rating := ComputeAverageRating ratings, status := status, data := document }
                s.documents_ } : SearchServer R)
      generalize AddDocument.loop (SplitIntoWordsNoStop s document).length document_id
        (SplitIntoWordsNoStop s document)
        ({ s with
            documents_ :=
              StdMap.emplace document_id
                { rating := ComputeAverageRating ratings, status := status, data := document }
                s.documents_ } : SearchServer R) = r at h hvalid hspec ⊢
      obtain ⟨s2, e⟩ := r
      cases e with
      | some e => simp at h
      | none =>
        have hv := hvalid rfl
        obtain ⟨_, h2, h3, h4, h5, h6⟩ := hspec hv
        simp only at h2 h3 h4 h5 h6 ⊢
        refine ⟨not_lt.1 hneg, (StdMap.contains_eq_false _ _).1 hc, hv, h2, h3, ?_, h5, h6⟩
        rw [h4]

end invariant

end SearchServer

namespace SearchServer

section invariant

variable {R : Type} [LinearOrderedField R]

theorem Inv.of_empty (stop_words : StdSet Word) :
    Inv stop_words (fun _ => none) (empty stop_words : SearchServer R) where
  stop := rfl
  docs := by intro id; rfl
  nodup := by simp [empty, StdMap.keys]
  live := by intro id; simp [empty]
  index := by intro w id; simp [inPostings, empty, StdMap.find2?, StdMap.find?]
  forward := by intro w id; rfl
  postings := by intro w postings h; cases h
  term_freq := by intro w id x h; cases h

theorem Inv.of_add {stop_words : StdSet Word} {corpus : Corpus} {s : SearchServer R}
    (hs : Inv stop_words corpus s) (document_id : Int) (document : Word)
    (status : DocumentStatus) (ratings : List Int)
    (h : (AddDocument s document_id document status ratings).2 = none) :
    Inv stop_words
      (Function.update corpus document_id
        (some { document := document, status := status, ratings := ratings }))
      (AddDocument s document_id document status ratings).1 := by
  obtain ⟨_, hnew, _, h1, h2, h3, h4, h5⟩ := AddDocument_spec s document_id document status ratings h
  have hcorpus : corpus document_id = none := by
    have := hs.docs document_id
    rw [hnew] at this
    cases hc : corpus document_id with
    | none => rfl
    | some a => rw [hc] at this; cases this
  have hold : ∀ w, StdMap.find2? s.word_to_document_freqs_ w document_id = none := by
    intro w
    cases hf : StdMap.find2? s.word_to_document_freqs_ w document_id with
    | none => rfl
    | some x =>
      have hin : inPostings s w document_id = true := by simp [inPostings, hf]
      obtain ⟨a, ha, _⟩ := (hs.index w document_id).1 hin
      rw [hcorpus] at ha
      cases ha
  constructor
  · rw [h1]; exact hs.stop
  · intro id
    rw [h2, StdMap.find?_emplace, Function.update_apply]
    split
    · rw [hnew]; rfl
    · exact hs.docs id
  · rw [h2]
    exact StdMap.nodup_keys_emplace _ _ _ hs.nodup
  · intro id
    rw [h3, StdSet.mem_insert, Function.update_apply]
    split
    · rename_i hid
      simp [hid]
    · rename_i hid
      rw [hs.live id]
      simp [hid]
  · intro w id
    unfold inPostings
    rw [h4 w id, Function.update_apply]
    have hsplit : ∀ text, SplitIntoWordsNoStop (AddDocument s document_id document status ratings).1 text
        = SplitIntoWordsNoStop s text := SplitIntoWordsNoStop_congr _ _ h1
    simp only [hsplit]
    by_cases hid : id = document_id
    · subst hid
      by_cases hw : w ∈ SplitIntoWordsNoStop s document
      · simp [hw]
      · simp [hw, hold w]
    · simp only [hid, false_and, if_false]
      exact hs.index w id
  · intro w id
    unfold inForward inPostings
    rw [h4 w id, h5 w id]
    by_cases hid : id = document_id
    · by_cases hw : w ∈ SplitIntoWordsNoStop s document
      · simp [hid, hw]
      · simp only [hid, hw, and_false, if_false]
        exact hs.forward w document_id
    · simp only [hid, false_and, if_false]
      exact hs.forward w id
  · exact AddDocument_postings (fun m => (StdMap.keys m).Nodup) s document_id document status
      ratings (by simp [StdMap.keys]) (fun m f hm => StdMap.nodup_keys_update _ _ _ _ hm)
      hs.postings
  · intro w id x hx
    rw [h4 w id] at hx
    have hsplit : ∀ text, SplitIntoWordsNoStop (AddDocument s document_id document status ratings).1 text
        = SplitIntoWordsNoStop s text := SplitIntoWordsNoStop_congr _ _ h1
    simp only [hsplit, Function.update_apply]
    by_cases hid : id = document_id
    · subst hid
      by_cases hw : w ∈ SplitIntoWordsNoStop s document
      · simp only [hw, and_self, if_true, Option.some.injEq, hold w, Option.getD_none,
          zero_add] at hx
        exact ⟨{ document := document, status := status, ratings := ratings }, by simp,
          hx.symm⟩
      · simp only [hw, and_false, if_false, hold w] at hx
        cases hx
    · simp only [hid, false_and, if_false] at hx ⊢
      exact hs.term_freq w id x hx

theorem Inv.of_remove {stop_words : StdSet Word} {corpus : Corpus} {s : SearchServer R}
    (hs : Inv stop_words corpus s) (document_id : Int) :
    (RemoveDocument s document_id).2 = none ∧
    Inv stop_words (Function.update corpus document_id none)
      (RemoveDocument s document_id).1 := by
  have hmem : ∀ w, w ∈ (match StdMap.find? s.document_to_word_freqs_ document_id with
      | none => ([] : List Word)
      | some freqs => StdMap.keys freqs) ↔ inPostings s w document_id = true := by
    intro w
    rw [← hs.forward w document_id]
    unfold inForward StdMap.find2?
    cases StdMap.find? s.document_to_word_freqs_ document_id with
    | none => simp
    | some freqs =>
      simp only
      rw [StdMap.mem_keys_iff]
      rfl
  have hpre : ∀ word ∈ (match StdMap.find? s.document_to_word_freqs_ document_id with
      | none => ([] : List Word)
      | some freqs => StdMap.keys freqs),
      StdMap.contains s.word_to_document_freqs_ word = true := by
    intro word hword
    exact StdMap.find2?_isSome _ _ _ ((hmem word).1 hword)
  have hspec := RemoveDocument.loop_erases document_id _ s.word_to_document_freqs_ hpre
  have hpost := RemoveDocument.loop_postings (fun m => (StdMap.keys m).Nodup) document_id
    (fun m hm => StdMap.nodup_keys_erase _ _ hm)
    (match StdMap.find? s.document_to_word_freqs_ document_id with
      | none => ([] : List Word)
      | some freqs => StdMap.keys freqs) s.word_to_document_freqs_ hs.postings
  unfold RemoveDocument
  simp only
  generalize RemoveDocument.loop document_id _ s.word_to_document_freqs_ = r at hspec hpost ⊢
  obtain ⟨index, e⟩ := r
  obtain ⟨he, hfind⟩ := hspec
  simp only at he hfind
  subst he
  simp only [true_and]
  have hindex : ∀ w id, (StdMap.find2? index w id).isSome =
      (decide (id ≠ document_id) && inPostings s w id) := by
    intro w id
    rw [hfind w id]
    by_cases hid : id = document_id
    · subst hid
      by_cases hw : inPostings s w id = true
      · simp [(hmem w).2 hw, hw]
      · have hw1 : inPostings s w id = false := by simpa using hw
        have : ¬ (StdMap.find2? s.word_to_document_freqs_ w id).isSome = true := hw
        simp at this
        simp [this]
    · simp [hid, inPostings]
  constructor
  · exact hs.stop
  · intro id
    simp only [StdMap.find?_erase, Function.update_apply]
    split
    · rfl
    · exact hs.docs id
  · exact StdMap.nodup_keys_erase _ _ hs.nodup
  · intro id
    simp only [StdSet.mem_erase, Function.update_apply]
    by_cases hid : id = document_id
    · simp [hid]
    · simp only [hid, ne_eq, not_false_eq_true, true_and, if_false]
      exact hs.live id
  · intro w id
    have h1 : inPostings ({ s with
        word_to_document_freqs_ := index
        document_to_word_freqs_ := StdMap.erase document_id s.document_to_word_freqs_
        documents_ := StdMap.erase document_id s.documents_
        docs_id_ := StdSet.erase document_id s.docs_id_ } : SearchServer R) w id =
        (StdMap.find2? index w id).isSome := rfl
    rw [h1, hindex, Function.update_apply]
    by_cases hid : id = document_id
    · simp [hid]
    · simp only [hid, ne_eq, not_false_eq_true, decide_True, Bool.true_and, if_false]
      exact hs.index w id
  · intro w id
    have h1 : inPostings ({ s with
        word_to_document_freqs_ := index
        document_to_word_freqs_ := StdMap.erase document_id s.document_to_word_freqs_
        documents_ := StdMap.erase document_id s.documents_
        docs_id_ := StdSet.erase document_id s.docs_id_ } : SearchServer R) w id =
        (StdMap.find2? index w id).isSome := rfl
    have h2 : inForward ({ s with
        word_to_document_freqs_ := index
        document_to_word_freqs_ := StdMap.erase document_id s.document_to_word_freqs_
        documents_ := StdMap.erase document_id s.documents_
        docs_id_ := StdSet.erase document_id s.docs_id_ } : SearchServer R) id w =
        (StdMap.find2? (StdMap.erase document_id s.document_to_word_freqs_) id w).isSome := rfl
    rw [h1, h2, hindex, StdMap.find2?_erase]
    by_cases hid : id = document_id
    · simp [hid]
    · simp only [hid, ne_eq, not_false_eq_true, decide_True, Bool.true_and, if_false]
      exact hs.forward w id
  · exact hpost
  · intro w id x hx
    have hx1 : StdMap.find2? index w id = some x := hx
    rw [hfind w id] at hx1
    have hsplit : ∀ text, SplitIntoWordsNoStop ({ s with
        word_to_document_freqs_ := index
        document_to_word_freqs_ := StdMap.erase document_id s.document_to_word_freqs_
        documents_ := StdMap.erase document_id s.documents_
        docs_id_ := StdSet.erase document_id s.docs_id_ } : SearchServer R) text =
        SplitIntoWordsNoStop s text := fun _ => rfl
    simp only [hsplit, Function.update_apply]
    by_cases hid : id = document_id
    · subst hid
      split at hx1
      · cases hx1
      · rename_i hnot
        have hin : inPostings s w id = true := by simp [inPostings, hx1]
        exact absurd ⟨rfl, (hmem w).2 hin⟩ hnot
    · simp only [hid, false_and, if_false] at hx1 ⊢
      exact hs.term_freq w id x hx1

theorem Reachable.inv {stop_words : StdSet Word} {corpus : Corpus} {s : SearchServer R}
    (h : Reachable stop_words corpus s) : Inv stop_words corpus s := by
  induction h with
  | init => exact Inv.of_empty stop_words
  | add document_id document status ratings _ hok ih => exact Inv.of_add ih _ _ _ _ hok
  | remove document_id _ _ ih => exact (Inv.of_remove ih document_id).2

theorem Built.reachable {stop_words : StdSet Word} {corpus : Corpus} {s : SearchServer R}
    (h : Built stop_words corpus s) : Reachable stop_words corpus s := by
  induction h with
  | init => exact Reachable.init
  | add document_id document status ratings _ hok ih =>
    exact Reachable.add document_id document status ratings ih hok

theorem Intact.to_reachable {stop_words : StdSet Word} {corpus : Corpus} {views : StdMap Word Int}
    {s : SearchServer R} (h : Intact stop_words corpus views s) :
    Reachable stop_words corpus s := by
  induction h with
  | init => exact Reachable.init
  | add document_id document status ratings _ hok ih =>
    exact Reachable.add document_id document status ratings ih hok
  | remove document_id _ _ hok ih => exact Reachable.remove document_id ih hok

theorem Built.intact {stop_words : StdSet Word} {corpus : Corpus} {s : SearchServer R}
    (h : Built stop_words corpus s) : ∃ views, Intact stop_words corpus views s := by
  induction h with
  | init => exact ⟨[], Intact.init⟩
  | add document_id document status ratings _ hok ih =>
    obtain ⟨views, hv⟩ := ih
    exact ⟨_, Intact.add document_id document status ratings hv hok⟩

end invariant

end SearchServer

namespace StdMap

variable {κ ν : Type} [LinearOrder κ]

theorem find?_foldl_erase {μ : Type} (postings : StdMap κ μ) (acc : StdMap κ ν) (k : κ) :
    find? (postings.foldl (fun m p => erase p.1 m) acc) k =
      if contains postings k = true then none else find? acc k := by
  induction postings generalizing acc with
  | nil => simp [contains, find?]
  | cons p rest ih =>
    obtain ⟨k2, v2⟩ := p
    simp only [List.foldl_cons]
    rw [ih, find?_erase]
    by_cases h : k2 = k
    · subst h
      simp [contains, find?]
    · have h1 : ¬ k = k2 := fun h2 => h h2.symm
      simp [contains, find?, h, h1]

theorem nodup_keys_foldl_erase {μ : Type} (postings : StdMap κ μ) (acc : StdMap κ ν)
    (h : (keys acc).Nodup) :
    (keys (postings.foldl (fun m p => erase p.1 m) acc)).Nodup := by
  induction postings generalizing acc with
  | nil => exact h
  | cons p rest ih => exact ih _ (nodup_keys_erase _ _ h)

end StdMap

namespace SearchServer

section ranking

variable {R : Type} [LinearOrderedField R]

theorem FindAllDocuments.addPostings_spec (s : SearchServer R)
    (lambda : Int → DocumentStatus → Int → Bool) (idf : R) (postings : StdMap Int R)
    (acc : StdMap Int R) (hnodup : (StdMap.keys postings).Nodup)
    (hdoc : ∀ id, StdMap.contains postings id = true → StdMap.contains s.documents_ id = true) :
    ∃ acc1, FindAllDocuments.addPostings s lambda idf postings acc = .ok acc1 ∧
      ((StdMap.keys acc).Nodup → (StdMap.keys acc1).Nodup) ∧
      ∀ id, StdMap.find? acc1 id =
        match StdMap.find? postings id with
        | none => StdMap.find? acc id
        | some tf =>
          if accepts s lambda id = true then some ((StdMap.find? acc id).getD 0 + tf * idf)
          else StdMap.find? acc id := by
  induction postings generalizing acc with
  | nil =>
    refine ⟨acc, rfl, fun h => h, ?_⟩
    intro id
    simp [StdMap.find?]
  | cons p rest ih =>
    obtain ⟨pid, tf⟩ := p
    simp only [StdMap.keys, List.map_cons, List.nodup_cons] at hnodup
    have hrest : ∀ id, StdMap.contains rest id = true → StdMap.contains s.documents_ id = true := by
      intro id hid
      apply hdoc
      unfold StdMap.contains at hid ⊢
      simp only [StdMap.find?]
      split
      · rfl
      · exact hid
    have hpid : StdMap.contains s.documents_ pid = true := by
      apply hdoc
      simp [StdMap.contains, StdMap.find?]
    obtain ⟨data, hdata⟩ := (StdMap.contains_iff _ _).1 hpid
    have hnone : StdMap.find? rest pid = none := by
      rw [← StdMap.contains_eq_false]
      cases hc : StdMap.contains rest pid with
      | false => rfl
      | true => exact absurd ((StdMap.mem_keys_iff rest pid).2 hc) hnodup.1
    have hacc : accepts s lambda pid = lambda pid data.status data.rating := by
      simp [accepts, hdata]
    simp only [FindAllDocuments.addPostings, hdata]
    cases hl : lambda pid data.status data.rating with
    | true =>
      simp only [if_true]
      obtain ⟨acc1, h1, h2, h3⟩ := ih
        (StdMap.update pid 0 (fun x => x + tf * idf) acc) hnodup.2 hrest
      refine ⟨acc1, h1, fun h => h2 (StdMap.nodup_keys_update _ _ _ _ h), ?_⟩
      intro id
      rw [h3 id]
      by_cases hid : pid = id
      · subst hid
        simp [StdMap.find?, hnone, StdMap.find?_update, hacc, hl]
      · have hid1 : ¬ id = pid := fun h => hid h.symm
        simp only [StdMap.find?, if_neg hid, StdMap.find?_update, if_neg hid1]
    | false =>
      simp only [Bool.false_eq_true, if_false]
      obtain ⟨acc1, h1, h2, h3⟩ := ih acc hnodup.2 hrest
      refine ⟨acc1, h1, h2, ?_⟩
      intro id
      rw [h3 id]
      by_cases hid : pid = id
      · subst hid
        simp [StdMap.find?, hnone, hacc, hl]
      · simp only [StdMap.find?, if_neg hid]

theorem inPostings_of_find? {S : Type} (s : SearchServer S) (word : Word) (postings : StdMap Int S)
    (h : StdMap.find? s.word_to_document_freqs_ word = some postings) (id : Int) :
    inPostings s word id = StdMap.contains postings id := by
  simp [inPostings, StdMap.find2?, h, StdMap.contains]

theorem inPostings_of_find?_none {S : Type} (s : SearchServer S) (word : Word)
    (h : StdMap.find? s.word_to_document_freqs_ word = none) (id : Int) :
    inPostings s word id = false := by
  simp [inPostings, StdMap.find2?, h]

theorem termRelevance_of_not_inPostings (log : R → R) (s : SearchServer R) (id : Int)
    (word : Word) (h : inPostings s word id = false) : termRelevance log s id word = 0 := by
  unfold termRelevance
  cases hf : StdMap.find? s.word_to_document_freqs_ word with
  | none => rfl
  | some postings =>
    rw [inPostings_of_find? s word postings hf] at h
    have h1 := (StdMap.contains_eq_false _ _).1 h
    simp [h1]

theorem FindAllDocuments.plusLoop_spec (log : R → R) (s : SearchServer R)
    (lambda : Int → DocumentStatus → Int → Bool)
    (hpost : ∀ w postings, StdMap.find? s.word_to_document_freqs_ w = some postings →
      (StdMap.keys postings).Nodup)
    (hdoc : ∀ w id, inPostings s w id = true → StdMap.contains s.documents_ id = true)
    (words : List Word) (acc : StdMap Int R) :
    ∃ acc1, FindAllDocuments.plusLoop log s lambda words acc = .ok acc1 ∧
      ((StdMap.keys acc).Nodup → (StdMap.keys acc1).Nodup) ∧
      (∀ id, StdMap.contains acc1 id = true ↔
        StdMap.contains acc id = true ∨
          (accepts s lambda id = true ∧ ∃ w ∈ words, inPostings s w id = true)) ∧
      (∀ id, (StdMap.find? acc1 id).getD 0 =
        (StdMap.find? acc id).getD 0 +
          if accepts s lambda id = true then (words.map (termRelevance log s id)).sum else 0) := by
  induction words generalizing acc with
  | nil =>
    refine ⟨acc, rfl, fun h => h, ?_, ?_⟩
    · intro id; simp
    · intro id; simp
  | cons t rest ih =>
    cases hf : StdMap.find? s.word_to_document_freqs_ t with
    | none =>
      simp only [FindAllDocuments.plusLoop, hf]
      obtain ⟨acc1, h1, h2, h3, h4⟩ := ih acc
      refine ⟨acc1, h1, h2, ?_, ?_⟩
      · intro id
        rw [h3 id]
        simp [inPostings_of_find?_none s t hf id]
      · intro id
        rw [h4 id]
        simp [termRelevance_of_not_inPostings log s id t (inPostings_of_find?_none s t hf id)]
    | some postings =>
      have hidf : ComputeWordInverseDocumentFreq log s t =
          .ok (log ((GetDocumentCount s : R) * 1 / (postings.length : R))) := by
        simp [ComputeWordInverseDocumentFreq, hf]
      have hd : ∀ id, StdMap.contains postings id = true →
          StdMap.contains s.documents_ id = true := by
        intro id hid
        apply hdoc t id
        rw [inPostings_of_find? s t postings hf]
        exact hid
      obtain ⟨acc0, ha1, ha2, ha3⟩ := FindAllDocuments.addPostings_spec s lambda
        (log ((GetDocumentCount s : R) * 1 / (postings.length : R))) postings acc
        (hpost t postings hf) hd
      simp only [FindAllDocuments.plusLoop, hf, hidf, ha1]
      obtain ⟨acc1, h1, h2, h3, h4⟩ := ih acc0
      refine ⟨acc1, h1, fun h => h2 (ha2 h), ?_, ?_⟩
      · intro id
        rw [h3 id]
        unfold StdMap.contains
        rw [ha3 id]
        have hin := inPostings_of_find? s t postings hf id
        unfold StdMap.contains at hin
        cases hp : StdMap.find? postings id with
        | none =>
          rw [hp] at hin
          simp [hin]
        | some tf =>
          rw [hp] at hin
          cases hacc : accepts s lambda id with
          | true => simp [hin]
          | false => simp
      · intro id
        rw [h4 id, ha3 id]
        have htr : termRelevance log s id t =
            match StdMap.find? postings id with
            | none => 0
            | some tf => tf * log ((GetDocumentCount s : R) * 1 / (postings.length : R)) := by
          simp [termRelevance, hf]
        rw [List.map_cons, List.sum_cons, htr]
        cases hp : StdMap.find? postings id with
        | none => simp
        | some tf =>
          cases hacc : accepts s lambda id with
          | true => simp [add_assoc]
          | false => simp

theorem FindAllDocuments.minusLoop_spec {S : Type} (s : SearchServer S) (words : List Word)
    (acc : StdMap Int S) :
    ((StdMap.keys acc).Nodup → (StdMap.keys (FindAllDocuments.minusLoop s words acc)).Nodup) ∧
    ∀ id, StdMap.find? (FindAllDocuments.minusLoop s words acc) id =
      if (∃ w ∈ words, inPostings s w id = true) then none else StdMap.find? acc id := by
  induction words generalizing acc with
  | nil =>
    refine ⟨fun h => h, ?_⟩
    intro id
    simp [FindAllDocuments.minusLoop]
  | cons t rest ih =>
    cases hf : StdMap.find? s.word_to_document_freqs_ t with
    | none =>
      simp only [FindAllDocuments.minusLoop, hf]
      obtain ⟨h1, h2⟩ := ih acc
      refine ⟨h1, ?_⟩
      intro id
      rw [h2 id]
      simp [inPostings_of_find?_none s t hf id]
    | some postings =>
      simp only [FindAllDocuments.minusLoop, hf]
      obtain ⟨h1, h2⟩ := ih (postings.foldl (fun m p => StdMap.erase p.1 m) acc)
      refine ⟨fun h => h1 (StdMap.nodup_keys_foldl_erase _ _ h), ?_⟩
      intro id
      rw [h2 id, StdMap.find?_foldl_erase]
      have hin := inPostings_of_find? s t postings hf id
      cases hc : StdMap.contains postings id with
      | true =>
        rw [hc] at hin
        simp [hin]
      | false =>
        rw [hc] at hin
        simp [hin]

theorem FindAllDocuments.collect_spec {S : Type} (s : SearchServer S) (acc : StdMap Int S)
    (hdoc : ∀ id, StdMap.contains acc id = true → StdMap.contains s.documents_ id = true) :
    ∃ docs, FindAllDocuments.collect s acc = .ok docs ∧
      docs.map (fun d => (d.id, d.relevance)) = acc ∧
      ∀ d ∈ docs, ∃ data, StdMap.find? s.documents_ d.id = some data ∧ d.rating = data.rating := by
  induction acc with
  | nil => exact ⟨[], rfl, rfl, by simp⟩
  | cons p rest ih =>
    obtain ⟨id, rel⟩ := p
    have hrest : ∀ id, StdMap.contains rest id = true →
        StdMap.contains s.documents_ id = true := by
      intro id1 hid
      apply hdoc
      unfold StdMap.contains at hid ⊢
      simp only [StdMap.find?]
      split
      · rfl
      · exact hid
    have hid : StdMap.contains s.documents_ id = true := by
      apply hdoc
      simp [StdMap.contains, StdMap.find?]
    obtain ⟨data, hdata⟩ := (StdMap.contains_iff _ _).1 hid
    obtain ⟨docs, h1, h2, h3⟩ := ih hrest
    refine ⟨{ id := id, relevance := rel, rating := data.rating } :: docs, ?_, ?_, ?_⟩
    · simp [FindAllDocuments.collect, hdata, h1]
    · simp [h2]
    · intro d hd
      rcases List.mem_cons.1 hd with h4 | h4
      · subst h4
        exact ⟨data, hdata, rfl⟩
      · exact h3 d h4

end ranking

end SearchServer

namespace SearchServer

section ranking

variable {R : Type} [LinearOrderedField R]

/-- The inverted index lists a word for a document exactly when the document is
stored and the word is one of its non-stop words. -/
theorem Inv.index_store {stop_words : StdSet Word} {corpus : Corpus} {s : SearchServer R}
    (hs : Inv stop_words corpus s) (w : Word) (id : Int) :
    inPostings s w id = true ↔
      ∃ data, StdMap.find? s.documents_ id = some data ∧
        w ∈ SplitIntoWordsNoStop s data.data := by
  rw [hs.index w id, hs.docs id]
  constructor
  · rintro ⟨a, ha, hw⟩
    exact ⟨stored a, by simp [ha], hw⟩
  · rintro ⟨data, hd, hw⟩
    cases hc : corpus id with
    | none => rw [hc] at hd; cases hd
    | some a =>
      rw [hc] at hd
      simp only [Option.map_some', Option.some.injEq] at hd
      subst hd
      exact ⟨a, rfl, hw⟩

theorem Inv.contains_docs {stop_words : StdSet Word} {corpus : Corpus} {s : SearchServer R}
    (hs : Inv stop_words corpus s) (w : Word) (id : Int) (h : inPostings s w id = true) :
    StdMap.contains s.documents_ id = true := by
  obtain ⟨data, hd, _⟩ := (hs.index_store w id).1 h
  exact (StdMap.contains_iff _ _).2 ⟨data, hd⟩

/-- On a state that satisfies the invariant `FindAllDocuments` returns, and its
result holds each qualifying document once, with the stored rating and with the
sum of the terms of the plus-words as relevance. -/
theorem FindAllDocuments_spec (log : R → R) {stop_words : StdSet Word} {corpus : Corpus}
    {s : SearchServer R} (hs : Inv stop_words corpus s) (query : Query)
    (lambda : Int → DocumentStatus → Int → Bool) :
    ∃ cands, FindAllDocuments log s query lambda = .ok cands ∧
      (cands.map (fun d => d.id)).Nodup ∧
      (∀ id, id ∈ cands.map (fun d => d.id) ↔
        (accepts s lambda id = true ∧ (∃ w ∈ query.plus_words, inPostings s w id = true)) ∧
          ¬ ∃ w ∈ query.minus_words, inPostings s w id = true) ∧
      (∀ d ∈ cands, (∃ data, StdMap.find? s.documents_ d.id = some data ∧ d.rating = data.rating) ∧
        d.relevance = (query.plus_words.map (termRelevance log s d.id)).sum) := by
  obtain ⟨acc1, h1, h2, h3, h4⟩ := FindAllDocuments.plusLoop_spec log s lambda hs.postings
    hs.contains_docs query.plus_words []
  obtain ⟨m1, m2⟩ := FindAllDocuments.minusLoop_spec s query.minus_words acc1
  have hnodup : (StdMap.keys (FindAllDocuments.minusLoop s query.minus_words acc1)).Nodup :=
    m1 (h2 (by simp [StdMap.keys]))
  have hfinal : ∀ id, StdMap.contains (FindAllDocuments.minusLoop s query.minus_words acc1) id = true ↔
      (accepts s lambda id = true ∧ (∃ w ∈ query.plus_words, inPostings s w id = true)) ∧
        ¬ ∃ w ∈ query.minus_words, inPostings s w id = true := by
    intro id
    have h3id := h3 id
    unfold StdMap.contains at h3id ⊢
    rw [m2 id]
    by_cases hm : ∃ w ∈ query.minus_words, inPostings s w id = true
    · simp only [hm, if_true, not_true, and_false, Option.isSome_none, Bool.false_eq_true]
    · simp only [hm, if_false, not_false_eq_true, and_true]
      rw [h3id]
      simp [StdMap.find?]
  have hdocs : ∀ id, StdMap.contains (FindAllDocuments.minusLoop s query.minus_words acc1) id = true →
      StdMap.contains s.documents_ id = true := by
    intro id hid
    obtain ⟨⟨_, w, _, hw⟩, _⟩ := (hfinal id).1 hid
    exact hs.contains_docs w id hw
  obtain ⟨cands, c1, c2, c3⟩ := FindAllDocuments.collect_spec s _ hdocs
  have hkeys : cands.map (fun d => d.id) =
      StdMap.keys (FindAllDocuments.minusLoop s query.minus_words acc1) := by
    rw [← c2]
    simp [StdMap.keys, List.map_map, Function.comp_def]
  refine ⟨cands, ?_, ?_, ?_, ?_⟩
  · simp only [FindAllDocuments, h1]
    exact c1
  · rw [hkeys]; exact hnodup
  · intro id
    rw [hkeys, StdMap.mem_keys_iff]
    exact hfinal id
  · intro d hd
    refine ⟨c3 d hd, ?_⟩
    have hmem : (d.id, d.relevance) ∈ FindAllDocuments.minusLoop s query.minus_words acc1 := by
      rw [← c2]
      exact List.mem_map.2 ⟨d, hd, rfl⟩
    have hf := StdMap.find?_of_mem _ hnodup _ _ hmem
    have hc : StdMap.contains (FindAllDocuments.minusLoop s query.minus_words acc1) d.id = true :=
      (StdMap.contains_iff _ _).2 ⟨_, hf⟩
    obtain ⟨⟨hacc, _⟩, hm⟩ := (hfinal d.id).1 hc
    rw [m2 d.id, if_neg hm] at hf
    have h4d := h4 d.id
    rw [hf] at h4d
    simp only [Option.getD_some, StdMap.find?, Option.getD_none, zero_add, hacc, if_true] at h4d
    exact h4d

theorem accepts_iff {S : Type} (s : SearchServer S) (lambda : Int → DocumentStatus → Int → Bool) (id : Int) :
    accepts s lambda id = true ↔
      ∃ data, StdMap.find? s.documents_ id = some data ∧
        lambda id data.status data.rating = true := by
  unfold accepts
  cases StdMap.find? s.documents_ id with
  | none => simp
  | some data => simp

theorem FindTopDocuments_eq (log : R → R) (s : SearchServer R) (raw_query : Word) (query : Query)
    (lambda : Int → DocumentStatus → Int → Bool) (cands : List (Document R))
    (hq : ParseQuery s raw_query = .ok query)
    (hc : FindAllDocuments log s query lambda = .ok cands) :
    FindTopDocuments log s raw_query lambda =
      .ok (if (StdSort.sort FindTopDocuments.cmp cands).length > MAX_RESULT_DOCUMENT_COUNT then
        (StdSort.sort FindTopDocuments.cmp cands).take MAX_RESULT_DOCUMENT_COUNT
      else StdSort.sort FindTopDocuments.cmp cands) := by
  simp only [FindTopDocuments, hq, hc]
  split <;> rfl

end ranking

end SearchServer

namespace SearchServer

section claims

variable {R : Type} [LinearOrderedField R]

theorem FindTopDocuments.cmp_asymm (a b : Document R) (h : FindTopDocuments.cmp a b = true) :
    FindTopDocuments.cmp b a = false := by
  unfold FindTopDocuments.cmp at h ⊢
  rw [abs_sub_comm b.relevance a.relevance]
  split at h
  · rename_i hclose
    rw [if_pos hclose]
    have h1 : a.rating > b.rating := by simpa using h
    simp only [gt_iff_lt, decide_eq_false_iff_not, not_lt]
    exact le_of_lt h1
  · rename_i hclose
    rw [if_neg hclose]
    have h1 : a.relevance > b.relevance := by simpa using h
    simp only [gt_iff_lt, decide_eq_false_iff_not, not_lt]
    exact le_of_lt h1

theorem FindTopDocuments.ordered_of_cmp (a b : Document R)
    (h : FindTopDocuments.cmp b a = false) :
    if |a.relevance - b.relevance| < ACCURACY then a.rating ≥ b.rating
    else a.relevance > b.relevance := by
  unfold FindTopDocuments.cmp at h
  rw [abs_sub_comm b.relevance a.relevance] at h
  split
  · rename_i hclose
    rw [if_pos hclose] at h
    simpa using h
  · rename_i hclose
    rw [if_neg hclose] at h
    have h1 : b.relevance ≤ a.relevance := by simpa using h
    rcases lt_or_eq_of_le h1 with h2 | h2
    · exact h2
    · exfalso
      apply hclose
      rw [h2, sub_self, abs_zero]
      unfold ACCURACY
      positivity

theorem FindAllDocuments.addPostings_error (s : SearchServer R)
    (lambda : Int → DocumentStatus → Int → Bool) (idf : R) (postings : StdMap Int R)
    (acc : StdMap Int R) (e : Error)
    (h : FindAllDocuments.addPostings s lambda idf postings acc = .error e) :
    e = .out_of_range := by
  induction postings generalizing acc with
  | nil => cases h
  | cons p rest ih =>
    obtain ⟨pid, tf⟩ := p
    unfold FindAllDocuments.addPostings at h
    split at h
    · cases h; rfl
    · split at h
      · exact ih _ h
      · exact ih _ h

theorem FindAllDocuments.plusLoop_error (log : R → R) (s : SearchServer R)
    (lambda : Int → DocumentStatus → Int → Bool) (words : List Word) (acc : StdMap Int R)
    (e : Error) (h : FindAllDocuments.plusLoop log s lambda words acc = .error e) :
    e = .out_of_range := by
  induction words generalizing acc with
  | nil => cases h
  | cons t rest ih =>
    unfold FindAllDocuments.plusLoop at h
    split at h
    · exact ih _ h
    · split at h
      · rename_i hidf
        unfold ComputeWordInverseDocumentFreq at hidf
        split at hidf
        · cases hidf; cases h; rfl
        · cases hidf
      · split at h
        · rename_i hadd
          cases h
          exact FindAllDocuments.addPostings_error _ _ _ _ _ _ hadd
        · exact ih _ h

theorem FindAllDocuments.collect_error {S : Type} (s : SearchServer S) (acc : StdMap Int S) (e : Error)
    (h : FindAllDocuments.collect s acc = .error e) : e = .out_of_range := by
  induction acc with
  | nil => cases h
  | cons p rest ih =>
    obtain ⟨id, rel⟩ := p
    unfold FindAllDocuments.collect at h
    split at h
    · cases h; rfl
    · split at h
      · rename_i hrest
        cases h
        exact ih hrest
      · cases h

theorem FindAllDocuments_error (log : R → R) (s : SearchServer R) (query : Query)
    (lambda : Int → DocumentStatus → Int → Bool) (e : Error)
    (h : FindAllDocuments log s query lambda = .error e) : e = .out_of_range := by
  unfold FindAllDocuments at h
  split at h
  · rename_i hplus
    cases h
    exact FindAllDocuments.plusLoop_error _ _ _ _ _ _ hplus
  · exact FindAllDocuments.collect_error _ _ _ h

theorem ParseQuery_error {S : Type} (s : SearchServer S) (text : Word) (e : Error) :
    ParseQuery s text = .error e ↔
      e = .invalid_argument ∧
        ∃ word ∈ SplitIntoWords text, word = [45] ∨ [45, 45] <+: word ∨ ∃ c ∈ word, c.val < 32 := by
  rw [← ParseQuery.loop_error s (SplitIntoWords text) { plus_words := [], minus_words := [] } e]
  unfold ParseQuery
  split
  · rename_i e1 h1
    rw [h1]
  · rename_i q h1
    rw [h1]
    simp

theorem ParseQuery_ok {S : Type} (s : SearchServer S) (text : Word) (query : Query)
    (h : ParseQuery s text = .ok query) :
    ∃ q, ParseQuery.loop s (SplitIntoWords text) { plus_words := [], minus_words := [] } = .ok q ∧
      query.plus_words = StdSort.unique (StdSort.sort (fun a b => decide (a < b)) q.plus_words) ∧
      query.minus_words =
        StdSort.unique (StdSort.sort (fun a b => decide (a < b)) q.minus_words) := by
  unfold ParseQuery at h
  split at h
  · cases h
  · rename_i q h1
    cases h
    exact ⟨q, h1, rfl, rfl⟩

end claims

end SearchServer

/-! ## The fuel of `SplitIntoWords` -/

theorem Word.find_first_not_of.go_ge (c : Byte) (pos : Nat) (text : Word) (i j : Nat)
    (h : Word.find_first_not_of.go c pos text i = some j) : i ≤ j := by
  induction text generalizing i with
  | nil => cases h
  | cons b rest ih =>
    unfold Word.find_first_not_of.go at h
    split at h
    · cases h
      exact le_refl _
    · exact le_trans (Nat.le_succ i) (ih (i + 1) h)

/-- An iteration of the loop of `SplitIntoWords` removes at least one byte. -/
theorem SplitIntoWords.drop_pos (b : Byte) (rest : Word) :
    1 ≤ Pos.min (Word.find_first_not_of (b :: rest) 32 (Word.find 32 (b :: rest)))
      (b :: rest).length := by
  have hgo : ∀ pos, (pos ≥ 1 ∨ b = 32) →
      1 ≤ Pos.min (Word.find_first_not_of.go 32 pos (b :: rest) 0) (b :: rest).length := by
    intro pos hpos
    have hstep : Word.find_first_not_of.go 32 pos (b :: rest) 0 =
        Word.find_first_not_of.go 32 pos rest 1 := by
      have hne : ¬ (pos ≤ 0 ∧ b ≠ 32) := by
        rintro ⟨h1, h2⟩
        rcases hpos with h3 | h3
        · omega
        · exact h2 h3
      show (if pos ≤ 0 ∧ b ≠ 32 then some 0 else Word.find_first_not_of.go 32 pos rest (0 + 1)) = _
      rw [if_neg hne]
    rw [hstep]
    cases hr : Word.find_first_not_of.go 32 pos rest 1 with
    | none => simp [Pos.min]
    | some j =>
      have hj := Word.find_first_not_of.go_ge 32 pos rest 1 j hr
      simp only [Pos.min, List.length_cons]
      exact Nat.le_min.2 ⟨hj, by omega⟩
  unfold Word.find
  split
  · rename_i hb
    exact hgo 0 (Or.inr hb)
  · cases hf : Word.find 32 rest with
    | none => simp [Word.find_first_not_of, Pos.min]
    | some i => exact hgo (i + 1) (Or.inl (by omega))

/-- The loop of `SplitIntoWords` does not run out of fuel: with at least as much
fuel as the text has bytes the result does not depend on the fuel. -/
theorem SplitIntoWords.loop_fuel (fuel1 fuel2 : Nat) (text : Word)
    (h1 : text.length ≤ fuel1) (h2 : text.length ≤ fuel2) :
    SplitIntoWords.loop fuel1 text = SplitIntoWords.loop fuel2 text := by
  induction fuel1 generalizing fuel2 text with
  | zero =>
    have ht : text = [] := List.eq_nil_of_length_eq_zero (Nat.le_zero.1 h1)
    subst ht
    cases fuel2 with
    | zero => rfl
    | succ f => simp [SplitIntoWords.loop]
  | succ f ih =>
    cases text with
    | nil =>
      cases fuel2 with
      | zero => simp [SplitIntoWords.loop]
      | succ f2 => simp [SplitIntoWords.loop]
    | cons b rest =>
      cases fuel2 with
      | zero => simp at h2
      | succ f2 =>
        have hpos := SplitIntoWords.drop_pos b rest
        have hlen : ((b :: rest).drop (Pos.min (Word.find_first_not_of (b :: rest) 32
            (Word.find 32 (b :: rest))) (b :: rest).length)).length ≤ rest.length := by
          rw [List.length_drop]
          simp only [List.length_cons] at hpos ⊢
          omega
        simp only [List.length_cons] at h1 h2
        simp only [SplitIntoWords.loop, List.isEmpty_cons, Bool.false_eq_true, if_false]
        rw [ih f2 _ (by omega) (by omega)]

/-! ## The claims -/

namespace SearchServer

section ranking_claims

variable {R : Type} [LinearOrderedField R]

/-- C1, on the states of `Intact`. On a state reached by successful calls of
`AddDocument` and `RemoveDocument` in which every key of the inverted index views the
text of a stored document, so that the lookups of the code are those of the
embedding, and for a query that parses, `FindAllDocuments` returns; a document id is among
its candidates exactly when the document is stored, one of its non-stop words is
a plus-word, the predicate holds of its id, stored status and stored rating, and
none of its non-stop words is a minus-word; no id occurs twice; and when at most
five documents qualify, `FindTopDocuments` returns exactly the candidates, in some
order. -/
theorem FindAllDocuments_candidates (log : R → R) (stop_words : StdSet Word) (corpus : Corpus)
    (views : StdMap Word Int) (s : SearchServer R) (raw_query : Word) (query : Query)
    (lambda : Int → DocumentStatus → Int → Bool)
    (hintact : Intact stop_words corpus views s) (hq : ParseQuery s raw_query = .ok query) :
    ∃ cands, FindAllDocuments log s query lambda = .ok cands ∧
      (∀ id, id ∈ cands.map (fun d => d.id) ↔
        ∃ data, StdMap.find? s.documents_ id = some data ∧
          (∃ w ∈ SplitIntoWordsNoStop s data.data, w ∈ query.plus_words) ∧
          lambda id data.status data.rating = true ∧
          ∀ w ∈ SplitIntoWordsNoStop s data.data, w ∉ query.minus_words) ∧
      (cands.map (fun d => d.id)).Nodup ∧
      (cands.length ≤ MAX_RESULT_DOCUMENT_COUNT →
        ∃ top, FindTopDocuments log s raw_query lambda = .ok top ∧ top.Perm cands) := by
  have hinv := hintact.to_reachable.inv
  obtain ⟨cands, h1, h2, h3, _⟩ := FindAllDocuments_spec log hinv query lambda
  refine ⟨cands, h1, ?_, h2, ?_⟩
  · intro id
    rw [h3 id, accepts_iff]
    constructor
    · rintro ⟨⟨⟨data, hd, hl⟩, w, hw, hin⟩, hminus⟩
      refine ⟨data, hd, ?_, hl, ?_⟩
      · obtain ⟨data1, hd1, hw1⟩ := (hinv.index_store w id).1 hin
        rw [hd] at hd1
        cases hd1
        exact ⟨w, hw1, hw⟩
      · intro w1 hw1 hm
        exact hminus ⟨w1, hm, (hinv.index_store w1 id).2 ⟨data, hd, hw1⟩⟩
    · rintro ⟨data, hd, ⟨w, hw, hp⟩, hl, hminus⟩
      refine ⟨⟨⟨data, hd, hl⟩, w, hp, (hinv.index_store w id).2 ⟨data, hd, hw⟩⟩, ?_⟩
      rintro ⟨w1, hm, hin⟩
      obtain ⟨data1, hd1, hw1⟩ := (hinv.index_store w1 id).1 hin
      rw [hd] at hd1
      cases hd1
      exact hminus w1 hw1 hm
  · intro hlen
    refine ⟨StdSort.sort FindTopDocuments.cmp cands, ?_, StdSort.perm_sort _ _⟩
    rw [FindTopDocuments_eq log s raw_query query lambda cands hq h1, StdSort.length_sort]
    rw [if_neg (not_lt.2 hlen)]

end ranking_claims

end SearchServer

theorem testServer_built_rat :
    SearchServer.Built [ascii "in", ascii "the"] testCorpus (testServer ℚ) :=
  SearchServer.Built.add 2 (ascii "pretty cat in the city") .ACTUAL [5, 5, 4]
    (SearchServer.Built.add 1 (ascii "pretty dog in the city") .ACTUAL [4, 2, 3]
      (SearchServer.Built.add 11 (ascii "dog in the city scary") .ACTUAL [1, 1, 1]
        (SearchServer.Built.add 42 (ascii "cat in the city") .ACTUAL [1, 5, 2]
          SearchServer.Built.init (by decide!)) (by decide!)) (by decide!)) (by decide!)

theorem testServer_built_real :
    SearchServer.Built [ascii "in", ascii "the"] testCorpus (testServer ℝ) :=
  SearchServer.Built.add 2 (ascii "pretty cat in the city") .ACTUAL [5, 5, 4]
    (SearchServer.Built.add 1 (ascii "pretty dog in the city") .ACTUAL [4, 2, 3]
      (SearchServer.Built.add 11 (ascii "dog in the city scary") .ACTUAL [1, 1, 1]
        (SearchServer.Built.add 42 (ascii "cat in the city") .ACTUAL [1, 5, 2]
          SearchServer.Built.init (by decide!)) (by decide!)) (by decide!)) (by decide!)

theorem testServer_intact :
    SearchServer.Intact [ascii "in", ascii "the"] testCorpus testViews (testServer ℚ) :=
  SearchServer.Intact.add 2 (ascii "pretty cat in the city") .ACTUAL [5, 5, 4]
    (SearchServer.Intact.add 1 (ascii "pretty dog in the city") .ACTUAL [4, 2, 3]
      (SearchServer.Intact.add 11 (ascii "dog in the city scary") .ACTUAL [1, 1, 1]
        (SearchServer.Intact.add 42 (ascii "cat in the city") .ACTUAL [1, 5, 2]
          SearchServer.Intact.init (by decide!)) (by decide!)) (by decide!)) (by decide!)

theorem testViews_eq :
    testViews = [(ascii "cat", 42), (ascii "city", 42), (ascii "dog", 11), (ascii "pretty", 1),
      (ascii "scary", 11)] := by
  decide!

theorem FindAllDocuments_candidates_witness :
    ∃ cands, SearchServer.FindAllDocuments (fun x => x) (testServer ℚ) testQuery
        (fun _ status _ => status == .ACTUAL) = .ok cands ∧
      (∀ id, id ∈ cands.map (fun d => d.id) ↔
        ∃ data, StdMap.find? (testServer ℚ).documents_ id = some data ∧
          (∃ w ∈ SearchServer.SplitIntoWordsNoStop (testServer ℚ) data.data,
            w ∈ testQuery.plus_words) ∧
          (data.status == .ACTUAL) = true ∧
          ∀ w ∈ SearchServer.SplitIntoWordsNoStop (testServer ℚ) data.data,
            w ∉ testQuery.minus_words) ∧
      (cands.map (fun d => d.id)).Nodup ∧
      (cands.length ≤ MAX_RESULT_DOCUMENT_COUNT →
        ∃ top, SearchServer.FindTopDocuments (fun x => x) (testServer ℚ)
          (ascii "cat dog -pretty scary") (fun _ status _ => status == .ACTUAL) = .ok top ∧
          top.Perm cands) :=
  SearchServer.FindAllDocuments_candidates (fun x => x) [ascii "in", ascii "the"] testCorpus
    testViews (testServer ℚ) (ascii "cat dog -pretty scary") testQuery
    (fun _ status _ => status == .ACTUAL) testServer_intact rfl

namespace SearchServer

section ranking_claims

variable {R : Type} [LinearOrderedField R]

/-- C5, on the states of `Intact`. On a state reached by successful calls of
`AddDocument` and `RemoveDocument` in which every key of the inverted index views the
text of a stored document, so that the lookups of the code are those of the
embedding, and for a query that parses, `FindTopDocuments` returns, and no document that it
returns has a minus-word of the query among its non-stop words, whether or not
the word is a plus-word of the query as well. -/
theorem FindTopDocuments_no_minus_word (log : R → R) (stop_words : StdSet Word)
    (corpus : Corpus) (views : StdMap Word Int) (s : SearchServer R) (raw_query : Word)
    (query : Query) (lambda : Int → DocumentStatus → Int → Bool)
    (hintact : Intact stop_words corpus views s) (hq : ParseQuery s raw_query = .ok query) :
    ∃ top, FindTopDocuments log s raw_query lambda = .ok top ∧
      ∀ d ∈ top, ∃ data, StdMap.find? s.documents_ d.id = some data ∧
        ∀ w ∈ query.minus_words, w ∉ SplitIntoWordsNoStop s data.data := by
  have hinv := hintact.to_reachable.inv
  obtain ⟨cands, h1, _, h3, h4⟩ := FindAllDocuments_spec log hinv query lambda
  refine ⟨_, FindTopDocuments_eq log s raw_query query lambda cands hq h1, ?_⟩
  intro d hd
  have hmem : d ∈ cands := by
    rw [← StdSort.mem_sort FindTopDocuments.cmp cands d]
    split at hd
    · exact List.mem_of_mem_take hd
    · exact hd
  obtain ⟨⟨data, hdata, _⟩, _⟩ := h4 d hmem
  refine ⟨data, hdata, ?_⟩
  intro w hw hin
  have hid : d.id ∈ cands.map (fun d => d.id) := List.mem_map.2 ⟨d, hmem, rfl⟩
  exact ((h3 d.id).1 hid).2 ⟨w, hw, (hinv.index_store w d.id).2 ⟨data, hdata, hin⟩⟩

end ranking_claims

end SearchServer

theorem FindTopDocuments_no_minus_word_witness :
    ∃ top, SearchServer.FindTopDocuments (fun x => x) (testServer ℚ)
        (ascii "cat -cat dog") (fun _ _ _ => true) = .ok top ∧
      ∀ d ∈ top, ∃ data, StdMap.find? (testServer ℚ).documents_ d.id = some data ∧
        ∀ w ∈ [ascii "cat"], w ∉ SearchServer.SplitIntoWordsNoStop (testServer ℚ) data.data :=
  SearchServer.FindTopDocuments_no_minus_word (fun x => x) [ascii "in", ascii "the"] testCorpus
    testViews (testServer ℚ) (ascii "cat -cat dog")
    { plus_words := [ascii "cat", ascii "dog"], minus_words := [ascii "cat"] }
    (fun _ _ _ => true) testServer_intact rfl

namespace SearchServer

section matching

variable {R : Type} [LinearOrderedField R]

theorem AddDocument.loop_frame (n : Nat) (document_id : Int) (words : List Word)
    (s : SearchServer R) :
    (AddDocument.loop n document_id words s).1.documents_ = s.documents_ ∧
    (AddDocument.loop n document_id words s).1.docs_id_ = s.docs_id_ := by
  induction words generalizing s with
  | nil => exact ⟨rfl, rfl⟩
  | cons t rest ih =>
    unfold AddDocument.loop
    split
    · exact ⟨rfl, rfl⟩
    · exact ih _

/-- Every live id is a key of the document store, whatever calls were made. -/
theorem Ran.live_stored {stop_words : StdSet Word} {s : SearchServer R}
    (h : Ran stop_words s) : ∀ id ∈ s.docs_id_, StdMap.contains s.documents_ id = true := by
  induction h with
  | init => intro id hid; cases hid
  | @add s document_id document status ratings _ ih =>
    unfold AddDocument
    split
    · exact ih
    · split
      · exact ih
      · have hf := AddDocument.loop_frame
          (SplitIntoWordsNoStop ({ s with
            documents_ :=
              StdMap.emplace document_id
                { rating := ComputeAverageRating ratings, status := status, data := document }
                s.documents_ } : SearchServer R) document).length document_id
          (SplitIntoWordsNoStop ({ s with
            documents_ :=
              StdMap.emplace document_id
                { rating := ComputeAverageRating ratings, status := status, data := document }
                s.documents_ } : SearchServer R) document)
          ({ s with
            documents_ :=
              StdMap.emplace document_id
                { rating := ComputeAverageRating ratings, status := status, data := document }
                s.documents_ } : SearchServer R)
        simp only
        generalize AddDocument.loop (R := R) _ document_id _ _ = r at hf ⊢
        obtain ⟨s2, e⟩ := r
        obtain ⟨hf1, hf2⟩ := hf
        simp only at hf1 hf2
        have hsub : ∀ id, StdMap.contains s.documents_ id = true →
            StdMap.contains s2.documents_ id = true := by
          intro id hid
          rw [hf1]
          unfold StdMap.contains at hid ⊢
          rw [StdMap.find?_emplace]
          split
          · rfl
          · exact hid
        cases e with
        | some e =>
          intro id hid
          simp only at hid ⊢
          rw [hf2] at hid
          exact hsub id (ih id hid)
        | none =>
          intro id hid
          simp only at hid ⊢
          rw [hf2, StdSet.mem_insert] at hid
          rcases hid with hid | hid
          · subst hid
            rw [hf1]
            unfold StdMap.contains
            rw [StdMap.find?_emplace]
            simp
          · exact hsub id (ih id hid)
  | @remove s document_id _ ih =>
    unfold RemoveDocument
    simp only
    generalize RemoveDocument.loop (R := R) document_id _ _ = r
    obtain ⟨index, e⟩ := r
    cases e with
    | some e => exact ih
    | none =>
      intro id hid
      simp only at hid ⊢
      rw [StdSet.mem_erase] at hid
      rw [StdMap.contains_erase]
      exact ⟨hid.1, ih id hid.2⟩

theorem Reachable.ran {stop_words : StdSet Word} {corpus : Corpus} {s : SearchServer R}
    (h : Reachable stop_words corpus s) : Ran stop_words s := by
  induction h with
  | init => exact Ran.init
  | add document_id document status ratings _ _ ih => exact Ran.add _ _ _ _ ih
  | remove document_id _ _ ih => exact Ran.remove _ ih

/-- C6, on the states of `Intact`. On a state reached by successful calls of
`AddDocument` and `RemoveDocument` in which every key of the inverted index views the
text of a stored document, so that the lookups of the code are those of the
embedding, for a live document id and a query that parses: the document is one the server
holds; if a minus-word of the query is one of its non-stop words, `MatchDocument`
returns no word; otherwise it returns exactly the plus-words of the query that are
non-stop words of the document, in strictly ascending order; in both cases it
returns the status the document was added with. -/
theorem MatchDocument_result (stop_words : StdSet Word) (corpus : Corpus)
    (views : StdMap Word Int) (s : SearchServer R)
    (raw_query : Word) (query : Query) (document_id : Int)
    (hintact : Intact stop_words corpus views s) (hlive : document_id ∈ s.docs_id_)
    (hq : ParseQuery s raw_query = .ok query) :
    ∃ a, corpus document_id = some a ∧
      ((∃ w ∈ query.minus_words, w ∈ SplitIntoWordsNoStop s a.document) →
        MatchDocument s raw_query document_id = .ok ([], a.status)) ∧
      ((¬ ∃ w ∈ query.minus_words, w ∈ SplitIntoWordsNoStop s a.document) →
        ∃ words, MatchDocument s raw_query document_id = .ok (words, a.status) ∧
          (∀ w, w ∈ words ↔ w ∈ query.plus_words ∧ w ∈ SplitIntoWordsNoStop s a.document) ∧
          words.Pairwise (· < ·)) := by
  have hinv := hintact.to_reachable.inv
  have hsome := (hinv.live document_id).1 hlive
  obtain ⟨a, ha⟩ := Option.isSome_iff_exists.1 hsome
  have hdoc : StdMap.find? s.documents_ document_id = some (stored a) := by
    rw [hinv.docs document_id, ha]
    rfl
  have hin : ∀ w, inPostings s w document_id = true ↔ w ∈ SplitIntoWordsNoStop s a.document := by
    intro w
    rw [hinv.index w document_id]
    constructor
    · rintro ⟨a1, ha1, hw⟩
      rw [ha] at ha1
      cases ha1
      exact hw
    · intro hw
      exact ⟨a, ha, hw⟩
  have hcontains : StdSet.contains s.docs_id_ document_id = true := by
    simpa [StdSet.contains] using hlive
  refine ⟨a, ha, ?_, ?_⟩
  · rintro ⟨w, hw, hwa⟩
    have hany : query.minus_words.any (fun word => inPostings s word document_id) = true :=
      List.any_eq_true.2 ⟨w, hw, (hin w).2 hwa⟩
    simp only [MatchDocument, hcontains, Bool.not_true, Bool.false_eq_true, if_false, hq, hany,
      if_true, hdoc]
    rfl
  · intro hnone
    have hany : query.minus_words.any (fun word => inPostings s word document_id) = false := by
      rw [Bool.eq_false_iff]
      intro h
      obtain ⟨w, hw, hwin⟩ := List.any_eq_true.1 h
      exact hnone ⟨w, hw, (hin w).1 hwin⟩
    refine ⟨query.plus_words.filter (fun word => inPostings s word document_id), ?_, ?_, ?_⟩
    · simp only [MatchDocument, hcontains, Bool.not_true, Bool.false_eq_true, if_false, hq, hany,
        hdoc]
      rfl
    · intro w
      rw [List.mem_filter, hin w]
    · obtain ⟨q, _, hplus, _⟩ := ParseQuery_ok s raw_query query hq
      have hsorted : query.plus_words.Pairwise (· < ·) := by
        rw [hplus]
        exact StdSort.strict_unique _ (StdSort.sorted_sort q.plus_words)
      exact hsorted.filter _

/-- C7. On a state that calls of `AddDocument` and `RemoveDocument` reach, whether
they returned or threw: `MatchDocument` throws `out_of_range` exactly when the id
is not live, whatever the query; for a live id it throws `invalid_argument`
exactly when a word of the query is `-`, begins with `--` or has a byte below
`0x20`; and for a live id and any other query it returns. -/
theorem MatchDocument_errors (stop_words : StdSet Word) (s : SearchServer R) (raw_query : Word)
    (document_id : Int) (hs : Ran stop_words s) :
    (MatchDocument s raw_query document_id = .error .out_of_range ↔ document_id ∉ s.docs_id_) ∧
    (document_id ∈ s.docs_id_ →
      (MatchDocument s raw_query document_id = .error .invalid_argument ↔
        ∃ word ∈ SplitIntoWords raw_query,
          word = [45] ∨ [45, 45] <+: word ∨ ∃ c ∈ word, c.val < 32)) ∧
    (document_id ∈ s.docs_id_ →
      (¬ ∃ word ∈ SplitIntoWords raw_query,
          word = [45] ∨ [45, 45] <+: word ∨ ∃ c ∈ word, c.val < 32) →
      ∃ result, MatchDocument s raw_query document_id = .ok result) := by
  by_cases hlive : document_id ∈ s.docs_id_
  · have hcontains : StdSet.contains s.docs_id_ document_id = true := by
      simpa [StdSet.contains] using hlive
    obtain ⟨data, hdata⟩ := (StdMap.contains_iff _ _).1 (hs.live_stored document_id hlive)
    cases hq : ParseQuery s raw_query with
    | error e =>
      have he := (ParseQuery_error s raw_query e).1 hq
      obtain ⟨he1, hbad⟩ := he
      subst he1
      have hm : MatchDocument s raw_query document_id = .error .invalid_argument := by
        simp only [MatchDocument, hcontains, Bool.not_true, Bool.false_eq_true, if_false, hq]
      rw [hm]
      refine ⟨?_, ?_, ?_⟩
      · simp [hlive]
      · intro _
        simp only [true_iff]
        exact hbad
      · intro _ hgood
        exact absurd hbad hgood
    | ok query =>
      have hgood : ¬ ∃ word ∈ SplitIntoWords raw_query,
          word = [45] ∨ [45, 45] <+: word ∨ ∃ c ∈ word, c.val < 32 := by
        intro hbad
        have h1 := (ParseQuery_error s raw_query .invalid_argument).2 ⟨rfl, hbad⟩
        rw [hq] at h1
        cases h1
      have hm : ∃ result, MatchDocument s raw_query document_id = .ok result := by
        simp only [MatchDocument, hcontains, Bool.not_true, Bool.false_eq_true, if_false, hq, hdata]
        split
        · exact ⟨_, rfl⟩
        · exact ⟨_, rfl⟩
      obtain ⟨result, hres⟩ := hm
      rw [hres]
      refine ⟨?_, ?_, ?_⟩
      · simp [hlive]
      · intro _
        constructor
        · intro h; cases h
        · intro h; exact absurd h hgood
      · intro _ _
        exact ⟨result, rfl⟩
  · have hcontains : StdSet.contains s.docs_id_ document_id = false := by
      simpa [StdSet.contains] using hlive
    have hm : MatchDocument s raw_query document_id = .error .out_of_range := by
      simp only [MatchDocument, hcontains, Bool.not_false, if_true]
    rw [hm]
    refine ⟨?_, ?_, ?_⟩
    · simp [hlive]
    · intro h; exact absurd h hlive
    · intro h; exact absurd h hlive

end matching

end SearchServer

theorem MatchDocument_result_witness :
    ∃ a, testCorpus 11 = some a ∧
      ((∃ w ∈ testQuery.minus_words, w ∈ SearchServer.SplitIntoWordsNoStop (testServer ℚ) a.document) →
        SearchServer.MatchDocument (testServer ℚ) (ascii "cat dog -pretty scary") 11 =
          .ok ([], a.status)) ∧
      ((¬ ∃ w ∈ testQuery.minus_words,
          w ∈ SearchServer.SplitIntoWordsNoStop (testServer ℚ) a.document) →
        ∃ words, SearchServer.MatchDocument (testServer ℚ) (ascii "cat dog -pretty scary") 11 =
            .ok (words, a.status) ∧
          (∀ w, w ∈ words ↔ w ∈ testQuery.plus_words ∧
            w ∈ SearchServer.SplitIntoWordsNoStop (testServer ℚ) a.document) ∧
          words.Pairwise (· < ·)) :=
  SearchServer.MatchDocument_result [ascii "in", ascii "the"] testCorpus testViews (testServer ℚ)
    (ascii "cat dog -pretty scary") testQuery 11 testServer_intact (by decide!) rfl

theorem MatchDocument_errors_witness :
    (SearchServer.MatchDocument (testServer ℚ) (ascii "cat --dog") 7 = .error .out_of_range ↔
      (7 : Int) ∉ (testServer ℚ).docs_id_) ∧
    ((7 : Int) ∈ (testServer ℚ).docs_id_ →
      (SearchServer.MatchDocument (testServer ℚ) (ascii "cat --dog") 7 = .error .invalid_argument ↔
        ∃ word ∈ SplitIntoWords (ascii "cat --dog"),
          word = [45] ∨ [45, 45] <+: word ∨ ∃ c ∈ word, c.val < 32)) ∧
    ((7 : Int) ∈ (testServer ℚ).docs_id_ →
      (¬ ∃ word ∈ SplitIntoWords (ascii "cat --dog"),
          word = [45] ∨ [45, 45] <+: word ∨ ∃ c ∈ word, c.val < 32) →
      ∃ result, SearchServer.MatchDocument (testServer ℚ) (ascii "cat --dog") 7 = .ok result) :=
  SearchServer.MatchDocument_errors [ascii "in", ascii "the"] (testServer ℚ) (ascii "cat --dog") 7
    testServer_built_rat.reachable.ran

namespace SearchServer

section parser_claims

variable {R : Type} [LinearOrderedField R]

/-- C8. `ParseQuery` throws `invalid_argument`, and nothing else, exactly when a
word of the text is `-`, begins with `--` or has a byte in `0x00..0x1F`; on every
other text it returns a query. `FindTopDocuments` throws `invalid_argument` in
exactly the same case, and so does `MatchDocument` for a live id. -/
theorem ParseQuery_invalid_argument (log : R → R) (s : SearchServer R) (raw_query : Word) :
    (ParseQuery s raw_query = .error .invalid_argument ↔
      ∃ word ∈ SplitIntoWords raw_query,
        word = [45] ∨ [45, 45] <+: word ∨ ∃ c ∈ word, c.val < 32) ∧
    (∀ e, ParseQuery s raw_query = .error e → e = .invalid_argument) ∧
    ((¬ ∃ word ∈ SplitIntoWords raw_query,
        word = [45] ∨ [45, 45] <+: word ∨ ∃ c ∈ word, c.val < 32) →
      ∃ query, ParseQuery s raw_query = .ok query) ∧
    (∀ lambda, FindTopDocuments log s raw_query lambda = .error .invalid_argument ↔
      ∃ word ∈ SplitIntoWords raw_query,
        word = [45] ∨ [45, 45] <+: word ∨ ∃ c ∈ word, c.val < 32) ∧
    (∀ document_id, document_id ∈ s.docs_id_ →
      (MatchDocument s raw_query document_id = .error .invalid_argument ↔
        ∃ word ∈ SplitIntoWords raw_query,
          word = [45] ∨ [45, 45] <+: word ∨ ∃ c ∈ word, c.val < 32)) := by
  have hiff : ParseQuery s raw_query = .error .invalid_argument ↔
      ∃ word ∈ SplitIntoWords raw_query,
        word = [45] ∨ [45, 45] <+: word ∨ ∃ c ∈ word, c.val < 32 := by
    rw [ParseQuery_error]
    simp
  have hkind : ∀ e, ParseQuery s raw_query = .error e → e = .invalid_argument :=
    fun e he => ((ParseQuery_error s raw_query e).1 he).1
  refine ⟨hiff, hkind, ?_, ?_, ?_⟩
  · intro hgood
    cases hq : ParseQuery s raw_query with
    | error e =>
      have he := hkind e hq
      subst he
      exact absurd (hiff.1 hq) hgood
    | ok query => exact ⟨query, rfl⟩
  · intro lambda
    rw [← hiff]
    unfold FindTopDocuments
    cases hq : ParseQuery s raw_query with
    | error e => simp
    | ok query =>
      simp only
      cases hc : FindAllDocuments log s query lambda with
      | error e =>
        have he := FindAllDocuments_error log s query lambda e hc
        subst he
        simp
      | ok cands =>
        simp only
        split <;> simp
  · intro document_id hlive
    rw [← hiff]
    have hcontains : StdSet.contains s.docs_id_ document_id = true := by
      simpa [StdSet.contains] using hlive
    simp only [MatchDocument, hcontains, Bool.not_true, Bool.false_eq_true, if_false]
    cases hq : ParseQuery s raw_query with
    | error e => simp
    | ok query =>
      simp only
      split
      · split <;> simp
      · split <;> simp

/-- C9. For a query text that parses: the plus-words of the query are the words of
the text that do not begin with `-` and are no stop-words; the minus-words are
the words `w` such that `-w` is a word of the text and `w` is no stop-word; so no
stop-word is a word of the query. -/
theorem ParseQuery_words {S : Type} (s : SearchServer S) (raw_query : Word) (query : Query)
    (hq : ParseQuery s raw_query = .ok query) (w : Word) :
    (w ∈ query.plus_words ↔
      w ∈ SplitIntoWords raw_query ∧ w.head? ≠ some 45 ∧ w ∉ s.stop_words_) ∧
    (w ∈ query.minus_words ↔ (45 :: w) ∈ SplitIntoWords raw_query ∧ w ∉ s.stop_words_) ∧
    (w ∈ s.stop_words_ → w ∉ query.plus_words ∧ w ∉ query.minus_words) := by
  obtain ⟨q, hloop, hplus, hminus⟩ := ParseQuery_ok s raw_query query hq
  have h := ParseQuery.loop_ok s (SplitIntoWords raw_query) _ q hloop w
  have hstop : IsStopWord s w = false ↔ w ∉ s.stop_words_ := by
    simp [IsStopWord, StdSet.contains]
  have h1 : w ∈ query.plus_words ↔
      w ∈ SplitIntoWords raw_query ∧ w.head? ≠ some 45 ∧ w ∉ s.stop_words_ := by
    rw [hplus, StdSort.mem_unique, StdSort.mem_sort, h.1, hstop]
    simp
  have h2 : w ∈ query.minus_words ↔ (45 :: w) ∈ SplitIntoWords raw_query ∧ w ∉ s.stop_words_ := by
    rw [hminus, StdSort.mem_unique, StdSort.mem_sort, h.2, hstop]
    simp
  refine ⟨h1, h2, ?_⟩
  intro hw
  exact ⟨fun hp => (h1.1 hp).2.2 hw, fun hm => (h2.1 hm).2 hw⟩

/-- C10. For a query text that parses, the plus-words and the minus-words of the
query are each strictly ascending in the lexicographic order of their bytes, and
so neither list has a word twice. -/
theorem ParseQuery_sorted {S : Type} (s : SearchServer S) (raw_query : Word) (query : Query)
    (hq : ParseQuery s raw_query = .ok query) :
    query.plus_words.Pairwise (· < ·) ∧ query.minus_words.Pairwise (· < ·) ∧
    query.plus_words.Nodup ∧ query.minus_words.Nodup := by
  obtain ⟨q, _, hplus, hminus⟩ := ParseQuery_ok s raw_query query hq
  have h1 : query.plus_words.Pairwise (· < ·) := by
    rw [hplus]
    exact StdSort.strict_unique _ (StdSort.sorted_sort q.plus_words)
  have h2 : query.minus_words.Pairwise (· < ·) := by
    rw [hminus]
    exact StdSort.strict_unique _ (StdSort.sorted_sort q.minus_words)
  exact ⟨h1, h2, h1.imp (fun hab => ne_of_lt hab), h2.imp (fun hab => ne_of_lt hab)⟩

end parser_claims

end SearchServer

theorem ParseQuery_invalid_argument_witness :
    SearchServer.ParseQuery (testServer ℚ) (ascii "cat --dog") = .error .invalid_argument ∧
    (∃ query, SearchServer.ParseQuery (testServer ℚ) [99, 128, 127, 32, 45, 255] = .ok query) :=
  ⟨((SearchServer.ParseQuery_invalid_argument (fun x => x) (testServer ℚ) (ascii "cat --dog")).1).2
      ⟨ascii "--dog", by decide, Or.inr (Or.inl (by decide))⟩,
    (SearchServer.ParseQuery_invalid_argument (fun x => x) (testServer ℚ)
      [99, 128, 127, 32, 45, 255]).2.2.1 (by decide)⟩

theorem ParseQuery_words_witness :
    (ascii "dog" ∈ [ascii "cat", ascii "dog"] ↔
      ascii "dog" ∈ SplitIntoWords (ascii "dog -the in cat -city dog") ∧
        (ascii "dog").head? ≠ some 45 ∧ ascii "dog" ∉ (testServer ℚ).stop_words_) ∧
    (ascii "dog" ∈ [ascii "city"] ↔
      (45 :: ascii "dog") ∈ SplitIntoWords (ascii "dog -the in cat -city dog") ∧
        ascii "dog" ∉ (testServer ℚ).stop_words_) ∧
    (ascii "dog" ∈ (testServer ℚ).stop_words_ →
      ascii "dog" ∉ [ascii "cat", ascii "dog"] ∧ ascii "dog" ∉ [ascii "city"]) :=
  SearchServer.ParseQuery_words (testServer ℚ) (ascii "dog -the in cat -city dog")
    { plus_words := [ascii "cat", ascii "dog"], minus_words := [ascii "city"] } rfl (ascii "dog")

theorem ParseQuery_sorted_witness :
    [ascii "cat", ascii "dog"].Pairwise (· < ·) ∧ [ascii "city"].Pairwise (· < ·) ∧
    [ascii "cat", ascii "dog"].Nodup ∧ [ascii "city"].Nodup :=
  SearchServer.ParseQuery_sorted (testServer ℚ) (ascii "dog -the in cat -city dog")
    { plus_words := [ascii "cat", ascii "dog"], minus_words := [ascii "city"] } rfl

namespace SearchServer

section relevance

variable {R : Type} [LinearOrderedField R]

/-- The postings of a word hold one entry for each stored document that has the
word. -/
theorem Inv.postings_length {stop_words : StdSet Word} {corpus : Corpus} {s : SearchServer R}
    (hs : Inv stop_words corpus s) (w : Word) (postings : StdMap Int R)
    (hf : StdMap.find? s.word_to_document_freqs_ w = some postings) :
    postings.length = documentsWith s w := by
  have h1 : (StdMap.keys postings).Nodup := hs.postings w postings hf
  have h2 : (StdMap.keys
      (s.documents_.filter (fun p => decide (w ∈ SplitIntoWordsNoStop s p.2.data)))).Nodup := by
    unfold StdMap.keys
    exact (List.Sublist.map Prod.fst (List.filter_sublist s.documents_)).nodup hs.nodup
  have hperm : (StdMap.keys postings).Perm (StdMap.keys
      (s.documents_.filter (fun p => decide (w ∈ SplitIntoWordsNoStop s p.2.data)))) := by
    rw [List.perm_ext_iff_of_nodup h1 h2]
    intro id
    rw [StdMap.mem_keys_iff, ← inPostings_of_find? s w postings hf id, hs.index_store w id]
    unfold StdMap.keys
    rw [List.mem_map]
    constructor
    · rintro ⟨data, hd, hw⟩
      refine ⟨(id, data), ?_, rfl⟩
      rw [List.mem_filter]
      exact ⟨StdMap.find?_mem _ _ _ hd, by simpa using hw⟩
    · rintro ⟨⟨id1, data⟩, hmem, hid⟩
      simp only at hid
      subst hid
      rw [List.mem_filter] at hmem
      exact ⟨data, StdMap.find?_of_mem _ hs.nodup _ _ hmem.1, by simpa using hmem.2⟩
  have hlen := hperm.length_eq
  unfold StdMap.keys at hlen
  rw [List.length_map, List.length_map] at hlen
  exact hlen

/-- The term of a plus-word in the relevance of a stored document: the share of
the word among the non-stop words of the document, times the logarithm of the
number of documents divided by the number of documents that have the word. -/
theorem Inv.termRelevance_eq (log : R → R) {stop_words : StdSet Word} {corpus : Corpus}
    {s : SearchServer R} (hs : Inv stop_words corpus s) (id : Int) (a : Added)
    (ha : corpus id = some a) (w : Word) :
    termRelevance log s id w =
      if w ∈ SplitIntoWordsNoStop s a.document then
        ((SplitIntoWordsNoStop s a.document).count w : R) /
            ((SplitIntoWordsNoStop s a.document).length : R) *
          log ((GetDocumentCount s : R) / (documentsWith s w : R))
      else 0 := by
  have hin : inPostings s w id = true ↔ w ∈ SplitIntoWordsNoStop s a.document := by
    rw [hs.index w id]
    constructor
    · rintro ⟨a1, ha1, hw⟩
      rw [ha] at ha1
      cases ha1
      exact hw
    · intro hw
      exact ⟨a, ha, hw⟩
  by_cases hw : w ∈ SplitIntoWordsNoStop s a.document
  · rw [if_pos hw]
    have hp := hin.2 hw
    unfold inPostings at hp
    obtain ⟨x, hx⟩ := Option.isSome_iff_exists.1 hp
    obtain ⟨a1, ha1, hx1⟩ := hs.term_freq w id x hx
    rw [ha] at ha1
    cases ha1
    unfold StdMap.find2? at hx
    unfold termRelevance
    cases hf : StdMap.find? s.word_to_document_freqs_ w with
    | none => rw [hf] at hx; cases hx
    | some postings =>
      rw [hf] at hx
      simp only at hx ⊢
      rw [hx, hs.postings_length w postings hf, hx1, mul_one]
  · rw [if_neg hw]
    apply termRelevance_of_not_inPostings
    cases hc : inPostings s w id with
    | false => rfl
    | true => exact absurd (hin.1 hc) hw

theorem sum_map_filter_zero {α : Type} (l : List α) (p : α → Bool) (f g : α → R)
    (h : ∀ x ∈ l, f x = if p x = true then g x else 0) :
    (l.map f).sum = ((l.filter p).map g).sum := by
  induction l with
  | nil => rfl
  | cons x rest ih =>
    have hx := h x (List.mem_cons_self _ _)
    have hrest := ih (fun y hy => h y (List.mem_cons_of_mem _ hy))
    rw [List.map_cons, List.sum_cons, hrest, hx]
    cases hp : p x with
    | true => simp [List.filter, hp]
    | false => simp [List.filter, hp]

/-- The relevance and the rating of every document that `FindTopDocuments`
returns, on a state that satisfies the invariant. -/
theorem FindTopDocuments_spec (log : R → R) {stop_words : StdSet Word} {corpus : Corpus}
    {s : SearchServer R} (hs : Inv stop_words corpus s) (raw_query : Word) (query : Query)
    (lambda : Int → DocumentStatus → Int → Bool) (hq : ParseQuery s raw_query = .ok query) :
    ∃ top, FindTopDocuments log s raw_query lambda = .ok top ∧
      ∀ d ∈ top, ∃ a, corpus d.id = some a ∧
        d.rating = ComputeAverageRating a.ratings ∧
        d.relevance =
          ((query.plus_words.filter
              (fun w => decide (w ∈ SplitIntoWordsNoStop s a.document))).map
            (fun w =>
              ((SplitIntoWordsNoStop s a.document).count w : R) /
                  ((SplitIntoWordsNoStop s a.document).length : R) *
                log ((GetDocumentCount s : R) / (documentsWith s w : R)))).sum := by
  obtain ⟨cands, h1, _, _, h4⟩ := FindAllDocuments_spec log hs query lambda
  refine ⟨_, FindTopDocuments_eq log s raw_query query lambda cands hq h1, ?_⟩
  intro d hd
  have hmem : d ∈ cands := by
    rw [← StdSort.mem_sort FindTopDocuments.cmp cands d]
    split at hd
    · exact List.mem_of_mem_take hd
    · exact hd
  obtain ⟨⟨data, hdata, hrating⟩, hrel⟩ := h4 d hmem
  rw [hs.docs d.id] at hdata
  cases hc : corpus d.id with
  | none => rw [hc] at hdata; cases hdata
  | some a =>
    rw [hc] at hdata
    simp only [Option.map_some', Option.some.injEq] at hdata
    subst hdata
    refine ⟨a, rfl, hrating, ?_⟩
    rw [hrel]
    apply sum_map_filter_zero
    intro w _
    rw [hs.termRelevance_eq log d.id a hc w]
    simp

end relevance

/-- C2. On a server built by successful calls of `AddDocument`, for a query that
parses, `FindTopDocuments` returns, and every document `d` it returns is a
document the server holds; its rating is the average rating stored for it, and
its relevance is the sum, over the plus-words `w` of the query among the non-stop
words of `d`, of the number of occurrences of `w` among these words, divided by
their number, times `ln (N / k)`, where `N` is `GetDocumentCount` and `k` is the
number of documents that have `w`; this over the real numbers. -/
theorem FindTopDocuments_relevance (stop_words : StdSet Word) (corpus : Corpus)
    (s : SearchServer ℝ) (raw_query : Word) (query : Query)
    (lambda : Int → DocumentStatus → Int → Bool)
    (hs : Built stop_words corpus s) (hq : ParseQuery s raw_query = .ok query) :
    ∃ top, FindTopDocuments Real.log s raw_query lambda = .ok top ∧
      ∀ d ∈ top, ∃ a, corpus d.id = some a ∧
        d.rating = ComputeAverageRating a.ratings ∧
        d.relevance =
          ((query.plus_words.filter
              (fun w => decide (w ∈ SplitIntoWordsNoStop s a.document))).map
            (fun w =>
              ((SplitIntoWordsNoStop s a.document).count w : ℝ) /
                  ((SplitIntoWordsNoStop s a.document).length : ℝ) *
                Real.log ((GetDocumentCount s : ℝ) / (documentsWith s w : ℝ)))).sum :=
  FindTopDocuments_spec Real.log hs.reachable.inv raw_query query lambda hq

end SearchServer

theorem testServer_candidates :
    SearchServer.FindAllDocuments Real.log (testServer ℝ) testQuery
        (fun _ status _ => status == .ACTUAL) =
      .ok [{ id := 11, relevance := Real.log 2, rating := 1 },
        { id := 42, relevance := 1 / 2 * Real.log 2, rating := 2 }] := by
  have h : SearchServer.FindAllDocuments Real.log (testServer ℝ) testQuery
      (fun _ status _ => status == .ACTUAL) =
      .ok [{ id := 11,
             relevance := 0 + (0 + 1 / ((3 : ℕ) : ℝ)) * Real.log (((4 : ℕ) : ℝ) * 1 / ((2 : ℕ) : ℝ)) +
               (0 + 1 / ((3 : ℕ) : ℝ)) * Real.log (((4 : ℕ) : ℝ) * 1 / ((1 : ℕ) : ℝ)),
             rating := 1 },
        { id := 42,
          relevance := 0 + (0 + 1 / ((2 : ℕ) : ℝ)) * Real.log (((4 : ℕ) : ℝ) * 1 / ((2 : ℕ) : ℝ)),
          rating := 2 }] := by
    with_unfolding_all rfl
  have h4 : Real.log 4 = 2 * Real.log 2 := by
    rw [show (4 : ℝ) = 2 ^ 2 by norm_num, Real.log_pow]
    norm_num
  have h11 : 0 + (0 + 1 / ((3 : ℕ) : ℝ)) * Real.log (((4 : ℕ) : ℝ) * 1 / ((2 : ℕ) : ℝ)) +
      (0 + 1 / ((3 : ℕ) : ℝ)) * Real.log (((4 : ℕ) : ℝ) * 1 / ((1 : ℕ) : ℝ)) = Real.log 2 := by
    have e1 : ((4 : ℕ) : ℝ) * 1 / ((2 : ℕ) : ℝ) = 2 := by norm_num
    have e2 : ((4 : ℕ) : ℝ) * 1 / ((1 : ℕ) : ℝ) = 4 := by norm_num
    rw [e1, e2, h4]
    push_cast
    ring
  have h42 : 0 + (0 + 1 / ((2 : ℕ) : ℝ)) * Real.log (((4 : ℕ) : ℝ) * 1 / ((2 : ℕ) : ℝ)) =
      1 / 2 * Real.log 2 := by
    have e1 : ((4 : ℕ) : ℝ) * 1 / ((2 : ℕ) : ℝ) = 2 := by norm_num
    rw [e1]
    push_cast
    ring
  rw [h, h11, h42]

theorem testServer_top :
    SearchServer.FindTopDocuments Real.log (testServer ℝ) (ascii "cat dog -pretty scary")
        (fun _ status _ => status == .ACTUAL) =
      .ok [{ id := 11, relevance := Real.log 2, rating := 1 },
        { id := 42, relevance := 1 / 2 * Real.log 2, rating := 2 }] := by
  have hq : SearchServer.ParseQuery (testServer ℝ) (ascii "cat dog -pretty scary") =
      .ok testQuery := rfl
  have hlog : (0.6931471803 : ℝ) < Real.log 2 := Real.log_two_gt_d9
  have hcmp : SearchServer.FindTopDocuments.cmp
      ({ id := 42, relevance := 1 / 2 * Real.log 2, rating := 2 } : Document ℝ)
      { id := 11, relevance := Real.log 2, rating := 1 } = false := by
    unfold SearchServer.FindTopDocuments.cmp ACCURACY
    have habs : |1 / 2 * Real.log 2 - Real.log 2| = 1 / 2 * Real.log 2 := by
      rw [abs_of_nonpos (by linarith)]
      ring
    simp only [habs]
    rw [if_neg (by norm_num; linarith)]
    simp only [gt_iff_lt, decide_eq_false_iff_not, not_lt]
    linarith
  have hsort : StdSort.sort SearchServer.FindTopDocuments.cmp
      [({ id := 11, relevance := Real.log 2, rating := 1 } : Document ℝ),
        { id := 42, relevance := 1 / 2 * Real.log 2, rating := 2 }] =
      [{ id := 11, relevance := Real.log 2, rating := 1 },
        { id := 42, relevance := 1 / 2 * Real.log 2, rating := 2 }] := by
    apply StdSort.sort_of_chain
    rw [List.chain'_cons']
    refine ⟨?_, List.chain'_singleton _⟩
    intro y hy
    cases hy
    exact hcmp
  rw [SearchServer.FindTopDocuments_eq Real.log (testServer ℝ) (ascii "cat dog -pretty scary")
    testQuery _ _ hq testServer_candidates, hsort]
  simp [MAX_RESULT_DOCUMENT_COUNT]

theorem FindTopDocuments_relevance_witness :
    SearchServer.FindTopDocuments Real.log (testServer ℝ) (ascii "cat dog -pretty scary")
        (fun _ status _ => status == .ACTUAL) =
      .ok [{ id := 11, relevance := Real.log 2, rating := 1 },
        { id := 42, relevance := 1 / 2 * Real.log 2, rating := 2 }] ∧
    ∃ top, SearchServer.FindTopDocuments Real.log (testServer ℝ) (ascii "cat dog -pretty scary")
        (fun _ status _ => status == .ACTUAL) = .ok top ∧
      ∀ d ∈ top, ∃ a, testCorpus d.id = some a ∧
        d.rating = SearchServer.ComputeAverageRating a.ratings ∧
        d.relevance =
          ((testQuery.plus_words.filter
              (fun w => decide (w ∈ SearchServer.SplitIntoWordsNoStop (testServer ℝ) a.document))).map
            (fun w =>
              ((SearchServer.SplitIntoWordsNoStop (testServer ℝ) a.document).count w : ℝ) /
                  ((SearchServer.SplitIntoWordsNoStop (testServer ℝ) a.document).length : ℝ) *
                Real.log ((SearchServer.GetDocumentCount (testServer ℝ) : ℝ) /
                  (SearchServer.documentsWith (testServer ℝ) w : ℝ)))).sum :=
  ⟨testServer_top,
    SearchServer.FindTopDocuments_relevance [ascii "in", ascii "the"] testCorpus (testServer ℝ)
      (ascii "cat dog -pretty scary") testQuery (fun _ status _ => status == .ACTUAL)
      testServer_built_real rfl⟩

/-! ## What every call keeps, whether it returns or throws -/

namespace SearchServer

section soundness

variable {R : Type} [LinearOrderedField R]

/-- One iteration of the loop of `AddDocument` keeps a state sound, when the
document is stored and the word is no stop-word. -/
theorem Sound.step {stop_words : StdSet Word} {s : SearchServer R} (hs : Sound stop_words s)
    (document_id : Int) (word : Word) (x : R)
    (hid : StdMap.contains s.documents_ document_id = true) (hword : word ∉ stop_words) :
    Sound stop_words
      ({ s with
         word_to_document_freqs_ :=
           StdMap.update word [] (StdMap.update document_id 0 (fun y => y + x))
             s.word_to_document_freqs_
         document_to_word_freqs_ :=
           StdMap.update document_id [] (StdMap.update word 0 (fun y => y + x))
             s.document_to_word_freqs_ } : SearchServer R) := by
  constructor
  · exact hs.stop
  · intro w id
    simp only [StdMap.find2?_update]
    rw [hs.symmetric w id, hs.symmetric word document_id]
    by_cases h1 : id = document_id
    · by_cases h2 : w = word
      · simp [h1, h2]
      · simp [h1, h2]
    · simp [h1]
  · intro w id hin
    simp only [inPostings, StdMap.find2?_update] at hin
    split at hin
    · rename_i h
      rw [h.2]
      exact hid
    · exact hs.stored w id hin
  · exact hs.live
  · exact hs.docs_nodup
  · intro w postings hp
    simp only [StdMap.find?_update] at hp
    split at hp
    · cases hp
      apply StdMap.nodup_keys_update
      cases hf : StdMap.find? s.word_to_document_freqs_ word with
      | none => simp [StdMap.keys]
      | some q => exact hs.postings_nodup word q hf
    · exact hs.postings_nodup w postings hp
  · intro id freqs hp
    simp only [StdMap.find?_update] at hp
    split at hp
    · cases hp
      constructor
      · apply StdMap.nodup_keys_update
        cases hf : StdMap.find? s.document_to_word_freqs_ document_id with
        | none => simp [StdMap.keys]
        | some q => exact (hs.forward_nodup document_id q hf).1
      · intro hnil
        have hc := (StdMap.contains_update word 0 (fun y => y + x)
          ((StdMap.find? s.document_to_word_freqs_ document_id).getD []) word).2 (Or.inl rfl)
        rw [hnil] at hc
        simp [StdMap.contains, StdMap.find?] at hc
    · exact hs.forward_nodup id freqs hp
  · intro w hw
    have hw1 : StdMap.contains (StdMap.update word [] (StdMap.update document_id 0 (fun y => y + x))
        s.word_to_document_freqs_) w = true := hw
    rw [StdMap.contains_update] at hw1
    rcases hw1 with h | h
    · rw [h]; exact hword
    · exact hs.no_stop w h

theorem Sound.loop {stop_words : StdSet Word} (n : Nat) (document_id : Int) (words : List Word)
    (s : SearchServer R) (hs : Sound stop_words s)
    (hid : StdMap.contains s.documents_ document_id = true)
    (hwords : ∀ w ∈ words, w ∉ stop_words) :
    Sound stop_words (AddDocument.loop n document_id words s).1 := by
  induction words generalizing s with
  | nil => exact hs
  | cons t rest ih =>
    unfold AddDocument.loop
    split
    · exact hs
    · exact ih _ (hs.step document_id t _ hid (hwords t (List.mem_cons_self _ _))) hid
        (fun w hw => hwords w (List.mem_cons_of_mem _ hw))

theorem Sound.at_empty {S : Type} (stop_words : StdSet Word) :
    Sound stop_words (empty stop_words : SearchServer S) where
  stop := rfl
  symmetric := by intro w id; rfl
  stored := by intro w id h; simp [inPostings, empty, StdMap.find2?, StdMap.find?] at h
  live := by intro id h; simp [empty] at h
  docs_nodup := by simp [empty, StdMap.keys]
  postings_nodup := by intro w p h; cases h
  forward_nodup := by intro id m h; cases h
  no_stop := by intro w h; simp [empty, StdMap.contains, StdMap.find?] at h

theorem SplitIntoWordsNoStop_no_stop {S : Type} (s : SearchServer S) (text : Word) :
    ∀ w ∈ SplitIntoWordsNoStop s text, w ∉ s.stop_words_ := by
  intro w hw
  unfold SplitIntoWordsNoStop at hw
  rw [List.mem_filter] at hw
  simpa [IsStopWord, StdSet.contains] using hw.2

theorem Sound.after_add {stop_words : StdSet Word} {s : SearchServer R} (hs : Sound stop_words s)
    (document_id : Int) (document : Word) (status : DocumentStatus) (ratings : List Int) :
    Sound stop_words (AddDocument s document_id document status ratings).1 := by
  unfold AddDocument
  split
  · exact hs
  · split
    · exact hs
    · have hcontains : ∀ id, StdMap.contains s.documents_ id = true →
          StdMap.contains (StdMap.emplace document_id
            ({ rating := ComputeAverageRating ratings, status := status, data := document } :
              DocumentData) s.documents_) id = true := by
        intro id hid
        unfold StdMap.contains at hid ⊢
        rw [StdMap.find?_emplace]
        split
        · rfl
        · exact hid
      have hself : StdMap.contains (StdMap.emplace document_id
            ({ rating := ComputeAverageRating ratings, status := status, data := document } :
              DocumentData) s.documents_) document_id = true := by
        unfold StdMap.contains
        rw [StdMap.find?_emplace]
        simp
      have hs1 : Sound stop_words ({ s with
            documents_ :=
              StdMap.emplace document_id
                { rating := ComputeAverageRating ratings, status := status, data := document }
                s.documents_ } : SearchServer R) :=
        { stop := hs.stop
          symmetric := hs.symmetric
          stored := fun w id hin => hcontains id (hs.stored w id hin)
          live := fun id hid => hcontains id (hs.live id hid)
          docs_nodup := StdMap.nodup_keys_emplace _ _ _ hs.docs_nodup
          postings_nodup := hs.postings_nodup
          forward_nodup := hs.forward_nodup
          no_stop := hs.no_stop }
      have hwords : ∀ w ∈ SplitIntoWordsNoStop ({ s with
            documents_ :=
              StdMap.emplace document_id
                { rating := ComputeAverageRating ratings, status := status, data := document }
                s.documents_ } : SearchServer R) document, w ∉ stop_words := by
        intro w hw
        have h := SplitIntoWordsNoStop_no_stop _ document w hw
        rw [← hs.stop]
        exact h
      have hl := Sound.loop
        (SplitIntoWordsNoStop ({ s with
            documents_ :=
              StdMap.emplace document_id
                { rating := ComputeAverageRating ratings, status := status, data := document }
                s.documents_ } : SearchServer R) document).length document_id _ _ hs1 hself hwords
      have hf := AddDocument.loop_frame
        (SplitIntoWordsNoStop ({ s with
            documents_ :=
              StdMap.emplace document_id
                { rating := ComputeAverageRating ratings, status := status, data := document }
                s.documents_ } : SearchServer R) document).length document_id
        (SplitIntoWordsNoStop ({ s with
            documents_ :=
              StdMap.emplace document_id
                { rating := ComputeAverageRating ratings, status := status, data := document }
                s.documents_ } : SearchServer R) document)
        ({ s with
            documents_ :=
              StdMap.emplace document_id
                { rating := ComputeAverageRating ratings, status := status, data := document }
                s.documents_ } : SearchServer R)
      simp only
      generalize AddDocument.loop (R := R) _ document_id _ _ = r at hl hf ⊢
      obtain ⟨s2, e⟩ := r
      simp only at hl hf
      cases e with
      | some e => exact hl
      | none =>
        exact
          { stop := hl.stop
            symmetric := hl.symmetric
            stored := hl.stored
            live := by
              intro id hid
              have hid1 : id ∈ StdSet.insert document_id s2.docs_id_ := hid
              rw [StdSet.mem_insert] at hid1
              rcases hid1 with h | h
              · rw [h]
                show StdMap.contains s2.documents_ document_id = true
                rw [hf.1]
                exact hself
              · exact hl.live id h
            docs_nodup := hl.docs_nodup
            postings_nodup := hl.postings_nodup
            forward_nodup := hl.forward_nodup
            no_stop := hl.no_stop }

end soundness

end SearchServer

namespace SearchServer

section removing

variable {R : Type}

theorem RemoveDocument.loop_contains (document_id : Int) (words : List Word)
    (index : StdMap Word (StdMap Int R)) (w : Word) :
    StdMap.contains (RemoveDocument.loop document_id words index).1 w =
      StdMap.contains index w := by
  induction words generalizing index with
  | nil => rfl
  | cons t rest ih =>
    unfold RemoveDocument.loop
    split
    · rw [ih, StdMap.contains_modify]
    · rfl

theorem mem_forward_words (s : SearchServer R) (document_id : Int) (w : Word) :
    w ∈ (match StdMap.find? s.document_to_word_freqs_ document_id with
      | none => ([] : List Word)
      | some freqs => StdMap.keys freqs) ↔
      (StdMap.find2? s.document_to_word_freqs_ document_id w).isSome = true := by
  unfold StdMap.find2?
  cases StdMap.find? s.document_to_word_freqs_ document_id with
  | none => simp
  | some freqs =>
    simp only
    rw [StdMap.mem_keys_iff]
    rfl

/-- What `RemoveDocument` does on a state whose inverted index has every word
that the forward index lists for the document: it returns, and it erases the
document from the store, from the live ids, from the forward index and from the
postings of its words, and changes nothing else. -/
theorem RemoveDocument_spec (s : SearchServer R) (document_id : Int)
    (hpre : ∀ w, (StdMap.find2? s.document_to_word_freqs_ document_id w).isSome = true →
      StdMap.contains s.word_to_document_freqs_ w = true) :
    (RemoveDocument s document_id).2 = none ∧
    (RemoveDocument s document_id).1.stop_words_ = s.stop_words_ ∧
    (RemoveDocument s document_id).1.documents_ = StdMap.erase document_id s.documents_ ∧
    (RemoveDocument s document_id).1.docs_id_ = StdSet.erase document_id s.docs_id_ ∧
    (RemoveDocument s document_id).1.document_to_word_freqs_ =
      StdMap.erase document_id s.document_to_word_freqs_ ∧
    (∀ w id, StdMap.find2? (RemoveDocument s document_id).1.word_to_document_freqs_ w id =
      if id = document_id ∧
          (StdMap.find2? s.document_to_word_freqs_ document_id w).isSome = true then none
      else StdMap.find2? s.word_to_document_freqs_ w id) ∧
    (∀ w, StdMap.contains (RemoveDocument s document_id).1.word_to_document_freqs_ w =
      StdMap.contains s.word_to_document_freqs_ w) ∧
    (∀ P : StdMap Int R → Prop, (∀ m, P m → P (StdMap.erase document_id m)) →
      (∀ w p, StdMap.find? s.word_to_document_freqs_ w = some p → P p) →
      ∀ w p, StdMap.find? (RemoveDocument s document_id).1.word_to_document_freqs_ w = some p →
        P p) := by
  have hwords : ∀ word ∈ (match StdMap.find? s.document_to_word_freqs_ document_id with
      | none => ([] : List Word)
      | some freqs => StdMap.keys freqs),
      StdMap.contains s.word_to_document_freqs_ word = true := by
    intro word hword
    exact hpre word ((mem_forward_words s document_id word).1 hword)
  have hspec := RemoveDocument.loop_erases document_id _ s.word_to_document_freqs_ hwords
  have hcont := RemoveDocument.loop_contains document_id
    (match StdMap.find? s.document_to_word_freqs_ document_id with
      | none => ([] : List Word)
      | some freqs => StdMap.keys freqs) s.word_to_document_freqs_
  have hpost := fun (P : StdMap Int R → Prop) (hP : ∀ m, P m → P (StdMap.erase document_id m)) =>
    RemoveDocument.loop_postings P document_id hP
      (match StdMap.find? s.document_to_word_freqs_ document_id with
        | none => ([] : List Word)
        | some freqs => StdMap.keys freqs) s.word_to_document_freqs_
  have hstate : ∃ index,
      RemoveDocument.loop document_id
        (match StdMap.find? s.document_to_word_freqs_ document_id with
          | none => ([] : List Word)
          | some freqs => StdMap.keys freqs) s.word_to_document_freqs_ = (index, none) ∧
      RemoveDocument s document_id =
        (({ s with
            word_to_document_freqs_ := index
            document_to_word_freqs_ := StdMap.erase document_id s.document_to_word_freqs_
            documents_ := StdMap.erase document_id s.documents_
            docs_id_ := StdSet.erase document_id s.docs_id_ } : SearchServer R), none) := by
    refine ⟨_, Prod.ext rfl hspec.1, ?_⟩
    unfold RemoveDocument
    simp only
    split
    · rename_i index e heq
      have heq1 : RemoveDocument.loop document_id
          (match StdMap.find? s.document_to_word_freqs_ document_id with
            | none => ([] : List Word)
            | some freqs => StdMap.keys freqs) s.word_to_document_freqs_ = (index, some e) := heq
      have h2 := hspec.1
      rw [heq1] at h2
      cases h2
    · rename_i index heq
      have heq1 : RemoveDocument.loop document_id
          (match StdMap.find? s.document_to_word_freqs_ document_id with
            | none => ([] : List Word)
            | some freqs => StdMap.keys freqs) s.word_to_document_freqs_ = (index, none) := heq
      rw [heq1]
  obtain ⟨index, hr, hstate⟩ := hstate
  rw [hr] at hspec hcont
  have hpost1 : ∀ P : StdMap Int R → Prop, (∀ m, P m → P (StdMap.erase document_id m)) →
      (∀ w p, StdMap.find? s.word_to_document_freqs_ w = some p → P p) →
      ∀ w p, StdMap.find? index w = some p → P p := by
    intro P hP h w p hp
    have h1 := hpost P hP h w p
    rw [hr] at h1
    exact h1 hp
  rw [hstate]
  refine ⟨rfl, rfl, rfl, rfl, rfl, ?_, hcont, hpost1⟩
  intro w id
  show StdMap.find2? index w id = _
  have hfind := hspec.2
  simp only at hfind
  rw [hfind w id]
  by_cases hid : id = document_id
  · by_cases hw : (StdMap.find2? s.document_to_word_freqs_ document_id w).isSome = true
    · simp [hid, hw, (mem_forward_words s document_id w).2 hw]
    · have hw1 : ¬ w ∈ (match StdMap.find? s.document_to_word_freqs_ document_id with
          | none => ([] : List Word)
          | some freqs => StdMap.keys freqs) :=
        fun h => hw ((mem_forward_words s document_id w).1 h)
      rw [if_neg (fun h => hw1 h.2), if_neg (fun h => hw h.2)]
  · simp [hid]

theorem Sound.after_remove {stop_words : StdSet Word} {s : SearchServer R}
    (hs : Sound stop_words s) (document_id : Int) :
    (RemoveDocument s document_id).2 = none ∧
      Sound stop_words (RemoveDocument s document_id).1 := by
  have hpre : ∀ w, (StdMap.find2? s.document_to_word_freqs_ document_id w).isSome = true →
      StdMap.contains s.word_to_document_freqs_ w = true := by
    intro w hw
    rw [hs.symmetric w document_id] at hw
    exact StdMap.find2?_isSome _ _ _ hw
  obtain ⟨h0, h1, h2, h3, h4, h5, h6, h7⟩ := RemoveDocument_spec s document_id hpre
  refine ⟨h0, ?_⟩
  have hne : ∀ w id, inPostings (RemoveDocument s document_id).1 w id = true →
      id ≠ document_id ∧ inPostings s w id = true := by
    intro w id hin
    unfold inPostings at hin ⊢
    rw [h5 w id] at hin
    split at hin
    · cases hin
    · rename_i hnot
      refine ⟨?_, hin⟩
      intro hid
      apply hnot
      refine ⟨hid, ?_⟩
      rw [hs.symmetric w document_id, ← hid]
      exact hin
  constructor
  · rw [h1]; exact hs.stop
  · intro w id
    rw [h4, h5 w id, StdMap.find2?_erase]
    by_cases hid : id = document_id
    · subst hid
      by_cases hw : (StdMap.find2? s.document_to_word_freqs_ id w).isSome = true
      · simp [hw]
      · simp only [if_true, hw, and_false, if_false]
        rw [← hs.symmetric w id]
        cases hf : StdMap.find2? s.document_to_word_freqs_ id w with
        | none => rfl
        | some x => rw [hf] at hw; exact absurd rfl hw
    · simp only [hid, false_and, if_false]
      exact hs.symmetric w id
  · intro w id hin
    obtain ⟨hid, hold⟩ := hne w id hin
    rw [h2, StdMap.contains_erase]
    exact ⟨hid, hs.stored w id hold⟩
  · intro id hid
    rw [h3, StdSet.mem_erase] at hid
    rw [h2, StdMap.contains_erase]
    exact ⟨hid.1, hs.live id hid.2⟩
  · rw [h2]
    exact StdMap.nodup_keys_erase _ _ hs.docs_nodup
  · exact h7 (fun m => (StdMap.keys m).Nodup) (fun m hm => StdMap.nodup_keys_erase _ _ hm)
      hs.postings_nodup
  · intro id freqs hf
    rw [h4, StdMap.find?_erase] at hf
    split at hf
    · cases hf
    · exact hs.forward_nodup id freqs hf
  · intro w hw
    rw [h6 w] at hw
    exact hs.no_stop w hw

end removing

section soundness

variable {R : Type} [LinearOrderedField R]

/-- Every state that calls of `AddDocument` and `RemoveDocument` reach is sound. -/
theorem Ran.sound {stop_words : StdSet Word} {s : SearchServer R} (h : Ran stop_words s) :
    Sound stop_words s := by
  induction h with
  | init => exact Sound.at_empty stop_words
  | add document_id document status ratings _ ih => exact ih.after_add _ _ _ _
  | remove document_id _ ih => exact (ih.after_remove document_id).2

end soundness

end SearchServer

namespace StdMap

variable {κ ι ν : Type} [LinearOrder κ] [LinearOrder ι]

theorem find2?_eq_some (m : StdMap κ (StdMap ι ν)) (k : κ) (i : ι) (v : ν) :
    find2? m k i = some v ↔ ∃ inner, find? m k = some inner ∧ find? inner i = some v := by
  unfold find2?
  cases find? m k with
  | none => simp
  | some inner => simp

theorem erase_of_not_contains (k : κ) (m : StdMap κ ν) (h : contains m k = false) :
    erase k m = m := by
  unfold erase
  rw [List.filter_eq_self]
  intro p hp
  have hne : p.1 ≠ k := by
    intro hk
    have hc := mem_contains m p.1 p.2 hp
    rw [hk, h] at hc
    cases hc
  simpa using hne

theorem length_erase (k : κ) (m : StdMap κ ν) (hm : (keys m).Nodup)
    (h : contains m k = true) : (erase k m).length + 1 = m.length := by
  induction m with
  | nil => simp [contains, find?] at h
  | cons p rest ih =>
    obtain ⟨k2, v2⟩ := p
    simp only [keys, List.map_cons, List.nodup_cons] at hm
    by_cases hk : k2 = k
    · subst hk
      have hrest : contains rest k2 = false := by
        cases hc : contains rest k2 with
        | false => rfl
        | true => exact absurd ((mem_keys_iff rest k2).2 hc) hm.1
      have he : erase k2 ((k2, v2) :: rest) = erase k2 rest := by
        simp [erase, List.filter]
      rw [he, erase_of_not_contains k2 rest hrest]
      rfl
    · have hc : contains rest k = true := by
        unfold contains at h ⊢
        simpa [find?, hk] using h
      have he : erase k ((k2, v2) :: rest) = (k2, v2) :: erase k rest := by
        simp [erase, List.filter, hk]
      rw [he, List.length_cons, ih hm.2 hc, List.length_cons]

end StdMap

namespace StdSet

variable {κ : Type} [LinearOrder κ]

theorem erase_of_not_mem (k : κ) (s : StdSet κ) (h : k ∉ s) : erase k s = s := by
  unfold erase
  rw [List.filter_eq_self]
  intro x hx
  have hne : x ≠ k := by
    intro hk
    rw [hk] at hx
    exact h hx
  simpa using hne

end StdSet

namespace SearchServer

section returns

variable {R : Type} [LinearOrderedField R]

/-- When every posting list is free of duplicate ids and every id in a posting list
is stored, `FindAllDocuments` returns: none of its lookups in the document store
fails. -/
theorem FindAllDocuments_returns (log : R → R) (s : SearchServer R)
    (hpost : ∀ w postings, StdMap.find? s.word_to_document_freqs_ w = some postings →
      (StdMap.keys postings).Nodup)
    (hdoc : ∀ w id, inPostings s w id = true → StdMap.contains s.documents_ id = true)
    (query : Query) (lambda : Int → DocumentStatus → Int → Bool) :
    ∃ cands, FindAllDocuments log s query lambda = .ok cands := by
  obtain ⟨acc1, h1, _, h3, _⟩ := FindAllDocuments.plusLoop_spec log s lambda hpost hdoc
    query.plus_words []
  obtain ⟨_, m2⟩ := FindAllDocuments.minusLoop_spec s query.minus_words acc1
  have hdocs : ∀ id, StdMap.contains (FindAllDocuments.minusLoop s query.minus_words acc1) id = true →
      StdMap.contains s.documents_ id = true := by
    intro id hid
    unfold StdMap.contains at hid
    rw [m2 id] at hid
    split at hid
    · cases hid
    · have h3id := (h3 id).1 hid
      rcases h3id with h | ⟨_, w, _, hw⟩
      · simp [StdMap.contains, StdMap.find?] at h
      · exact hdoc w id hw
  obtain ⟨cands, c1, _⟩ := FindAllDocuments.collect_spec s _ hdocs
  refine ⟨cands, ?_⟩
  simp only [FindAllDocuments, h1]
  exact c1

theorem GetWordFrequencies_find? {S : Type} (s : SearchServer S) (document_id : Int) (w : Word) :
    StdMap.find? (GetWordFrequencies s document_id) w =
      StdMap.find2? s.document_to_word_freqs_ document_id w := by
  unfold GetWordFrequencies StdMap.find2?
  cases StdMap.find? s.document_to_word_freqs_ document_id with
  | none => rfl
  | some freqs => rfl

theorem RemoveDocument_of_absent {S : Type} (s : SearchServer S) (document_id : Int)
    (h : StdMap.find? s.document_to_word_freqs_ document_id = none) :
    RemoveDocument s document_id =
      (({ s with
          document_to_word_freqs_ := StdMap.erase document_id s.document_to_word_freqs_
          documents_ := StdMap.erase document_id s.documents_
          docs_id_ := StdSet.erase document_id s.docs_id_ } : SearchServer S), none) := by
  unfold RemoveDocument
  simp only [h, RemoveDocument.loop]

end returns

end SearchServer

namespace SearchServer

section removal

variable {R : Type} [LinearOrderedField R]

/-- The words that the forward index lists for a document are keys of the inverted
index. -/
theorem Sound.forward_indexed {S : Type} {stop_words : StdSet Word} {s : SearchServer S}
    (hs : Sound stop_words s) (document_id : Int) (w : Word)
    (h : (StdMap.find2? s.document_to_word_freqs_ document_id w).isSome = true) :
    StdMap.contains s.word_to_document_freqs_ w = true := by
  rw [hs.symmetric w document_id] at h
  exact StdMap.find2?_isSome _ _ _ h

/-- A document with an entry in the forward index is stored. -/
theorem Sound.forward_stored {S : Type} {stop_words : StdSet Word} {s : SearchServer S}
    (hs : Sound stop_words s) (document_id : Int)
    (h : StdMap.contains s.documents_ document_id = false) :
    StdMap.find? s.document_to_word_freqs_ document_id = none := by
  cases hf : StdMap.find? s.document_to_word_freqs_ document_id with
  | none => rfl
  | some freqs =>
    obtain ⟨hnd, hne⟩ := hs.forward_nodup document_id freqs hf
    obtain ⟨⟨w, x⟩, hmem⟩ := List.exists_mem_of_ne_nil freqs hne
    have hfw : StdMap.find? freqs w = some x := StdMap.find?_of_mem freqs hnd w x hmem
    have hin : inPostings s w document_id = true := by
      unfold inPostings
      rw [← hs.symmetric w document_id]
      simp [StdMap.find2?, hf, hfw]
    rw [hs.stored w document_id hin] at h
    cases h

theorem RemoveDocument_noop {S : Type} (s : SearchServer S) (document_id : Int)
    (h1 : StdMap.find? s.document_to_word_freqs_ document_id = none)
    (h2 : StdMap.contains s.documents_ document_id = false) (h3 : document_id ∉ s.docs_id_) :
    RemoveDocument s document_id = (s, none) := by
  rw [RemoveDocument_of_absent s document_id h1,
    StdMap.erase_of_not_contains document_id s.documents_ h2,
    StdMap.erase_of_not_contains document_id s.document_to_word_freqs_
      ((StdMap.contains_eq_false _ _).2 h1),
    StdSet.erase_of_not_mem document_id s.docs_id_ h3]

theorem Inv.live_iff_stored {stop_words : StdSet Word} {corpus : Corpus} {s : SearchServer R}
    (hs : Inv stop_words corpus s) (id : Int) :
    id ∈ s.docs_id_ ↔ StdMap.contains s.documents_ id = true := by
  rw [hs.live, StdMap.contains, hs.docs]
  cases corpus id <;> simp

end removal

end SearchServer

/-! ## The claims on parsing, adding and removing -/

namespace SearchServer

section parser_more

variable {R : Type}

/-- C11, as amended. For a query text that parses, a word is both a plus-word and a
minus-word of the query exactly when it is no stop-word and the text has both the
word and the word with a leading `-` among its words; so the two lists are
disjoint when no word of the text occurs there with a leading `-` as well. -/
theorem ParseQuery_common_words (s : SearchServer R) (raw_query : Word) (query : Query)
    (hq : ParseQuery s raw_query = .ok query) :
    (∀ w, w ∈ query.plus_words ∧ w ∈ query.minus_words ↔
      w ∈ SplitIntoWords raw_query ∧ (45 :: w) ∈ SplitIntoWords raw_query ∧
        w ∉ s.stop_words_) ∧
    ((∀ w ∈ SplitIntoWords raw_query, (45 :: w) ∉ SplitIntoWords raw_query) →
      List.Disjoint query.plus_words query.minus_words) := by
  obtain ⟨q, hloop, hplus, hminus⟩ := ParseQuery_ok s raw_query query hq
  have hgood : ¬ ∃ word ∈ SplitIntoWords raw_query,
      word = [45] ∨ [45, 45] <+: word ∨ ∃ c ∈ word, c.val < 32 := by
    intro hbad
    have h1 := (ParseQuery_error s raw_query .invalid_argument).2 ⟨rfl, hbad⟩
    rw [hq] at h1
    cases h1
  have hstop : ∀ w, IsStopWord s w = false ↔ w ∉ s.stop_words_ := by
    intro w
    simp [IsStopWord, StdSet.contains]
  have hp : ∀ w, w ∈ query.plus_words ↔
      w ∈ SplitIntoWords raw_query ∧ w.head? ≠ some 45 ∧ w ∉ s.stop_words_ := by
    intro w
    rw [hplus, StdSort.mem_unique, StdSort.mem_sort,
      (ParseQuery.loop_ok s (SplitIntoWords raw_query) _ q hloop w).1, hstop]
    simp
  have hm : ∀ w, w ∈ query.minus_words ↔
      (45 :: w) ∈ SplitIntoWords raw_query ∧ w ∉ s.stop_words_ := by
    intro w
    rw [hminus, StdSort.mem_unique, StdSort.mem_sort,
      (ParseQuery.loop_ok s (SplitIntoWords raw_query) _ q hloop w).2, hstop]
    simp
  have hiff : ∀ w, w ∈ query.plus_words ∧ w ∈ query.minus_words ↔
      w ∈ SplitIntoWords raw_query ∧ (45 :: w) ∈ SplitIntoWords raw_query ∧
        w ∉ s.stop_words_ := by
    intro w
    rw [hp w, hm w]
    constructor
    · rintro ⟨⟨h1, _, h3⟩, h4, _⟩
      exact ⟨h1, h4, h3⟩
    · rintro ⟨h1, h2, h3⟩
      refine ⟨⟨h1, ?_, h3⟩, h2, h3⟩
      intro hhead
      apply hgood
      refine ⟨45 :: w, h2, Or.inr (Or.inl ?_)⟩
      cases w with
      | nil => cases hhead
      | cons a rest =>
        simp only [List.head?_cons, Option.some.injEq] at hhead
        subst hhead
        exact ⟨rest, rfl⟩
  refine ⟨hiff, ?_⟩
  intro hnone w hwp hwm
  have h := (hiff w).1 ⟨hwp, hwm⟩
  exact hnone w h.1 h.2.1

end parser_more

end SearchServer

theorem ParseQuery_disjoint_counterexample :
    ∃ query, SearchServer.ParseQuery (testServer ℚ) (ascii "cat -cat") = .ok query ∧
      ∃ w, w ∈ query.plus_words ∧ w ∈ query.minus_words :=
  ⟨{ plus_words := [ascii "cat"], minus_words := [ascii "cat"] }, rfl, ascii "cat",
    by decide, by decide⟩

theorem ParseQuery_common_words_witness :
    (∀ w, w ∈ [ascii "cat", ascii "dog"] ∧ w ∈ [ascii "cat"] ↔
      w ∈ SplitIntoWords (ascii "cat -cat dog") ∧
        (45 :: w) ∈ SplitIntoWords (ascii "cat -cat dog") ∧
        w ∉ (testServer ℚ).stop_words_) ∧
    ((∀ w ∈ SplitIntoWords (ascii "cat -cat dog"),
        (45 :: w) ∉ SplitIntoWords (ascii "cat -cat dog")) →
      List.Disjoint [ascii "cat", ascii "dog"] [ascii "cat"]) :=
  SearchServer.ParseQuery_common_words (testServer ℚ) (ascii "cat -cat dog")
    { plus_words := [ascii "cat", ascii "dog"], minus_words := [ascii "cat"] } rfl

theorem wrapInt_add (a b : Int) : wrapInt (wrapInt a + b) = wrapInt (a + b) := by
  unfold wrapInt
  omega

theorem wrapInt_of_range (a : Int) (h1 : -2147483648 ≤ a) (h2 : a < 2147483648) :
    wrapInt a = a := by
  unfold wrapInt
  omega

theorem foldl_wrapInt (ratings : List Int) (init : Int) :
    ratings.foldl (fun acc r => wrapInt (acc + r)) (wrapInt init) =
      wrapInt (init + ratings.sum) := by
  induction ratings generalizing init with
  | nil => simp
  | cons r rest ih =>
    simp only [List.foldl_cons, List.sum_cons]
    rw [wrapInt_add, ih, add_assoc]

namespace SearchServer

section adding

variable {R : Type} [LinearOrderedField R]

theorem AddDocument.loop_throws (n : Nat) (document_id : Int) (words : List Word)
    (s : SearchServer R) (e : Error)
    (h : (AddDocument.loop n document_id words s).2 = some e) : e = .invalid_argument := by
  induction words generalizing s with
  | nil => cases h
  | cons t rest ih =>
    unfold AddDocument.loop at h
    split at h
    · cases h; rfl
    · exact ih _ h

/-- C12. Whatever the state, `AddDocument` throws `invalid_argument` exactly when
the id is negative, or is a key of the document store, or a non-stop word of the
text has a byte in `0x00..0x1F`; it throws nothing else, and in every other case
it returns. -/
theorem AddDocument_invalid_argument (s : SearchServer R) (document_id : Int) (document : Word)
    (status : DocumentStatus) (ratings : List Int) :
    ((AddDocument s document_id document status ratings).2 = some .invalid_argument ↔
      document_id < 0 ∨ StdMap.contains s.documents_ document_id = true ∨
        ∃ word ∈ SplitIntoWordsNoStop s document, ∃ c ∈ word, c.val < 32) ∧
    (∀ e, (AddDocument s document_id document status ratings).2 = some e →
      e = .invalid_argument) ∧
    ((¬ (document_id < 0 ∨ StdMap.contains s.documents_ document_id = true ∨
        ∃ word ∈ SplitIntoWordsNoStop s document, ∃ c ∈ word, c.val < 32)) →
      (AddDocument s document_id document status ratings).2 = none) := by
  have hkind : ∀ e, (AddDocument s document_id document status ratings).2 = some e →
      e = .invalid_argument := by
    intro e he
    unfold AddDocument at he
    split at he
    · cases he; rfl
    · split at he
      · cases he; rfl
      · simp only at he
        have hl := AddDocument.loop_throws
          (SplitIntoWordsNoStop ({ s with
            documents_ :=
              StdMap.emplace document_id
                { rating := ComputeAverageRating ratings, status := status, data := document }
                s.documents_ } : SearchServer R) document).length document_id
          (SplitIntoWordsNoStop ({ s with
            documents_ :=
              StdMap.emplace document_id
                { rating := ComputeAverageRating ratings, status := status, data := document }
                s.documents_ } : SearchServer R) document)
          ({ s with
            documents_ :=
              StdMap.emplace document_id
                { rating := ComputeAverageRating ratings, status := status, data := document }
                s.documents_ } : SearchServer R) e
        generalize AddDocument.loop (R := R) _ document_id _ _ = r at hl he
        obtain ⟨s2, e2⟩ := r
        cases e2 with
        | some e1 => exact hl he
        | none => cases he
  have hnone : (AddDocument s document_id document status ratings).2 = none ↔
      ¬ (document_id < 0 ∨ StdMap.contains s.documents_ document_id = true ∨
        ∃ word ∈ SplitIntoWordsNoStop s document, ∃ c ∈ word, c.val < 32) := by
    constructor
    · intro h
      obtain ⟨h1, h2, h3, _⟩ := AddDocument_spec s document_id document status ratings h
      rintro (h4 | h4 | ⟨word, hw, hc⟩)
      · omega
      · rw [(StdMap.contains_iff _ _)] at h4
        obtain ⟨v, hv⟩ := h4
        rw [h2] at hv
        cases hv
      · have hv := h3 word hw
        rw [(IsValidWord_eq_false word).2 hc] at hv
        cases hv
    · intro h
      have h1 : ¬ document_id < 0 := fun h1 => h (Or.inl h1)
      have h2 : StdMap.contains s.documents_ document_id = false := by
        cases hc : StdMap.contains s.documents_ document_id with
        | false => rfl
        | true => exact absurd (Or.inr (Or.inl hc)) h
      have h3 : ∀ word ∈ SplitIntoWordsNoStop s document, IsValidWord word = true := by
        intro word hw
        cases hv : IsValidWord word with
        | true => rfl
        | false =>
          exact absurd (Or.inr (Or.inr ⟨word, hw, (IsValidWord_eq_false word).1 hv⟩)) h
      unfold AddDocument
      simp only [h1, h2, if_false, Bool.false_eq_true]
      have hwords : SplitIntoWordsNoStop
          ({ s with
            documents_ :=
              StdMap.emplace document_id
                { rating := ComputeAverageRating ratings, status := status, data := document }
                s.documents_ } : SearchServer R) document = SplitIntoWordsNoStop s document := rfl
      rw [hwords]
      have hl := (AddDocument.loop_adds (SplitIntoWordsNoStop s document).length document_id
        (SplitIntoWordsNoStop s document)
        ({ s with
            documents_ :=
              StdMap.emplace document_id
                { rating := ComputeAverageRating ratings, status := status, data := document }
                s.documents_ } : SearchServer R) h3).1
      generalize AddDocument.loop (R := R) _ document_id _ _ = r at hl ⊢
      obtain ⟨s2, e2⟩ := r
      simp only at hl
      subst hl
      rfl
  refine ⟨?_, hkind, hnone.2⟩
  constructor
  · intro h
    by_contra hcon
    rw [hnone.2 hcon] at h
    cases h
  · intro h
    cases hr : (AddDocument s document_id document status ratings).2 with
    | none => exact absurd h (hnone.1 hr)
    | some e => rw [hkind e hr]

end adding

end SearchServer

theorem AddDocument_invalid_argument_witness :
    (SearchServer.AddDocument (testServer ℚ) 42 (ascii "dog") .ACTUAL []).2 =
      some .invalid_argument ∧
    (SearchServer.AddDocument (testServer ℚ) 5 [100, 32, 1] .ACTUAL []).2 =
      some .invalid_argument ∧
    (SearchServer.AddDocument (testServer ℚ) 5 (ascii "dog") .ACTUAL []).2 = none :=
  ⟨(SearchServer.AddDocument_invalid_argument (testServer ℚ) 42 (ascii "dog") .ACTUAL []).1.2
      (Or.inr (Or.inl (by decide!))),
    (SearchServer.AddDocument_invalid_argument (testServer ℚ) 5 [100, 32, 1] .ACTUAL []).1.2
      (Or.inr (Or.inr ⟨[1], by decide!, 1, by decide, by decide⟩)),
    (SearchServer.AddDocument_invalid_argument (testServer ℚ) 5 (ascii "dog") .ACTUAL []).2.2
      (by decide!)⟩

/-- C13, at the input that refutes it. On the server of `TestRelevance` the call
`AddDocument(5, "boy \x01", ACTUAL, {})` throws `invalid_argument` for the control
byte of its second word, and the state it leaves is not the state before: the live
ids are the same, but `GetDocumentCount` went from 4 to 5, `GetWordFrequencies(5)`
from the empty map to the entry of `boy`, `FindTopDocuments("boy")` from no document
to document 5, and a later `AddDocument(5, "boy", ACTUAL, {})`, which the state
before accepts, is rejected as a duplicate. -/
theorem AddDocument_rejected_leaves_insertion :
    (SearchServer.AddDocument (testServer ℚ) 5 [98, 111, 121, 32, 1] .ACTUAL []).2 =
      some .invalid_argument ∧
    (rejectedServer ℚ).docs_id_ = (testServer ℚ).docs_id_ ∧
    SearchServer.GetDocumentCount (testServer ℚ) = 4 ∧
    SearchServer.GetDocumentCount (rejectedServer ℚ) = 5 ∧
    SearchServer.GetWordFrequencies (testServer ℚ) 5 = [] ∧
    SearchServer.GetWordFrequencies (rejectedServer ℚ) 5 = [(ascii "boy", 1 / 2)] ∧
    SearchServer.FindTopDocuments (fun x => x) (testServer ℚ) (ascii "boy")
      (fun _ status _ => status == .ACTUAL) = .ok [] ∧
    SearchServer.FindTopDocuments (fun x => x) (rejectedServer ℚ) (ascii "boy")
      (fun _ status _ => status == .ACTUAL) = .ok [{ id := 5, relevance := 5 / 2, rating := 0 }] ∧
    (SearchServer.AddDocument (testServer ℚ) 5 (ascii "boy") .ACTUAL []).2 = none ∧
    (SearchServer.AddDocument (rejectedServer ℚ) 5 (ascii "boy") .ACTUAL []).2 =
      some .invalid_argument := by
  refine ⟨by decide!, by decide!, by decide!, by decide!, by decide!, by decide!, ?_, ?_,
    by decide!, by decide!⟩
  · with_unfolding_all rfl
  · with_unfolding_all rfl

/-- C14, refuted at an input. With the stop-words `in` and `the`, the call
`AddDocument(3, "in the", ACTUAL, {1})` on a fresh server returns, and afterwards
the live ids and the keys of the document store are both `{3}` while the forward
index has no key. -/
theorem forward_keys_counterexample :
    (SearchServer.AddDocument (SearchServer.empty [ascii "in", ascii "the"] : SearchServer ℚ)
      3 (ascii "in the") .ACTUAL [1]).2 = none ∧
    (stopOnlyServer ℚ).docs_id_ = [3] ∧
    StdMap.keys (stopOnlyServer ℚ).documents_ = [3] ∧
    StdMap.keys (stopOnlyServer ℚ).document_to_word_freqs_ = [] := by
  refine ⟨by decide!, by decide!, by decide!, by decide!⟩

namespace SearchServer

section keys

variable {R : Type} [LinearOrderedField R]

/-- C14, as amended. On a state reached by successful calls of `AddDocument` and
`RemoveDocument` on a fresh server, the live ids are exactly the keys of the document
store, and the keys of the forward index are exactly the live ids whose stored text
has at least one non-stop word. -/
theorem forward_keys_live (stop_words : StdSet Word) (corpus : Corpus) (s : SearchServer R)
    (hs : Reachable stop_words corpus s) :
    (∀ id, id ∈ s.docs_id_ ↔ id ∈ StdMap.keys s.documents_) ∧
    (∀ id, id ∈ StdMap.keys s.document_to_word_freqs_ ↔
      id ∈ s.docs_id_ ∧ ∃ data, StdMap.find? s.documents_ id = some data ∧
        SplitIntoWordsNoStop s data.data ≠ []) := by
  have hi := hs.inv
  have hsound := hs.ran.sound
  have hlive : ∀ id, id ∈ s.docs_id_ ↔ id ∈ StdMap.keys s.documents_ := by
    intro id
    rw [hi.live, StdMap.mem_keys_iff, StdMap.contains, hi.docs]
    cases corpus id <;> simp
  refine ⟨hlive, ?_⟩
  intro id
  rw [StdMap.mem_keys_iff]
  constructor
  · intro hc
    obtain ⟨freqs, hf⟩ := (StdMap.contains_iff _ _).1 hc
    obtain ⟨hnd, hne⟩ := hsound.forward_nodup id freqs hf
    obtain ⟨⟨w, x⟩, hmem⟩ := List.exists_mem_of_ne_nil freqs hne
    have hfw : StdMap.find? freqs w = some x := StdMap.find?_of_mem freqs hnd w x hmem
    have hfwd : inForward s id w = true := by
      simp [inForward, StdMap.find2?, hf, hfw]
    rw [hi.forward w id] at hfwd
    obtain ⟨a, ha, hw⟩ := (hi.index w id).1 hfwd
    refine ⟨(hi.live id).2 (by simp [ha]), stored a, ?_, ?_⟩
    · rw [hi.docs, ha]; rfl
    · exact List.ne_nil_of_mem hw
  · rintro ⟨_, data, hd, hne⟩
    rw [hi.docs] at hd
    cases ha : corpus id with
    | none => rw [ha] at hd; cases hd
    | some a =>
      rw [ha] at hd
      simp only [Option.map_some', Option.some.injEq] at hd
      subst hd
      obtain ⟨w, hw⟩ := List.exists_mem_of_ne_nil _ hne
      have hin : inPostings s w id = true := (hi.index w id).2 ⟨a, ha, hw⟩
      rw [← hi.forward w id] at hin
      exact StdMap.find2?_isSome _ _ _ hin

end keys

end SearchServer

theorem stopOnlyServer_reachable :
    SearchServer.Reachable [ascii "in", ascii "the"] stopOnlyCorpus (stopOnlyServer ℚ) :=
  SearchServer.Reachable.add 3 (ascii "in the") .ACTUAL [1] SearchServer.Reachable.init
    (by decide!)

theorem forward_keys_live_witness :
    (∀ id, id ∈ (stopOnlyServer ℚ).docs_id_ ↔ id ∈ StdMap.keys (stopOnlyServer ℚ).documents_) ∧
    (∀ id, id ∈ StdMap.keys (stopOnlyServer ℚ).document_to_word_freqs_ ↔
      id ∈ (stopOnlyServer ℚ).docs_id_ ∧
        ∃ data, StdMap.find? (stopOnlyServer ℚ).documents_ id = some data ∧
          SearchServer.SplitIntoWordsNoStop (stopOnlyServer ℚ) data.data ≠ []) :=
  SearchServer.forward_keys_live [ascii "in", ascii "the"] stopOnlyCorpus (stopOnlyServer ℚ)
    stopOnlyServer_reachable

namespace SearchServer

section symmetry

variable {R : Type} [LinearOrderedField R]

/-- C15, on the states of `Intact`. On a state reached by successful calls of
`AddDocument` and `RemoveDocument` in which every key of the inverted index views the
text of a stored document, so that the lookups of the code are those of the
embedding: every entry `(doc, tf)` of the postings of a word `w` has the
entry `(w, tf)` in the forward index at `doc`, every entry `(w, tf)` of the forward
index at `doc` has the entry `(doc, tf)` in the postings of `w`, every such `doc` is
a key of the document store, and `FindAllDocuments` returns: none of its lookups
`documents_.at` throws. -/
theorem indices_symmetric (log : R → R) (stop_words : StdSet Word) (corpus : Corpus)
    (views : StdMap Word Int) (s : SearchServer R)
    (hintact : Intact stop_words corpus views s) :
    (∀ w postings doc tf, StdMap.find? s.word_to_document_freqs_ w = some postings →
      (doc, tf) ∈ postings →
      ∃ freqs, StdMap.find? s.document_to_word_freqs_ doc = some freqs ∧ (w, tf) ∈ freqs) ∧
    (∀ doc freqs w tf, StdMap.find? s.document_to_word_freqs_ doc = some freqs →
      (w, tf) ∈ freqs →
      ∃ postings, StdMap.find? s.word_to_document_freqs_ w = some postings ∧
        (doc, tf) ∈ postings) ∧
    (∀ w postings doc tf, StdMap.find? s.word_to_document_freqs_ w = some postings →
      (doc, tf) ∈ postings → StdMap.contains s.documents_ doc = true) ∧
    (∀ query lambda, ∃ cands, FindAllDocuments log s query lambda = .ok cands) := by
  have hs := hintact.to_reachable.ran
  have hsound := hs.sound
  have hfind : ∀ w postings doc tf, StdMap.find? s.word_to_document_freqs_ w = some postings →
      (doc, tf) ∈ postings → StdMap.find2? s.word_to_document_freqs_ w doc = some tf := by
    intro w postings doc tf hw hmem
    rw [StdMap.find2?_eq_some]
    exact ⟨postings, hw,
      StdMap.find?_of_mem postings (hsound.postings_nodup w postings hw) doc tf hmem⟩
  refine ⟨?_, ?_, ?_, ?_⟩
  · intro w postings doc tf hw hmem
    have h := hfind w postings doc tf hw hmem
    rw [← hsound.symmetric w doc, StdMap.find2?_eq_some] at h
    obtain ⟨freqs, hf, hfw⟩ := h
    exact ⟨freqs, hf, StdMap.find?_mem freqs w tf hfw⟩
  · intro doc freqs w tf hd hmem
    have h : StdMap.find2? s.document_to_word_freqs_ doc w = some tf := by
      rw [StdMap.find2?_eq_some]
      exact ⟨freqs, hd,
        StdMap.find?_of_mem freqs (hsound.forward_nodup doc freqs hd).1 w tf hmem⟩
    rw [hsound.symmetric w doc, StdMap.find2?_eq_some] at h
    obtain ⟨postings, hp, hpd⟩ := h
    exact ⟨postings, hp, StdMap.find?_mem postings doc tf hpd⟩
  · intro w postings doc tf hw hmem
    apply hsound.stored w doc
    unfold inPostings
    rw [hfind w postings doc tf hw hmem]
    rfl
  · intro query lambda
    exact FindAllDocuments_returns log s hsound.postings_nodup hsound.stored query lambda

end symmetry

end SearchServer

theorem testServer_ran : SearchServer.Ran [ascii "in", ascii "the"] (testServer ℚ) :=
  testServer_built_rat.reachable.ran

theorem rejectedServer_ran : SearchServer.Ran [ascii "in", ascii "the"] (rejectedServer ℚ) :=
  SearchServer.Ran.add 5 [98, 111, 121, 32, 1] .ACTUAL [] testServer_ran

theorem indices_symmetric_witness :
    (∀ w postings doc tf,
      StdMap.find? (testServer ℚ).word_to_document_freqs_ w = some postings →
      (doc, tf) ∈ postings →
      ∃ freqs, StdMap.find? (testServer ℚ).document_to_word_freqs_ doc = some freqs ∧
        (w, tf) ∈ freqs) ∧
    (∀ doc freqs w tf,
      StdMap.find? (testServer ℚ).document_to_word_freqs_ doc = some freqs →
      (w, tf) ∈ freqs →
      ∃ postings, StdMap.find? (testServer ℚ).word_to_document_freqs_ w = some postings ∧
        (doc, tf) ∈ postings) ∧
    (∀ w postings doc tf,
      StdMap.find? (testServer ℚ).word_to_document_freqs_ w = some postings →
      (doc, tf) ∈ postings → StdMap.contains (testServer ℚ).documents_ doc = true) ∧
    (∀ query lambda,
      ∃ cands, SearchServer.FindAllDocuments (fun x => x) (testServer ℚ) query lambda =
        .ok cands) :=
  SearchServer.indices_symmetric (fun x => x) [ascii "in", ascii "the"] testCorpus testViews
    (testServer ℚ) testServer_intact

namespace SearchServer

section frequencies

variable {R : Type} [LinearOrderedField R]

/-- C16. After a call `AddDocument(id, text, ...)` that returns, on a state that calls
of `AddDocument` and `RemoveDocument` reach, whether they returned or threw:
`GetWordFrequencies(id)` maps a word that occurs `c >= 1` times among the `n` non-stop
words of the text to `c / n`, and its keys are exactly the non-stop words of the text,
each once. -/
theorem GetWordFrequencies_after_add (stop_words : StdSet Word)
    (s : SearchServer R) (document_id : Int) (document : Word) (status : DocumentStatus)
    (ratings : List Int) (hs : Ran stop_words s)
    (hok : (AddDocument s document_id document status ratings).2 = none) :
    (∀ w, 1 ≤ (SplitIntoWordsNoStop s document).count w →
      StdMap.find? (GetWordFrequencies (AddDocument s document_id document status ratings).1
          document_id) w =
        some (((SplitIntoWordsNoStop s document).count w : R) /
          ((SplitIntoWordsNoStop s document).length : R))) ∧
    (∀ w, w ∈ StdMap.keys (GetWordFrequencies
        (AddDocument s document_id document status ratings).1 document_id) ↔
      w ∈ SplitIntoWordsNoStop s document) ∧
    (StdMap.keys (GetWordFrequencies (AddDocument s document_id document status ratings).1
      document_id)).Nodup := by
  have hsound := hs.sound
  have hsound1 := (Ran.add document_id document status ratings hs).sound
  obtain ⟨_, hnew, _, _, _, _, _, hfwd⟩ :=
    AddDocument_spec s document_id document status ratings hok
  have hold : ∀ w, StdMap.find2? s.document_to_word_freqs_ document_id w = none := by
    intro w
    unfold StdMap.find2?
    rw [hsound.forward_stored document_id ((StdMap.contains_eq_false _ _).2 hnew)]
  have hval : ∀ w, StdMap.find? (GetWordFrequencies
        (AddDocument s document_id document status ratings).1 document_id) w =
      if w ∈ SplitIntoWordsNoStop s document then
        some (((SplitIntoWordsNoStop s document).count w : R) /
          ((SplitIntoWordsNoStop s document).length : R))
      else none := by
    intro w
    rw [GetWordFrequencies_find?, hfwd w document_id, hold w]
    by_cases hw : w ∈ SplitIntoWordsNoStop s document
    · rw [if_pos ⟨rfl, hw⟩, if_pos hw, Option.getD_none, zero_add]
    · rw [if_neg (fun h => hw h.2), if_neg hw]
  refine ⟨?_, ?_, ?_⟩
  · intro w hc
    rw [hval w, if_pos (List.count_pos_iff.1 hc)]
  · intro w
    rw [StdMap.mem_keys_iff, StdMap.contains, hval w]
    by_cases hw : w ∈ SplitIntoWordsNoStop s document
    · simp [hw]
    · simp [hw]
  · unfold GetWordFrequencies
    cases hf : StdMap.find?
        (AddDocument s document_id document status ratings).1.document_to_word_freqs_
        document_id with
    | none => exact List.nodup_nil
    | some freqs => exact (hsound1.forward_nodup document_id freqs hf).1

end frequencies

end SearchServer

theorem GetWordFrequencies_after_add_witness :
    StdMap.find? (SearchServer.GetWordFrequencies (testServer1 ℚ) 42) (ascii "cat") =
      some (1 / 2) ∧
    (∀ w, w ∈ StdMap.keys (SearchServer.GetWordFrequencies (testServer1 ℚ) 42) ↔
      w ∈ [ascii "cat", ascii "city"]) ∧
    (StdMap.keys (SearchServer.GetWordFrequencies (testServer1 ℚ) 42)).Nodup :=
  have h := SearchServer.GetWordFrequencies_after_add [ascii "in", ascii "the"]
    (SearchServer.empty [ascii "in", ascii "the"] : SearchServer ℚ) 42 (ascii "cat in the city")
    .ACTUAL [1, 5, 2] SearchServer.Ran.init (by decide!)
  ⟨h.1 (ascii "cat") (by decide!), h.2.1, h.2.2⟩

namespace SearchServer

section stop_words

variable {R : Type} [LinearOrderedField R]

end stop_words

end SearchServer

namespace SearchServer

/-- C18. The rating `ComputeAverageRating` computes is 0 for the empty sample, and
for a sample whose sum and size are in the range of `int` it is the quotient of the
sum by the size, rounded toward zero; so `{-1,-5,-2}` gives -2, `{1,-5,-2}` gives
-2, `{2,1,-3}` gives 0 and `{1,5,2}` gives 2; and it is the rating that a call of
`AddDocument` that returns stores for the document. -/
theorem ComputeAverageRating_quotient :
    ComputeAverageRating [] = 0 ∧
    (∀ ratings : List Int, ratings ≠ [] → -2147483648 ≤ ratings.sum →
      ratings.sum < 2147483648 → ratings.length < 2147483648 →
      ComputeAverageRating ratings = Int.tdiv ratings.sum ratings.length) ∧
    ComputeAverageRating [-1, -5, -2] = -2 ∧ ComputeAverageRating [1, -5, -2] = -2 ∧
    ComputeAverageRating [2, 1, -3] = 0 ∧ ComputeAverageRating [1, 5, 2] = 2 ∧
    (∀ (S : Type) [LinearOrderedField S] (s : SearchServer S) (document_id : Int)
      (document : Word) (status : DocumentStatus) (ratings : List Int),
      (AddDocument s document_id document status ratings).2 = none →
      ∃ data, StdMap.find? (AddDocument s document_id document status ratings).1.documents_
          document_id = some data ∧ data.rating = ComputeAverageRating ratings) := by
  refine ⟨rfl, ?_, by decide, by decide, by decide, by decide, ?_⟩
  on_goal 2 =>
    intro S _ s document_id document status ratings hok
    obtain ⟨_, hnew, _, _, hdocs, _⟩ := AddDocument_spec s document_id document status ratings hok
    refine ⟨stored { document := document, status := status, ratings := ratings }, ?_, rfl⟩
    rw [hdocs, StdMap.find?_emplace, if_pos rfl, hnew]
    rfl
  intro ratings hne h1 h2 h3
  unfold ComputeAverageRating
  have hemp : ratings.isEmpty = false := by
    cases ratings with
    | nil => exact absurd rfl hne
    | cons a rest => rfl
  simp only [hemp, Bool.false_eq_true, if_false]
  have hfold := foldl_wrapInt ratings 0
  have h0 : wrapInt 0 = 0 := by decide
  rw [h0, zero_add] at hfold
  rw [hfold, wrapInt_of_range _ h1 h2, wrapInt_of_range _ (by omega) (by omega)]

end SearchServer

theorem ComputeAverageRating_quotient_witness :
    SearchServer.ComputeAverageRating [7, -2, -9, 1] = Int.tdiv (-3) 4 :=
  SearchServer.ComputeAverageRating_quotient.2.1 [7, -2, -9, 1] (by decide) (by decide)
    (by decide) (by decide)

namespace SearchServer

section removal_twice

variable {R : Type} [LinearOrderedField R]

/-- C19, on the states of `Intact`. On a state reached by successful calls of
`AddDocument` and `RemoveDocument` in which every key of the inverted index views the
text of a stored document, so that the lookups of the code are those of the
embedding: `RemoveDocument` does not throw; a second `RemoveDocument` of
the same id leaves the state of the first, with all five data members and so the
document count; and `RemoveDocument` of an id that the document store does not hold
leaves the state as it is. -/
theorem RemoveDocument_idempotent (stop_words : StdSet Word) (corpus : Corpus)
    (views : StdMap Word Int) (s : SearchServer R)
    (document_id : Int) (hintact : Intact stop_words corpus views s) :
    (RemoveDocument s document_id).2 = none ∧
    RemoveDocument (RemoveDocument s document_id).1 document_id =
      ((RemoveDocument s document_id).1, none) ∧
    GetDocumentCount (RemoveDocument (RemoveDocument s document_id).1 document_id).1 =
      GetDocumentCount (RemoveDocument s document_id).1 ∧
    (StdMap.contains s.documents_ document_id = false →
      RemoveDocument s document_id = (s, none)) := by
  have hs := hintact.to_reachable.ran
  have hsound := hs.sound
  obtain ⟨h0, _, h2, h3, h4, _⟩ :=
    RemoveDocument_spec s document_id (hsound.forward_indexed document_id)
  have hagain : RemoveDocument (RemoveDocument s document_id).1 document_id =
      ((RemoveDocument s document_id).1, none) := by
    apply RemoveDocument_noop
    · rw [h4, StdMap.find?_erase, if_pos rfl]
    · rw [h2, StdMap.contains, StdMap.find?_erase, if_pos rfl]
      rfl
    · rw [h3, StdSet.mem_erase]
      exact fun h => h.1 rfl
  refine ⟨h0, hagain, by rw [hagain], ?_⟩
  intro hno
  apply RemoveDocument_noop s document_id (hsound.forward_stored document_id hno) hno
  intro hin
  rw [hsound.live document_id hin] at hno
  cases hno

end removal_twice

end SearchServer

theorem RemoveDocument_idempotent_witness :
    (SearchServer.RemoveDocument (testServer ℚ) 42).2 = none ∧
    SearchServer.RemoveDocument (SearchServer.RemoveDocument (testServer ℚ) 42).1 42 =
      ((SearchServer.RemoveDocument (testServer ℚ) 42).1, none) ∧
    SearchServer.GetDocumentCount
        (SearchServer.RemoveDocument (SearchServer.RemoveDocument (testServer ℚ) 42).1 42).1 =
      SearchServer.GetDocumentCount (SearchServer.RemoveDocument (testServer ℚ) 42).1 ∧
    SearchServer.RemoveDocument (testServer ℚ) 7 = (testServer ℚ, none) :=
  have h := fun id => SearchServer.RemoveDocument_idempotent [ascii "in", ascii "the"]
    testCorpus testViews (testServer ℚ) id testServer_intact
  ⟨(h 42).1, (h 42).2.1, (h 42).2.2.1, (h 7).2.2.2 (by decide!)⟩

namespace SearchServer

section removal_frame

variable {R : Type} [LinearOrderedField R]

/-- C20, on the states of `Intact`. On a state reached by successful calls of
`AddDocument` and `RemoveDocument` in which every key of the inverted index views the
text of a stored document, so that the lookups of the code are those of the
embedding, `RemoveDocument(id)` returns and afterwards, with the postings lists taken
as the embedding keeps them, under the bytes of their keys: `id` is no live id, no key of the document
store, no key of the forward index and in no postings list of the inverted index; the
document count is one less if `id` was a live id and the same otherwise; and for every
other id `j` the stored status, rating and text, the word frequencies, the postings and
the membership in the live ids are as before. -/
theorem RemoveDocument_frame (stop_words : StdSet Word) (corpus : Corpus)
    (views : StdMap Word Int) (s : SearchServer R)
    (document_id : Int) (hintact : Intact stop_words corpus views s) :
    (RemoveDocument s document_id).2 = none ∧
    document_id ∉ (RemoveDocument s document_id).1.docs_id_ ∧
    StdMap.contains (RemoveDocument s document_id).1.documents_ document_id = false ∧
    StdMap.contains (RemoveDocument s document_id).1.document_to_word_freqs_ document_id =
      false ∧
    (∀ w postings,
      StdMap.find? (RemoveDocument s document_id).1.word_to_document_freqs_ w = some postings →
      StdMap.contains postings document_id = false) ∧
    (document_id ∈ s.docs_id_ →
      GetDocumentCount (RemoveDocument s document_id).1 + 1 = GetDocumentCount s) ∧
    (document_id ∉ s.docs_id_ →
      GetDocumentCount (RemoveDocument s document_id).1 = GetDocumentCount s) ∧
    (∀ j, j ≠ document_id →
      StdMap.find? (RemoveDocument s document_id).1.documents_ j = StdMap.find? s.documents_ j ∧
      GetWordFrequencies (RemoveDocument s document_id).1 j = GetWordFrequencies s j ∧
      (∀ w, StdMap.find2? (RemoveDocument s document_id).1.word_to_document_freqs_ w j =
        StdMap.find2? s.word_to_document_freqs_ w j) ∧
      (j ∈ (RemoveDocument s document_id).1.docs_id_ ↔ j ∈ s.docs_id_)) := by
  have hs := hintact.to_reachable
  have hi := hs.inv
  have hsound := hs.ran.sound
  obtain ⟨h0, _, h2, h3, h4, h5, _⟩ :=
    RemoveDocument_spec s document_id (hsound.forward_indexed document_id)
  refine ⟨h0, ?_, ?_, ?_, ?_, ?_, ?_, ?_⟩
  · rw [h3, StdSet.mem_erase]
    exact fun h => h.1 rfl
  · rw [h2, StdMap.contains, StdMap.find?_erase, if_pos rfl]
    rfl
  · rw [h4, StdMap.contains, StdMap.find?_erase, if_pos rfl]
    rfl
  · intro w postings hw
    have h := h5 w document_id
    have hl : StdMap.find2? (RemoveDocument s document_id).1.word_to_document_freqs_ w
        document_id = StdMap.find? postings document_id := by
      simp [StdMap.find2?, hw]
    rw [hl] at h
    rw [StdMap.contains_eq_false, h]
    split
    · rfl
    · rename_i hnot
      rw [← hsound.symmetric w document_id]
      cases hf : StdMap.find2? s.document_to_word_freqs_ document_id w with
      | none => rfl
      | some x => exact absurd ⟨rfl, by rw [hf]; rfl⟩ hnot
  · intro hin
    unfold GetDocumentCount
    rw [h2]
    exact StdMap.length_erase document_id s.documents_ hi.nodup
      ((hi.live_iff_stored document_id).1 hin)
  · intro hout
    unfold GetDocumentCount
    rw [h2, StdMap.erase_of_not_contains]
    cases hc : StdMap.contains s.documents_ document_id with
    | false => rfl
    | true => exact absurd ((hi.live_iff_stored document_id).2 hc) hout
  · intro j hj
    refine ⟨?_, ?_, ?_, ?_⟩
    · rw [h2, StdMap.find?_erase, if_neg hj]
    · unfold GetWordFrequencies
      rw [h4, StdMap.find?_erase, if_neg hj]
    · intro w
      rw [h5 w j, if_neg (fun h => hj h.1)]
    · rw [h3, StdSet.mem_erase]
      exact ⟨fun h => h.2, fun h => ⟨hj, h⟩⟩

end removal_frame

end SearchServer

theorem RemoveDocument_frame_witness :
    42 ∈ (testServer ℚ).docs_id_ ∧
    SearchServer.GetDocumentCount (SearchServer.RemoveDocument (testServer ℚ) 42).1 + 1 =
      SearchServer.GetDocumentCount (testServer ℚ) ∧
    42 ∉ (SearchServer.RemoveDocument (testServer ℚ) 42).1.docs_id_ ∧
    SearchServer.GetWordFrequencies (SearchServer.RemoveDocument (testServer ℚ) 42).1 11 =
      SearchServer.GetWordFrequencies (testServer ℚ) 11 :=
  have h := SearchServer.RemoveDocument_frame [ascii "in", ascii "the"] testCorpus testViews
    (testServer ℚ) 42 testServer_intact
  ⟨by decide, h.2.2.2.2.2.1 (by decide), h.2.1, (h.2.2.2.2.2.2.2 11 (by decide)).2.1⟩

/-! ## Maps and sets in key order -/

namespace StdSet

variable {κ : Type} [LinearOrder κ]

theorem sorted_insertSorted (k : κ) (s : StdSet κ) (hs : List.Sorted (· < ·) s) (hk : k ∉ s) :
    List.Sorted (· < ·) (insertSorted k s) := by
  induction s with
  | nil => simp [insertSorted]
  | cons a rest ih =>
    simp only [insertSorted]
    have hne : k ≠ a := fun h => hk (h ▸ List.mem_cons_self _ _)
    have hrest : k ∉ rest := fun h => hk (List.mem_cons_of_mem _ h)
    split
    · rename_i hlt
      refine List.sorted_cons.2 ⟨?_, hs⟩
      intro b hb
      rcases List.mem_cons.1 hb with hb | hb
      · rw [hb]; exact hlt
      · exact lt_trans hlt (List.rel_of_sorted_cons hs b hb)
    · rename_i hlt
      have hak : a < k := lt_of_le_of_ne (not_lt.1 hlt) (Ne.symm hne)
      refine List.sorted_cons.2 ⟨?_, ih (List.sorted_cons.1 hs).2 hrest⟩
      intro b hb
      rcases (mem_insertSorted k rest b).1 hb with hb | hb
      · rw [hb]; exact hak
      · exact List.rel_of_sorted_cons hs b hb

theorem sorted_of_insert (k : κ) (s : StdSet κ) (hs : List.Sorted (· < ·) s) :
    List.Sorted (· < ·) (insert k s) := by
  unfold insert contains
  split
  · exact hs
  · rename_i h
    exact sorted_insertSorted k s hs (by simpa using h)

theorem sorted_erase (k : κ) (s : StdSet κ) (hs : List.Sorted (· < ·) s) :
    List.Sorted (· < ·) (erase k s) :=
  List.Sorted.filter _ hs

/-- Two sets that hold the same elements iterate alike. -/
theorem eq_of_sorted (s t : StdSet κ) (hs : List.Sorted (· < ·) s) (ht : List.Sorted (· < ·) t)
    (h : ∀ x, x ∈ s ↔ x ∈ t) : s = t :=
  List.eq_of_perm_of_sorted ((List.perm_ext_iff_of_nodup hs.nodup ht.nodup).2 h) hs ht

end StdSet

namespace SearchServer

section live_ids

variable {R : Type} [LinearOrderedField R]

/-- The live ids after a call of `AddDocument`: the ids before, with the new id
if the call returns. -/
theorem AddDocument_docs_id (s : SearchServer R) (document_id : Int) (document : Word)
    (status : DocumentStatus) (ratings : List Int) :
    (AddDocument s document_id document status ratings).1.docs_id_ =
        StdSet.insert document_id s.docs_id_ ∨
      (AddDocument s document_id document status ratings).1.docs_id_ = s.docs_id_ := by
  unfold AddDocument
  split
  · exact Or.inr rfl
  · split
    · exact Or.inr rfl
    · have hf := (AddDocument.loop_frame
          (SplitIntoWordsNoStop ({ s with
            documents_ :=
              StdMap.emplace document_id
                { rating := ComputeAverageRating ratings, status := status, data := document }
                s.documents_ } : SearchServer R) document).length document_id
          (SplitIntoWordsNoStop ({ s with
            documents_ :=
              StdMap.emplace document_id
                { rating := ComputeAverageRating ratings, status := status, data := document }
                s.documents_ } : SearchServer R) document)
          ({ s with
            documents_ :=
              StdMap.emplace document_id
                { rating := ComputeAverageRating ratings, status := status, data := document }
                s.documents_ } : SearchServer R)).2
      simp only at hf ⊢
      split
      · rename_i s2 e heq
        rw [heq] at hf
        exact Or.inr hf
      · rename_i s2 heq
        rw [heq] at hf
        simp only at hf
        left
        simp only
        rw [hf]

/-- Whatever calls were made, the live ids are in strictly ascending order. -/
theorem Ran.sorted_ids {stop_words : StdSet Word} {s : SearchServer R}
    (h : Ran stop_words s) : List.Sorted (· < ·) s.docs_id_ := by
  induction h with
  | init => exact List.sorted_nil
  | @add s document_id document status ratings _ ih =>
    rcases AddDocument_docs_id s document_id document status ratings with h | h
    · rw [h]
      exact StdSet.sorted_of_insert _ _ ih
    · rw [h]
      exact ih
  | @remove s document_id hr ih =>
    rw [(RemoveDocument_spec s document_id (hr.sound.forward_indexed document_id)).2.2.2.1]
    exact StdSet.sorted_erase _ _ ih

end live_ids

end SearchServer

namespace StdMap

variable {κ ν : Type} [LinearOrder κ]

theorem keys_insertSorted_eq (k : κ) (v : ν) (m : StdMap κ ν) :
    keys (insertSorted k v m) = StdSet.insertSorted k (keys m) := by
  induction m with
  | nil => rfl
  | cons p rest ih =>
    obtain ⟨k2, v2⟩ := p
    simp only [insertSorted, keys, List.map_cons, StdSet.insertSorted]
    split
    · rfl
    · simp only [List.map_cons]
      rw [show List.map Prod.fst (insertSorted k v rest) = keys (insertSorted k v rest) from rfl,
        ih]
      rfl

theorem sorted_keys_update (k : κ) (dflt : ν) (g : ν → ν) (m : StdMap κ ν)
    (hm : List.Sorted (· < ·) (keys m)) : List.Sorted (· < ·) (keys (update k dflt g m)) := by
  unfold update
  rw [keys_modify]
  unfold emplace
  split
  · exact hm
  · rename_i hc
    rw [keys_insertSorted_eq]
    apply StdSet.sorted_insertSorted _ _ hm
    intro hmem
    exact hc ((mem_keys_iff m k).1 hmem)

theorem contains_emplace (k : κ) (v : ν) (m : StdMap κ ν) (k1 : κ) :
    contains (emplace k v m) k1 = true ↔ k1 = k ∨ contains m k1 = true := by
  unfold contains
  rw [find?_emplace]
  split
  · rename_i h1
    simp [h1]
  · rename_i h1
    simp [h1]

end StdMap

/-! ## The parallel versions -/

namespace StdMap

variable {κ ν : Type} [LinearOrder κ]

theorem modify_comm (k1 k2 : κ) (g : ν → ν) (m : StdMap κ ν) :
    modify k1 g (modify k2 g m) = modify k2 g (modify k1 g m) := by
  unfold modify
  rw [List.map_map, List.map_map]
  apply List.map_congr_left
  intro p _
  obtain ⟨k, v⟩ := p
  simp only [Function.comp]
  by_cases h1 : k = k1
  · by_cases h2 : k = k2
    · subst h1
      subst h2
      simp
    · subst h1
      simp [h2]
  · by_cases h2 : k = k2
    · subst h2
      simp [h1]
    · simp [h1, h2]

end StdMap

namespace SearchServer

section parallel_removal

variable {R : Type}

/-- The inverted index after the erasures for the words of a list, when no erasure
throws. -/
theorem RemoveDocument.loop_foldl (document_id : Int) (words : List Word)
    (index : StdMap Word (StdMap Int R))
    (hw : ∀ word ∈ words, StdMap.contains index word = true) :
    RemoveDocument.loop document_id words index =
      (words.foldl (fun idx w => StdMap.modify w (StdMap.erase document_id) idx) index, none) ∧
    RemoveDocumentPar.loop document_id words index =
      some (words.foldl (fun idx w => StdMap.modify w (StdMap.erase document_id) idx) index) := by
  induction words generalizing index with
  | nil => exact ⟨rfl, rfl⟩
  | cons t rest ih =>
    have ht : StdMap.contains index t = true := hw t (List.mem_cons_self _ _)
    have hrest : ∀ word ∈ rest,
        StdMap.contains (StdMap.modify t (StdMap.erase document_id) index) word = true := by
      intro word hword
      rw [StdMap.contains_modify]
      exact hw word (List.mem_cons_of_mem _ hword)
    obtain ⟨ih1, ih2⟩ := ih _ hrest
    constructor
    · unfold RemoveDocument.loop
      rw [if_pos ht, ih1]
      rfl
    · unfold RemoveDocumentPar.loop
      rw [if_pos ht, ih2]
      rfl

theorem RemoveDocument_eq (s : SearchServer R) (document_id : Int)
    (index : StdMap Word (StdMap Int R))
    (h : RemoveDocument.loop document_id
      (match StdMap.find? s.document_to_word_freqs_ document_id with
        | none => ([] : List Word)
        | some freqs => StdMap.keys freqs) s.word_to_document_freqs_ = (index, none)) :
    RemoveDocument s document_id =
      (({ s with
          word_to_document_freqs_ := index
          document_to_word_freqs_ := StdMap.erase document_id s.document_to_word_freqs_
          documents_ := StdMap.erase document_id s.documents_
          docs_id_ := StdSet.erase document_id s.docs_id_ } : SearchServer R), none) := by
  unfold RemoveDocument
  simp only
  split
  · rename_i index1 e heq
    have heq1 : RemoveDocument.loop document_id
        (match StdMap.find? s.document_to_word_freqs_ document_id with
          | none => ([] : List Word)
          | some freqs => StdMap.keys freqs) s.word_to_document_freqs_ = (index1, some e) := heq
    rw [h] at heq1
    cases heq1
  · rename_i index1 heq
    have heq1 : RemoveDocument.loop document_id
        (match StdMap.find? s.document_to_word_freqs_ document_id with
          | none => ([] : List Word)
          | some freqs => StdMap.keys freqs) s.word_to_document_freqs_ = (index1, none) := heq
    rw [h] at heq1
    cases heq1
    rfl

end parallel_removal

section parallel_removal_claim

variable {R : Type} [LinearOrderedField R]

/-- C21, on the states of `Intact`. On a state reached by successful calls of
`AddDocument` and `RemoveDocument` in which every key of the inverted index views the
text of a stored document, so that the lookups of the code are those of the
embedding, and in whatever order the erasures of the parallel `for_each`
take effect: `RemoveDocument` with the parallel policy does not terminate the
program, and it leaves the state that the sequential `RemoveDocument(id)` leaves. -/
theorem RemoveDocumentPar_eq (stop_words : StdSet Word) (corpus : Corpus)
    (views : StdMap Word Int) (s : SearchServer R)
    (document_id : Int) (schedule : List Word → List Word)
    (hintact : Intact stop_words corpus views s)
    (hschedule : ∀ words, (schedule words).Perm words) :
    (RemoveDocument s document_id).2 = none ∧
    RemoveDocumentPar schedule s document_id = some (RemoveDocument s document_id).1 := by
  have hs := hintact.to_reachable.ran
  have hsound := hs.sound
  refine ⟨(hsound.after_remove document_id).1, ?_⟩
  cases hf : StdMap.find? s.document_to_word_freqs_ document_id with
  | none =>
    rw [RemoveDocument_of_absent s document_id hf]
    unfold RemoveDocumentPar
    simp only [hf]
  | some freqs =>
    have hwords : ∀ word ∈ StdMap.keys freqs,
        StdMap.contains s.word_to_document_freqs_ word = true := by
      intro word hword
      apply hsound.forward_indexed document_id
      rw [StdMap.mem_keys_iff, StdMap.contains] at hword
      simpa [StdMap.find2?, hf] using hword
    have hwords1 : ∀ word ∈ schedule (StdMap.keys freqs),
        StdMap.contains s.word_to_document_freqs_ word = true :=
      fun word hword => hwords word ((hschedule _).mem_iff.1 hword)
    have hseq := (RemoveDocument.loop_foldl document_id (StdMap.keys freqs)
      s.word_to_document_freqs_ hwords).1
    have hpar := (RemoveDocument.loop_foldl document_id (schedule (StdMap.keys freqs))
      s.word_to_document_freqs_ hwords1).2
    have hperm : (schedule (StdMap.keys freqs)).foldl
        (fun idx w => StdMap.modify w (StdMap.erase document_id) idx)
        s.word_to_document_freqs_ =
        (StdMap.keys freqs).foldl
          (fun idx w => StdMap.modify w (StdMap.erase document_id) idx)
          s.word_to_document_freqs_ :=
      (hschedule (StdMap.keys freqs)).foldl_eq'
        (fun x _ y _ z => StdMap.modify_comm y x (StdMap.erase document_id) z) _
    rw [RemoveDocument_eq s document_id _ (by rw [hf]; exact hseq)]
    unfold RemoveDocumentPar
    simp only [hf, hpar, hperm]

end parallel_removal_claim

end SearchServer

theorem RemoveDocumentPar_eq_witness :
    (SearchServer.RemoveDocument (testServer ℚ) 11).2 = none ∧
    SearchServer.RemoveDocumentPar List.reverse (testServer ℚ) 11 =
      some (SearchServer.RemoveDocument (testServer ℚ) 11).1 :=
  SearchServer.RemoveDocumentPar_eq [ascii "in", ascii "the"] testCorpus testViews
    (testServer ℚ) 11 List.reverse testServer_intact (fun words => List.reverse_perm words)

namespace StdMap

variable {κ ν : Type} [LinearOrder κ]

/-- Two maps in key order that hold the same values are the same list of entries. -/
theorem ext_of_sorted (m1 m2 : StdMap κ ν) (h1 : List.Sorted (· < ·) (keys m1))
    (h2 : List.Sorted (· < ·) (keys m2)) (h : ∀ k, find? m1 k = find? m2 k) : m1 = m2 := by
  induction m1 generalizing m2 with
  | nil =>
    cases m2 with
    | nil => rfl
    | cons p rest =>
      have := h p.1
      simp [find?] at this
  | cons p r1 ih =>
    obtain ⟨k, v⟩ := p
    cases m2 with
    | nil =>
      have := h k
      simp [find?] at this
    | cons q r2 =>
      obtain ⟨k2, v2⟩ := q
      simp only [keys, List.map_cons, List.sorted_cons] at h1 h2
      have hk : k = k2 := by
        have e1 := h k
        have e2 := h k2
        simp only [find?, if_true] at e1 e2
        by_contra hne
        rw [if_neg (fun h => hne h.symm)] at e1
        rw [if_neg hne] at e2
        have m1 : k ∈ keys r2 := (mem_keys_iff r2 k).2 ((contains_iff r2 k).2 ⟨v, e1.symm⟩)
        have m2 : k2 ∈ keys r1 := (mem_keys_iff r1 k2).2 ((contains_iff r1 k2).2 ⟨v2, e2⟩)
        exact lt_asymm (h1.1 k2 m2) (h2.1 k m1)
      subst hk
      have hv : v = v2 := by
        have e1 := h k
        simpa [find?] using e1
      subst hv
      have hnone : ∀ (r : StdMap κ ν), (∀ b ∈ List.map Prod.fst r, k < b) → find? r k = none := by
        intro r hr
        cases hf : find? r k with
        | none => rfl
        | some x =>
          have hm : k ∈ keys r := (mem_keys_iff r k).2 ((contains_iff r k).2 ⟨x, hf⟩)
          exact absurd (hr k hm) (lt_irrefl k)
      congr 1
      apply ih r2 h1.2 h2.2
      intro x
      by_cases hx : k = x
      · subst hx
        rw [hnone r1 h1.1, hnone r2 h2.1]
      · have e := h x
        simpa [find?, hx] using e

end StdMap

/-! ## The overloads of `FindTopDocuments` -/

namespace SearchServer

section overloads

variable {R : Type} [LinearOrderedField R]

theorem FindAllDocuments.addPostings_accepted (s : SearchServer R)
    (lambda : Int → DocumentStatus → Int → Bool) (idf : R) (postings : StdMap Int R)
    (acc acc1 : StdMap Int R)
    (h : FindAllDocuments.addPostings s lambda idf postings acc = .ok acc1)
    (hacc : ∀ id, StdMap.contains acc id = true → accepts s lambda id = true) :
    ∀ id, StdMap.contains acc1 id = true → accepts s lambda id = true := by
  induction postings generalizing acc with
  | nil =>
    simp only [FindAllDocuments.addPostings, Except.ok.injEq] at h
    subst h
    exact hacc
  | cons p rest ih =>
    obtain ⟨pid, tf⟩ := p
    unfold FindAllDocuments.addPostings at h
    cases hd : StdMap.find? s.documents_ pid with
    | none => rw [hd] at h; cases h
    | some data =>
      rw [hd] at h
      simp only at h
      split at h
      · rename_i hl
        apply ih _ h
        intro id hid
        rw [StdMap.contains_update] at hid
        rcases hid with hid | hid
        · subst hid
          exact (accepts_iff s lambda id).2 ⟨data, hd, hl⟩
        · exact hacc id hid
      · exact ih _ h hacc

theorem FindAllDocuments.plusLoop_accepted (log : R → R) (s : SearchServer R)
    (lambda : Int → DocumentStatus → Int → Bool) (words : List Word) (acc acc1 : StdMap Int R)
    (h : FindAllDocuments.plusLoop log s lambda words acc = .ok acc1)
    (hacc : ∀ id, StdMap.contains acc id = true → accepts s lambda id = true) :
    ∀ id, StdMap.contains acc1 id = true → accepts s lambda id = true := by
  induction words generalizing acc with
  | nil =>
    simp only [FindAllDocuments.plusLoop, Except.ok.injEq] at h
    subst h
    exact hacc
  | cons t rest ih =>
    unfold FindAllDocuments.plusLoop at h
    cases hf : StdMap.find? s.word_to_document_freqs_ t with
    | none =>
      rw [hf] at h
      exact ih _ h hacc
    | some postings =>
      rw [hf] at h
      simp only at h
      cases hi : ComputeWordInverseDocumentFreq log s t with
      | error e => rw [hi] at h; cases h
      | ok idf =>
        rw [hi] at h
        simp only at h
        cases ha : FindAllDocuments.addPostings s lambda idf postings acc with
        | error e => rw [ha] at h; cases h
        | ok acc2 =>
          rw [ha] at h
          exact ih _ h (FindAllDocuments.addPostings_accepted s lambda idf postings acc acc2 ha hacc)

theorem FindAllDocuments.collect_ids {S : Type} (s : SearchServer S) (acc : StdMap Int S)
    (docs : List (Document S)) (h : FindAllDocuments.collect s acc = .ok docs) :
    docs.map (fun d => d.id) = StdMap.keys acc := by
  induction acc generalizing docs with
  | nil =>
    simp only [FindAllDocuments.collect, Except.ok.injEq] at h
    subst h
    rfl
  | cons p rest ih =>
    obtain ⟨id, rel⟩ := p
    unfold FindAllDocuments.collect at h
    cases hd : StdMap.find? s.documents_ id with
    | none => rw [hd] at h; cases h
    | some data =>
      rw [hd] at h
      simp only at h
      cases hc : FindAllDocuments.collect s rest with
      | error e => rw [hc] at h; cases h
      | ok docs1 =>
        rw [hc] at h
        simp only [Except.ok.injEq] at h
        subst h
        simp only [List.map_cons, StdMap.keys]
        rw [ih docs1 hc]
        rfl

/-- Whatever the state, the documents that `FindTopDocuments` returns are stored
and the predicate accepts them. -/
theorem FindTopDocuments_accepted (log : R → R) (s : SearchServer R) (raw_query : Word)
    (lambda : Int → DocumentStatus → Int → Bool) (top : List (Document R))
    (h : FindTopDocuments log s raw_query lambda = .ok top) :
    ∀ d ∈ top, accepts s lambda d.id = true := by
  unfold FindTopDocuments at h
  cases hq : ParseQuery s raw_query with
  | error e => rw [hq] at h; cases h
  | ok query =>
    rw [hq] at h
    simp only at h
    cases hc : FindAllDocuments log s query lambda with
    | error e => rw [hc] at h; cases h
    | ok cands =>
      rw [hc] at h
      simp only at h
      have hcands : ∀ d ∈ cands, accepts s lambda d.id = true := by
        unfold FindAllDocuments at hc
        cases hp : FindAllDocuments.plusLoop log s lambda query.plus_words [] with
        | error e => rw [hp] at hc; cases hc
        | ok acc =>
          rw [hp] at hc
          simp only at hc
          have hacc := FindAllDocuments.plusLoop_accepted log s lambda query.plus_words [] acc hp
            (by intro id hid; simp [StdMap.contains, StdMap.find?] at hid)
          have hids := FindAllDocuments.collect_ids s _ cands hc
          intro d hd
          apply hacc
          have hk : d.id ∈ StdMap.keys (FindAllDocuments.minusLoop s query.minus_words acc) := by
            rw [← hids]
            exact List.mem_map.2 ⟨d, hd, rfl⟩
          rw [StdMap.mem_keys_iff] at hk
          unfold StdMap.contains at hk ⊢
          rw [(FindAllDocuments.minusLoop_spec s query.minus_words acc).2 d.id] at hk
          split at hk
          · cases hk
          · exact hk
      intro d hd
      apply hcands
      rw [← StdSort.mem_sort FindTopDocuments.cmp cands d]
      split at h
      · cases h
        exact List.mem_of_mem_take hd
      · cases h
        exact hd

/-- C23. Whatever the state, the query and the status: `FindTopDocuments(q, s)` is
`FindTopDocuments(q, p)` with `p(id, status, rating) = (status == s)`, every document
it returns is stored with the status `s`, and `FindTopDocuments(q)` is
`FindTopDocuments(q, ACTUAL)`. -/
theorem FindTopDocuments_overloads (log : R → R) (s : SearchServer R) (raw_query : Word)
    (needed_status : DocumentStatus) :
    FindTopDocuments.with_status log s raw_query needed_status =
      FindTopDocuments log s raw_query (fun _ status _ => status == needed_status) ∧
    (∀ top, FindTopDocuments.with_status log s raw_query needed_status = .ok top →
      ∀ d ∈ top, ∃ data, StdMap.find? s.documents_ d.id = some data ∧
        data.status = needed_status) ∧
    FindTopDocuments.actual log s raw_query =
      FindTopDocuments.with_status log s raw_query .ACTUAL := by
  refine ⟨rfl, ?_, rfl⟩
  intro top htop d hd
  have h := FindTopDocuments_accepted log s raw_query _ top htop d hd
  obtain ⟨data, hdata, hl⟩ := (accepts_iff s _ d.id).1 h
  exact ⟨data, hdata, by simpa using hl⟩

end overloads

end SearchServer

theorem FindTopDocuments_overloads_witness :
    SearchServer.FindTopDocuments.with_status (fun x => x) (statusServer ℚ)
        (ascii "dog cat -pretty") .IRRELEVANT =
      .ok [{ id := 11, relevance := 1 / 3 * (5 / 2), rating := 1 }] ∧
    ∀ d ∈ [({ id := 11, relevance := 1 / 3 * (5 / 2), rating := 1 } : Document ℚ)],
      ∃ data, StdMap.find? (statusServer ℚ).documents_ d.id = some data ∧
        data.status = .IRRELEVANT :=
  ⟨by with_unfolding_all rfl,
    (SearchServer.FindTopDocuments_overloads (fun x => x) (statusServer ℚ)
      (ascii "dog cat -pretty") .IRRELEVANT).2.1 _ (by with_unfolding_all rfl)⟩

/-! ## The iteration over a server -/

namespace SearchServer

section iteration

variable {R : Type} [LinearOrderedField R]

/-- C24. On a state reached by successful calls of `AddDocument` and `RemoveDocument`,
the iteration `begin() .. end()` is strictly ascending and yields exactly the ids that
were added and not removed since; so two servers that hold the same ids iterate
alike, in whatever order the ids were added. -/
theorem iterate_ascending (stop_words : StdSet Word) (corpus : Corpus) (s : SearchServer R)
    (hs : Reachable stop_words corpus s) :
    List.Sorted (· < ·) (iterate s) ∧
    (∀ id, id ∈ iterate s ↔ (corpus id).isSome = true) ∧
    (∀ (stop_words2 : StdSet Word) (corpus2 : Corpus) (s2 : SearchServer R),
      Reachable stop_words2 corpus2 s2 →
      (∀ id, (corpus2 id).isSome = (corpus id).isSome) → iterate s2 = iterate s) := by
  refine ⟨hs.ran.sorted_ids, hs.inv.live, ?_⟩
  intro stop_words2 corpus2 s2 hs2 hsame
  apply StdSet.eq_of_sorted _ _ hs2.ran.sorted_ids hs.ran.sorted_ids
  intro id
  rw [hs2.inv.live, hs.inv.live, hsame]

end iteration

end SearchServer

theorem iteratorServer_reachable :
    SearchServer.Reachable [ascii "in", ascii "the"] iteratorCorpus (iteratorServer ℚ) :=
  SearchServer.Reachable.add 1 (ascii "pretty cat in the city") .ACTUAL [5, 5, 4]
    (SearchServer.Reachable.add 2 (ascii "pretty dog in the city") .ACTUAL [4, 2, 3]
      (SearchServer.Reachable.add 11 (ascii "dog in the city scary") .ACTUAL [1, 1, 1]
        (SearchServer.Reachable.add 42 (ascii "cat in the city") .ACTUAL [1, 5, 2]
          SearchServer.Reachable.init (by decide!)) (by decide!)) (by decide!)) (by decide!)

theorem iterate_ascending_witness :
    SearchServer.iterate (iteratorServer ℚ) = [1, 2, 11, 42] ∧
    List.Sorted (· < ·) (SearchServer.iterate (iteratorServer ℚ)) ∧
    SearchServer.iterate (testServer ℚ) = SearchServer.iterate (iteratorServer ℚ) :=
  have h := SearchServer.iterate_ascending [ascii "in", ascii "the"] iteratorCorpus
    (iteratorServer ℚ) iteratorServer_reachable
  ⟨by decide!, h.1,
    h.2.2 [ascii "in", ascii "the"] testCorpus (testServer ℚ) testServer_built_rat.reachable
      (by
        intro id
        simp only [testCorpus, testCorpus3, testCorpus2, testCorpus1, iteratorCorpus,
          Function.update_apply]
        split_ifs <;> rfl)⟩

/-! ## The words of a text -/

section tokenizer

theorem Word.find_eq (c : Byte) (text : Word) :
    Word.find c text =
      if c ∈ text then some (text.takeWhile (fun b => decide (b ≠ c))).length else none := by
  induction text with
  | nil => simp [Word.find]
  | cons b rest ih =>
    unfold Word.find
    by_cases hb : b = c
    · subst hb
      simp
    · rw [if_neg hb, ih]
      by_cases hc : c ∈ rest
      · have hmem : c ∈ b :: rest := List.mem_cons_of_mem _ hc
        rw [if_pos hc, if_pos hmem, List.takeWhile_cons_of_pos (by simpa using hb)]
        rfl
      · have hmem : c ∉ b :: rest := by
          intro h
          rcases List.mem_cons.1 h with h | h
          · exact hb h.symm
          · exact hc h
        rw [if_neg hc, if_neg hmem]
        rfl

theorem Word.takeWhile_of_not_mem (c : Byte) (text : Word) (h : c ∉ text) :
    text.takeWhile (fun b => decide (b ≠ c)) = text := by
  rw [List.takeWhile_eq_self_iff]
  intro b hb
  have : b ≠ c := fun hbc => h (hbc ▸ hb)
  simpa using this

theorem Word.drop_takeWhile_length (p : Byte → Bool) (text : Word) :
    text.drop (text.takeWhile p).length = text.dropWhile p := by
  conv_lhs => arg 2; rw [← List.takeWhile_append_dropWhile p text]
  rw [List.drop_left]

theorem Word.take_takeWhile_length (p : Byte → Bool) (text : Word) :
    text.take (text.takeWhile p).length = text.takeWhile p := by
  conv_lhs => arg 2; rw [← List.takeWhile_append_dropWhile p text]
  rw [List.take_left]

/-- The bytes that `find_first_not_of(c, pos)` skips: those before `pos` and the run
of `c` that follows. -/
theorem Word.find_first_not_of.go_drop (c : Byte) (pos : Nat) (text : Word) (i : Nat) :
    text.drop (Pos.min (Word.find_first_not_of.go c pos text i) (i + text.length) - i) =
      (text.drop (pos - i)).dropWhile (fun b => decide (b = c)) := by
  induction text generalizing i with
  | nil => simp [Word.find_first_not_of.go, Pos.min]
  | cons b rest ih =>
    unfold Word.find_first_not_of.go
    by_cases h : pos ≤ i ∧ b ≠ c
    · rw [if_pos h]
      have h0 : pos - i = 0 := by omega
      have hmin : Pos.min (some i) (i + (b :: rest).length) - i = 0 := by
        simp [Pos.min]
      rw [hmin, h0, List.drop_zero,
        List.dropWhile_cons_of_neg (by simpa using h.2)]
    · rw [if_neg h]
      have hge : i + 1 ≤ Pos.min (Word.find_first_not_of.go c pos rest (i + 1))
          (i + (b :: rest).length) := by
        cases hg : Word.find_first_not_of.go c pos rest (i + 1) with
        | none => simp [Pos.min]
        | some j =>
          have hj := Word.find_first_not_of.go_ge c pos rest (i + 1) j hg
          simp only [Pos.min, List.length_cons]
          exact Nat.le_min.2 ⟨hj, by omega⟩
      have hlen : i + (b :: rest).length = i + 1 + rest.length := by
        simp only [List.length_cons]
        omega
      have hsplit : Pos.min (Word.find_first_not_of.go c pos rest (i + 1))
          (i + (b :: rest).length) - i =
          (Pos.min (Word.find_first_not_of.go c pos rest (i + 1)) (i + 1 + rest.length) -
            (i + 1)) + 1 := by
        rw [hlen] at hge ⊢
        omega
      rw [hsplit, List.drop_succ_cons, ih (i + 1)]
      by_cases hp : pos ≤ i
      · have hbc : b = c := by
          by_contra hne
          exact h ⟨hp, hne⟩
        have h0 : pos - i = 0 := by omega
        have h1 : pos - (i + 1) = 0 := by omega
        rw [h0, h1, List.drop_zero, List.drop_zero]
        exact (List.dropWhile_cons_of_pos (by simpa using hbc)).symm
      · have h1 : pos - i = (pos - (i + 1)) + 1 := by omega
        rw [h1, List.drop_succ_cons]

theorem Word.find_first_not_of_drop (text : Word) (c : Byte) (p : Nat) :
    text.drop (Pos.min (Word.find_first_not_of text c (some p)) text.length) =
      (text.drop p).dropWhile (fun b => decide (b = c)) := by
  have h := Word.find_first_not_of.go_drop c p text 0
  simpa [Word.find_first_not_of] using h

/-- One iteration of the loop of `SplitIntoWords`: the word is the bytes before the
first space, and the text goes on after the spaces that follow it. -/
theorem SplitIntoWords.loop_step (fuel : Nat) (text : Word) (h : text ≠ []) :
    SplitIntoWords.loop (fuel + 1) text =
      text.takeWhile (fun b => decide (b ≠ 32)) ::
        SplitIntoWords.loop fuel
          ((text.dropWhile (fun b => decide (b ≠ 32))).dropWhile (fun b => decide (b = 32))) := by
  have hemp : text.isEmpty = false := by
    cases text with
    | nil => exact absurd rfl h
    | cons b rest => rfl
  simp only [SplitIntoWords.loop, hemp, Bool.false_eq_true, if_false]
  rw [Word.find_eq]
  by_cases hc : (32 : Byte) ∈ text
  · simp only [if_pos hc]
    rw [Word.take_takeWhile_length, Word.find_first_not_of_drop, Word.drop_takeWhile_length]
  · simp only [if_neg hc]
    have htw := Word.takeWhile_of_not_mem 32 text hc
    have hdw : text.dropWhile (fun b => decide (b ≠ 32)) = [] := by
      have h1 := List.takeWhile_append_dropWhile (fun b => decide (b ≠ 32)) text
      rw [htw] at h1
      exact List.append_right_eq_self.1 h1
    rw [htw, hdw, List.take_length]
    simp [Word.find_first_not_of, Pos.min]

theorem SplitIntoWords_eq (text : Word) :
    SplitIntoWords text =
      SplitIntoWords.loop (text.dropWhile (fun b => decide (b = 32))).length
        (text.dropWhile (fun b => decide (b = 32))) := by
  unfold SplitIntoWords
  simp only
  rw [Word.find_first_not_of_drop, List.drop_zero]

end tokenizer

section tokenizer_runs

theorem Word.dropWhile_head (p : Byte → Bool) (text : Word) (x : Byte) (rest : Word)
    (h : text.dropWhile p = x :: rest) : p x = false := by
  induction text with
  | nil => cases h
  | cons b tail ih =>
    cases hb : p b with
    | true =>
      rw [List.dropWhile_cons_of_pos hb] at h
      exact ih h
    | false =>
      rw [List.dropWhile_cons_of_neg (by simp [hb])] at h
      cases h
      exact hb

theorem Word.filter_dropWhile (d : Word) :
    (d.dropWhile (fun b => decide (b = 32))).filter (fun b => decide (b ≠ 32)) =
      d.filter (fun b => decide (b ≠ 32)) := by
  induction d with
  | nil => rfl
  | cons x d ihd =>
    by_cases hx : x = 32
    · rw [List.dropWhile_cons_of_pos (by simpa using hx), ihd,
        List.filter_cons_of_neg (by simpa using hx)]
    · rw [List.dropWhile_cons_of_neg (by simpa using hx)]

theorem nonSpaceRuns_dropWhile (text : Word) :
    nonSpaceRuns (text.dropWhile (fun b => decide (b = 32))) = nonSpaceRuns text := by
  induction text with
  | nil => rfl
  | cons b rest ih =>
    by_cases hb : b = 32
    · rw [List.dropWhile_cons_of_pos (by simpa using hb), ih]
      subst hb
      simp [nonSpaceRuns, List.splitOn]
    · rw [List.dropWhile_cons_of_neg (by simpa using hb)]

/-- The first run of a text that starts with a byte other than the space, and the
runs after it. -/
theorem nonSpaceRuns_step (b : Byte) (rest : Word) (hb : b ≠ 32) :
    nonSpaceRuns (b :: rest) =
      (b :: rest).takeWhile (fun b => decide (b ≠ 32)) ::
        nonSpaceRuns (((b :: rest).dropWhile (fun b => decide (b ≠ 32))).dropWhile
          (fun b => decide (b = 32))) := by
  have hsplit := List.takeWhile_append_dropWhile (fun b => decide (b ≠ 32)) (b :: rest)
  have hw : ∀ x ∈ (b :: rest).takeWhile (fun b => decide (b ≠ 32)), ¬ (x == 32) = true := by
    intro x hx
    have := List.mem_takeWhile_imp hx
    simpa using this
  have hne : (b :: rest).takeWhile (fun b => decide (b ≠ 32)) ≠ [] := by
    rw [List.takeWhile_cons_of_pos (by simpa using hb)]
    exact List.cons_ne_nil _ _
  have hemp : ((b :: rest).takeWhile (fun b => decide (b ≠ 32))).isEmpty = false := by
    cases h : (b :: rest).takeWhile (fun b => decide (b ≠ 32)) with
    | nil => exact absurd h hne
    | cons _ _ => rfl
  rw [nonSpaceRuns_dropWhile]
  generalize (b :: rest).takeWhile (fun b => decide (b ≠ 32)) = w at hsplit hw hne hemp
  cases hd : (b :: rest).dropWhile (fun b => decide (b ≠ 32)) with
  | nil =>
    rw [hd, List.append_nil] at hsplit
    rw [← hsplit]
    unfold nonSpaceRuns List.splitOn
    rw [List.splitOnP_eq_single _ _ hw]
    simp [hemp]
  | cons x d =>
    have hx : x = 32 := by
      have := Word.dropWhile_head _ _ x d hd
      simpa using this
    subst hx
    rw [hd] at hsplit
    rw [← hsplit]
    unfold nonSpaceRuns List.splitOn
    rw [List.splitOnP_first _ _ hw 32 (by simp), List.filter_cons, List.splitOnP_cons]
    simp [hemp]

theorem SplitIntoWords.loop_runs (fuel : Nat) (text : Word) (hfuel : text.length ≤ fuel)
    (hhead : ∀ b rest, text = b :: rest → b ≠ 32) :
    SplitIntoWords.loop fuel text = nonSpaceRuns text ∧
    (∀ w ∈ SplitIntoWords.loop fuel text, w ≠ [] ∧ (32 : Byte) ∉ w) ∧
    (SplitIntoWords.loop fuel text).flatten = text.filter (fun b => decide (b ≠ 32)) := by
  induction fuel generalizing text with
  | zero =>
    have ht : text = [] := List.eq_nil_of_length_eq_zero (Nat.le_zero.1 hfuel)
    subst ht
    exact ⟨rfl, by simp [SplitIntoWords.loop], rfl⟩
  | succ fuel ih =>
    cases text with
    | nil => exact ⟨rfl, by simp [SplitIntoWords.loop], rfl⟩
    | cons b rest =>
      have hb : b ≠ 32 := hhead b rest rfl
      have hsplit := List.takeWhile_append_dropWhile (fun b => decide (b ≠ 32)) (b :: rest)
      have htw : (b :: rest).takeWhile (fun b => decide (b ≠ 32)) =
          b :: rest.takeWhile (fun b => decide (b ≠ 32)) :=
        List.takeWhile_cons_of_pos (by simpa using hb)
      have hlen : (((b :: rest).dropWhile (fun b => decide (b ≠ 32))).dropWhile
          (fun b => decide (b = 32))).length ≤ fuel := by
        have h1 := congrArg List.length hsplit
        rw [List.length_append, htw] at h1
        have h2 := (List.dropWhile_sublist (fun b => decide (b = 32))
          (l := (b :: rest).dropWhile (fun b => decide (b ≠ 32)))).length_le
        simp only [List.length_cons] at h1 hfuel
        omega
      have hnext : ∀ b1 rest1, ((b :: rest).dropWhile (fun b => decide (b ≠ 32))).dropWhile
          (fun b => decide (b = 32)) = b1 :: rest1 → b1 ≠ 32 := by
        intro b1 rest1 h
        have := Word.dropWhile_head _ _ b1 rest1 h
        simpa using this
      obtain ⟨ih1, ih2, ih3⟩ := ih _ hlen hnext
      rw [SplitIntoWords.loop_step fuel (b :: rest) (List.cons_ne_nil _ _)]
      refine ⟨?_, ?_, ?_⟩
      · rw [ih1, nonSpaceRuns_step b rest hb]
      · intro w hw
        rcases List.mem_cons.1 hw with hw | hw
        · subst hw
          refine ⟨?_, ?_⟩
          · rw [htw]
            exact List.cons_ne_nil _ _
          · intro hmem
            have := List.mem_takeWhile_imp hmem
            simp at this
        · exact ih2 w hw
      · rw [List.flatten_cons, ih3]
        conv_rhs => rw [← hsplit]
        rw [List.filter_append]
        congr 1
        · symm
          rw [List.filter_eq_self]
          intro x hx
          exact List.mem_takeWhile_imp (p := fun b => decide (b ≠ 32)) hx
        · exact Word.filter_dropWhile _

/-- The words that `SplitIntoWords` returns: the runs of the text, none empty and none
with a space, and together the bytes of the text other than the space. -/
theorem SplitIntoWords_spec (text : Word) :
    SplitIntoWords text = nonSpaceRuns text ∧
    (∀ w ∈ SplitIntoWords text, w ≠ [] ∧ (32 : Byte) ∉ w) ∧
    (SplitIntoWords text).flatten = text.filter (fun b => decide (b ≠ 32)) := by
  have hhead : ∀ b rest, text.dropWhile (fun b => decide (b = 32)) = b :: rest → b ≠ 32 := by
    intro b rest h
    have := Word.dropWhile_head _ _ b rest h
    simpa using this
  obtain ⟨h1, h2, h3⟩ := SplitIntoWords.loop_runs _ _ (le_refl _) hhead
  rw [SplitIntoWords_eq]
  exact ⟨by rw [h1, nonSpaceRuns_dropWhile], h2, by rw [h3, Word.filter_dropWhile]⟩

/-- C25. For every text, `SplitIntoWords` returns the maximal runs of bytes other than
the space, in the order in which they occur: no word is empty and none has the byte
`0x20`; every other byte of the text, a tab or a newline too, is in the words, in the
order of the text; and a text with spaces only, or the empty text, has no word. -/
theorem SplitIntoWords_runs (text : Word) :
    SplitIntoWords text = nonSpaceRuns text ∧
    (∀ w ∈ SplitIntoWords text, w ≠ [] ∧ (32 : Byte) ∉ w) ∧
    (SplitIntoWords text).flatten = text.filter (fun b => decide (b ≠ 32)) ∧
    ((∀ b ∈ text, b = 32) → SplitIntoWords text = []) := by
  obtain ⟨h1, h2, h3⟩ := SplitIntoWords_spec text
  refine ⟨h1, h2, h3, ?_⟩
  intro hall
  have hnil : (SplitIntoWords text).flatten = [] := by
    rw [h3, List.filter_eq_nil_iff]
    intro b hb
    simpa using hall b hb
  cases hl : SplitIntoWords text with
  | nil => rfl
  | cons w ws =>
    have hw := (h2 w (by rw [hl]; exact List.mem_cons_self _ _)).1
    rw [hl, List.flatten_cons] at hnil
    exact absurd (List.append_eq_nil.1 hnil).1 hw

end tokenizer_runs

theorem SplitIntoWords_runs_witness :
    SplitIntoWords [32, 97, 9, 98, 32, 32, 99, 10, 100, 32] = [[97, 9, 98], [99, 10, 100]] ∧
    nonSpaceRuns [32, 97, 9, 98, 32, 32, 99, 10, 100, 32] = [[97, 9, 98], [99, 10, 100]] ∧
    SplitIntoWords [32, 32, 32] = [] ∧ SplitIntoWords [] = [] :=
  ⟨by decide!, by decide!,
    (SplitIntoWords_runs [32, 32, 32]).2.2.2 (by simp), (SplitIntoWords_runs []).2.2.2 (by simp)⟩

/-! ## The constructor -/

theorem MakeUniqueNonEmptyStrings.foldl_spec (strings : List Word) (set : StdSet Word)
    (hset : List.Sorted (· < ·) set) :
    List.Sorted (· < ·)
      (strings.foldl (fun set str => if str.isEmpty then set else StdSet.insert str set) set) ∧
    ∀ w, w ∈ strings.foldl
        (fun set str => if str.isEmpty then set else StdSet.insert str set) set ↔
      w ∈ set ∨ (w ∈ strings ∧ w ≠ []) := by
  induction strings generalizing set with
  | nil => exact ⟨hset, by simp⟩
  | cons str rest ih =>
    simp only [List.foldl_cons]
    cases hemp : str.isEmpty with
    | true =>
      have hstr : str = [] := List.isEmpty_iff.1 hemp
      obtain ⟨h1, h2⟩ := ih set hset
      simp only [Bool.true_eq_false, if_true] at h1 h2 ⊢
      refine ⟨h1, ?_⟩
      intro w
      rw [h2 w]
      constructor
      · rintro (h | ⟨h, hne⟩)
        · exact Or.inl h
        · exact Or.inr ⟨List.mem_cons_of_mem _ h, hne⟩
      · rintro (h | ⟨h, hne⟩)
        · exact Or.inl h
        · rcases List.mem_cons.1 h with h | h
          · exact absurd (h.trans hstr) hne
          · exact Or.inr ⟨h, hne⟩
    | false =>
      have hstr : str ≠ [] := by
        intro h
        rw [h] at hemp
        cases hemp
      obtain ⟨h1, h2⟩ := ih (StdSet.insert str set) (StdSet.sorted_of_insert str set hset)
      simp only [Bool.false_eq_true, if_false] at h1 h2 ⊢
      refine ⟨h1, ?_⟩
      intro w
      rw [h2 w, StdSet.mem_insert]
      constructor
      · rintro ((h | h) | ⟨h, hne⟩)
        · exact Or.inr ⟨h ▸ List.mem_cons_self _ _, h ▸ hstr⟩
        · exact Or.inl h
        · exact Or.inr ⟨List.mem_cons_of_mem _ h, hne⟩
      · rintro (h | ⟨h, hne⟩)
        · exact Or.inl (Or.inr h)
        · rcases List.mem_cons.1 h with h | h
          · exact Or.inl (Or.inl h)
          · exact Or.inr ⟨h, hne⟩

/-- The set that `MakeUniqueNonEmptyStrings` makes is in strictly ascending order and
holds exactly the strings of the container that are not empty. -/
theorem MakeUniqueNonEmptyStrings_spec (strings : List Word) :
    List.Sorted (· < ·) (MakeUniqueNonEmptyStrings strings) ∧
    ∀ w, w ∈ MakeUniqueNonEmptyStrings strings ↔ w ∈ strings ∧ w ≠ [] := by
  obtain ⟨h1, h2⟩ := MakeUniqueNonEmptyStrings.foldl_spec strings [] List.sorted_nil
  refine ⟨h1, ?_⟩
  intro w
  unfold MakeUniqueNonEmptyStrings
  rw [h2 w]
  simp

/-- The words of a text are not empty. -/
theorem SplitIntoWords_ne_nil (text : Word) (w : Word) (hw : w ∈ SplitIntoWords text) :
    w ≠ [] :=
  ((SplitIntoWords_spec text).2.1 w hw).1

/-- The bytes of the words of a text are bytes of the text. -/
theorem SplitIntoWords_bytes (text : Word) (w : Word) (hw : w ∈ SplitIntoWords text)
    (c : Byte) (hc : c ∈ w) : c ∈ text := by
  have hmem : c ∈ (SplitIntoWords text).flatten := List.mem_flatten.2 ⟨w, hw, hc⟩
  rw [(SplitIntoWords_spec text).2.2] at hmem
  exact List.mem_of_mem_filter hmem

namespace SearchServer

section constructor

/-- C26. The constructor of a server from a stop-word text throws `invalid_argument`
exactly when a word of the text has a byte in `0x00..0x1F`, and it throws nothing
else; otherwise it returns a server without documents whose stop-words are exactly the
words of the text, each once and none empty: `IsStopWord(w)` holds exactly when `w`
is a word of the text. -/
theorem constructFromText_stop_words {S : Type} (stop_words_text : Word) :
    ((constructFromText stop_words_text : Except Error (SearchServer S)) =
        .error .invalid_argument ↔
      ∃ w ∈ SplitIntoWords stop_words_text, ∃ c ∈ w, c.val < 32) ∧
    (∀ e, (constructFromText stop_words_text : Except Error (SearchServer S)) = .error e →
      e = .invalid_argument) ∧
    ((¬ ∃ w ∈ SplitIntoWords stop_words_text, ∃ c ∈ w, c.val < 32) →
      ∃ s : SearchServer S, constructFromText stop_words_text = .ok s ∧
        (∀ w, IsStopWord s w = true ↔ w ∈ SplitIntoWords stop_words_text) ∧
        List.Sorted (· < ·) s.stop_words_ ∧ [] ∉ s.stop_words_ ∧
        GetDocumentCount s = 0 ∧ s = empty s.stop_words_) := by
  have hany : (SplitIntoWords stop_words_text).any (fun word => !IsValidWord word) = true ↔
      ∃ w ∈ SplitIntoWords stop_words_text, ∃ c ∈ w, c.val < 32 := by
    rw [List.any_eq_true]
    constructor
    · rintro ⟨w, hw, hv⟩
      exact ⟨w, hw, (IsValidWord_eq_false w).1 (by simpa using hv)⟩
    · rintro ⟨w, hw, hc⟩
      exact ⟨w, hw, by simp [(IsValidWord_eq_false w).2 hc]⟩
  obtain ⟨hsorted, hmem⟩ := MakeUniqueNonEmptyStrings_spec (SplitIntoWords stop_words_text)
  refine ⟨?_, ?_, ?_⟩
  · unfold constructFromText construct
    rw [← hany]
    cases (SplitIntoWords stop_words_text).any (fun word => !IsValidWord word) <;> simp
  · intro e he
    unfold constructFromText construct at he
    simp only at he
    split at he
    · cases he; rfl
    · cases he
  · intro hgood
    rw [← hany] at hgood
    refine ⟨empty (MakeUniqueNonEmptyStrings (SplitIntoWords stop_words_text)), ?_, ?_,
      hsorted, ?_, rfl, rfl⟩
    · unfold constructFromText construct
      simp only
      rw [if_neg hgood]
    · intro w
      simp only [IsStopWord, StdSet.contains, empty, decide_eq_true_eq]
      rw [hmem w]
      exact ⟨fun h => h.1, fun h => ⟨h, SplitIntoWords_ne_nil _ w h⟩⟩
    · intro h
      exact ((hmem []).1 h).2 rfl

end constructor

end SearchServer

theorem constructFromText_stop_words_witness :
    ∃ s : SearchServer ℚ, SearchServer.constructFromText (ascii " the in  the ") = .ok s ∧
      (∀ w, SearchServer.IsStopWord s w = true ↔ w ∈ SplitIntoWords (ascii " the in  the ")) ∧
      List.Sorted (· < ·) s.stop_words_ ∧ [] ∉ s.stop_words_ ∧
      SearchServer.GetDocumentCount s = 0 ∧ s = SearchServer.empty s.stop_words_ :=
  (SearchServer.constructFromText_stop_words (ascii " the in  the ")).2.2 (by decide!)

/-! ## Adding a document again -/

namespace SearchServer

section again

variable {R : Type} [LinearOrderedField R]

/-- The call `AddDocument` returns when the id is not negative and not stored and the
non-stop words of the text are valid. -/
theorem AddDocument_returns (s : SearchServer R) (document_id : Int) (document : Word)
    (status : DocumentStatus) (ratings : List Int) (h1 : 0 ≤ document_id)
    (h2 : StdMap.contains s.documents_ document_id = false)
    (h3 : ∀ word ∈ SplitIntoWordsNoStop s document, IsValidWord word = true) :
    (AddDocument s document_id document status ratings).2 = none := by
  unfold AddDocument
  simp only [not_lt.2 h1, h2, if_false, Bool.false_eq_true]
  have hwords : SplitIntoWordsNoStop
      ({ s with
        documents_ :=
          StdMap.emplace document_id
            { rating := ComputeAverageRating ratings, status := status, data := document }
            s.documents_ } : SearchServer R) document = SplitIntoWordsNoStop s document := rfl
  rw [hwords]
  have hl := (AddDocument.loop_adds (SplitIntoWordsNoStop s document).length document_id
    (SplitIntoWordsNoStop s document)
    ({ s with
        documents_ :=
          StdMap.emplace document_id
            { rating := ComputeAverageRating ratings, status := status, data := document }
            s.documents_ } : SearchServer R) h3).1
  generalize AddDocument.loop (R := R) _ document_id _ _ = r at hl ⊢
  obtain ⟨s2, e2⟩ := r
  simp only at hl
  subst hl
  rfl

/-- A text without control bytes has valid words only. -/
theorem SplitIntoWordsNoStop_valid {S : Type} (s : SearchServer S) (text : Word)
    (htext : ∀ c ∈ text, 32 ≤ c.val) :
    ∀ word ∈ SplitIntoWordsNoStop s text, IsValidWord word = true := by
  intro word hw
  cases hv : IsValidWord word with
  | true => rfl
  | false =>
    obtain ⟨c, hc, hlt⟩ := (IsValidWord_eq_false word).1 hv
    have hmem : word ∈ SplitIntoWords text := List.mem_of_mem_filter hw
    have := htext c (SplitIntoWords_bytes text word hmem c hc)
    omega

/-- C27, on the states of `Intact`. On a state reached by successful calls of
`AddDocument` and `RemoveDocument` in which every key of the inverted index views the
text of a stored document, for an id that is not negative and whose text no key
views, and for a text without control bytes: `RemoveDocument(id)` returns, and after
it the call `AddDocument(id, text, status, ratings)` returns; then the id is live, it
is stored with the new status, rating and text, its word frequencies are those of the
new text, the inverted index holds for it the words of the new text and no other
word, and every key of the inverted index still views the text of a stored
document. -/
theorem AddDocument_after_remove (stop_words : StdSet Word) (corpus : Corpus)
    (views : StdMap Word Int) (s : SearchServer R)
    (document_id : Int) (document : Word) (status : DocumentStatus) (ratings : List Int)
    (hintact : Intact stop_words corpus views s)
    (hfree : ∀ view ∈ views, view.2 ≠ document_id)
    (hid : 0 ≤ document_id) (htext : ∀ c ∈ document, 32 ≤ c.val) :
    (RemoveDocument s document_id).2 = none ∧
    (AddDocument (RemoveDocument s document_id).1 document_id document status ratings).2 =
      none ∧
    document_id ∈
      (AddDocument (RemoveDocument s document_id).1 document_id document status
        ratings).1.docs_id_ ∧
    StdMap.find?
        (AddDocument (RemoveDocument s document_id).1 document_id document status
          ratings).1.documents_ document_id =
      some { rating := ComputeAverageRating ratings, status := status, data := document } ∧
    (∀ w, StdMap.find?
        (GetWordFrequencies
          (AddDocument (RemoveDocument s document_id).1 document_id document status ratings).1
          document_id) w =
      if w ∈ SplitIntoWordsNoStop s document then
        some (((SplitIntoWordsNoStop s document).count w : R) /
          ((SplitIntoWordsNoStop s document).length : R))
      else none) ∧
    (∀ w, StdMap.find2?
        (AddDocument (RemoveDocument s document_id).1 document_id document status
          ratings).1.word_to_document_freqs_ w document_id =
      if w ∈ SplitIntoWordsNoStop s document then
        some (((SplitIntoWordsNoStop s document).count w : R) /
          ((SplitIntoWordsNoStop s document).length : R))
      else none) ∧
    Intact stop_words
      (Function.update (Function.update corpus document_id none) document_id
        (some { document := document, status := status, ratings := ratings }))
      (AddDocument.views (RemoveDocument s document_id).1 document_id document views)
      (AddDocument (RemoveDocument s document_id).1 document_id document status ratings).1 := by
  have hs := hintact.to_reachable.ran
  have hsound := hs.sound
  obtain ⟨h0, hstop, h2, _⟩ :=
    RemoveDocument_spec s document_id (hsound.forward_indexed document_id)
  have hsound1 := (Ran.remove document_id hs).sound
  have hnew : StdMap.contains (RemoveDocument s document_id).1.documents_ document_id =
      false := by
    rw [h2, StdMap.contains, StdMap.find?_erase, if_pos rfl]
    rfl
  have hsplit : SplitIntoWordsNoStop (RemoveDocument s document_id).1 document =
      SplitIntoWordsNoStop s document := SplitIntoWordsNoStop_congr _ _ hstop document
  have hok := AddDocument_returns (RemoveDocument s document_id).1 document_id document status
    ratings hid hnew (SplitIntoWordsNoStop_valid _ document htext)
  obtain ⟨_, hnone, _, _, hdocs, hids, hinv, hfwd⟩ :=
    AddDocument_spec (RemoveDocument s document_id).1 document_id document status ratings hok
  have hfwd0 : ∀ w,
      StdMap.find2? (RemoveDocument s document_id).1.document_to_word_freqs_ document_id w =
        none := by
    intro w
    unfold StdMap.find2?
    rw [hsound1.forward_stored document_id hnew]
  have hinv0 : ∀ w,
      StdMap.find2? (RemoveDocument s document_id).1.word_to_document_freqs_ w document_id =
        none := by
    intro w
    rw [← hsound1.symmetric w document_id]
    exact hfwd0 w
  refine ⟨h0, hok, ?_, ?_, ?_, ?_,
    Intact.add document_id document status ratings
      (Intact.remove document_id hintact hfree h0) hok⟩
  · rw [hids, StdSet.mem_insert]
    exact Or.inl rfl
  · rw [hdocs, StdMap.find?_emplace, if_pos rfl, hnone]
    rfl
  · intro w
    rw [GetWordFrequencies_find?, hfwd w document_id, hfwd0 w, hsplit]
    by_cases hw : w ∈ SplitIntoWordsNoStop s document
    · rw [if_pos ⟨rfl, hw⟩, if_pos hw, Option.getD_none, zero_add]
    · rw [if_neg (fun h => hw h.2), if_neg hw]
  · intro w
    rw [hinv w document_id, hinv0 w, hsplit]
    by_cases hw : w ∈ SplitIntoWordsNoStop s document
    · rw [if_pos ⟨rfl, hw⟩, if_pos hw, Option.getD_none, zero_add]
    · rw [if_neg (fun h => hw h.2), if_neg hw]

end again

end SearchServer

theorem AddDocument_after_remove_witness :
    (SearchServer.AddDocument (SearchServer.RemoveDocument (testServer ℚ) 2).1 2
      (ascii "boy in town") .BANNED [3, 4]).2 = none ∧
    StdMap.find? (SearchServer.AddDocument (SearchServer.RemoveDocument (testServer ℚ) 2).1 2
        (ascii "boy in town") .BANNED [3, 4]).1.documents_ 2 =
      some { rating := 3, status := .BANNED, data := ascii "boy in town" } ∧
    StdMap.find2? (SearchServer.AddDocument (SearchServer.RemoveDocument (testServer ℚ) 2).1 2
        (ascii "boy in town") .BANNED [3, 4]).1.word_to_document_freqs_ (ascii "cat") 2 =
      none ∧
    StdMap.find2? (SearchServer.AddDocument (SearchServer.RemoveDocument (testServer ℚ) 2).1 2
        (ascii "boy in town") .BANNED [3, 4]).1.word_to_document_freqs_ (ascii "boy") 2 =
      some (1 / 2) ∧
    SearchServer.AddDocument.views (SearchServer.RemoveDocument (testServer ℚ) 2).1 2
        (ascii "boy in town") testViews =
      [(ascii "boy", 2), (ascii "cat", 42), (ascii "city", 42), (ascii "dog", 11),
        (ascii "pretty", 1), (ascii "scary", 11), (ascii "town", 2)] :=
  have h := SearchServer.AddDocument_after_remove [ascii "in", ascii "the"] testCorpus testViews
    (testServer ℚ) 2 (ascii "boy in town") .BANNED [3, 4] testServer_intact (by decide!)
    (by decide) (by decide!)
  ⟨h.2.1, h.2.2.2.1, h.2.2.2.2.2.1 (ascii "cat"), h.2.2.2.2.2.1 (ascii "boy"), by decide!⟩

/-! ## The removal of duplicates -/

namespace SearchServer

section forward_sorted

variable {R : Type} [LinearOrderedField R]

theorem AddDocument.loop_forward (Q : StdMap Word R → Prop) (n : Nat) (document_id : Int)
    (hQ0 : Q []) (hQ : ∀ m w f, Q m → Q (StdMap.update w 0 f m)) (words : List Word)
    (s : SearchServer R)
    (h : ∀ id p, StdMap.find? s.document_to_word_freqs_ id = some p → Q p) :
    ∀ id p, StdMap.find? (AddDocument.loop n document_id words s).1.document_to_word_freqs_ id
      = some p → Q p := by
  induction words generalizing s with
  | nil => exact h
  | cons t rest ih =>
    unfold AddDocument.loop
    split
    · exact h
    · apply ih
      intro id p hp
      simp only [StdMap.find?_update] at hp
      split at hp
      · cases hp
        cases hf : StdMap.find? s.document_to_word_freqs_ document_id with
        | none => exact hQ _ _ _ hQ0
        | some q => exact hQ _ _ _ (h document_id q hf)
      · exact h id p hp

theorem AddDocument_forward (Q : StdMap Word R → Prop) (s : SearchServer R) (document_id : Int)
    (document : Word) (status : DocumentStatus) (ratings : List Int)
    (hQ0 : Q []) (hQ : ∀ m w f, Q m → Q (StdMap.update w 0 f m))
    (h : ∀ id p, StdMap.find? s.document_to_word_freqs_ id = some p → Q p) :
    ∀ id p, StdMap.find?
      (AddDocument s document_id document status ratings).1.document_to_word_freqs_ id
      = some p → Q p := by
  unfold AddDocument
  split
  · exact h
  · split
    · exact h
    · have hl := AddDocument.loop_forward Q
        (SplitIntoWordsNoStop ({ s with
            documents_ :=
              StdMap.emplace document_id
                { rating := ComputeAverageRating ratings, status := status, data := document }
                s.documents_ } : SearchServer R) document).length document_id hQ0 hQ
        (SplitIntoWordsNoStop ({ s with
            documents_ :=
              StdMap.emplace document_id
                { rating := ComputeAverageRating ratings, status := status, data := document }
                s.documents_ } : SearchServer R) document)
        ({ s with
            documents_ :=
              StdMap.emplace document_id
                { rating := ComputeAverageRating ratings, status := status, data := document }
                s.documents_ } : SearchServer R) h
      simp only
      generalize AddDocument.loop (R := R) _ document_id _ _ = r at hl ⊢
      obtain ⟨s2, e⟩ := r
      cases e with
      | some e => exact hl
      | none => exact hl

/-- Whatever calls were made, the words of every entry of the forward index are in
strictly ascending order. -/
theorem Ran.forward_sorted {stop_words : StdSet Word} {s : SearchServer R}
    (h : Ran stop_words s) :
    ∀ id freqs, StdMap.find? s.document_to_word_freqs_ id = some freqs →
      List.Sorted (· < ·) (StdMap.keys freqs) := by
  induction h with
  | init => intro id freqs hf; cases hf
  | @add s document_id document status ratings _ ih =>
    exact AddDocument_forward (fun m => List.Sorted (· < ·) (StdMap.keys m)) s document_id
      document status ratings List.sorted_nil
      (fun m w f hm => StdMap.sorted_keys_update w 0 f m hm) ih
  | @remove s document_id hr ih =>
    intro id freqs hf
    rw [(RemoveDocument_spec s document_id
      (hr.sound.forward_indexed document_id)).2.2.2.2.1, StdMap.find?_erase] at hf
    split at hf
    · cases hf
    · exact ih id freqs hf

/-- On a state reached by successful calls, for a live id the keys of
`GetWordFrequencies` are the non-stop words of the stored text. -/
theorem Inv.mem_wordsOf {stop_words : StdSet Word} {corpus : Corpus} {s : SearchServer R}
    (hs : Inv stop_words corpus s) (id : Int) (w : Word) :
    w ∈ StdMap.keys (GetWordFrequencies s id) ↔ w ∈ wordsOf s id := by
  rw [StdMap.mem_keys_iff, StdMap.contains, GetWordFrequencies_find?]
  have h1 := hs.forward w id
  unfold inForward at h1
  rw [h1, hs.index w id]
  unfold wordsOf
  rw [hs.docs id]
  cases corpus id with
  | none => simp
  | some a => simp [stored]

/-- On a state reached by successful calls, two documents have the same key in
`RemoveDuplicates` exactly when their texts have the same non-stop words. -/
theorem Reachable.key_eq_iff {stop_words : StdSet Word} {corpus : Corpus} {s : SearchServer R}
    (hs : Reachable stop_words corpus s) (i j : Int) :
    StdMap.keys (GetWordFrequencies s i) = StdMap.keys (GetWordFrequencies s j) ↔
      ∀ w, w ∈ wordsOf s i ↔ w ∈ wordsOf s j := by
  have hsorted : ∀ id, List.Sorted (· < ·) (StdMap.keys (GetWordFrequencies s id)) := by
    intro id
    unfold GetWordFrequencies
    cases hf : StdMap.find? s.document_to_word_freqs_ id with
    | none => exact List.sorted_nil
    | some freqs => exact hs.ran.forward_sorted id freqs hf
  constructor
  · intro h w
    rw [← hs.inv.mem_wordsOf i w, ← hs.inv.mem_wordsOf j w, h]
  · intro h
    apply StdSet.eq_of_sorted _ _ (hsorted i) (hsorted j)
    intro w
    rw [hs.inv.mem_wordsOf i w, hs.inv.mem_wordsOf j w]
    exact h w

end forward_sorted

end SearchServer

section scan

variable {R : Type}

/-- The ids that the first loop of `RemoveDuplicates` records: those that have a key
of `doc_words`, or the key of a smaller id of the list. -/
theorem RemoveDuplicates.scan_spec (s : SearchServer R) (l : List Int)
    (hl : List.Sorted (· < ·) l) (doc_words : StdMap (List Word) Int) (duplicate_ids : List Int) :
    (RemoveDuplicates.scan s l doc_words duplicate_ids).2 =
      duplicate_ids ++ l.filter (fun x =>
        StdMap.contains doc_words (StdMap.keys (SearchServer.GetWordFrequencies s x)) ||
          l.any (fun y => decide (y < x) &&
            decide (StdMap.keys (SearchServer.GetWordFrequencies s y) =
              StdMap.keys (SearchServer.GetWordFrequencies s x)))) := by
  induction l generalizing doc_words duplicate_ids with
  | nil => simp [RemoveDuplicates.scan]
  | cons a rest ih =>
    have hrest : List.Sorted (· < ·) rest := (List.sorted_cons.1 hl).2
    have hlt : ∀ y ∈ rest, a < y := (List.sorted_cons.1 hl).1
    have hany : rest.any (fun y => decide (y < a) &&
        decide (StdMap.keys (SearchServer.GetWordFrequencies s y) =
          StdMap.keys (SearchServer.GetWordFrequencies s a))) = false := by
      rw [List.any_eq_false]
      intro y hy
      have := hlt y hy
      simp only [Bool.and_eq_true, decide_eq_true_eq, not_and]
      intro h
      omega
    unfold RemoveDuplicates.scan
    simp only [Bool.not_not]
    rw [List.filter_cons, List.any_cons, hany]
    simp only [lt_self_iff_false, decide_False, Bool.false_and, Bool.or_false]
    cases hc : StdMap.contains doc_words (StdMap.keys (SearchServer.GetWordFrequencies s a)) with
    | true =>
      have hemplace : StdMap.emplace (StdMap.keys (SearchServer.GetWordFrequencies s a)) a
          doc_words = doc_words := by
        unfold StdMap.emplace
        rw [if_pos hc]
      simp only [if_true]
      rw [hemplace, ih hrest, List.append_assoc, List.singleton_append]
      congr 2
      apply List.filter_congr
      intro x hx
      have hax : decide (a < x) = true := by simpa using hlt x hx
      rw [List.any_cons, hax, Bool.true_and]
      by_cases hk : StdMap.keys (SearchServer.GetWordFrequencies s a) =
          StdMap.keys (SearchServer.GetWordFrequencies s x)
      · rw [← hk, hc]
        simp
      · simp [hk]
    | false =>
      simp only [Bool.false_eq_true, if_false]
      rw [ih hrest]
      congr 1
      apply List.filter_congr
      intro x hx
      have hax : decide (a < x) = true := by simpa using hlt x hx
      rw [List.any_cons, hax, Bool.true_and]
      have hemp : StdMap.contains
          (StdMap.emplace (StdMap.keys (SearchServer.GetWordFrequencies s a)) a doc_words)
          (StdMap.keys (SearchServer.GetWordFrequencies s x)) =
          (decide (StdMap.keys (SearchServer.GetWordFrequencies s a) =
              StdMap.keys (SearchServer.GetWordFrequencies s x)) ||
            StdMap.contains doc_words (StdMap.keys (SearchServer.GetWordFrequencies s x))) := by
        rw [Bool.eq_iff_iff, StdMap.contains_emplace]
        simp only [Bool.or_eq_true, decide_eq_true_eq]
        exact ⟨fun h => h.imp Eq.symm id, fun h => h.imp Eq.symm id⟩
      rw [hemp]
      cases decide (StdMap.keys (SearchServer.GetWordFrequencies s a) =
          StdMap.keys (SearchServer.GetWordFrequencies s x)) <;>
        cases StdMap.contains doc_words (StdMap.keys (SearchServer.GetWordFrequencies s x)) <;>
        simp

end scan

namespace SearchServer

section remove_all

variable {R : Type} [LinearOrderedField R]

/-- What the second loop of `RemoveDuplicates` does on a state reached by successful
calls: it does not throw, the ids of the list are no longer live, and the other
documents are as before. -/
theorem remove_spec {stop_words : StdSet Word} (ids : List Int) {corpus : Corpus}
    {s : SearchServer R} (hs : Reachable stop_words corpus s) :
    (RemoveDuplicates.remove ids s).2 = none ∧
    Reachable stop_words (fun id => if id ∈ ids then none else corpus id)
      (RemoveDuplicates.remove ids s).1 ∧
    (RemoveDuplicates.remove ids s).1.docs_id_ =
      s.docs_id_.filter (fun id => decide (id ∉ ids)) ∧
    (∀ j, j ∉ ids →
      StdMap.find? (RemoveDuplicates.remove ids s).1.documents_ j = StdMap.find? s.documents_ j ∧
      GetWordFrequencies (RemoveDuplicates.remove ids s).1 j = GetWordFrequencies s j ∧
      ∀ w, StdMap.find2? (RemoveDuplicates.remove ids s).1.word_to_document_freqs_ w j =
        StdMap.find2? s.word_to_document_freqs_ w j) ∧
    (ids.Nodup → (∀ d ∈ ids, d ∈ s.docs_id_) →
      GetDocumentCount (RemoveDuplicates.remove ids s).1 + ids.length = GetDocumentCount s) := by
  induction ids generalizing corpus s with
  | nil =>
    refine ⟨rfl, ?_, ?_, ?_, ?_⟩
    · simpa using hs
    · simp [RemoveDuplicates.remove]
    · intro j _
      exact ⟨rfl, rfl, fun _ => rfl⟩
    · intro _ _
      rfl
  | cons d rest ih =>
    have hsound := hs.ran.sound
    obtain ⟨h0, _, h2, h3, h4, h5, _⟩ :=
      RemoveDocument_spec s d (hsound.forward_indexed d)
    have hs1 : Reachable stop_words (Function.update corpus d none) (RemoveDocument s d).1 :=
      Reachable.remove d hs h0
    obtain ⟨i1, i2, i3, i4, i5⟩ := ih hs1
    have hstep : RemoveDuplicates.remove (d :: rest) s =
        RemoveDuplicates.remove rest (RemoveDocument s d).1 := by
      rw [RemoveDuplicates.remove, h0]
    rw [hstep]
    refine ⟨i1, ?_, ?_, ?_, ?_⟩
    · have hc : (fun id => if id ∈ d :: rest then none else corpus id) =
          (fun id => if id ∈ rest then none else Function.update corpus d none id) := by
        funext id
        by_cases hd : id = d
        · subst hd
          simp
        · simp [hd, Function.update_apply]
      rw [hc]
      exact i2
    · rw [i3, h3]
      unfold StdSet.erase
      rw [List.filter_filter]
      apply List.filter_congr
      intro x _
      by_cases hx : x = d
      · simp [hx]
      · simp [hx]
    · intro j hj
      have hjd : j ≠ d := fun h => hj (h ▸ List.mem_cons_self _ _)
      have hjr : j ∉ rest := fun h => hj (List.mem_cons_of_mem _ h)
      obtain ⟨j1, j2, j3⟩ := i4 j hjr
      refine ⟨?_, ?_, ?_⟩
      · rw [j1, h2, StdMap.find?_erase, if_neg hjd]
      · rw [j2]
        unfold GetWordFrequencies
        rw [h4, StdMap.find?_erase, if_neg hjd]
      · intro w
        rw [j3 w, h5 w j, if_neg (fun h => hjd h.1)]
    · intro hnd hlive
      have hd : d ∈ s.docs_id_ := hlive d (List.mem_cons_self _ _)
      have hcount : GetDocumentCount (RemoveDocument s d).1 + 1 = GetDocumentCount s := by
        unfold GetDocumentCount
        rw [h2]
        exact StdMap.length_erase d s.documents_ hs.inv.nodup
          ((hs.inv.live_iff_stored d).1 hd)
      have hrest := i5 (List.nodup_cons.1 hnd).2 (by
        intro x hx
        rw [h3, StdSet.mem_erase]
        refine ⟨?_, hlive x (List.mem_cons_of_mem _ hx)⟩
        intro hxd
        exact (List.nodup_cons.1 hnd).1 (hxd ▸ hx))
      rw [List.length_cons]
      omega

end remove_all

end SearchServer

namespace SearchServer

section duplicates

variable {R : Type} [LinearOrderedField R]

theorem sameWords_iff {S : Type} (s : SearchServer S) (i j : Int) :
    sameWords s i j = true ↔ ∀ w, w ∈ wordsOf s i ↔ w ∈ wordsOf s j := by
  unfold sameWords
  simp only [Bool.and_eq_true, List.all_eq_true, decide_eq_true_eq]
  exact ⟨fun h w => ⟨h.1 w, h.2 w⟩, fun h => ⟨fun w => (h w).1, fun w => (h w).2⟩⟩

/-- The ids that `RemoveDuplicates` removes on a state reached by successful calls:
the live ids that have a smaller live id with the same words. -/
theorem RemoveDuplicates_eq {stop_words : StdSet Word} {corpus : Corpus} {s : SearchServer R}
    (hs : Reachable stop_words corpus s) :
    RemoveDuplicates s =
      RemoveDuplicates.remove
        (s.docs_id_.filter (fun x => s.docs_id_.any (fun y => decide (y < x) && sameWords s y x)))
        s := by
  unfold RemoveDuplicates
  simp only
  rw [RemoveDuplicates.scan_spec s (iterate s) hs.ran.sorted_ids [] [], List.nil_append]
  congr 1
  apply List.filter_congr
  intro x _
  have hc : StdMap.contains ([] : StdMap (List Word) Int)
      (StdMap.keys (GetWordFrequencies s x)) = false := rfl
  rw [hc, Bool.false_or]
  unfold iterate
  congr 1
  funext y
  congr 1
  rw [Bool.eq_iff_iff, decide_eq_true_eq, hs.key_eq_iff y x, sameWords_iff]

/-- The loop of `RemoveDuplicates` over ids whose texts no key views keeps every key
of the inverted index on the text of a stored document. -/
theorem Intact.removeAll {stop_words : StdSet Word} (ids : List Int) {corpus : Corpus}
    {views : StdMap Word Int} {s : SearchServer R} (hintact : Intact stop_words corpus views s)
    (hfree : ∀ d ∈ ids, ∀ view ∈ views, view.2 ≠ d) :
    Intact stop_words (fun id => if id ∈ ids then none else corpus id) views
      (RemoveDuplicates.remove ids s).1 := by
  induction ids generalizing corpus s with
  | nil => simpa [RemoveDuplicates.remove] using hintact
  | cons d rest ih =>
    have hsound := hintact.to_reachable.ran.sound
    have h0 := (RemoveDocument_spec s d (hsound.forward_indexed d)).1
    have hstep : RemoveDuplicates.remove (d :: rest) s =
        RemoveDuplicates.remove rest (RemoveDocument s d).1 := by
      rw [RemoveDuplicates.remove, h0]
    have hc : (fun id => if id ∈ d :: rest then none else corpus id) =
        (fun id => if id ∈ rest then none else Function.update corpus d none id) := by
      funext id
      by_cases hd : id = d
      · subst hd
        simp
      · simp [hd, Function.update_apply]
    rw [hstep, hc]
    exact ih (Intact.remove d hintact (hfree d (List.mem_cons_self _ _)) h0)
      (fun x hx => hfree x (List.mem_cons_of_mem _ hx))

/-- The ids that the first loop of `RemoveDuplicates` collects: the live ids that
have the words of a live document with a smaller id. -/
theorem RemoveDuplicates.scan_eq {stop_words : StdSet Word} {corpus : Corpus}
    {s : SearchServer R} (hs : Reachable stop_words corpus s) :
    (RemoveDuplicates.scan s (iterate s) [] []).2 =
      s.docs_id_.filter (fun x => s.docs_id_.any (fun y => decide (y < x) && sameWords s y x)) := by
  rw [RemoveDuplicates.scan_spec s (iterate s) hs.ran.sorted_ids [] [], List.nil_append]
  unfold iterate
  apply List.filter_congr
  intro x _
  have hc : StdMap.contains ([] : StdMap (List Word) Int)
      (StdMap.keys (GetWordFrequencies s x)) = false := rfl
  rw [hc, Bool.false_or]
  congr 1
  funext y
  congr 1
  rw [Bool.eq_iff_iff, decide_eq_true_eq, hs.key_eq_iff y x, sameWords_iff]

theorem mem_duplicates {S : Type} (s : SearchServer S) (x : Int) :
    x ∈ s.docs_id_.filter (fun x => s.docs_id_.any (fun y => decide (y < x) && sameWords s y x)) ↔
      x ∈ s.docs_id_ ∧ ∃ y ∈ s.docs_id_, y < x ∧ sameWords s y x = true := by
  simp only [List.mem_filter, List.any_eq_true, Bool.and_eq_true, decide_eq_true_eq]

/-- Among the ids of a list in ascending order that have the words of a given one,
there is a first one. -/
theorem exists_first_same {S : Type} (s : SearchServer S) (l : List Int)
    (hl : List.Sorted (· < ·) l) (i : Int) (hi : i ∈ l) :
    ∃ j ∈ l, sameWords s j i = true ∧ ∀ y ∈ l, y < j → sameWords s y i = false := by
  induction l with
  | nil => cases hi
  | cons a rest ih =>
    have hlt : ∀ y ∈ rest, a < y := (List.sorted_cons.1 hl).1
    cases ha : sameWords s a i with
    | true =>
      refine ⟨a, List.mem_cons_self _ _, ha, ?_⟩
      intro y hy hya
      rcases List.mem_cons.1 hy with hy | hy
      · omega
      · have := hlt y hy
        omega
    | false =>
      have hir : i ∈ rest := by
        rcases List.mem_cons.1 hi with h | h
        · subst h
          have hrefl : sameWords s i i = true := (sameWords_iff s i i).2 (fun _ => Iff.rfl)
          rw [hrefl] at ha
          cases ha
        · exact h
      obtain ⟨j, hj, hsame, hfirst⟩ := ih (List.sorted_cons.1 hl).2 hir
      refine ⟨j, List.mem_cons_of_mem _ hj, hsame, ?_⟩
      intro y hy hyj
      rcases List.mem_cons.1 hy with hy | hy
      · rw [hy]
        exact ha
      · exact hfirst y hy hyj

/-- What `RemoveDuplicates` does on a state reached by successful calls. -/
theorem RemoveDuplicates_spec {stop_words : StdSet Word} {corpus : Corpus} {s : SearchServer R}
    (hs : Reachable stop_words corpus s) :
    (RemoveDuplicates s).2 = none ∧
    (∀ id, id ∈ (RemoveDuplicates s).1.docs_id_ ↔
      id ∈ s.docs_id_ ∧ ¬ ∃ j ∈ s.docs_id_, j < id ∧ sameWords s j id = true) ∧
    (∀ j ∈ (RemoveDuplicates s).1.docs_id_,
      StdMap.find? (RemoveDuplicates s).1.documents_ j = StdMap.find? s.documents_ j ∧
      GetWordFrequencies (RemoveDuplicates s).1 j = GetWordFrequencies s j ∧
      ∀ w, StdMap.find2? (RemoveDuplicates s).1.word_to_document_freqs_ w j =
        StdMap.find2? s.word_to_document_freqs_ w j) ∧
    GetDocumentCount (RemoveDuplicates s).1 +
        (s.docs_id_.filter (fun id => decide (id ∉ (RemoveDuplicates s).1.docs_id_))).length =
      GetDocumentCount s := by
  obtain ⟨r1, _, r3, r4, r5⟩ := remove_spec
    (s.docs_id_.filter (fun x => s.docs_id_.any (fun y => decide (y < x) && sameWords s y x))) hs
  rw [← RemoveDuplicates_eq hs] at r1 r3 r4 r5
  have hmem : ∀ id, id ∈ (RemoveDuplicates s).1.docs_id_ ↔
      id ∈ s.docs_id_ ∧ ¬ ∃ j ∈ s.docs_id_, j < id ∧ sameWords s j id = true := by
    intro id
    rw [r3, List.mem_filter, decide_eq_true_eq, mem_duplicates]
    constructor
    · rintro ⟨h1, h2⟩
      exact ⟨h1, fun h => h2 ⟨h1, h⟩⟩
    · rintro ⟨h1, h2⟩
      exact ⟨h1, fun h => h2 h.2⟩
  refine ⟨r1, hmem, ?_, ?_⟩
  · intro j hj
    apply r4 j
    rw [mem_duplicates]
    exact fun h => ((hmem j).1 hj).2 h.2
  · have hD : s.docs_id_.filter (fun id => decide (id ∉ (RemoveDuplicates s).1.docs_id_)) =
        s.docs_id_.filter
          (fun x => s.docs_id_.any (fun y => decide (y < x) && sameWords s y x)) := by
      apply List.filter_congr
      intro x hx
      rw [Bool.eq_iff_iff, decide_eq_true_eq, hmem x]
      simp only [List.any_eq_true, Bool.and_eq_true, decide_eq_true_eq]
      constructor
      · intro h
        by_contra hcon
        exact h ⟨hx, hcon⟩
      · intro h hcon
        exact hcon.2 h
    rw [hD]
    exact r5 (hs.ran.sorted_ids.nodup.filter _) (fun d hd => List.mem_of_mem_filter hd)

/-- C28, on the states of `Intact`. On a state reached by successful calls of
`AddDocument` and `RemoveDocument` in which every key of the inverted index views the
text of a stored document, and in which no key views the text of a document that the
first loop of `RemoveDuplicates` collects (as when every such document was added after
one with the same words), `RemoveDuplicates` returns, every key of the inverted index
still views the text of a stored document, and afterwards: an id is live exactly when it was live
and no live document with a smaller id had the same set of non-stop words; no two
live documents have the same set; every set that a live document had still has a
document; the live documents are stored and indexed as before; and the document
count went down by the number of the ids that are no longer live. -/
theorem RemoveDuplicates_remaining (stop_words : StdSet Word) (corpus : Corpus)
    (views : StdMap Word Int) (s : SearchServer R)
    (hintact : Intact stop_words corpus views s)
    (hfree : ∀ d ∈ (RemoveDuplicates.scan s (iterate s) [] []).2, ∀ view ∈ views, view.2 ≠ d) :
    (RemoveDuplicates s).2 = none ∧
    Intact stop_words
      (fun id => if id ∈ (RemoveDuplicates.scan s (iterate s) [] []).2 then none else corpus id)
      views (RemoveDuplicates s).1 ∧
    (∀ id, id ∈ iterate (RemoveDuplicates s).1 ↔
      id ∈ iterate s ∧ ¬ ∃ j ∈ iterate s, j < id ∧ sameWords s j id = true) ∧
    (∀ i ∈ iterate (RemoveDuplicates s).1, ∀ j ∈ iterate (RemoveDuplicates s).1,
      sameWords s i j = true → i = j) ∧
    (∀ i ∈ iterate s, ∃ j ∈ iterate (RemoveDuplicates s).1, sameWords s j i = true) ∧
    (∀ j ∈ iterate (RemoveDuplicates s).1,
      StdMap.find? (RemoveDuplicates s).1.documents_ j = StdMap.find? s.documents_ j ∧
      GetWordFrequencies (RemoveDuplicates s).1 j = GetWordFrequencies s j ∧
      ∀ w, StdMap.find2? (RemoveDuplicates s).1.word_to_document_freqs_ w j =
        StdMap.find2? s.word_to_document_freqs_ w j) ∧
    GetDocumentCount (RemoveDuplicates s).1 +
        ((iterate s).filter (fun id => decide (id ∉ iterate (RemoveDuplicates s).1))).length =
      GetDocumentCount s := by
  have hs := hintact.to_reachable
  obtain ⟨h1, h2, h3, h4⟩ := RemoveDuplicates_spec hs
  have hsymm : ∀ i j, sameWords s i j = true → sameWords s j i = true := by
    intro i j h
    rw [sameWords_iff] at h ⊢
    exact fun w => (h w).symm
  have htrans : ∀ i j k, sameWords s i j = true → sameWords s j k = true →
      sameWords s i k = true := by
    intro i j k hij hjk
    rw [sameWords_iff] at hij hjk ⊢
    exact fun w => (hij w).trans (hjk w)
  refine ⟨h1, Intact.removeAll _ hintact hfree, h2, ?_, ?_, h3, h4⟩
  · intro i hi j hj hsame
    rcases lt_trichotomy i j with hlt | heq | hgt
    · exact absurd ⟨i, ((h2 i).1 hi).1, hlt, hsame⟩ ((h2 j).1 hj).2
    · exact heq
    · exact absurd ⟨j, ((h2 j).1 hj).1, hgt, hsymm i j hsame⟩ ((h2 i).1 hi).2
  · intro i hi
    obtain ⟨j, hj, hsame, hfirst⟩ := exists_first_same s s.docs_id_ hs.ran.sorted_ids i hi
    refine ⟨j, (h2 j).2 ⟨hj, ?_⟩, hsame⟩
    rintro ⟨y, hy, hyj, hyj2⟩
    have := hfirst y hy hyj
    rw [htrans y j i hyj2 hsame] at this
    cases this

end duplicates

end SearchServer

namespace SearchServer

section duplicates_pair

variable {R : Type} [LinearOrderedField R]

/-- C29, as amended. On a state reached by successful calls of `AddDocument` and
`RemoveDocument` in which every key of the inverted index views the text of a stored
document, with two live documents `i < j` that have the same set of non-stop words
and no other two live documents that have the same set: the first loop of
`RemoveDuplicates` collects `j` alone, so that the second makes one call of
`RemoveDocument`; `RemoveDuplicates` returns, it removes `j`, the document with the
larger id, it keeps `i`, and the document count goes down by one. -/
theorem RemoveDuplicates_larger_id (stop_words : StdSet Word) (corpus : Corpus)
    (views : StdMap Word Int) (s : SearchServer R) (i j : Int)
    (hintact : Intact stop_words corpus views s)
    (hi : i ∈ iterate s) (hj : j ∈ iterate s) (hij : i < j) (hsame : sameWords s i j = true)
    (honly : ∀ a ∈ iterate s, ∀ b ∈ iterate s, a < b → sameWords s a b = true →
      a = i ∧ b = j) :
    (RemoveDuplicates.scan s (iterate s) [] []).2 = [j] ∧
    (RemoveDuplicates s).2 = none ∧
    j ∉ iterate (RemoveDuplicates s).1 ∧
    i ∈ iterate (RemoveDuplicates s).1 ∧
    GetDocumentCount (RemoveDuplicates s).1 + 1 = GetDocumentCount s := by
  have hs := hintact.to_reachable
  obtain ⟨h1, h2, _, h4⟩ := RemoveDuplicates_spec hs
  have hnodup : s.docs_id_.Nodup := hs.ran.sorted_ids.nodup
  have hcount : List.count j s.docs_id_ = 1 := List.count_eq_one_of_mem hnodup hj
  have hdup : ∀ x ∈ s.docs_id_,
      (s.docs_id_.any (fun y => decide (y < x) && sameWords s y x) = true ↔ x = j) := by
    intro x hx
    rw [List.any_eq_true]
    constructor
    · rintro ⟨y, hy, hyx⟩
      rw [Bool.and_eq_true, decide_eq_true_eq] at hyx
      exact (honly y hy x hx hyx.1 hyx.2).2
    · intro hxj
      subst hxj
      exact ⟨i, hi, by rw [Bool.and_eq_true, decide_eq_true_eq]; exact ⟨hij, hsame⟩⟩
  refine ⟨?_, h1, ?_, ?_, ?_⟩
  · rw [RemoveDuplicates.scan_eq hs]
    have hfilter : s.docs_id_.filter
        (fun x => s.docs_id_.any (fun y => decide (y < x) && sameWords s y x)) =
        s.docs_id_.filter (fun x => x == j) := by
      apply List.filter_congr
      intro x hx
      rw [Bool.eq_iff_iff, hdup x hx, beq_iff_eq]
    rw [hfilter, List.filter_beq, hcount]
    rfl
  · intro hmem
    exact ((h2 j).1 hmem).2 ⟨i, hi, hij, hsame⟩
  · refine (h2 i).2 ⟨hi, ?_⟩
    rintro ⟨k, hk, hki, hsameki⟩
    have := (honly k hk i hi hki hsameki).2
    omega
  · have hD : s.docs_id_.filter (fun id => decide (id ∉ (RemoveDuplicates s).1.docs_id_)) =
        s.docs_id_.filter (fun id => id == j) := by
      apply List.filter_congr
      intro x hx
      rw [Bool.eq_iff_iff, decide_eq_true_eq, h2 x, beq_iff_eq]
      constructor
      · intro h
        by_contra hne
        apply h
        refine ⟨hx, ?_⟩
        rintro ⟨y, hy, hyx, hyx2⟩
        exact hne (honly y hy x hx hyx hyx2).2
      · intro h hcon
        subst h
        exact hcon.2 ⟨i, hi, hij, hsame⟩
    have hlen : (s.docs_id_.filter (fun id => id == j)).length = 1 := by
      rw [← List.countP_eq_length_filter, ← List.count_eq_countP]
      exact hcount
    rw [hD, hlen] at h4
    exact h4

end duplicates_pair

end SearchServer

theorem duplicateServer_reachable :
    SearchServer.Reachable [ascii "in", ascii "the"] duplicateCorpus (duplicateServer ℚ) :=
  SearchServer.Reachable.add 1 (ascii "city cat cat") .ACTUAL [4, 2, 3]
    (SearchServer.Reachable.add 2 (ascii "cat in the city") .ACTUAL [1, 5, 2]
      SearchServer.Reachable.init (by decide!)) (by decide!)

theorem copyServer_intact :
    SearchServer.Intact [ascii "in", ascii "the"] copyCorpus copyViews (copyServer ℚ) :=
  SearchServer.Intact.add 2 (ascii "city cat cat") .ACTUAL [4, 2, 3]
    (SearchServer.Intact.add 1 (ascii "cat in the city") .ACTUAL [1, 5, 2]
      SearchServer.Intact.init (by decide!)) (by decide!)

theorem RemoveDuplicates_remaining_witness :
    (RemoveDuplicates (copyServer ℚ)).2 = none ∧
    copyViews = [(ascii "cat", 1), (ascii "city", 1)] ∧
    (RemoveDuplicates.scan (copyServer ℚ) (SearchServer.iterate (copyServer ℚ)) [] []).2 = [2] ∧
    SearchServer.iterate (copyServer ℚ) = [1, 2] ∧
    SearchServer.iterate (RemoveDuplicates (copyServer ℚ)).1 = [1] ∧
    SearchServer.GetDocumentCount (RemoveDuplicates (copyServer ℚ)).1 +
        ((SearchServer.iterate (copyServer ℚ)).filter
          (fun id => decide (id ∉ SearchServer.iterate
            (RemoveDuplicates (copyServer ℚ)).1))).length =
      SearchServer.GetDocumentCount (copyServer ℚ) :=
  have h := SearchServer.RemoveDuplicates_remaining [ascii "in", ascii "the"] copyCorpus
    copyViews (copyServer ℚ) copyServer_intact (by decide!)
  ⟨h.1, by decide!, by decide!, by decide!, by decide!, h.2.2.2.2.2.2⟩

/-- C29, refuted at an input. To a server with the stop-words `in` and `the` the
document 2, `cat in the city`, is added first and the document 1, `city cat cat`,
after it; they have the same set of non-stop words, and `RemoveDuplicates` removes
the document 2, which was added earlier, and keeps the document 1, which was added
later. -/
theorem RemoveDuplicates_later_counterexample :
    duplicateServer ℚ =
      (SearchServer.AddDocument
        (SearchServer.AddDocument (SearchServer.empty [ascii "in", ascii "the"])
          2 (ascii "cat in the city") .ACTUAL [1, 5, 2]).1
        1 (ascii "city cat cat") .ACTUAL [4, 2, 3]).1 ∧
    SearchServer.sameWords (duplicateServer ℚ) 1 2 = true ∧
    SearchServer.iterate (duplicateServer ℚ) = [1, 2] ∧
    (RemoveDuplicates (duplicateServer ℚ)).2 = none ∧
    SearchServer.iterate (RemoveDuplicates (duplicateServer ℚ)).1 = [1] ∧
    SearchServer.GetDocumentCount (RemoveDuplicates (duplicateServer ℚ)).1 = 1 :=
  ⟨rfl, by decide!, by decide!, by decide!, by decide!, by decide!⟩

theorem duplicateServer_intact :
    SearchServer.Intact [ascii "in", ascii "the"] duplicateCorpus duplicateViews
      (duplicateServer ℚ) :=
  SearchServer.Intact.add 1 (ascii "city cat cat") .ACTUAL [4, 2, 3]
    (SearchServer.Intact.add 2 (ascii "cat in the city") .ACTUAL [1, 5, 2]
      SearchServer.Intact.init (by decide!)) (by decide!)

theorem RemoveDuplicates_larger_id_witness :
    (RemoveDuplicates.scan (duplicateServer ℚ) (SearchServer.iterate (duplicateServer ℚ))
      [] []).2 = [2] ∧
    (RemoveDuplicates (duplicateServer ℚ)).2 = none ∧
    2 ∉ SearchServer.iterate (RemoveDuplicates (duplicateServer ℚ)).1 ∧
    1 ∈ SearchServer.iterate (RemoveDuplicates (duplicateServer ℚ)).1 ∧
    SearchServer.GetDocumentCount (RemoveDuplicates (duplicateServer ℚ)).1 + 1 =
      SearchServer.GetDocumentCount (duplicateServer ℚ) :=
  SearchServer.RemoveDuplicates_larger_id [ascii "in", ascii "the"] duplicateCorpus
    duplicateViews (duplicateServer ℚ) 1 2 duplicateServer_intact (by decide!) (by decide!)
    (by decide) (by decide!) (by decide!)

/-! ## The request queue -/

namespace RequestQueue

section queue

variable {R : Type} [LinearOrderedField R]

theorem length_window {α : Type} (n : Nat) (l : List α) :
    (window n l).length = min l.length n := by
  unfold window
  rw [List.length_drop]
  omega

theorem window_concat {α : Type} (n : Nat) (hn : 1 ≤ n) (l : List α) (d : α) :
    window n (l ++ [d]) =
      if (window n l).length = n then (window n l).drop 1 ++ [d] else window n l ++ [d] := by
  rw [length_window]
  unfold window
  by_cases h : n ≤ l.length
  · rw [if_pos (by omega), List.drop_drop, List.length_append, List.length_singleton,
      List.drop_append_of_le_length (by omega)]
    congr 2
    omega
  · rw [if_neg (by omega), List.length_append, List.length_singleton]
    have h1 : l.length + 1 - n = 0 := by omega
    have h2 : l.length - n = 0 := by omega
    rw [h1, h2]
    rfl

/-- What `AddRequest` keeps: the deque holds the last 1440 results, as flags, and
the counter is the number of empty results among them. -/
theorem AddRequest_window {S : Type} (q : RequestQueue) (rs : List (List (Document S)))
    (docs : List (Document S))
    (h1 : q.requests_ = (window min_in_day_ rs).map
      (fun docs => ({ has_result := !docs.isEmpty } : QueryResult)))
    (h2 : q.no_result_requests_ =
      (((window min_in_day_ rs).filter (fun docs => docs.isEmpty)).length : Int)) :
    (AddRequest q docs).requests_ = (window min_in_day_ (rs ++ [docs])).map
      (fun docs => ({ has_result := !docs.isEmpty } : QueryResult)) ∧
    (AddRequest q docs).no_result_requests_ =
      (((window min_in_day_ (rs ++ [docs])).filter (fun docs => docs.isEmpty)).length : Int) := by
  have hlen : q.requests_.length = (window min_in_day_ rs).length := by
    rw [h1, List.length_map]
  have hbound := length_window min_in_day_ rs
  have hcount : ((window min_in_day_ rs).filter (fun docs => docs.isEmpty)).length ≤
      (window min_in_day_ rs).length := List.length_filter_le _ _
  rw [window_concat min_in_day_ (by decide) rs docs]
  generalize window min_in_day_ rs = w at h1 h2 hlen hbound hcount
  have hw : w.length ≤ 1440 := by
    rw [hbound]
    exact Nat.min_le_right _ _
  unfold AddRequest
  by_cases hfull : w.length = min_in_day_
  · rw [if_pos hfull]
    cases w with
    | nil => simp [min_in_day_] at hfull
    | cons front rest =>
      simp only [List.map_cons] at h1
      simp only [h1, List.length_cons, List.length_map, List.drop_succ_cons, List.drop_zero]
      simp only [List.length_cons] at hfull hcount hw
      rw [if_pos hfull]
      have hrest : (rest.filter (fun docs => docs.isEmpty)).length ≤ rest.length :=
        List.length_filter_le _ _
      cases hf : front.isEmpty with
      | true =>
        have h3 : q.no_result_requests_ =
            ((rest.filter (fun docs => docs.isEmpty)).length : Int) + 1 := by
          rw [h2, List.filter_cons, hf]
          simp
        cases hd : docs.isEmpty with
        | true =>
          simp only [Bool.not_true, if_true, List.map_append, List.map_cons, List.map_nil,
            hd, List.filter_append, List.length_append, true_and]
          have e1 : wrapInt (((rest.filter (fun docs => docs.isEmpty)).length : Int) + 1 - 1) =
              ((rest.filter (fun docs => docs.isEmpty)).length : Int) :=
            by rw [wrapInt_of_range _ (by omega) (by omega)]; omega
          rw [h3, e1, wrapInt_of_range _ (by omega) (by omega)]
          simp [List.filter_cons, hd]
        | false =>
          simp only [Bool.not_true, if_true, List.map_append, List.map_cons, List.map_nil,
            hd, List.filter_append, List.length_append, Bool.false_eq_true, if_false,
            Bool.not_false, true_and]
          rw [h3, wrapInt_of_range _ (by omega) (by omega)]
          simp [List.filter_cons, hd]
      | false =>
        have h3 : q.no_result_requests_ =
            ((rest.filter (fun docs => docs.isEmpty)).length : Int) := by
          rw [h2, List.filter_cons, hf]
          simp
        cases hd : docs.isEmpty with
        | true =>
          simp only [Bool.not_false, Bool.true_eq_false, if_false, List.map_append,
            List.map_cons, List.map_nil, hd, List.filter_append, List.length_append, if_true,
            Bool.not_true, true_and]
          rw [h3, wrapInt_of_range _ (by omega) (by omega)]
          simp [List.filter_cons, hd]
        | false =>
          simp only [Bool.not_false, Bool.true_eq_false, if_false, List.map_append,
            List.map_cons, List.map_nil, hd, List.filter_append, List.length_append,
            Bool.false_eq_true, true_and]
          rw [h3]
          simp [List.filter_cons, hd]
  · rw [if_neg hfull, hlen, if_neg hfull]
    have hlt : w.length < 1440 := by
      have : w.length ≠ 1440 := hfull
      omega
    cases hd : docs.isEmpty with
    | true =>
      simp only [if_true, List.map_append, List.map_cons, List.map_nil, hd, Bool.not_true,
        List.filter_append, List.length_append, h1, true_and]
      rw [h2, wrapInt_of_range _ (by omega) (by omega)]
      simp [List.filter_cons, hd]
    | false =>
      simp only [Bool.false_eq_true, if_false, List.map_append, List.map_cons, List.map_nil,
        hd, Bool.not_false, List.filter_append, List.length_append, h1, true_and]
      rw [h2]
      simp [List.filter_cons, hd]

theorem run_concat (log : R → R) (calls : List (Call R)) (c : Call R) (q : RequestQueue) :
    run log (calls ++ [c]) q =
      (AddFindRequest log c.server (run log calls q) c.raw_query c.document_predicate).1 := by
  simp [run, List.foldl_append]

theorem results_concat (log : R → R) (calls : List (Call R)) (c : Call R) :
    results log (calls ++ [c]) = results log calls ++
      (match SearchServer.FindTopDocuments log c.server c.raw_query c.document_predicate with
        | .error _ => []
        | .ok result => [result]) := by
  unfold results
  rw [List.filterMap_append]
  congr 1
  cases h : SearchServer.FindTopDocuments log c.server c.raw_query c.document_predicate with
  | error e => simp [List.filterMap_cons, h]
  | ok result => simp [List.filterMap_cons, h]

/-- After any calls of `AddFindRequest` on a new queue, the deque holds the flags
of the last 1440 results and the counter is the number of empty results among
them. -/
theorem run_window (log : R → R) (calls : List (Call R)) :
    (run log calls empty).requests_ = (window min_in_day_ (results log calls)).map
      (fun docs => ({ has_result := !docs.isEmpty } : QueryResult)) ∧
    (run log calls empty).no_result_requests_ =
      (((window min_in_day_ (results log calls)).filter (fun docs => docs.isEmpty)).length :
        Int) := by
  induction calls using List.reverseRecOn with
  | nil => simp [run, results, window, empty]
  | append_singleton calls c ih =>
    rw [run_concat, results_concat]
    unfold AddFindRequest
    cases hr : SearchServer.FindTopDocuments log c.server c.raw_query c.document_predicate with
    | error e =>
      simp only [List.append_nil]
      exact ih
    | ok result => exact AddRequest_window _ _ result ih.1 ih.2

theorem filter_isEmpty_replicate {α : Type} (m : Nat) :
    (List.replicate m ([] : List α)).filter (fun docs => docs.isEmpty) = List.replicate m [] := by
  induction m with
  | zero => rfl
  | succ m ih => rw [List.replicate_succ, List.filter_cons, ih]; rfl

/-- The counter of a window of `m + 1` entries after `m` empty results and then two
non-empty ones. -/
theorem window_replicate {α : Type} (m : Nat) (d1 d2 : α) (r1 r2 : List α) :
    ((window (m + 1) (List.replicate m ([] : List α))).filter
      (fun docs => docs.isEmpty)).length = m ∧
    ((window (m + 1) (List.replicate m [] ++ [d1 :: r1])).filter
      (fun docs => docs.isEmpty)).length = m ∧
    ((window (m + 1 + 1) (List.replicate (m + 1) [] ++ [d1 :: r1] ++ [d2 :: r2])).filter
      (fun docs => docs.isEmpty)).length = m := by
  refine ⟨?_, ?_, ?_⟩
  · unfold window
    rw [List.length_replicate, show m - (m + 1) = 0 by omega, List.drop_zero,
      filter_isEmpty_replicate, List.length_replicate]
  · unfold window
    rw [List.length_append, List.length_replicate, List.length_singleton,
      show m + 1 - (m + 1) = 0 by omega, List.drop_zero, List.filter_append,
      filter_isEmpty_replicate, List.length_append, List.length_replicate]
    rfl
  · unfold window
    rw [List.length_append, List.length_append, List.length_replicate, List.length_singleton,
      List.length_singleton, show m + 1 + 1 + 1 - (m + 1 + 1) = 1 by omega,
      List.replicate_succ, List.append_assoc, List.cons_append, List.drop_succ_cons,
      List.drop_zero, List.filter_append, filter_isEmpty_replicate, List.length_append,
      List.length_replicate]
    rfl

theorem results_replicate (log : R → R) (c : Call R) (result : List (Document R))
    (h : SearchServer.FindTopDocuments log c.server c.raw_query c.document_predicate =
      .ok result) (n : Nat) :
    results log (List.replicate n c) = List.replicate n result := by
  induction n with
  | zero => rfl
  | succ n ih =>
    unfold results at ih ⊢
    rw [List.replicate_succ, List.filterMap_cons, h]
    simp only [List.replicate_succ]
    rw [ih]

/-- C30. After any calls of `AddFindRequest` on a new queue, of which `n` returned:
the deque holds the flags of the last `min(n, 1440)` of the results, oldest first,
and `GetNoResultRequests()` is the number of empty results among these; the
overloads with a status and without a second argument are the call with the
predicate `status == needed_status` and with the status `ACTUAL`; and after 1439
calls with an empty result the counter is 1439, after one more call with a
non-empty result it is still 1439, and after another one it is 1438. -/
theorem no_result_requests_window (log : R → R) (calls : List (Call R)) :
    (run log calls empty).requests_ = (window min_in_day_ (results log calls)).map
      (fun docs => ({ has_result := !docs.isEmpty } : QueryResult)) ∧
    (run log calls empty).requests_.length = min (results log calls).length 1440 ∧
    GetNoResultRequests (run log calls empty) =
      (((window min_in_day_ (results log calls)).filter (fun docs => docs.isEmpty)).length :
        Int) ∧
    (∀ s q raw_query status, AddFindRequest.with_status log s q raw_query status =
      AddFindRequest log s q raw_query (fun _ st _ => st == status)) ∧
    (∀ s q raw_query, AddFindRequest.actual log s q raw_query =
      AddFindRequest log s q raw_query (fun _ st _ => st == .ACTUAL)) ∧
    (∀ (c0 c1 c2 : Call R) (d1 d2 : Document R) (r1 r2 : List (Document R)),
      SearchServer.FindTopDocuments log c0.server c0.raw_query c0.document_predicate = .ok [] →
      SearchServer.FindTopDocuments log c1.server c1.raw_query c1.document_predicate =
        .ok (d1 :: r1) →
      SearchServer.FindTopDocuments log c2.server c2.raw_query c2.document_predicate =
        .ok (d2 :: r2) →
      GetNoResultRequests (run log (List.replicate 1439 c0) empty) = 1439 ∧
      GetNoResultRequests (run log (List.replicate 1439 c0 ++ [c1]) empty) = 1439 ∧
      GetNoResultRequests (run log (List.replicate 1439 c0 ++ [c1] ++ [c2]) empty) = 1438) := by
  have hmain := fun calls => run_window log calls
  refine ⟨(hmain calls).1, ?_, (hmain calls).2, fun _ _ _ _ => rfl, fun _ _ _ => rfl, ?_⟩
  · rw [(hmain calls).1, List.length_map, length_window]
    rfl
  · intro c0 c1 c2 d1 d2 r1 r2 h0 h1 h2
    have e0 := results_replicate log c0 [] h0 1439
    have e1 : results log (List.replicate 1439 c0 ++ [c1]) =
        List.replicate 1439 [] ++ [d1 :: r1] := by
      rw [results_concat, e0, h1]
    have e2 : results log (List.replicate 1439 c0 ++ [c1] ++ [c2]) =
        List.replicate 1439 [] ++ [d1 :: r1] ++ [d2 :: r2] := by
      rw [results_concat, e1, h2]
    obtain ⟨w0, w1, _⟩ := window_replicate 1439 d1 d2 r1 r2
    obtain ⟨_, _, w2⟩ := window_replicate 1438 d1 d2 r1 r2
    unfold GetNoResultRequests
    rw [(hmain _).2, (hmain _).2, (hmain _).2, e0, e1, e2]
    refine ⟨?_, ?_, ?_⟩
    · exact congrArg Nat.cast w0
    · exact congrArg Nat.cast w1
    · exact congrArg Nat.cast w2

end queue

end RequestQueue

theorem no_result_requests_window_witness :
    RequestQueue.GetNoResultRequests
        (RequestQueue.run (fun x => x) (List.replicate 1439 (queueCall ℚ "empty request"))
          RequestQueue.empty) = 1439 ∧
    RequestQueue.GetNoResultRequests
        (RequestQueue.run (fun x => x)
          (List.replicate 1439 (queueCall ℚ "empty request") ++ [queueCall ℚ "curly dog"])
          RequestQueue.empty) = 1439 ∧
    RequestQueue.GetNoResultRequests
        (RequestQueue.run (fun x => x)
          (List.replicate 1439 (queueCall ℚ "empty request") ++ [queueCall ℚ "curly dog"] ++
            [queueCall ℚ "big collar"])
          RequestQueue.empty) = 1438 :=
  (RequestQueue.no_result_requests_window (fun x => x) []).2.2.2.2.2
    (queueCall ℚ "empty request") (queueCall ℚ "curly dog") (queueCall ℚ "big collar")
    _ _ _ _ (by with_unfolding_all rfl) (by with_unfolding_all rfl) (by with_unfolding_all rfl)

/-! ## The pages of `paginator.h` -/

section paginator

theorem Paginator.loop_succ {α : Type} (page_size fuel : Nat) (hp : 1 ≤ page_size)
    (rest : List α) :
    Paginator.loop page_size (fuel + 1) rest =
      if rest.length = 0 then []
      else if rest.length < page_size then [rest]
      else rest.take page_size :: Paginator.loop page_size fuel (rest.drop page_size) := by
  have hdrop : (rest.drop (page_size - 1)).drop 1 = rest.drop page_size := by
    rw [List.drop_drop]
    congr 1
    omega
  rw [Paginator.loop, hdrop]

/-- The pages of the loop of the constructor: they are the items in order, there
are `⌈n / page_size⌉` of them, every one has between 1 and `page_size` items and
every one but the last has `page_size` items. -/
theorem Paginator.loop_spec {α : Type} (page_size : Nat) (hp : 1 ≤ page_size) :
    ∀ (fuel : Nat) (rest : List α), rest.length ≤ fuel →
      (Paginator.loop page_size fuel rest).flatten = rest ∧
      (Paginator.loop page_size fuel rest).length = (rest.length + page_size - 1) / page_size ∧
      (∀ page ∈ Paginator.loop page_size fuel rest, 1 ≤ page.length ∧ page.length ≤ page_size) ∧
      (∀ page ∈ (Paginator.loop page_size fuel rest).dropLast, page.length = page_size) := by
  intro fuel
  induction fuel with
  | zero =>
    intro rest h
    have hnil : rest = [] := List.length_eq_zero.1 (by omega)
    subst hnil
    refine ⟨rfl, ?_, ?_, ?_⟩
    · simp only [Paginator.loop, List.length_nil]
      rw [Nat.zero_add, Nat.div_eq_of_lt (by omega)]
    · intro page h
      simp [Paginator.loop] at h
    · intro page h
      simp [Paginator.loop] at h
  | succ fuel ih =>
    intro rest h
    rw [Paginator.loop_succ page_size fuel hp]
    by_cases hnil : rest = []
    · subst hnil
      rw [if_pos List.length_nil]
      refine ⟨rfl, ?_, ?_, ?_⟩
      · simp only [List.length_nil]
        rw [Nat.zero_add, Nat.div_eq_of_lt (by omega)]
      · intro page h
        simp at h
      · intro page h
        simp at h
    · have hpos : 0 < rest.length := List.length_pos.2 hnil
      rw [if_neg (by omega)]
      by_cases hlt : rest.length < page_size
      · rw [if_pos hlt]
        refine ⟨by simp, ?_, ?_, ?_⟩
        · simp only [List.length_singleton]
          have e : rest.length + page_size - 1 = (rest.length - 1) + page_size := by omega
          rw [e, Nat.add_div_right _ (by omega), Nat.div_eq_of_lt (by omega)]
        · intro page h
          rw [List.mem_singleton] at h
          subst h
          omega
        · intro page h
          simp at h
      · rw [if_neg hlt]
        have hlen : (rest.drop page_size).length ≤ fuel := by
          rw [List.length_drop]
          omega
        obtain ⟨h1, h2, h3, h4⟩ := ih (rest.drop page_size) hlen
        refine ⟨?_, ?_, ?_, ?_⟩
        · rw [List.flatten_cons, h1, List.take_append_drop]
        · rw [List.length_cons, h2, List.length_drop]
          have e : rest.length + page_size - 1 = (rest.length - page_size + page_size - 1) + page_size := by
            omega
          rw [e, Nat.add_div_right _ (by omega)]
        · intro page h
          rw [List.mem_cons] at h
          rcases h with h | h
          · subst h
            rw [List.length_take]
            omega
          · exact h3 page h
        · intro page h
          cases hl : Paginator.loop page_size fuel (rest.drop page_size) with
          | nil =>
            rw [hl] at h
            simp at h
          | cons q qs =>
            rw [hl, List.dropLast_cons₂, List.mem_cons] at h
            rcases h with h | h
            · subst h
              rw [List.length_take]
              omega
            · apply h4
              rw [hl]
              exact h

end paginator

/-- C31. For every sequence `c` of `n` items and every page size `p ≥ 1`,
`Paginate(c, p)` returns a paginator whose pages, from `begin()` to `end()`, are
`⌈n / p⌉ = (n + p - 1) / p` in number and give `c` when they are concatenated in
order; every page except the last has exactly `p` items, the last page has between
1 and `p` items, and there is no page when `n = 0`. -/
theorem Paginate_pages {α : Type} (c : List α) (p : Nat) (hp : 1 ≤ p) :
    ∃ pages, Paginate c p = some pages ∧
      pages.range.length = (c.length + p - 1) / p ∧
      pages.range.flatten = c ∧
      (∀ page ∈ pages.range.dropLast, page.length = p) ∧
      (∀ page ∈ pages.range.getLast?, 1 ≤ page.length ∧ page.length ≤ p) ∧
      (c.length = 0 → pages.range = []) := by
  obtain ⟨h1, h2, h3, h4⟩ := Paginator.loop_spec p hp c.length c (le_refl _)
  refine ⟨⟨Paginator.loop p c.length c, c.length / p⟩, ?_, h2, h1, h4, ?_, ?_⟩
  · unfold Paginate Paginator.new
    rw [if_neg (by omega)]
  · intro page h
    exact h3 page (List.mem_of_getLast?_eq_some h)
  · intro h0
    have hlen : (Paginator.loop p c.length c).length = 0 := by
      rw [h2, h0, Nat.zero_add]
      exact Nat.div_eq_of_lt (by omega)
    exact List.length_eq_zero.1 hlen

/-- C31, at the sequences of `TestBasePaginate` and `TestPaginateOnePage`: three
items and `p = 2` give the two pages `[1, 2]` and `[3]`, two items and `p = 2` give
the one page `[1, 2]`. -/
theorem Paginate_pages_witness :
    (∃ pages, Paginate [1, 2, 3] 2 = some pages ∧
      pages.range.length = (([1, 2, 3] : List Nat).length + 2 - 1) / 2 ∧
      pages.range.flatten = [1, 2, 3] ∧
      (∀ page ∈ pages.range.dropLast, page.length = 2) ∧
      (∀ page ∈ pages.range.getLast?, 1 ≤ page.length ∧ page.length ≤ 2) ∧
      (([1, 2, 3] : List Nat).length = 0 → pages.range = [])) ∧
    (Paginate [1, 2, 3] 2).map Paginator.range = some [[1, 2], [3]] ∧
    (Paginate [1, 2] 2).map Paginator.range = some [[1, 2]] :=
  ⟨Paginate_pages [1, 2, 3] 2 (by decide), by decide, by decide⟩

/-- C38, at the input that refutes it. For three items and the page size 2 of
`TestBasePaginate`, `Paginator::size()` returns `3 / 2 = 1` while the loop from
`begin()` to `end()` yields the two pages `[1, 2]` and `[3]`; for one item and the
page size 2 it returns 0 while the loop yields one page. For two items and the page
size 2 of `TestPaginateOnePage`, where the page size divides the number of items,
the two agree. -/
theorem Paginator_size_floor :
    (Paginate ([1, 2, 3] : List Nat) 2).map Paginator.size = some 1 ∧
    (Paginate ([1, 2, 3] : List Nat) 2).map Paginator.range = some [[1, 2], [3]] ∧
    (Paginate ([1, 2, 3] : List Nat) 2).map (fun pages => pages.range.length) = some 2 ∧
    (Paginate ([1] : List Nat) 2).map Paginator.size = some 0 ∧
    (Paginate ([1] : List Nat) 2).map (fun pages => pages.range.length) = some 1 ∧
    (Paginate ([1, 2] : List Nat) 2).map Paginator.size = some 1 ∧
    (Paginate ([1, 2] : List Nat) 2).map (fun pages => pages.range.length) = some 1 := by
  decide

namespace SearchServer

section comparator

variable {R : Type} [LinearOrderedField R]

theorem ACCURACY_pos : (0 : R) < ACCURACY := by
  unfold ACCURACY
  positivity

theorem FindTopDocuments.cmp_iff (a b : Document R) :
    FindTopDocuments.cmp a b = true ↔
      (|a.relevance - b.relevance| < ACCURACY ∧ a.rating > b.rating) ∨
      (¬ |a.relevance - b.relevance| < ACCURACY ∧ a.relevance > b.relevance) := by
  unfold FindTopDocuments.cmp
  by_cases h : |a.relevance - b.relevance| < ACCURACY
  · simp [h]
  · simp [h]

/-- Two documents are incomparable exactly when their relevances are less than
`ACCURACY` apart and their ratings are equal. -/
theorem FindTopDocuments.incomparable_iff (a b : Document R) :
    (FindTopDocuments.cmp a b = false ∧ FindTopDocuments.cmp b a = false) ↔
      (|a.relevance - b.relevance| < ACCURACY ∧ a.rating = b.rating) := by
  have hab := FindTopDocuments.cmp_iff a b
  have hba := FindTopDocuments.cmp_iff b a
  rw [abs_sub_comm b.relevance a.relevance] at hba
  rw [← Bool.not_eq_true, ← Bool.not_eq_true, hab, hba]
  by_cases h : |a.relevance - b.relevance| < ACCURACY
  · constructor
    · rintro ⟨h1, h2⟩
      refine ⟨h, ?_⟩
      have h3 : ¬ a.rating > b.rating := fun hgt => h1 (Or.inl ⟨h, hgt⟩)
      have h4 : ¬ b.rating > a.rating := fun hgt => h2 (Or.inl ⟨h, hgt⟩)
      omega
    · rintro ⟨_, heq⟩
      constructor
      · rintro (⟨_, hgt⟩ | ⟨hn, _⟩)
        · omega
        · exact hn h
      · rintro (⟨_, hgt⟩ | ⟨hn, _⟩)
        · omega
        · exact hn h
  · constructor
    · rintro ⟨h1, h2⟩
      exfalso
      have h3 : ¬ a.relevance > b.relevance := fun hgt => h1 (Or.inr ⟨h, hgt⟩)
      have h4 : ¬ b.relevance > a.relevance := fun hgt => h2 (Or.inr ⟨h, hgt⟩)
      have heq : a.relevance = b.relevance := le_antisymm (not_lt.1 h3) (not_lt.1 h4)
      apply h
      rw [heq, sub_self, abs_zero]
      exact ACCURACY_pos
    · rintro ⟨h1, _⟩
      exact absurd h1 h

/-- The comparator is transitive at three documents among which "less than
`ACCURACY` apart" is transitive. -/
theorem FindTopDocuments.cmp_trans_of_close (a b c : Document R)
    (h1 : |a.relevance - b.relevance| < ACCURACY → |b.relevance - c.relevance| < ACCURACY →
      |a.relevance - c.relevance| < ACCURACY)
    (h2 : |b.relevance - a.relevance| < ACCURACY → |a.relevance - c.relevance| < ACCURACY →
      |b.relevance - c.relevance| < ACCURACY)
    (h3 : |a.relevance - c.relevance| < ACCURACY → |c.relevance - b.relevance| < ACCURACY →
      |a.relevance - b.relevance| < ACCURACY)
    (hab : FindTopDocuments.cmp a b = true) (hbc : FindTopDocuments.cmp b c = true) :
    FindTopDocuments.cmp a c = true := by
  rw [FindTopDocuments.cmp_iff] at hab hbc ⊢
  rw [abs_sub_comm b.relevance a.relevance] at h2
  rw [abs_sub_comm c.relevance b.relevance] at h3
  rcases hab with ⟨nab, rab⟩ | ⟨nab, rab⟩
  · rcases hbc with ⟨nbc, rbc⟩ | ⟨nbc, rbc⟩
    · exact Or.inl ⟨h1 nab nbc, by omega⟩
    · have nac : ¬ |a.relevance - c.relevance| < ACCURACY := fun h => nbc (h2 nab h)
      refine Or.inr ⟨nac, ?_⟩
      rw [abs_lt] at nab nbc
      rw [not_and_or, not_lt, not_lt] at nbc
      rcases nbc with h | h
      · linarith
      · linarith [nab.1, nab.2]
  · rcases hbc with ⟨nbc, rbc⟩ | ⟨nbc, rbc⟩
    · have nac : ¬ |a.relevance - c.relevance| < ACCURACY := fun h => nab (h3 h nbc)
      refine Or.inr ⟨nac, ?_⟩
      rw [abs_lt] at nab nbc
      rw [not_and_or, not_lt, not_lt] at nab
      rcases nab with h | h
      · linarith
      · linarith [nbc.1, nbc.2]
    · have hgt : a.relevance > c.relevance := lt_trans rbc rab
      refine Or.inr ⟨?_, hgt⟩
      rw [abs_lt] at nab nbc ⊢
      rw [not_and_or, not_lt, not_lt] at nab nbc ⊢
      right
      rcases nab with h | h
      · linarith
      · rcases nbc with h5 | h5
        · linarith
        · linarith [(ACCURACY_pos : (0 : R) < ACCURACY)]

/-- C32, amended. The comparator that `FindTopDocuments` passes to `sort` is
irreflexive and asymmetric on all documents. On the documents of a list `docs` in
which "relevances less than `ACCURACY` apart" is transitive, as it is when any two
relevances are equal or at least `ACCURACY` apart, it is a strict weak ordering: it
is transitive and its incomparability relation is transitive. -/
theorem FindTopDocuments.cmp_strict_weak (docs : List (Document R))
    (hclose : ∀ a ∈ docs, ∀ b ∈ docs, ∀ c ∈ docs,
      |a.relevance - b.relevance| < ACCURACY → |b.relevance - c.relevance| < ACCURACY →
        |a.relevance - c.relevance| < ACCURACY) :
    (∀ a : Document R, FindTopDocuments.cmp a a = false) ∧
    (∀ a b : Document R, FindTopDocuments.cmp a b = true → FindTopDocuments.cmp b a = false) ∧
    (∀ a ∈ docs, ∀ b ∈ docs, ∀ c ∈ docs,
      FindTopDocuments.cmp a b = true → FindTopDocuments.cmp b c = true →
        FindTopDocuments.cmp a c = true) ∧
    (∀ a ∈ docs, ∀ b ∈ docs, ∀ c ∈ docs,
      (FindTopDocuments.cmp a b = false ∧ FindTopDocuments.cmp b a = false) →
      (FindTopDocuments.cmp b c = false ∧ FindTopDocuments.cmp c b = false) →
        (FindTopDocuments.cmp a c = false ∧ FindTopDocuments.cmp c a = false)) := by
  refine ⟨?_, FindTopDocuments.cmp_asymm, ?_, ?_⟩
  · intro a
    cases h : FindTopDocuments.cmp a a with
    | false => rfl
    | true =>
      have := FindTopDocuments.cmp_asymm a a h
      rw [h] at this
      cases this
  · intro a ha b hb c hc hab hbc
    exact FindTopDocuments.cmp_trans_of_close a b c (hclose a ha b hb c hc) (hclose b hb a ha c hc)
      (hclose a ha c hc b hb) hab hbc
  · intro a ha b hb c hc hab hbc
    rw [FindTopDocuments.incomparable_iff] at hab hbc ⊢
    exact ⟨hclose a ha b hb c hc hab.1 hbc.1, hab.2.trans hbc.2⟩

end comparator

end SearchServer

/-- C32, refuted as it stands: with relevances `0`, `0.6e-6` and `1.2e-6` and
ratings 3, 2 and 1 the comparator puts the first document before the second and
the second before the third, but the third before the first; and with equal
ratings the first and the second are incomparable, the second and the third are
incomparable, but the third comes before the first. -/
theorem FindTopDocuments_cmp_counterexample :
    SearchServer.FindTopDocuments.cmp
      ({ id := 1, relevance := 0, rating := 3 } : Document ℚ)
      { id := 2, relevance := 6 / 10000000, rating := 2 } = true ∧
    SearchServer.FindTopDocuments.cmp
      ({ id := 2, relevance := 6 / 10000000, rating := 2 } : Document ℚ)
      { id := 3, relevance := 12 / 10000000, rating := 1 } = true ∧
    SearchServer.FindTopDocuments.cmp
      ({ id := 1, relevance := 0, rating := 3 } : Document ℚ)
      { id := 3, relevance := 12 / 10000000, rating := 1 } = false ∧
    SearchServer.FindTopDocuments.cmp
      ({ id := 3, relevance := 12 / 10000000, rating := 1 } : Document ℚ)
      { id := 1, relevance := 0, rating := 3 } = true ∧
    (SearchServer.FindTopDocuments.cmp
        ({ id := 1, relevance := 0, rating := 2 } : Document ℚ)
        { id := 2, relevance := 6 / 10000000, rating := 2 } = false ∧
      SearchServer.FindTopDocuments.cmp
        ({ id := 2, relevance := 6 / 10000000, rating := 2 } : Document ℚ)
        { id := 1, relevance := 0, rating := 2 } = false) ∧
    (SearchServer.FindTopDocuments.cmp
        ({ id := 2, relevance := 6 / 10000000, rating := 2 } : Document ℚ)
        { id := 3, relevance := 12 / 10000000, rating := 2 } = false ∧
      SearchServer.FindTopDocuments.cmp
        ({ id := 3, relevance := 12 / 10000000, rating := 2 } : Document ℚ)
        { id := 2, relevance := 6 / 10000000, rating := 2 } = false) ∧
    SearchServer.FindTopDocuments.cmp
      ({ id := 3, relevance := 12 / 10000000, rating := 2 } : Document ℚ)
      { id := 1, relevance := 0, rating := 2 } = true := by
  decide!

/-- C32, at three documents with the relevances 2, 1 and 2: any two of the
relevances are equal or at least `ACCURACY` apart. -/
theorem FindTopDocuments_cmp_strict_weak_witness :
    (∀ a : Document ℚ, SearchServer.FindTopDocuments.cmp a a = false) ∧
    (∀ a b : Document ℚ, SearchServer.FindTopDocuments.cmp a b = true →
      SearchServer.FindTopDocuments.cmp b a = false) ∧
    (∀ a ∈ cmpDocuments, ∀ b ∈ cmpDocuments, ∀ c ∈ cmpDocuments,
      SearchServer.FindTopDocuments.cmp a b = true → SearchServer.FindTopDocuments.cmp b c = true →
        SearchServer.FindTopDocuments.cmp a c = true) ∧
    (∀ a ∈ cmpDocuments, ∀ b ∈ cmpDocuments, ∀ c ∈ cmpDocuments,
      (SearchServer.FindTopDocuments.cmp a b = false ∧
        SearchServer.FindTopDocuments.cmp b a = false) →
      (SearchServer.FindTopDocuments.cmp b c = false ∧
        SearchServer.FindTopDocuments.cmp c b = false) →
        (SearchServer.FindTopDocuments.cmp a c = false ∧
          SearchServer.FindTopDocuments.cmp c a = false)) :=
  SearchServer.FindTopDocuments.cmp_strict_weak cmpDocuments (by decide!)

/-! ## What `std::sort` leaves -/

namespace StdSort

section strict_weak

variable {α : Type}

theorem StrictWeak.asymm {lt : α → α → Bool} {l : List α} (h : StrictWeak lt l)
    (a : α) (ha : a ∈ l) (b : α) (hb : b ∈ l) (hab : lt a b = true) : lt b a = false := by
  cases hba : lt b a with
  | false => rfl
  | true =>
    have := h.trans a ha b hb a ha hab hba
    rw [h.irrefl a ha] at this
    cases this

/-- For a strict weak ordering "not before" is transitive. -/
theorem StrictWeak.not_before {lt : α → α → Bool} {l : List α} (h : StrictWeak lt l)
    (a : α) (ha : a ∈ l) (b : α) (hb : b ∈ l) (c : α) (hc : c ∈ l)
    (hab : lt a b = false) (hbc : lt b c = false) : lt a c = false := by
  cases hac : lt a c with
  | false => rfl
  | true =>
    exfalso
    have hba : lt b a = false := by
      cases hba : lt b a with
      | false => rfl
      | true =>
        have := h.trans b hb a ha c hc hba hac
        rw [hbc] at this
        cases this
    have hcb : lt c b = false := by
      cases hcb : lt c b with
      | false => rfl
      | true =>
        have := h.trans a ha c hc b hb hac hcb
        rw [hab] at this
        cases this
    have := (h.incomparable a ha b hb c hc ⟨hab, hba⟩ ⟨hbc, hcb⟩).1
    rw [hac] at this
    cases this

theorem StrictWeak.of_subset {lt : α → α → Bool} {l1 l2 : List α} (h : StrictWeak lt l2)
    (hsub : ∀ a ∈ l1, a ∈ l2) : StrictWeak lt l1 :=
  ⟨fun a ha => h.irrefl a (hsub a ha),
    fun a ha b hb c hc => h.trans a (hsub a ha) b (hsub b hb) c (hsub c hc),
    fun a ha b hb c hc => h.incomparable a (hsub a ha) b (hsub b hb) c (hsub c hc)⟩

theorem mem_insert_iff (lt : α → α → Bool) (a : α) (l : List α) (x : α) :
    x ∈ insert lt a l ↔ x = a ∨ x ∈ l := by
  rw [(perm_insert lt a l).mem_iff, List.mem_cons]

theorem pairwise_insert {lt : α → α → Bool} (a : α) (l : List α)
    (h : StrictWeak lt (a :: l)) (hl : l.Pairwise (fun x y => lt y x = false)) :
    (insert lt a l).Pairwise (fun x y => lt y x = false) := by
  induction l with
  | nil => simp [insert]
  | cons b rest ih =>
    rw [List.pairwise_cons] at hl
    unfold insert
    by_cases hba : lt b a = true
    · rw [if_pos hba, List.pairwise_cons]
      constructor
      · intro x hx
        rcases (mem_insert_iff lt a rest x).1 hx with hxa | hxr
        · subst hxa
          exact h.asymm b (by simp) x (by simp) hba
        · exact hl.1 x hxr
      · apply ih _ hl.2
        apply h.of_subset
        intro x hx
        rcases List.mem_cons.1 hx with hxa | hxr
        · rw [hxa]
          simp
        · simp [hxr]
    · rw [if_neg hba, List.pairwise_cons]
      have hba1 : lt b a = false := by simpa using hba
      constructor
      · intro x hx
        rcases List.mem_cons.1 hx with hxb | hxr
        · rw [hxb]
          exact hba1
        · exact h.not_before x (by simp [hxr]) b (by simp) a (by simp) (hl.1 x hxr) hba1
      · exact List.pairwise_cons.2 hl

/-- For a comparator that is a strict weak ordering on the range, the stable
insertion sort returns one of the results that `std::sort` may leave. -/
theorem sorts_sort {lt : α → α → Bool} (l : List α) (h : StrictWeak lt l) :
    Sorts lt l (sort lt l) := by
  refine ⟨perm_sort lt l, ?_⟩
  induction l with
  | nil => simp [sort]
  | cons a rest ih =>
    unfold sort
    apply pairwise_insert
    · apply h.of_subset
      intro x hx
      rcases List.mem_cons.1 hx with hxa | hxr
      · rw [hxa]
        simp
      · exact List.mem_cons_of_mem _ ((mem_sort lt rest x).1 hxr)
    · apply ih
      exact h.of_subset (fun x hx => List.mem_cons_of_mem _ hx)

/-- In a sorted permutation of `l` the element at position `i` has at most `i`
elements of `l` before it, and more than `i` elements of `l` are not after it. -/
theorem Sorts.count_at {lt : α → α → Bool} {l r : List α} (h : StrictWeak lt l)
    (hr : Sorts lt l r) (i : Nat) (hi : i < r.length) :
    l.countP (fun y => lt y (r.get ⟨i, hi⟩)) ≤ i ∧
    i < l.countP (fun y => !lt (r.get ⟨i, hi⟩) y) := by
  obtain ⟨hperm, hpair⟩ := hr
  have hmem : r.get ⟨i, hi⟩ ∈ l := hperm.mem_iff.1 (List.get_mem r i hi)
  have hsplit : r = r.take i ++ r.get ⟨i, hi⟩ :: r.drop (i + 1) := by
    conv_lhs => rw [← List.take_append_drop i r, List.drop_eq_getElem_cons hi]
    rfl
  have hlen : (r.take i).length = i := by
    rw [List.length_take]
    omega
  generalize r.get ⟨i, hi⟩ = x at hmem hsplit ⊢
  have hcount : ∀ p : α → Bool,
      l.countP p = (r.take i).countP p + (x :: r.drop (i + 1)).countP p := by
    intro p
    rw [← hperm.countP_eq, ← List.countP_append, ← hsplit]
  rw [hsplit, List.pairwise_append, List.pairwise_cons] at hpair
  obtain ⟨_, ⟨hafter, _⟩, hbefore⟩ := hpair
  constructor
  · rw [hcount]
    have h0 : List.countP (fun y => lt y x) (x :: r.drop (i + 1)) = 0 := by
      rw [List.countP_eq_zero]
      intro y hy
      rcases List.mem_cons.1 hy with hya | hyr
      · rw [hya, h.irrefl _ hmem]
        simp
      · rw [hafter y hyr]
        simp
    rw [h0, Nat.add_zero]
    calc List.countP (fun y => lt y x) (r.take i) ≤ (r.take i).length :=
          List.countP_le_length _
      _ = i := hlen
  · rw [hcount, List.countP_cons]
    have h1 : List.countP (fun y => !lt x y) (r.take i) = (r.take i).length := by
      rw [List.countP_eq_length]
      intro y hy
      rw [hbefore y hy x (by simp)]
      rfl
    rw [h1, hlen, h.irrefl _ hmem]
    simp only [Bool.not_false, if_true]
    omega

/-- Two results that `std::sort` may leave for the same range, with a comparator
that is a strict weak ordering on it, have at every position elements neither of
which the comparator puts before the other. -/
theorem Sorts.equivalent {lt : α → α → Bool} {l r1 r2 : List α} (h : StrictWeak lt l)
    (h1 : Sorts lt l r1) (h2 : Sorts lt l r2) :
    List.Forall₂ (fun a b => lt a b = false ∧ lt b a = false) r1 r2 := by
  have key : ∀ (r1 r2 : List α), Sorts lt l r1 → Sorts lt l r2 →
      ∀ i (hi1 : i < r1.length) (hi2 : i < r2.length),
        lt (r1.get ⟨i, hi1⟩) (r2.get ⟨i, hi2⟩) = false := by
    intro r1 r2 h1 h2 i hi1 hi2
    cases hab : lt (r1.get ⟨i, hi1⟩) (r2.get ⟨i, hi2⟩) with
    | false => rfl
    | true =>
      exfalso
      have ha : r1.get ⟨i, hi1⟩ ∈ l := h1.1.mem_iff.1 (List.get_mem r1 i hi1)
      have hb : r2.get ⟨i, hi2⟩ ∈ l := h2.1.mem_iff.1 (List.get_mem r2 i hi2)
      have c1 := (Sorts.count_at h h1 i hi1).2
      have c2 := (Sorts.count_at h h2 i hi2).1
      have hmono : l.countP (fun y => !lt (r1.get ⟨i, hi1⟩) y) ≤
          l.countP (fun y => lt y (r2.get ⟨i, hi2⟩)) := by
        apply List.countP_mono_left
        intro y hy hp
        have hay : lt (r1.get ⟨i, hi1⟩) y = false := by simpa using hp
        cases hyb : lt y (r2.get ⟨i, hi2⟩) with
        | true => rfl
        | false =>
          have := h.not_before _ ha y hy _ hb hay hyb
          rw [hab] at this
          cases this
      omega
  rw [List.forall₂_iff_get]
  refine ⟨(h1.1.trans h2.1.symm).length_eq, ?_⟩
  intro i hi1 hi2
  exact ⟨key r1 r2 h1 h2 i hi1 hi2, key r2 r1 h2 h1 i hi2 hi1⟩

end strict_weak

end StdSort

namespace StdSort

section strict_weak_total

variable {α : Type}

/-- When the comparator orders any two different elements of the range, `std::sort`
can leave one arrangement only. -/
theorem Sorts.eq_of_ordered {lt : α → α → Bool} {l r1 r2 : List α} (h : StrictWeak lt l)
    (hordered : ∀ a ∈ l, ∀ b ∈ l, lt a b = false → lt b a = false → a = b)
    (h1 : Sorts lt l r1) (h2 : Sorts lt l r2) : r1 = r2 := by
  have hf := Sorts.equivalent h h1 h2
  rw [List.forall₂_iff_get] at hf
  apply List.ext_get hf.1
  intro i hi1 hi2
  exact hordered _ (h1.1.mem_iff.1 (List.get_mem r1 i hi1)) _
    (h2.1.mem_iff.1 (List.get_mem r2 i hi2)) (hf.2 i hi1 hi2).1 (hf.2 i hi1 hi2).2

/-- The order `<` of a linear order, as `operator<` on words and on ids, is a strict
weak ordering that orders any two different elements. -/
theorem strictWeak_lt [LinearOrder α] (l : List α) :
    StrictWeak (fun a b : α => decide (a < b)) l ∧
    ∀ a ∈ l, ∀ b ∈ l, decide (a < b) = false → decide (b < a) = false → a = b := by
  refine ⟨⟨?_, ?_, ?_⟩, ?_⟩
  · intro a _
    simp
  · intro a _ b _ c _ hab hbc
    simp only [decide_eq_true_eq] at hab hbc ⊢
    exact lt_trans hab hbc
  · intro a _ b _ c _ hab hbc
    simp only [decide_eq_false_iff_not, not_lt] at hab hbc ⊢
    exact ⟨le_trans hbc.1 hab.1, le_trans hab.2 hbc.2⟩
  · intro a _ b _ hab hba
    simp only [decide_eq_false_iff_not, not_lt] at hab hba
    exact le_antisymm hba hab

/-- For `<` of a linear order the stable sort of the embedding leaves the one
arrangement that `std::sort` can leave. -/
theorem sort_lt_eq [LinearOrder α] (l r : List α)
    (hr : Sorts (fun a b : α => decide (a < b)) l r) :
    r = sort (fun a b : α => decide (a < b)) l :=
  Sorts.eq_of_ordered (strictWeak_lt l).1 (strictWeak_lt l).2 hr
    (sorts_sort l (strictWeak_lt l).1)

end strict_weak_total

end StdSort

namespace SearchServer

section ranking_order

variable {R : Type} [LinearOrderedField R]

/-- On documents among which "less than `ACCURACY` apart" is transitive the
comparator of `FindTopDocuments` meets the precondition of `std::sort`. -/
theorem FindTopDocuments.cmp_strictWeak_of_close (docs : List (Document R))
    (hclose : ∀ a ∈ docs, ∀ b ∈ docs, ∀ c ∈ docs,
      |a.relevance - b.relevance| < ACCURACY → |b.relevance - c.relevance| < ACCURACY →
        |a.relevance - c.relevance| < ACCURACY) :
    StdSort.StrictWeak FindTopDocuments.cmp docs := by
  refine ⟨?_, ?_, ?_⟩
  · intro a _
    cases h : FindTopDocuments.cmp a a with
    | false => rfl
    | true =>
      have := FindTopDocuments.cmp_asymm a a h
      rw [h] at this
      cases this
  · intro a ha b hb c hc hab hbc
    exact FindTopDocuments.cmp_trans_of_close a b c (hclose a ha b hb c hc) (hclose b hb a ha c hc)
      (hclose a ha c hc b hb) hab hbc
  · intro a ha b hb c hc hab hbc
    rw [FindTopDocuments.incomparable_iff] at hab hbc ⊢
    exact ⟨hclose a ha b hb c hc hab.1 hbc.1, hab.2.trans hbc.2⟩

/-- C3, as amended. Let `matched_documents` be the candidates that `FindTopDocuments`
sorts, whatever the state, the query and the predicate, and let "relevances less than
`ACCURACY` apart" be transitive on them. Then the comparator is a strict weak ordering
on the candidates, which is what `std::sort` requires. For every arrangement `sorted`
that `std::sort` may leave, the list `top` that `FindTopDocuments` returns, `sorted`
cut to 5 documents, is ordered: of two neighbours whose relevances differ by less
than `ACCURACY` the first has the rating that is not smaller, and of two other
neighbours the first has the greater relevance; `top` is sorted under the comparator;
and whatever `std::sort` leaves when it sorts `top` again has at every position a
document with the rating of the document of `top` at this position and a relevance
less than `ACCURACY` from its relevance. The arrangement that the stable sort of the
embedding leaves is one of those of `std::sort`, and with it `FindTopDocuments`
returns such a list. -/
theorem FindTopDocuments_sorted (matched_documents : List (Document R))
    (hclose : ∀ a ∈ matched_documents, ∀ b ∈ matched_documents, ∀ c ∈ matched_documents,
      |a.relevance - b.relevance| < ACCURACY → |b.relevance - c.relevance| < ACCURACY →
        |a.relevance - c.relevance| < ACCURACY) :
    StdSort.StrictWeak FindTopDocuments.cmp matched_documents ∧
    (∀ sorted, StdSort.Sorts FindTopDocuments.cmp matched_documents sorted →
      ∀ top, top = (if sorted.length > MAX_RESULT_DOCUMENT_COUNT then
          sorted.take MAX_RESULT_DOCUMENT_COUNT else sorted) →
        List.Chain'
          (fun a b => if |a.relevance - b.relevance| < ACCURACY then a.rating ≥ b.rating
            else a.relevance > b.relevance) top ∧
        StdSort.Sorts FindTopDocuments.cmp top top ∧
        ∀ again, StdSort.Sorts FindTopDocuments.cmp top again →
          List.Forall₂
            (fun a b => a.rating = b.rating ∧ |a.relevance - b.relevance| < ACCURACY)
            again top) ∧
    (∀ (log : R → R) (s : SearchServer R) (raw_query : Word) (query : Query)
        (lambda : Int → DocumentStatus → Int → Bool),
      ParseQuery s raw_query = .ok query →
      FindAllDocuments log s query lambda = .ok matched_documents →
      StdSort.Sorts FindTopDocuments.cmp matched_documents
        (StdSort.sort FindTopDocuments.cmp matched_documents) ∧
      FindTopDocuments log s raw_query lambda =
        .ok (if (StdSort.sort FindTopDocuments.cmp matched_documents).length >
            MAX_RESULT_DOCUMENT_COUNT then
          (StdSort.sort FindTopDocuments.cmp matched_documents).take MAX_RESULT_DOCUMENT_COUNT
        else StdSort.sort FindTopDocuments.cmp matched_documents)) := by
  have hweak := FindTopDocuments.cmp_strictWeak_of_close matched_documents hclose
  refine ⟨hweak, ?_, ?_⟩
  · intro sorted hsorted top htop
    have hsub : top.Sublist sorted := by
      rw [htop]
      split
      · exact List.take_sublist _ _
      · exact List.Sublist.refl _
    have hpair : top.Pairwise (fun a b => FindTopDocuments.cmp b a = false) :=
      hsorted.2.sublist hsub
    have hweak_top : StdSort.StrictWeak FindTopDocuments.cmp top :=
      hweak.of_subset (fun a ha => hsorted.1.mem_iff.1 (hsub.subset ha))
    have hself : StdSort.Sorts FindTopDocuments.cmp top top := ⟨List.Perm.refl _, hpair⟩
    refine ⟨?_, hself, ?_⟩
    · exact (List.Pairwise.chain' hpair).imp
        (fun a b hab => FindTopDocuments.ordered_of_cmp a b hab)
    · intro again hagain
      refine (StdSort.Sorts.equivalent hweak_top hagain hself).imp ?_
      intro a b hab
      have h := (FindTopDocuments.incomparable_iff a b).1 hab
      exact ⟨h.2, h.1⟩
  · intro log s raw_query query lambda hq hc
    exact ⟨StdSort.sorts_sort matched_documents hweak,
      FindTopDocuments_eq log s raw_query query lambda matched_documents hq hc⟩

end ranking_order

end SearchServer

/-- C3, refuted as it stands. The three documents with the relevances `0`, `0.6e-6`
and `1.2e-6` and the ratings 3, 2 and 1 are in the order of the claim: the relevances
of neighbours are less than `ACCURACY` apart and the ratings descend. But the
comparator puts the last document before the first one, so the list is not sorted under
the key; the comparator is no strict weak ordering on the three documents, so
`std::sort` promises nothing for them; and no arrangement of them is sorted, so that
sorting the list again cannot leave it sorted and unchanged. -/
theorem FindTopDocuments_resort_counterexample :
    List.Chain'
      (fun a b => if |a.relevance - b.relevance| < ACCURACY then a.rating ≥ b.rating
        else a.relevance > b.relevance) chainDocuments ∧
    SearchServer.FindTopDocuments.cmp
      ({ id := 3, relevance := 12 / 10000000, rating := 1 } : Document ℚ)
      { id := 1, relevance := 0, rating := 3 } = true ∧
    ¬ StdSort.Sorts SearchServer.FindTopDocuments.cmp chainDocuments chainDocuments ∧
    ¬ StdSort.StrictWeak SearchServer.FindTopDocuments.cmp chainDocuments ∧
    ∀ sorted, ¬ StdSort.Sorts SearchServer.FindTopDocuments.cmp chainDocuments sorted := by
  have hnone : ∀ sorted,
      ¬ StdSort.Sorts SearchServer.FindTopDocuments.cmp chainDocuments sorted := by
    intro sorted hsorted
    have hmem : sorted ∈ chainDocuments.permutations := List.mem_permutations.2 hsorted.1
    have hall : ∀ r ∈ chainDocuments.permutations,
        ¬ r.Pairwise (fun a b => SearchServer.FindTopDocuments.cmp b a = false) := by
      decide!
    exact hall sorted hmem hsorted.2
  refine ⟨?_, by decide!, hnone _, ?_, hnone⟩
  · unfold chainDocuments
    rw [List.chain'_cons, List.chain'_cons]
    exact ⟨by decide!, by decide!, List.chain'_singleton _⟩
  intro hweak
  have h := hweak.trans { id := 1, relevance := 0, rating := 3 } (by simp [chainDocuments])
    { id := 2, relevance := 6 / 10000000, rating := 2 } (by simp [chainDocuments])
    { id := 3, relevance := 12 / 10000000, rating := 1 } (by simp [chainDocuments])
    (by decide!) (by decide!)
  revert h
  decide!

/-- C3, at the candidates of the query `"cat dog -pretty scary"` of `TestRelevance`
on the server of `TestRelevance`, whose relevances are 2 and 1: they are the list that
`FindTopDocuments` returns, and it is ordered and sorted. -/
theorem FindTopDocuments_sorted_witness :
    SearchServer.FindAllDocuments (fun x => x) (testServer ℚ) testQuery
      (fun _ status _ => status == .ACTUAL) = .ok rankedDocuments ∧
    SearchServer.FindTopDocuments (fun x => x) (testServer ℚ) (ascii "cat dog -pretty scary")
      (fun _ status _ => status == .ACTUAL) = .ok rankedDocuments ∧
    StdSort.StrictWeak SearchServer.FindTopDocuments.cmp rankedDocuments ∧
    StdSort.Sorts SearchServer.FindTopDocuments.cmp rankedDocuments rankedDocuments ∧
    List.Chain'
      (fun a b => if |a.relevance - b.relevance| < ACCURACY then a.rating ≥ b.rating
        else a.relevance > b.relevance) rankedDocuments ∧
    ∀ again, StdSort.Sorts SearchServer.FindTopDocuments.cmp rankedDocuments again →
      List.Forall₂ (fun a b => a.rating = b.rating ∧ |a.relevance - b.relevance| < ACCURACY)
        again rankedDocuments := by
  have h := SearchServer.FindTopDocuments_sorted rankedDocuments (by decide!)
  have hc : SearchServer.FindAllDocuments (fun x => x) (testServer ℚ) testQuery
      (fun _ status _ => status == .ACTUAL) = .ok rankedDocuments := by
    with_unfolding_all rfl
  have hsorts := (h.2.2 (fun x => x) (testServer ℚ) (ascii "cat dog -pretty scary") testQuery
    (fun _ status _ => status == .ACTUAL) (by with_unfolding_all rfl) hc).1
  have htop := h.2.1 _ hsorts rankedDocuments (by with_unfolding_all rfl)
  exact ⟨hc, by with_unfolding_all rfl, h.1, htop.2.1, htop.1, htop.2.2⟩

namespace SearchServer

section postings_filled

variable {R : Type} [LinearOrderedField R]

theorem AddDocument.loop_fills (n : Nat) (document_id : Int) (words : List Word)
    (s : SearchServer R)
    (h : ∀ w p, StdMap.find? s.word_to_document_freqs_ w = some p → p ≠ []) :
    ∀ w p, StdMap.find? (AddDocument.loop n document_id words s).1.word_to_document_freqs_ w
      = some p → p ≠ [] := by
  induction words generalizing s with
  | nil => exact h
  | cons t rest ih =>
    unfold AddDocument.loop
    split
    · exact h
    · apply ih
      intro w p hp
      simp only [StdMap.find?_update] at hp
      split at hp
      · cases hp
        intro hnil
        have hc := (StdMap.contains_update document_id (0 : R) (fun x => x + 1 / (n : R))
          ((StdMap.find? s.word_to_document_freqs_ t).getD []) document_id).2 (Or.inl rfl)
        rw [hnil] at hc
        cases hc
      · exact h w p hp

/-- A call of `AddDocument`, whether it returns or throws, leaves no word with an
empty postings list if there was none before. -/
theorem AddDocument_fills (s : SearchServer R) (document_id : Int)
    (document : Word) (status : DocumentStatus) (ratings : List Int)
    (h : ∀ w p, StdMap.find? s.word_to_document_freqs_ w = some p → p ≠ []) :
    ∀ w p, StdMap.find?
      (AddDocument s document_id document status ratings).1.word_to_document_freqs_ w
      = some p → p ≠ [] := by
  unfold AddDocument
  split
  · exact h
  · split
    · exact h
    · have hl := AddDocument.loop_fills
        (SplitIntoWordsNoStop ({ s with
            documents_ :=
              StdMap.emplace document_id
                { rating := ComputeAverageRating ratings, status := status, data := document }
                s.documents_ } : SearchServer R) document).length document_id
        (SplitIntoWordsNoStop ({ s with
            documents_ :=
              StdMap.emplace document_id
                { rating := ComputeAverageRating ratings, status := status, data := document }
                s.documents_ } : SearchServer R) document)
        ({ s with
            documents_ :=
              StdMap.emplace document_id
                { rating := ComputeAverageRating ratings, status := status, data := document }
                s.documents_ } : SearchServer R) h
      simp only
      generalize AddDocument.loop (R := R) _ document_id _ _ = r at hl ⊢
      obtain ⟨s2, e⟩ := r
      cases e with
      | some e => exact hl
      | none => exact hl

theorem Filled.postings_ne_nil {stop_words : StdSet Word} {s : SearchServer R}
    (h : Filled stop_words s) :
    ∀ w p, StdMap.find? s.word_to_document_freqs_ w = some p → p ≠ [] := by
  induction h with
  | init =>
    intro w p hp
    simp [empty, StdMap.find?] at hp
  | add document_id document status ratings _ ih =>
    exact AddDocument_fills _ document_id document status ratings ih

/-- C33, amended. After any sequence of calls of `AddDocument` on a new server,
returned or thrown, and no call of `RemoveDocument`, every word that is a key of the
inverted index has a non-empty postings list: `ComputeWordInverseDocumentFreq(word)`
returns the logarithm of the quotient of `GetDocumentCount()` by a divisor
`word_to_document_freqs_.at(word).size()` that is at least 1 and not zero. -/
theorem postings_nonempty (log : R → R) (stop_words : StdSet Word) (s : SearchServer R)
    (hs : Filled stop_words s) (word : Word) (postings : StdMap Int R)
    (h : StdMap.find? s.word_to_document_freqs_ word = some postings) :
    postings ≠ [] ∧ 1 ≤ postings.length ∧ (postings.length : R) ≠ 0 ∧
    ComputeWordInverseDocumentFreq log s word =
      .ok (log ((GetDocumentCount s : R) * 1 / (postings.length : R))) := by
  have hne := hs.postings_ne_nil word postings h
  have hpos : 1 ≤ postings.length := List.length_pos.2 hne
  refine ⟨hne, hpos, ?_, ?_⟩
  · have : (0 : R) < (postings.length : R) := by exact_mod_cast hpos
    exact ne_of_gt this
  · unfold ComputeWordInverseDocumentFreq
    rw [h]

end postings_filled

end SearchServer

theorem testServer_filled : SearchServer.Filled [ascii "in", ascii "the"] (testServer ℚ) :=
  SearchServer.Filled.add 2 (ascii "pretty cat in the city") .ACTUAL [5, 5, 4]
    (SearchServer.Filled.add 1 (ascii "pretty dog in the city") .ACTUAL [4, 2, 3]
      (SearchServer.Filled.add 11 (ascii "dog in the city scary") .ACTUAL [1, 1, 1]
        (SearchServer.Filled.add 42 (ascii "cat in the city") .ACTUAL [1, 5, 2]
          SearchServer.Filled.init)))

/-- C33, refuted as it stands: on a server with the stop-words `in` and `the` the
calls `AddDocument(1, "cat city")` and `RemoveDocument(1)` return, and they leave
the words `cat` and `city` as keys of the inverted index with empty postings lists;
`FindTopDocuments("cat")` then finds the key, calls `ComputeWordInverseDocumentFreq`
with `GetDocumentCount() = 0` and the divisor `size() = 0`, and returns no
document. -/
theorem postings_empty_counterexample :
    (SearchServer.AddDocument (SearchServer.empty [ascii "in", ascii "the"] : SearchServer ℚ)
      1 (ascii "cat city") .ACTUAL [1, 2, 3]).2 = none ∧
    (SearchServer.AddDocument (SearchServer.empty [ascii "in", ascii "the"])
      1 (ascii "cat city") .ACTUAL [1, 2, 3]).1 = addedServer ℚ ∧
    (SearchServer.RemoveDocument (addedServer ℚ) 1).2 = none ∧
    (SearchServer.RemoveDocument (addedServer ℚ) 1).1 = removedServer ℚ ∧
    (removedServer ℚ).word_to_document_freqs_ = [(ascii "cat", []), (ascii "city", [])] ∧
    StdMap.find? (removedServer ℚ).word_to_document_freqs_ (ascii "cat") = some [] ∧
    SearchServer.GetDocumentCount (removedServer ℚ) = 0 ∧
    SearchServer.ComputeWordInverseDocumentFreq (fun x => x) (removedServer ℚ) (ascii "cat") =
      .ok ((0 : ℚ) * 1 / (([] : StdMap Int ℚ).length : ℚ)) ∧
    SearchServer.FindTopDocuments (fun x => x) (removedServer ℚ) (ascii "cat")
      (fun _ status _ => status == .ACTUAL) = .ok [] := by
  refine ⟨by decide!, rfl, by decide!, rfl, by decide!, by decide!, by decide!, ?_, ?_⟩
  · with_unfolding_all rfl
  · with_unfolding_all rfl

/-- C33, at the word `cat` on the server of `TestRelevance`, which four calls of
`AddDocument` built: its postings list has the two documents 2 and 42. -/
theorem postings_nonempty_witness :
    ([(2, 1 / 3), (42, 1 / 2)] : StdMap Int ℚ) ≠ [] ∧
    1 ≤ ([(2, 1 / 3), (42, 1 / 2)] : StdMap Int ℚ).length ∧
    ((([(2, 1 / 3), (42, 1 / 2)] : StdMap Int ℚ).length : ℕ) : ℚ) ≠ 0 ∧
    SearchServer.ComputeWordInverseDocumentFreq (fun x => x) (testServer ℚ) (ascii "cat") =
      .ok ((SearchServer.GetDocumentCount (testServer ℚ) : ℚ) * 1 /
        (([(2, 1 / 3), (42, 1 / 2)] : StdMap Int ℚ).length : ℚ)) :=
  SearchServer.postings_nonempty (fun x => x) [ascii "in", ascii "the"] (testServer ℚ)
    testServer_filled (ascii "cat") [(2, 1 / 3), (42, 1 / 2)] (by decide!)

namespace SearchServer

section match_and_find

variable {R : Type} [LinearOrderedField R]

end match_and_find

end SearchServer

namespace StdMap

variable {κ ν : Type} [LinearOrder κ]

theorem erase_insertSorted (k : κ) (v : ν) (m : StdMap κ ν) :
    erase k (insertSorted k v m) = erase k m := by
  induction m with
  | nil => simp [insertSorted, erase]
  | cons p rest ih =>
    obtain ⟨k2, v2⟩ := p
    unfold insertSorted
    split
    · simp [erase]
    · unfold erase at ih ⊢
      rw [List.filter_cons, List.filter_cons, ih]

theorem erase_emplace (k : κ) (v : ν) (m : StdMap κ ν) :
    erase k (emplace k v m) = erase k m := by
  unfold emplace
  split
  · rfl
  · exact erase_insertSorted k v m

theorem erase_modify_self (k : κ) (g : ν → ν) (m : StdMap κ ν) :
    erase k (modify k g m) = erase k m := by
  induction m with
  | nil => rfl
  | cons p rest ih =>
    obtain ⟨k2, v2⟩ := p
    unfold modify erase at ih ⊢
    rw [List.map_cons, List.filter_cons, List.filter_cons, ih]
    by_cases h : k2 = k
    · simp [h]
    · simp [h]

theorem erase_update_self (k : κ) (dflt : ν) (g : ν → ν) (m : StdMap κ ν) :
    erase k (update k dflt g m) = erase k m := by
  unfold update
  rw [erase_modify_self, erase_emplace]

theorem sorted_keys_erase (k : κ) (m : StdMap κ ν) (hm : List.Sorted (· < ·) (keys m)) :
    List.Sorted (· < ·) (keys (erase k m)) := by
  have e : keys (erase k m) = (keys m).filter (fun x => decide (x ≠ k)) := by
    unfold keys erase
    rw [List.filter_map]
    rfl
  rw [e]
  exact List.Pairwise.filter _ hm

theorem eq_nil_of_find? (m : StdMap κ ν) (h : ∀ k, find? m k = none) : m = [] := by
  cases m with
  | nil => rfl
  | cons p rest =>
    obtain ⟨k, v⟩ := p
    have := h k
    simp [find?] at this

end StdMap

namespace StdSet

variable {κ : Type} [LinearOrder κ]

theorem erase_of_insertSorted (k : κ) (s : StdSet κ) : erase k (insertSorted k s) = erase k s := by
  induction s with
  | nil => simp [insertSorted, erase]
  | cons k2 rest ih =>
    unfold insertSorted
    split
    · simp [erase]
    · unfold erase at ih ⊢
      rw [List.filter_cons, List.filter_cons, ih]

theorem erase_insert (k : κ) (s : StdSet κ) : erase k (insert k s) = erase k s := by
  unfold insert
  split
  · rfl
  · exact erase_of_insertSorted k s

end StdSet

namespace SearchServer

section congruence

variable {R : Type} [LinearOrderedField R]

theorem ParseQuery.loop_congr {S : Type} (s1 s2 : SearchServer S)
    (h : s1.stop_words_ = s2.stop_words_) (words : List Word) (query : Query) :
    ParseQuery.loop s1 words query = ParseQuery.loop s2 words query := by
  have hw : ∀ word, ParseQueryWord s1 word = ParseQueryWord s2 word := by
    intro word
    unfold ParseQueryWord IsStopWord
    rw [h]
  induction words generalizing query with
  | nil => rfl
  | cons word rest ih =>
    unfold ParseQuery.loop
    rw [hw word]
    split
    · rfl
    · cases ParseQueryWord s2 word with
      | error e => rfl
      | ok query_word =>
        simp only
        split
        · split
          · exact ih _
          · exact ih _
        · exact ih _

theorem ParseQuery_congr {S : Type} (s1 s2 : SearchServer S)
    (h : s1.stop_words_ = s2.stop_words_) (text : Word) :
    ParseQuery s1 text = ParseQuery s2 text := by
  unfold ParseQuery
  rw [ParseQuery.loop_congr s1 s2 h]

theorem FindAllDocuments.addPostings_congr (s1 s2 : SearchServer R)
    (hdocs : s1.documents_ = s2.documents_) (lambda : Int → DocumentStatus → Int → Bool)
    (idf : R) (postings : List (Int × R)) (acc : StdMap Int R) :
    FindAllDocuments.addPostings s1 lambda idf postings acc =
      FindAllDocuments.addPostings s2 lambda idf postings acc := by
  induction postings generalizing acc with
  | nil => rfl
  | cons p rest ih =>
    obtain ⟨id, tf⟩ := p
    unfold FindAllDocuments.addPostings
    rw [hdocs]
    cases StdMap.find? s2.documents_ id with
    | none => rfl
    | some data =>
      simp only
      split
      · exact ih _
      · exact ih _

theorem FindAllDocuments.collect_congr {S : Type} (s1 s2 : SearchServer S)
    (hdocs : s1.documents_ = s2.documents_) (acc : StdMap Int S) :
    FindAllDocuments.collect s1 acc = FindAllDocuments.collect s2 acc := by
  induction acc with
  | nil => rfl
  | cons p rest ih =>
    obtain ⟨id, rel⟩ := p
    unfold FindAllDocuments.collect
    rw [hdocs, ih]

/-- The loop over the plus-words does not tell a word that is no key of the
inverted index from a word with an empty postings list. -/
theorem FindAllDocuments.plusLoop_congr (log : R → R) (s1 s2 : SearchServer R)
    (hdocs : s1.documents_ = s2.documents_)
    (hindex : ∀ w, StdMap.find? s1.word_to_document_freqs_ w =
        StdMap.find? s2.word_to_document_freqs_ w ∨
      (StdMap.find? s1.word_to_document_freqs_ w = some [] ∧
        StdMap.find? s2.word_to_document_freqs_ w = none))
    (lambda : Int → DocumentStatus → Int → Bool) (words : List Word) (acc : StdMap Int R) :
    FindAllDocuments.plusLoop log s1 lambda words acc =
      FindAllDocuments.plusLoop log s2 lambda words acc := by
  induction words generalizing acc with
  | nil => rfl
  | cons word rest ih =>
    unfold FindAllDocuments.plusLoop
    rcases hindex word with h | ⟨h1, h2⟩
    · rw [h]
      cases hf : StdMap.find? s2.word_to_document_freqs_ word with
      | none => exact ih _
      | some postings =>
        simp only
        have hidf : ComputeWordInverseDocumentFreq log s1 word =
            ComputeWordInverseDocumentFreq log s2 word := by
          unfold ComputeWordInverseDocumentFreq GetDocumentCount
          rw [h, hdocs]
        rw [hidf]
        cases ComputeWordInverseDocumentFreq log s2 word with
        | error e => rfl
        | ok idf =>
          simp only
          rw [FindAllDocuments.addPostings_congr s1 s2 hdocs]
          cases FindAllDocuments.addPostings s2 lambda idf postings acc with
          | error e => rfl
          | ok acc1 => exact ih _
    · rw [h1, h2]
      simp only [ComputeWordInverseDocumentFreq, h1, FindAllDocuments.addPostings]
      exact ih _

theorem FindAllDocuments.minusLoop_congr {S : Type} (s1 s2 : SearchServer S)
    (hindex : ∀ w, StdMap.find? s1.word_to_document_freqs_ w =
        StdMap.find? s2.word_to_document_freqs_ w ∨
      (StdMap.find? s1.word_to_document_freqs_ w = some [] ∧
        StdMap.find? s2.word_to_document_freqs_ w = none))
    (words : List Word) (acc : StdMap Int S) :
    FindAllDocuments.minusLoop s1 words acc = FindAllDocuments.minusLoop s2 words acc := by
  induction words generalizing acc with
  | nil => rfl
  | cons word rest ih =>
    unfold FindAllDocuments.minusLoop
    rcases hindex word with h | ⟨h1, h2⟩
    · rw [h]
      cases StdMap.find? s2.word_to_document_freqs_ word with
      | none => exact ih _
      | some postings => exact ih _
    · rw [h1, h2]
      exact ih _

/-- Two states with the same stop-words and the same document store, whose inverted
indices differ only in words with an empty postings list, give the same results of
`FindTopDocuments`. -/
theorem FindTopDocuments_congr (log : R → R) (s1 s2 : SearchServer R)
    (hstop : s1.stop_words_ = s2.stop_words_) (hdocs : s1.documents_ = s2.documents_)
    (hindex : ∀ w, StdMap.find? s1.word_to_document_freqs_ w =
        StdMap.find? s2.word_to_document_freqs_ w ∨
      (StdMap.find? s1.word_to_document_freqs_ w = some [] ∧
        StdMap.find? s2.word_to_document_freqs_ w = none))
    (raw_query : Word) (lambda : Int → DocumentStatus → Int → Bool) :
    FindTopDocuments log s1 raw_query lambda = FindTopDocuments log s2 raw_query lambda := by
  unfold FindTopDocuments FindAllDocuments
  rw [ParseQuery_congr s1 s2 hstop]
  cases ParseQuery s2 raw_query with
  | error e => rfl
  | ok query =>
    simp only
    rw [FindAllDocuments.plusLoop_congr log s1 s2 hdocs hindex]
    cases FindAllDocuments.plusLoop log s2 lambda query.plus_words [] with
    | error e => rfl
    | ok acc =>
      simp only
      rw [FindAllDocuments.minusLoop_congr s1 s2 hindex, FindAllDocuments.collect_congr s1 s2 hdocs]

/-- Two states with the same stop-words, live ids and document store, whose inverted
indices hold the same entries, give the same results of `MatchDocument`. -/
theorem MatchDocument_congr {S : Type} (s1 s2 : SearchServer S)
    (hstop : s1.stop_words_ = s2.stop_words_) (hdocs : s1.documents_ = s2.documents_)
    (hids : s1.docs_id_ = s2.docs_id_)
    (hindex : ∀ w id, StdMap.find2? s1.word_to_document_freqs_ w id =
      StdMap.find2? s2.word_to_document_freqs_ w id)
    (raw_query : Word) (document_id : Int) :
    MatchDocument s1 raw_query document_id = MatchDocument s2 raw_query document_id := by
  have hin : ∀ w, inPostings s1 w document_id = inPostings s2 w document_id := by
    intro w
    unfold inPostings
    rw [hindex]
  unfold MatchDocument
  rw [ParseQuery_congr s1 s2 hstop, hids, hdocs]
  simp only [hin]

end congruence

end SearchServer

namespace SearchServer

section add_then_remove

variable {R : Type} [LinearOrderedField R]

theorem AddDocument.loop_forward_erase (n : Nat) (document_id : Int) (words : List Word)
    (s : SearchServer R) :
    StdMap.erase document_id (AddDocument.loop n document_id words s).1.document_to_word_freqs_ =
      StdMap.erase document_id s.document_to_word_freqs_ := by
  induction words generalizing s with
  | nil => rfl
  | cons t rest ih =>
    unfold AddDocument.loop
    split
    · rfl
    · rw [ih]
      exact StdMap.erase_update_self _ _ _ _

theorem AddDocument.loop_keeps_keys (n : Nat) (document_id : Int) (words : List Word)
    (s : SearchServer R) (w : Word) (h : StdMap.contains s.word_to_document_freqs_ w = true) :
    StdMap.contains (AddDocument.loop n document_id words s).1.word_to_document_freqs_ w = true := by
  induction words generalizing s with
  | nil => exact h
  | cons t rest ih =>
    unfold AddDocument.loop
    split
    · exact h
    · apply ih
      exact (StdMap.contains_update _ _ _ _ _).2 (Or.inr h)

/-- What a call of `AddDocument` does to the forward index is undone by erasing
the entry of the document; and the call keeps the keys of the inverted index. -/
theorem AddDocument_forward_erase (s : SearchServer R) (document_id : Int)
    (document : Word) (status : DocumentStatus) (ratings : List Int) :
    StdMap.erase document_id
        (AddDocument s document_id document status ratings).1.document_to_word_freqs_ =
      StdMap.erase document_id s.document_to_word_freqs_ ∧
    ∀ w, StdMap.contains s.word_to_document_freqs_ w = true →
      StdMap.contains
        (AddDocument s document_id document status ratings).1.word_to_document_freqs_ w = true := by
  unfold AddDocument
  split
  · exact ⟨rfl, fun w h => h⟩
  · split
    · exact ⟨rfl, fun w h => h⟩
    · have hl := AddDocument.loop_forward_erase
        (SplitIntoWordsNoStop ({ s with
            documents_ :=
              StdMap.emplace document_id
                { rating := ComputeAverageRating ratings, status := status, data := document }
                s.documents_ } : SearchServer R) document).length document_id
        (SplitIntoWordsNoStop ({ s with
            documents_ :=
              StdMap.emplace document_id
                { rating := ComputeAverageRating ratings, status := status, data := document }
                s.documents_ } : SearchServer R) document)
        ({ s with
            documents_ :=
              StdMap.emplace document_id
                { rating := ComputeAverageRating ratings, status := status, data := document }
                s.documents_ } : SearchServer R)
      have hk := AddDocument.loop_keeps_keys
        (SplitIntoWordsNoStop ({ s with
            documents_ :=
              StdMap.emplace document_id
                { rating := ComputeAverageRating ratings, status := status, data := document }
                s.documents_ } : SearchServer R) document).length document_id
        (SplitIntoWordsNoStop ({ s with
            documents_ :=
              StdMap.emplace document_id
                { rating := ComputeAverageRating ratings, status := status, data := document }
                s.documents_ } : SearchServer R) document)
        ({ s with
            documents_ :=
              StdMap.emplace document_id
                { rating := ComputeAverageRating ratings, status := status, data := document }
                s.documents_ } : SearchServer R)
      simp only
      generalize AddDocument.loop (R := R) _ document_id _ _ = r at hl hk ⊢
      obtain ⟨s2, e⟩ := r
      cases e with
      | some e => exact ⟨hl, hk⟩
      | none => exact ⟨hl, hk⟩

/-- Whatever calls were made, the ids of every postings list are in strictly
ascending order. -/
theorem Ran.postings_sorted {stop_words : StdSet Word} {s : SearchServer R}
    (h : Ran stop_words s) :
    ∀ w postings, StdMap.find? s.word_to_document_freqs_ w = some postings →
      List.Sorted (· < ·) (StdMap.keys postings) := by
  induction h with
  | init => intro w postings hf; cases hf
  | @add s document_id document status ratings _ ih =>
    exact AddDocument_postings (fun m => List.Sorted (· < ·) (StdMap.keys m)) s document_id
      document status ratings List.sorted_nil
      (fun m f hm => StdMap.sorted_keys_update document_id 0 f m hm) ih
  | @remove s document_id hr ih =>
    exact (RemoveDocument_spec s document_id
      (hr.sound.forward_indexed document_id)).2.2.2.2.2.2.2
      (fun m => List.Sorted (· < ·) (StdMap.keys m))
      (fun m hm => StdMap.sorted_keys_erase document_id m hm) ih

/-- A document that is added and then removed leaves the stop-words, the live ids,
the document store and the forward index as they were; the inverted index has the
postings lists it had, and may have new words, each with an empty postings list. -/
theorem AddDocument_RemoveDocument_state (stop_words : StdSet Word) (corpus : Corpus)
    (s : SearchServer R) (hs : Reachable stop_words corpus s) (document_id : Int)
    (h0 : 0 ≤ document_id) (habsent : document_id ∉ s.docs_id_) (document : Word)
    (htext : ∀ c ∈ document, 32 ≤ c.val) (status : DocumentStatus) (ratings : List Int) :
    (AddDocument s document_id document status ratings).2 = none ∧
    (RemoveDocument (AddDocument s document_id document status ratings).1 document_id).2 = none ∧
    (RemoveDocument (AddDocument s document_id document status ratings).1
      document_id).1.stop_words_ = s.stop_words_ ∧
    (RemoveDocument (AddDocument s document_id document status ratings).1
      document_id).1.documents_ = s.documents_ ∧
    (RemoveDocument (AddDocument s document_id document status ratings).1
      document_id).1.docs_id_ = s.docs_id_ ∧
    (RemoveDocument (AddDocument s document_id document status ratings).1
      document_id).1.document_to_word_freqs_ = s.document_to_word_freqs_ ∧
    (∀ w id, StdMap.find2? (RemoveDocument (AddDocument s document_id document status ratings).1
        document_id).1.word_to_document_freqs_ w id =
      StdMap.find2? s.word_to_document_freqs_ w id) ∧
    (∀ w, StdMap.find? (RemoveDocument (AddDocument s document_id document status ratings).1
          document_id).1.word_to_document_freqs_ w =
        StdMap.find? s.word_to_document_freqs_ w ∨
      (StdMap.find? (RemoveDocument (AddDocument s document_id document status ratings).1
          document_id).1.word_to_document_freqs_ w = some [] ∧
        StdMap.find? s.word_to_document_freqs_ w = none)) := by
  have hinv := hs.inv
  have hran := hs.ran
  have hsound := hran.sound
  have hnone : corpus document_id = none := by
    have h1 := (hinv.live document_id).not.1 habsent
    cases hc : corpus document_id with
    | none => rfl
    | some a =>
      rw [hc] at h1
      exact absurd rfl h1
  have hfind : StdMap.find? s.documents_ document_id = none := by
    rw [hinv.docs document_id, hnone]
    rfl
  have hcont : StdMap.contains s.documents_ document_id = false :=
    (StdMap.contains_eq_false _ _).2 hfind
  have hadd : (AddDocument s document_id document status ratings).2 = none :=
    AddDocument_returns s document_id document status ratings h0 hcont
      (SplitIntoWordsNoStop_valid s document htext)
  obtain ⟨_, _, _, hstop1, hdocs1, hids1, hinv1, hfwd1⟩ :=
    AddDocument_spec s document_id document status ratings hadd
  have hran1 : Ran stop_words (AddDocument s document_id document status ratings).1 :=
    Ran.add document_id document status ratings hran
  have hsound1 := hran1.sound
  have hran2 : Ran stop_words
      (RemoveDocument (AddDocument s document_id document status ratings).1 document_id).1 :=
    Ran.remove document_id hran1
  obtain ⟨hrem, hstop2, hdocs2, hids2, hfwd2, hinv2, hkeys2, _⟩ :=
    RemoveDocument_spec (AddDocument s document_id document status ratings).1 document_id
      (hsound1.forward_indexed document_id)
  obtain ⟨hferase, hkeep⟩ := AddDocument_forward_erase s document_id document status ratings
  have e2 : ∀ w id, StdMap.find2? (RemoveDocument (AddDocument s document_id document status
      ratings).1 document_id).1.word_to_document_freqs_ w id =
      StdMap.find2? s.word_to_document_freqs_ w id := by
    intro w id
    rw [hinv2 w id]
    by_cases hid : id = document_id
    · subst hid
      have hs0 : StdMap.find2? s.word_to_document_freqs_ w id = none := by
        cases hf : StdMap.find2? s.word_to_document_freqs_ w id with
        | none => rfl
        | some x =>
          have hin : inPostings s w id = true := by
            unfold inPostings
            rw [hf]
            rfl
          have := hsound.stored w id hin
          rw [hcont] at this
          cases this
      by_cases hsome : (StdMap.find2? (AddDocument s id document status
          ratings).1.document_to_word_freqs_ id w).isSome = true
      · rw [if_pos ⟨rfl, hsome⟩, hs0]
      · rw [if_neg (fun h => hsome h.2), hs0]
        rw [hsound1.symmetric w id] at hsome
        cases hf : StdMap.find2? (AddDocument s id document status
            ratings).1.word_to_document_freqs_ w id with
        | none => rfl
        | some x =>
          rw [hf] at hsome
          exact absurd rfl hsome
    · rw [if_neg (fun h => hid h.1), hinv1 w id, if_neg (fun h => hid h.1)]
  refine ⟨hadd, hrem, hstop2.trans hstop1, ?_, ?_, ?_, e2, ?_⟩
  · rw [hdocs2, hdocs1, StdMap.erase_emplace, StdMap.erase_of_not_contains _ _ hcont]
  · rw [hids2, hids1, StdSet.erase_insert, StdSet.erase_of_not_mem _ _ habsent]
  · rw [hfwd2, hferase]
    exact StdMap.erase_of_not_contains _ _
      ((StdMap.contains_eq_false _ _).2 (hsound.forward_stored document_id hcont))
  · intro w
    cases hf : StdMap.find? s.word_to_document_freqs_ w with
    | none =>
      cases hf2 : StdMap.find? (RemoveDocument (AddDocument s document_id document status
          ratings).1 document_id).1.word_to_document_freqs_ w with
      | none => exact Or.inl rfl
      | some p2 =>
        right
        refine ⟨?_, rfl⟩
        have hnil : p2 = [] := by
          apply StdMap.eq_nil_of_find?
          intro id
          have := e2 w id
          unfold StdMap.find2? at this
          rw [hf, hf2] at this
          exact this
        rw [hnil]
    | some p =>
      left
      have hc : StdMap.contains (RemoveDocument (AddDocument s document_id document status
          ratings).1 document_id).1.word_to_document_freqs_ w = true := by
        rw [hkeys2 w]
        exact hkeep w ((StdMap.contains_iff _ _).2 ⟨p, hf⟩)
      obtain ⟨p2, hf2⟩ := (StdMap.contains_iff _ _).1 hc
      rw [hf2]
      congr 1
      apply StdMap.ext_of_sorted _ _ (hran2.postings_sorted w p2 hf2) (hran.postings_sorted w p hf)
      intro id
      have := e2 w id
      unfold StdMap.find2? at this
      rw [hf, hf2] at this
      exact this

/-- C35, on the states of `Intact`. On a state `s` reached by successful calls of
`AddDocument` and `RemoveDocument` in which every key of the inverted index views the
text of a stored document, for an id that is not negative and not live and a text
with no byte in `0x00..0x1F` whose non-stop words are all keys of the inverted index
already, so that no key views the new text: the calls
`AddDocument(id, text, status, ratings)` and `RemoveDocument(id)` both return, every
key of the inverted index still views the text of a stored document, and the state
they leave gives the same `GetDocumentCount()`, the same iteration sequence, the same
`GetWordFrequencies(j)` for every `j`, and the same results of `MatchDocument` and of
`FindTopDocuments` for every query, id and predicate as `s`. -/
theorem AddDocument_RemoveDocument_observations (log : R → R) (stop_words : StdSet Word)
    (corpus : Corpus) (views : StdMap Word Int) (s : SearchServer R)
    (hintact : Intact stop_words corpus views s)
    (document_id : Int) (h0 : 0 ≤ document_id) (habsent : document_id ∉ s.docs_id_)
    (document : Word) (htext : ∀ c ∈ document, 32 ≤ c.val) (status : DocumentStatus)
    (ratings : List Int)
    (hfree : ∀ view ∈ AddDocument.views s document_id document views, view.2 ≠ document_id) :
    (AddDocument s document_id document status ratings).2 = none ∧
    (RemoveDocument (AddDocument s document_id document status ratings).1 document_id).2 = none ∧
    Intact stop_words
      (Function.update
        (Function.update corpus document_id
          (some { document := document, status := status, ratings := ratings }))
        document_id none)
      (AddDocument.views s document_id document views)
      (RemoveDocument (AddDocument s document_id document status ratings).1 document_id).1 ∧
    GetDocumentCount
        (RemoveDocument (AddDocument s document_id document status ratings).1 document_id).1 =
      GetDocumentCount s ∧
    iterate (RemoveDocument (AddDocument s document_id document status ratings).1 document_id).1 =
      iterate s ∧
    (∀ j, GetWordFrequencies
        (RemoveDocument (AddDocument s document_id document status ratings).1 document_id).1 j =
      GetWordFrequencies s j) ∧
    (∀ raw_query j, MatchDocument
        (RemoveDocument (AddDocument s document_id document status ratings).1 document_id).1
        raw_query j =
      MatchDocument s raw_query j) ∧
    (∀ raw_query lambda, FindTopDocuments log
        (RemoveDocument (AddDocument s document_id document status ratings).1 document_id).1
        raw_query lambda =
      FindTopDocuments log s raw_query lambda) := by
  obtain ⟨hadd, hrem, hstop, hdocs, hids, hfwd, hfind2, hindex⟩ :=
    AddDocument_RemoveDocument_state stop_words corpus s hintact.to_reachable document_id h0 habsent
      document htext status ratings
  refine ⟨hadd, hrem,
    Intact.remove document_id (Intact.add document_id document status ratings hintact hadd)
      hfree hrem, ?_, ?_, ?_, ?_, ?_⟩
  · unfold GetDocumentCount
    rw [hdocs]
  · unfold iterate
    exact hids
  · intro j
    unfold GetWordFrequencies
    rw [hfwd]
  · intro raw_query j
    exact MatchDocument_congr _ _ hstop hdocs hids hfind2 raw_query j
  · intro raw_query lambda
    exact FindTopDocuments_congr log _ _ hstop hdocs hindex raw_query lambda

end add_then_remove

end SearchServer

/-- C35, on the server of `TestRelevance`: `AddDocument(5, "scary cat", ACTUAL, {3})`,
whose words are keys already, and `RemoveDocument(5)` return and leave a state with
the observations of the server; the keys view the texts that they viewed. -/
theorem AddDocument_RemoveDocument_observations_witness :
    ((SearchServer.AddDocument (testServer ℚ) 5 (ascii "scary cat") .ACTUAL [3]).2 = none ∧
      (SearchServer.RemoveDocument
        (SearchServer.AddDocument (testServer ℚ) 5 (ascii "scary cat") .ACTUAL [3]).1 5).2 = none ∧
      SearchServer.Intact [ascii "in", ascii "the"]
        (Function.update
          (Function.update testCorpus 5
            (some { document := ascii "scary cat", status := .ACTUAL, ratings := [3] }))
          5 none)
        (SearchServer.AddDocument.views (testServer ℚ) 5 (ascii "scary cat") testViews)
        (SearchServer.RemoveDocument
          (SearchServer.AddDocument (testServer ℚ) 5 (ascii "scary cat") .ACTUAL [3]).1 5).1 ∧
      SearchServer.GetDocumentCount
          (SearchServer.RemoveDocument
            (SearchServer.AddDocument (testServer ℚ) 5 (ascii "scary cat") .ACTUAL [3]).1 5).1 =
        SearchServer.GetDocumentCount (testServer ℚ) ∧
      SearchServer.iterate
          (SearchServer.RemoveDocument
            (SearchServer.AddDocument (testServer ℚ) 5 (ascii "scary cat") .ACTUAL [3]).1 5).1 =
        SearchServer.iterate (testServer ℚ) ∧
      (∀ j, SearchServer.GetWordFrequencies
          (SearchServer.RemoveDocument
            (SearchServer.AddDocument (testServer ℚ) 5 (ascii "scary cat") .ACTUAL [3]).1 5).1 j =
        SearchServer.GetWordFrequencies (testServer ℚ) j) ∧
      (∀ raw_query j, SearchServer.MatchDocument
          (SearchServer.RemoveDocument
            (SearchServer.AddDocument (testServer ℚ) 5 (ascii "scary cat") .ACTUAL [3]).1 5).1
          raw_query j =
        SearchServer.MatchDocument (testServer ℚ) raw_query j) ∧
      (∀ raw_query lambda, SearchServer.FindTopDocuments (fun x => x)
          (SearchServer.RemoveDocument
            (SearchServer.AddDocument (testServer ℚ) 5 (ascii "scary cat") .ACTUAL [3]).1 5).1
          raw_query lambda =
        SearchServer.FindTopDocuments (fun x => x) (testServer ℚ) raw_query lambda)) ∧
    SearchServer.AddDocument.views (testServer ℚ) 5 (ascii "scary cat") testViews = testViews :=
  ⟨SearchServer.AddDocument_RemoveDocument_observations (fun x => x) [ascii "in", ascii "the"]
    testCorpus testViews (testServer ℚ) testServer_intact 5 (by decide) (by decide!)
    (ascii "scary cat") (by decide!) .ACTUAL [3] (by decide!), by decide!⟩

namespace SearchServer

section parser_tokens

/-- C36. Whatever the text of the query, whether it parses or not, every token of
`SplitIntoWords`, which are the tokens that `ParseQuery` hands to `ParseQueryWord`, is
non-empty, so the byte `text[0]` that `ParseQueryWord` reads is a byte of the token;
and every word of a query that parsed, plus-word or minus-word, is non-empty, has no
space and no byte in `0x00..0x1F`, and does not begin with `-` (the byte 45). -/
theorem ParseQuery_words_shape {S : Type} (s : SearchServer S) (raw_query : Word) :
    (∀ token ∈ SplitIntoWords raw_query, token ≠ [] ∧ ∃ c, token[0]? = some c) ∧
    (∀ query, ParseQuery s raw_query = .ok query →
      ∀ w, w ∈ query.plus_words ∨ w ∈ query.minus_words →
        w ≠ [] ∧ (32 : Byte) ∉ w ∧ (∀ c ∈ w, ¬ c.val < 32) ∧ w.head? ≠ some 45) := by
  have htok : ∀ token ∈ SplitIntoWords raw_query, token ≠ [] ∧ (32 : Byte) ∉ token :=
    (SplitIntoWords_spec raw_query).2.1
  refine ⟨?_, ?_⟩
  · intro token ht
    have hne := (htok token ht).1
    refine ⟨hne, ?_⟩
    cases token with
    | nil => exact absurd rfl hne
    | cons b rest => exact ⟨b, by simp⟩
  intro query hq
  have hgood : ∀ token ∈ SplitIntoWords raw_query,
      ¬ (token = [45] ∨ [45, 45] <+: token ∨ ∃ c ∈ token, c.val < 32) := by
    intro token ht hbad
    have herr := (ParseQuery_error s raw_query .invalid_argument).2 ⟨rfl, token, ht, hbad⟩
    rw [hq] at herr
    cases herr
  obtain ⟨q, hloop, hplus, hminus⟩ := ParseQuery_ok s raw_query query hq
  · intro w hw
    have h := ParseQuery.loop_ok s (SplitIntoWords raw_query) _ q hloop w
    rcases hw with hw | hw
    · rw [hplus, StdSort.mem_unique, StdSort.mem_sort, h.1] at hw
      rcases hw with hw | ⟨hw, hhead, _⟩
      · simp at hw
      · have hg := hgood w hw
        exact ⟨(htok w hw).1, (htok w hw).2, fun c hc hlt => hg (Or.inr (Or.inr ⟨c, hc, hlt⟩)),
          hhead⟩
    · rw [hminus, StdSort.mem_unique, StdSort.mem_sort, h.2] at hw
      rcases hw with hw | ⟨hw, _⟩
      · simp at hw
      · have hg := hgood (45 :: w) hw
        have hsp := (htok (45 :: w) hw).2
        refine ⟨?_, ?_, ?_, ?_⟩
        · intro hnil
          subst hnil
          exact hg (Or.inl rfl)
        · intro h32
          exact hsp (List.mem_cons_of_mem _ h32)
        · intro c hc hlt
          exact hg (Or.inr (Or.inr ⟨c, List.mem_cons_of_mem _ hc, hlt⟩))
        · intro hhead
          apply hg
          right
          left
          cases w with
          | nil => cases hhead
          | cons b rest =>
            simp only [List.head?_cons, Option.some.injEq] at hhead
            subst hhead
            exact ⟨rest, rfl⟩

end parser_tokens

end SearchServer

/-- C36, at the query `"cat dog -pretty scary"` of the tests on the server of the
tests, which parses, and at the query `"cat --dog"`, which does not: the tokens are
non-empty, and the words `cat`, `dog`, `scary` and `pretty` of the parsed query have the
shape of the claim. -/
theorem ParseQuery_words_shape_witness :
    (∀ token ∈ SplitIntoWords (ascii "cat dog -pretty scary"),
      token ≠ [] ∧ ∃ c, token[0]? = some c) ∧
    (∀ w, w ∈ testQuery.plus_words ∨ w ∈ testQuery.minus_words →
      w ≠ [] ∧ (32 : Byte) ∉ w ∧ (∀ c ∈ w, ¬ c.val < 32) ∧ w.head? ≠ some 45) ∧
    testQuery.plus_words = [ascii "cat", ascii "dog", ascii "scary"] ∧
    testQuery.minus_words = [ascii "pretty"] ∧
    SearchServer.ParseQuery (testServer ℚ) (ascii "cat --dog") = .error .invalid_argument ∧
    (∀ token ∈ SplitIntoWords (ascii "cat --dog"), token ≠ [] ∧ ∃ c, token[0]? = some c) :=
  ⟨(SearchServer.ParseQuery_words_shape (testServer ℚ) (ascii "cat dog -pretty scary")).1,
    (SearchServer.ParseQuery_words_shape (testServer ℚ) (ascii "cat dog -pretty scary")).2
      testQuery (by with_unfolding_all rfl),
    by decide!, by decide!, by with_unfolding_all rfl,
    (SearchServer.ParseQuery_words_shape (testServer ℚ) (ascii "cat --dog")).1⟩

/-! ## The termination of `SplitIntoWords` -/

section tokenizer_terminates

theorem SplitIntoWords.loop_next (fuel : Nat) (text : Word) (h : text ≠ []) :
    ∃ word, SplitIntoWords.loop (fuel + 1) text =
      word :: SplitIntoWords.loop fuel (SplitIntoWords.next text) := by
  have hemp : text.isEmpty = false := by
    cases text with
    | nil => exact absurd rfl h
    | cons b rest => rfl
  simp only [SplitIntoWords.loop, hemp, Bool.false_eq_true, if_false, SplitIntoWords.next]
  exact ⟨_, rfl⟩

theorem SplitIntoWords.next_length (text : Word) (h : text ≠ []) :
    (SplitIntoWords.next text).length < text.length := by
  cases text with
  | nil => exact absurd rfl h
  | cons b rest =>
    have hpos := SplitIntoWords.drop_pos b rest
    unfold SplitIntoWords.next
    rw [List.length_drop]
    simp only [List.length_cons] at hpos ⊢
    omega

theorem SplitIntoWords.next_head (text : Word) (b : Byte) (rest : Word)
    (h : SplitIntoWords.next text = b :: rest) : b ≠ 32 := by
  unfold SplitIntoWords.next at h
  cases hf : Word.find 32 text with
  | none =>
    rw [hf] at h
    simp [Word.find_first_not_of, Pos.min] at h
  | some p =>
    rw [hf, Word.find_first_not_of_drop] at h
    have := Word.dropWhile_head _ _ b rest h
    simpa using this

theorem SplitIntoWords.remaining_succ (n : Nat) (text : Word) :
    SplitIntoWords.remaining (n + 1) text =
      if (SplitIntoWords.remaining n text).isEmpty then SplitIntoWords.remaining n text
      else SplitIntoWords.next (SplitIntoWords.remaining n text) := by
  induction n generalizing text with
  | zero => rfl
  | succ n ih =>
    by_cases he : text.isEmpty = true
    · have h1 : ∀ m, SplitIntoWords.remaining m text = text := by
        intro m
        cases m with
        | zero => rfl
        | succ m => simp [SplitIntoWords.remaining, he]
      rw [h1, h1, if_pos he]
    · have h1 : ∀ m, SplitIntoWords.remaining (m + 1) text =
          SplitIntoWords.remaining m (SplitIntoWords.next text) := by
        intro m
        simp [SplitIntoWords.remaining, he]
      rw [h1, h1, ih]

theorem SplitIntoWords.remaining_head (n : Nat) (text : Word)
    (h0 : ∀ b rest, text = b :: rest → b ≠ 32) (b : Byte) (rest : Word)
    (h : SplitIntoWords.remaining n text = b :: rest) : b ≠ 32 := by
  cases n with
  | zero => exact h0 b rest h
  | succ n =>
    induction n generalizing b rest with
    | zero =>
      rw [SplitIntoWords.remaining_succ] at h
      split at h
      · exact h0 b rest h
      · exact SplitIntoWords.next_head _ b rest h
    | succ n ih =>
      rw [SplitIntoWords.remaining_succ] at h
      split at h
      · exact ih b rest h
      · exact SplitIntoWords.next_head _ b rest h

theorem SplitIntoWords.remaining_nil (n : Nat) (text : Word) (h : text.length ≤ n) :
    SplitIntoWords.remaining n text = [] := by
  induction n generalizing text with
  | zero => exact List.eq_nil_of_length_eq_zero (Nat.le_zero.1 h)
  | succ n ih =>
    cases text with
    | nil => rfl
    | cons b rest =>
      have hlt := SplitIntoWords.next_length (b :: rest) (by simp)
      simp only [SplitIntoWords.remaining, List.isEmpty_cons, Bool.false_eq_true, if_false]
      apply ih
      simp only [List.length_cons] at h hlt
      omega

theorem SplitIntoWords.loop_length (fuel : Nat) (text : Word) :
    (SplitIntoWords.loop fuel text).length ≤ text.length := by
  induction fuel generalizing text with
  | zero => simp [SplitIntoWords.loop]
  | succ fuel ih =>
    by_cases h : text = []
    · subst h
      simp [SplitIntoWords.loop]
    · obtain ⟨word, hw⟩ := SplitIntoWords.loop_next fuel text h
      rw [hw, List.length_cons]
      have h1 := ih (SplitIntoWords.next text)
      have h2 := SplitIntoWords.next_length text h
      omega

end tokenizer_terminates

/-- C37. `SplitIntoWords` terminates on every input. With `text1` the text after
the first `remove_prefix`: whenever the loop starts an iteration, the text at its
head is non-empty and begins with a byte other than the space; the iteration leaves
a strictly shorter text; after at most `text1.length` iterations the text is empty
and the loop has ended, so that with any bound of at least `text1.length` iterations
the loop returns the result of `SplitIntoWords`, which has at most as many words as
the text has bytes. -/
theorem SplitIntoWords_terminates (text : Word) :
    (∀ n b rest, SplitIntoWords.remaining n
        (text.drop (Pos.min (Word.find_first_not_of text 32 (some 0)) text.length)) = b :: rest →
      b ≠ 32 ∧
      (SplitIntoWords.remaining (n + 1)
        (text.drop (Pos.min (Word.find_first_not_of text 32 (some 0)) text.length))).length <
        (b :: rest).length ∧
      SplitIntoWords.remaining (n + 1)
          (text.drop (Pos.min (Word.find_first_not_of text 32 (some 0)) text.length)) =
        SplitIntoWords.next (b :: rest)) ∧
    (∀ n, (text.drop (Pos.min (Word.find_first_not_of text 32 (some 0)) text.length)).length ≤ n →
      SplitIntoWords.remaining n
        (text.drop (Pos.min (Word.find_first_not_of text 32 (some 0)) text.length)) = []) ∧
    (∀ fuel, (text.drop (Pos.min (Word.find_first_not_of text 32 (some 0)) text.length)).length ≤ fuel →
      SplitIntoWords.loop fuel
        (text.drop (Pos.min (Word.find_first_not_of text 32 (some 0)) text.length)) =
        SplitIntoWords text) ∧
    (SplitIntoWords text).length ≤ text.length := by
  have hhead : ∀ b rest,
      text.drop (Pos.min (Word.find_first_not_of text 32 (some 0)) text.length) = b :: rest →
        b ≠ 32 := by
    intro b rest h
    rw [Word.find_first_not_of_drop, List.drop_zero] at h
    have := Word.dropWhile_head _ _ b rest h
    simpa using this
  refine ⟨?_, ?_, ?_, ?_⟩
  · intro n b rest h
    have hstep := SplitIntoWords.remaining_succ n
      (text.drop (Pos.min (Word.find_first_not_of text 32 (some 0)) text.length))
    rw [h] at hstep
    simp only [List.isEmpty_cons, Bool.false_eq_true, if_false] at hstep
    refine ⟨SplitIntoWords.remaining_head n _ hhead b rest h, ?_, hstep⟩
    rw [hstep]
    exact SplitIntoWords.next_length (b :: rest) (by simp)
  · intro n h
    exact SplitIntoWords.remaining_nil n _ h
  · intro fuel h
    exact SplitIntoWords.loop_fuel _ _ _ h (le_refl _)
  · have h1 := SplitIntoWords.loop_length
      (text.drop (Pos.min (Word.find_first_not_of text 32 (some 0)) text.length)).length
      (text.drop (Pos.min (Word.find_first_not_of text 32 (some 0)) text.length))
    have h2 : (text.drop (Pos.min (Word.find_first_not_of text 32 (some 0)) text.length)).length ≤
        text.length := by
      rw [List.length_drop]
      omega
    exact le_trans h1 h2

/-- C37, at the text `"  cat  in "`: the loop starts on `"cat  in "`, its two
iterations leave `"in "` and the empty text, and the result has the two words. -/
theorem SplitIntoWords_terminates_witness :
    ((∀ n b rest, SplitIntoWords.remaining n
        ((ascii "  cat  in ").drop (Pos.min (Word.find_first_not_of (ascii "  cat  in ") 32 (some 0))
          (ascii "  cat  in ").length)) = b :: rest →
      b ≠ 32 ∧
      (SplitIntoWords.remaining (n + 1)
        ((ascii "  cat  in ").drop (Pos.min (Word.find_first_not_of (ascii "  cat  in ") 32 (some 0))
          (ascii "  cat  in ").length))).length < (b :: rest).length ∧
      SplitIntoWords.remaining (n + 1)
          ((ascii "  cat  in ").drop (Pos.min (Word.find_first_not_of (ascii "  cat  in ") 32 (some 0))
            (ascii "  cat  in ").length)) =
        SplitIntoWords.next (b :: rest)) ∧
    (∀ n, ((ascii "  cat  in ").drop (Pos.min (Word.find_first_not_of (ascii "  cat  in ") 32 (some 0))
        (ascii "  cat  in ").length)).length ≤ n →
      SplitIntoWords.remaining n
        ((ascii "  cat  in ").drop (Pos.min (Word.find_first_not_of (ascii "  cat  in ") 32 (some 0))
          (ascii "  cat  in ").length)) = []) ∧
    (∀ fuel, ((ascii "  cat  in ").drop (Pos.min (Word.find_first_not_of (ascii "  cat  in ") 32 (some 0))
        (ascii "  cat  in ").length)).length ≤ fuel →
      SplitIntoWords.loop fuel
        ((ascii "  cat  in ").drop (Pos.min (Word.find_first_not_of (ascii "  cat  in ") 32 (some 0))
          (ascii "  cat  in ").length)) =
        SplitIntoWords (ascii "  cat  in ")) ∧
    (SplitIntoWords (ascii "  cat  in ")).length ≤ (ascii "  cat  in ").length) ∧
    (ascii "  cat  in ").drop (Pos.min (Word.find_first_not_of (ascii "  cat  in ") 32 (some 0))
      (ascii "  cat  in ").length) = ascii "cat  in " ∧
    SplitIntoWords.remaining 1 (ascii "cat  in ") = ascii "in " ∧
    SplitIntoWords.remaining 2 (ascii "cat  in ") = [] ∧
    SplitIntoWords (ascii "  cat  in ") = [ascii "cat", ascii "in"] :=
  ⟨SplitIntoWords_terminates (ascii "  cat  in "), by decide!, by decide!, by decide!, by decide!⟩

/-! ## The texts under the keys of the inverted index -/

namespace SearchServer

section key_views

variable {R : Type} [LinearOrderedField R]

theorem SplitIntoWordsNoStop_of_stop {S : Type} (s1 s2 : SearchServer S) (text : Word)
    (h : s1.stop_words_ = s2.stop_words_) :
    SplitIntoWordsNoStop s1 text = SplitIntoWordsNoStop s2 text := by
  unfold SplitIntoWordsNoStop IsStopWord
  rw [h]

/-- The keys that the loop of `AddDocument` leaves in the inverted index were keys or
are words of the document. -/
theorem AddDocument.loop_new_keys (n : Nat) (document_id : Int) (words : List Word)
    (s : SearchServer R) (w : Word)
    (h : StdMap.contains (AddDocument.loop n document_id words s).1.word_to_document_freqs_ w =
      true) :
    w ∈ words ∨ StdMap.contains s.word_to_document_freqs_ w = true := by
  induction words generalizing s with
  | nil => exact Or.inr h
  | cons t rest ih =>
    unfold AddDocument.loop at h
    split at h
    · exact Or.inr h
    · rcases ih _ h with hin | hc
      · exact Or.inl (List.mem_cons_of_mem _ hin)
      · rcases (StdMap.contains_update _ _ _ _ _).1 hc with heq | hold
        · exact Or.inl (by rw [heq]; exact List.mem_cons_self _ _)
        · exact Or.inr hold

/-- The keys of the inverted index after a call of `AddDocument` that returns: the
keys before the call and the non-stop words of the document. -/
theorem AddDocument_keys (s : SearchServer R) (document_id : Int) (document : Word)
    (status : DocumentStatus) (ratings : List Int)
    (h : (AddDocument s document_id document status ratings).2 = none) (w : Word) :
    StdMap.contains
        (AddDocument s document_id document status ratings).1.word_to_document_freqs_ w = true ↔
      w ∈ SplitIntoWordsNoStop s document ∨
        StdMap.contains s.word_to_document_freqs_ w = true := by
  constructor
  · intro hc
    unfold AddDocument at hc
    split at hc
    · exact Or.inr hc
    · split at hc
      · exact Or.inr hc
      · simp only at hc
        split at hc
        · rename_i s2 e heq
          have := AddDocument.loop_new_keys _ document_id _ _ w (by rw [heq]; exact hc)
          exact this
        · rename_i s2 heq
          have := AddDocument.loop_new_keys _ document_id _ _ w (by rw [heq]; exact hc)
          exact this
  · rintro (hin | hold)
    · have hspec := (AddDocument_spec s document_id document status ratings h).2.2.2.2.2.2.1
        w document_id
      rw [if_pos ⟨rfl, hin⟩] at hspec
      obtain ⟨inner, hinner, _⟩ := (StdMap.find2?_eq_some _ _ _ _).1 hspec
      exact (StdMap.contains_iff _ _).2 ⟨inner, hinner⟩
    · exact (AddDocument_forward_erase s document_id document status ratings).2 w hold

/-- The texts under the keys after a call of `AddDocument`: a key that was there views
the text that it viewed, and a new key views the text of the new document. -/
theorem AddDocument.views_find? {S : Type} (s : SearchServer S) (document_id : Int)
    (document : Word) (views : StdMap Word Int) (w : Word) :
    StdMap.find? (AddDocument.views s document_id document views) w =
      match StdMap.find? views w with
      | some d => some d
      | none => if w ∈ SplitIntoWordsNoStop s document then some document_id else none := by
  unfold AddDocument.views
  generalize SplitIntoWordsNoStop s document = words
  induction words generalizing views with
  | nil =>
    simp only [List.foldl_nil, List.not_mem_nil, if_false]
    cases StdMap.find? views w <;> rfl
  | cons t rest ih =>
    rw [List.foldl_cons, ih, StdMap.find?_emplace]
    by_cases hwt : w = t
    · subst hwt
      rw [if_pos rfl]
      cases hv : StdMap.find? views w with
      | some d => simp
      | none => simp
    · rw [if_neg hwt]
      cases hv : StdMap.find? views w with
      | some d => rfl
      | none => simp [hwt]

/-- On the states of `Intact` the keys of the inverted index are the keys of `views`,
and the document whose text a key views is stored and has the word of the key among
its non-stop words: no key dangles. -/
theorem Intact.views_stored {stop_words : StdSet Word} {corpus : Corpus}
    {views : StdMap Word Int} {s : SearchServer R} (h : Intact stop_words corpus views s) :
    (∀ w, StdMap.contains s.word_to_document_freqs_ w = true ↔
      StdMap.contains views w = true) ∧
    (∀ w d, StdMap.find? views w = some d →
      ∃ data, StdMap.find? s.documents_ d = some data ∧
        w ∈ SplitIntoWordsNoStop s data.data) := by
  induction h with
  | init =>
    refine ⟨fun w => ?_, fun w d hd => ?_⟩
    · simp [empty, StdMap.contains, StdMap.find?]
    · simp [StdMap.find?] at hd
  | @add corpus views s document_id document status ratings hprev hok ih =>
    have hspec := AddDocument_spec s document_id document status ratings hok
    obtain ⟨_, habsent, _, hstop, hdocs, _⟩ := hspec
    refine ⟨fun w => ?_, fun w d hd => ?_⟩
    · rw [AddDocument_keys s document_id document status ratings hok w, ih.1 w]
      unfold StdMap.contains
      rw [AddDocument.views_find?]
      cases hv : StdMap.find? views w with
      | some d => simp
      | none =>
        by_cases hin : w ∈ SplitIntoWordsNoStop s document
        · simp [hin]
        · simp [hin]
    · rw [AddDocument.views_find?] at hd
      rw [hdocs, StdMap.find?_emplace, habsent]
      cases hv : StdMap.find? views w with
      | some d0 =>
        rw [hv] at hd
        simp only [Option.some.injEq] at hd
        subst hd
        obtain ⟨data, hdata, hin⟩ := ih.2 w d0 hv
        have hne : d0 ≠ document_id := by
          intro heq
          rw [heq, habsent] at hdata
          cases hdata
        rw [if_neg hne]
        refine ⟨data, hdata, ?_⟩
        rw [SplitIntoWordsNoStop_of_stop _ s data.data hstop]
        exact hin
      | none =>
        rw [hv] at hd
        simp only at hd
        split at hd
        · rename_i hin
          simp only [Option.some.injEq] at hd
          subst hd
          rw [if_pos rfl]
          refine ⟨_, rfl, ?_⟩
          rw [SplitIntoWordsNoStop_of_stop _ s _ hstop]
          exact hin
        · cases hd
  | @remove corpus views s document_id hprev hfree hok ih =>
    have hsound := hprev.to_reachable.ran.sound
    obtain ⟨_, hstop, hdocs, _, _, _, hkeys, _⟩ :=
      RemoveDocument_spec s document_id (hsound.forward_indexed document_id)
    refine ⟨fun w => ?_, fun w d hd => ?_⟩
    · rw [hkeys w, ih.1 w]
    · obtain ⟨data, hdata, hin⟩ := ih.2 w d hd
      have hne : d ≠ document_id := hfree (w, d) (StdMap.find?_mem views w d hd)
      rw [hdocs, StdMap.find?_erase, if_neg hne]
      refine ⟨data, hdata, ?_⟩
      rw [SplitIntoWordsNoStop_of_stop _ s data.data hstop]
      exact hin

end key_views

end SearchServer

/-- After `RemoveDocument(11)` on the server of `TestRelevance` the keys `dog` and
`scary` of the inverted index, which `AddDocument(11, ...)` inserted, are keys still
and view the text of document 11, which is stored no longer: the state is none of
`Intact`, whose keys view stored texts. -/
theorem testServer_remove_dangles :
    StdMap.find? testViews (ascii "dog") = some 11 ∧
    StdMap.find? testViews (ascii "scary") = some 11 ∧
    StdMap.contains
      (SearchServer.RemoveDocument (testServer ℚ) 11).1.word_to_document_freqs_
      (ascii "dog") = true ∧
    StdMap.contains
      (SearchServer.RemoveDocument (testServer ℚ) 11).1.word_to_document_freqs_
      (ascii "scary") = true ∧
    StdMap.contains (SearchServer.RemoveDocument (testServer ℚ) 11).1.documents_ 11 = false := by
  decide!
